import Mathlib

/-!
# CRC32C (iSCSI) hardware-accelerated back-ends

A shallow embedding of `crc32_iscsi_sse_v4s3x3.c` (x86, namespace `CrcFast.X86`) and
`crc32_iscsi_neon_blended.c` (AArch64, namespace `CrcFast.Neon`).

Conventions of the embedding:

* machine integers are natural numbers; where the C arithmetic can wrap the model
  reduces explicitly modulo `2 ^ 64`;
* a 128-bit vector register is a natural number below `2 ^ 128`, lane 0 being the
  low 64 bits;
* the buffer is the list of its bytes; a pointer into it is the offset from its first
  byte, and the address of the first byte is a separate argument `addr` that only the
  alignment tests read;
* a load that is not inside the buffer has no result (`none`), and every loop carries a
  fuel argument, an exhausted fuel having no result either;
* what an engine does besides computing its result, its loads and its calls of
  `crc_shift`, is read off the traced engines (namespace `CrcFast.Traced`): the same
  statements, writing each of them to a trace.
-/

namespace CrcFast

/-! ## Memory -/

/-- Little-endian value of a sequence of bytes. -/
def leBytes : List (Fin 256) → Nat
  | [] => 0
  | b :: bs => b.val + 256 * leBytes bs

/-- The `n` bytes of the buffer that start at offset `off`. -/
def slice (buf : List (Fin 256)) (off n : Nat) : List (Fin 256) :=
  (buf.drop off).take n

/-- Little-endian load of `n` bytes at offset `off`; no result outside the buffer. -/
def loadBytes (buf : List (Fin 256)) (off n : Nat) : Option Nat :=
  if off + n ≤ buf.length then some (leBytes (slice buf off n)) else none

/-- Byte load `*buf`. -/
def load8 (buf : List (Fin 256)) (off : Nat) : Option Nat := loadBytes buf off 1

/-- Word load `*(const uint64_t*)buf`. -/
def load64 (buf : List (Fin 256)) (off : Nat) : Option Nat := loadBytes buf off 8

/-- Unaligned 128-bit load (`_mm_loadu_si128`, `vld1q_u64`). -/
def load128 (buf : List (Fin 256)) (off : Nat) : Option Nat := loadBytes buf off 16

/-! ## Hardware primitives

The CRC-step and carry-less-multiply instructions are not repository code; they are
modelled by their architectural definition. -/

/-- One bit of the reflected CRC32C shift register:
`(c >> 1) ^ (0x82F63B78 if c & 1 else 0)`. -/
def crcBit (c : Nat) : Nat :=
  (c >>> 1) ^^^ (if c &&& 1 = 1 then 0x82F63B78 else 0)

/-- Repeat `crcBit` the given number of times. -/
def crcBits : Nat → Nat → Nat
  | 0, c => c
  | k + 1, c => crcBits k (crcBit c)

/-- Modelled from the spec: the hardware CRC32C step on an 8-bit operand
(`_mm_crc32_u8`, `__crc32cb`): the operand is XORed into the accumulator and the
register is clocked 8 times. -/
def crc32c_u8 (crc v : Nat) : Nat := crcBits 8 (crc ^^^ v)

/-- Modelled from the spec: the hardware CRC32C step on a 32-bit operand
(`_mm_crc32_u32`, `__crc32cw`). -/
def crc32c_u32 (crc v : Nat) : Nat := crcBits 32 (crc ^^^ v)

/-- Modelled from the spec: the hardware CRC32C step on a 64-bit operand
(`_mm_crc32_u64`, `__crc32cd`). -/
def crc32c_u64 (crc v : Nat) : Nat := crcBits 64 (crc ^^^ v)

/-- Carry-less product of `a` with the low `n` bits of `b`. -/
def clmulBits (a b : Nat) : Nat → Nat
  | 0 => 0
  | n + 1 => clmulBits a b n ^^^ (if b.testBit n then a <<< n else 0)

/-- Modelled from the spec: the 64 x 64 -> 128 bit carry-less multiplication
(`pclmulqdq`, `pmull`). -/
def clmul64 (a b : Nat) : Nat := clmulBits (a % 2 ^ 64) b 64

/-- Low 64-bit lane of a vector. -/
def lane0 (v : Nat) : Nat := v % 2 ^ 64

/-- High 64-bit lane of a vector. -/
def lane1 (v : Nat) : Nat := (v >>> 64) % 2 ^ 64

/-- C subtraction on `size_t` / pointer difference, wrapping modulo `2 ^ 64`. -/
def sub64 (a b : Nat) : Nat := (a + 2 ^ 64 - b % 2 ^ 64) % 2 ^ 64

/-- C `~` on `uint32_t`. -/
def not32 (c : Nat) : Nat := c ^^^ 0xFFFFFFFF

/-- C `~` on `uint64_t`. -/
def not64 (c : Nat) : Nat := c ^^^ 0xFFFFFFFFFFFFFFFF

/-! ## Reference CRC32C -/

/-- Reference update of the raw state by one byte: XOR it into the low 8 bits, then 8
times `state := (state >> 1) ^ (0x82F63B78 if state & 1 else 0)`. -/
def refByte (state : Nat) (b : Fin 256) : Nat :=
  crcBits 8 (state ^^^ b.val)

/-- Raw state after feeding the bytes in order. -/
def refRaw (state : Nat) (buf : List (Fin 256)) : Nat :=
  buf.foldl refByte state

/-- Bit-by-bit reflected CRC32C reference: `state := ~seed`, feed every byte,
`result := ~state`. -/
def crc32c_reference (seed : Nat) (buf : List (Fin 256)) : Nat :=
  not32 (refRaw (not32 seed) buf)

/-! ## Code shared by the three engines

The alignment prologue and the scalar epilogue are the same statements in
`crc32_iscsi_impl` (x86), `crc32_iscsi_large_impl` and `crc32_iscsi_small_impl`. -/

/-- Running state of an engine between its phases: accumulator, read pointer and
remaining length. -/
structure Cursor where
  crc0 : Nat
  buf : Nat
  len : Nat

/-- Loop `for (; len && ((uintptr_t)buf & 7); --len) crc0 = crc32c_u8(crc0, *buf++);` -/
def headLoop (addr : Nat) (mem : List (Fin 256)) : Nat → Cursor → Option Cursor
  | 0, _ => none
  | fuel + 1, s =>
    if s.len ≠ 0 ∧ (addr + s.buf) &&& 7 ≠ 0 then
      (load8 mem s.buf).bind fun b =>
        headLoop addr mem fuel ⟨crc32c_u8 s.crc0 b, s.buf + 1, s.len - 1⟩
    else some s

/-- Statement `if (((uintptr_t)buf & 8) && len >= 8) { crc0 = crc32c_u64(crc0, *(const uint64_t*)buf);
buf += 8; len -= 8; }` -/
def headWord (addr : Nat) (mem : List (Fin 256)) (s : Cursor) : Option Cursor :=
  if (addr + s.buf) &&& 8 ≠ 0 ∧ s.len ≥ 8 then
    (load64 mem s.buf).bind fun w => some ⟨crc32c_u64 s.crc0 w, s.buf + 8, s.len - 8⟩
  else some s

/-- Loop `for (; len >= 8; buf += 8, len -= 8) crc0 = crc32c_u64(crc0, *(const uint64_t*)buf);` -/
def tailWords (mem : List (Fin 256)) : Nat → Cursor → Option Cursor
  | 0, _ => none
  | fuel + 1, s =>
    if s.len ≥ 8 then
      (load64 mem s.buf).bind fun w =>
        tailWords mem fuel ⟨crc32c_u64 s.crc0 w, s.buf + 8, s.len - 8⟩
    else some s

/-- Loop `for (; len; --len) crc0 = crc32c_u8(crc0, *buf++);` -/
def tailBytes (mem : List (Fin 256)) : Nat → Cursor → Option Cursor
  | 0, _ => none
  | fuel + 1, s =>
    if s.len ≠ 0 then
      (load8 mem s.buf).bind fun b =>
        tailBytes mem fuel ⟨crc32c_u8 s.crc0 b, s.buf + 1, s.len - 1⟩
    else some s

/-- The halving loop of `xnmodp`:
`for (; n > 191; n = (n >> 1) - 16) stack = (stack << 1) + (n & 1);` -/
def xnmodpPush : Nat → Nat → Nat → Option (Nat × Nat)
  | 0, _, _ => none
  | fuel + 1, n, stack =>
    if n > 191 then
      xnmodpPush fuel ((n >>> 1) - 16) (((stack <<< 1) + (n &&& 1)) % 2 ^ 64)
    else some (n, stack)

/-- The zero-word loop of `xnmodp`: `for (n >>= 5; n; --n) acc = crc32c_u32(acc, 0);`
with `n` already shifted. -/
def xnmodpWords : Nat → Nat → Nat
  | 0, acc => acc
  | n + 1, acc => xnmodpWords n (crc32c_u32 acc 0)

/-- The squaring loop of `xnmodp`, over the squaring primitive `sq` of the back-end:
`while ((low = stack & 1), stack >>= 1) { y = sq(acc); acc = crc32c_u64(0, y << low); }` -/
def xnmodpPop (sq : Nat → Nat) : Nat → Nat → Nat → Option Nat
  | 0, _, _ => none
  | fuel + 1, stack, acc =>
    let low := stack &&& 1
    let stack := stack >>> 1
    if stack ≠ 0 then
      let y := sq acc
      xnmodpPop sq fuel stack (crc32c_u64 0 ((y <<< low) % 2 ^ 64))
    else some acc

/-- The body of `xnmodp(uint64_t n)`, over the squaring primitive of the back-end. -/
def xnmodpWith (sq : Nat → Nat) (n : Nat) : Option Nat :=
  (xnmodpPush 64 n (not64 1)).bind fun (n, stack) =>
    let stack := not64 stack
    let acc := 0x80000000 >>> (n &&& 31)
    let acc := xnmodpWords (n >>> 5) acc
    xnmodpPop sq 64 stack acc

/-! ## x86 back-end (`crc32_iscsi_sse_v4s3x3.c`, 64-bit host) -/

namespace X86

/-- Intrinsic `_mm_crc32_u8`. -/
def _mm_crc32_u8 (crc v : Nat) : Nat := crc32c_u8 crc v

/-- Intrinsic `_mm_crc32_u32`. -/
def _mm_crc32_u32 (crc v : Nat) : Nat := crc32c_u32 crc v

/-- Intrinsic `_mm_crc32_u64`. -/
def _mm_crc32_u64 (crc v : Nat) : Nat := crc32c_u64 crc v

/-- Intrinsic `_mm_cvtsi32_si128`: the 32-bit value in the low lane, zero above. -/
def _mm_cvtsi32_si128 (a : Nat) : Nat := a % 2 ^ 32

/-- Intrinsic `_mm_cvtsi128_si64`: the low 64 bits. -/
def _mm_cvtsi128_si64 (v : Nat) : Nat := v % 2 ^ 64

/-- Intrinsic `_mm_srli_si128`: shift right by `n` bytes. -/
def _mm_srli_si128 (v n : Nat) : Nat := v >>> (8 * n)

/-- Intrinsic `_mm_xor_si128`. -/
def _mm_xor_si128 (a b : Nat) : Nat := a ^^^ b

/-- Intrinsic `_mm_setr_epi32`: `e0` is the lowest 32-bit element. -/
def _mm_setr_epi32 (e0 e1 e2 e3 : Nat) : Nat :=
  e0 + 2 ^ 32 * e1 + 2 ^ 64 * e2 + 2 ^ 96 * e3

/-- Intrinsic `_mm_clmulepi64_si128`: bit 0 of `imm` selects the lane of `a`, bit 4 the
lane of `b`. -/
def _mm_clmulepi64_si128 (a b imm : Nat) : Nat :=
  clmul64 (if imm &&& 1 = 0 then lane0 a else lane1 a)
    (if imm &&& 16 = 0 then lane0 b else lane1 b)

/-- Macro `#define clmul_lo(a, b) (_mm_clmulepi64_si128((a), (b), 0))` -/
def clmul_lo (a b : Nat) : Nat := _mm_clmulepi64_si128 a b 0

/-- Macro `#define clmul_hi(a, b) (_mm_clmulepi64_si128((a), (b), 17))` -/
def clmul_hi (a b : Nat) : Nat := _mm_clmulepi64_si128 a b 17

/-- Function `mm_cvtsi128_si64` of the 64-bit host. -/
def mm_cvtsi128_si64 (val : Nat) : Nat := _mm_cvtsi128_si64 val

/-- Function `mm_extract_epi64` of the 64-bit host. -/
def mm_extract_epi64 (val idx : Nat) : Nat :=
  if idx = 0 then _mm_cvtsi128_si64 val else _mm_cvtsi128_si64 (_mm_srli_si128 val 8)

/-- Function `mm_crc32_u64` of the 64-bit host. -/
def mm_crc32_u64 (crc val : Nat) : Nat := _mm_crc32_u64 crc val

/-- Function `clmul_scalar(uint32_t a, uint32_t b)`. -/
def clmul_scalar (a b : Nat) : Nat :=
  _mm_clmulepi64_si128 (_mm_cvtsi32_si128 a) (_mm_cvtsi32_si128 b) 0

/-- The squaring step inside `xnmodp`:
`x = _mm_cvtsi32_si128(acc); y = mm_cvtsi128_si64(_mm_clmulepi64_si128(x, x, 0));` -/
def xnmodpSq (acc : Nat) : Nat :=
  let x := _mm_cvtsi32_si128 acc
  mm_cvtsi128_si64 (_mm_clmulepi64_si128 x x 0)

/-- Function `xnmodp(uint64_t n)`. -/
def xnmodp (n : Nat) : Option Nat := xnmodpWith xnmodpSq n

/-- Function `crc_shift(uint32_t crc, size_t nbytes)`; `nbytes * 8 - 33` is computed in `size_t`. -/
def crc_shift (crc nbytes : Nat) : Option Nat :=
  (xnmodp ((nbytes * 8 + (2 ^ 64 - 33)) % 2 ^ 64)).map fun p => clmul_scalar crc p

/-- Variables of the interleaved phase of `crc32_iscsi_impl`. -/
structure VecState where
  x0 : Nat
  x1 : Nat
  x2 : Nat
  x3 : Nat
  crc0 : Nat
  crc1 : Nat
  crc2 : Nat
  buf : Nat
  buf2 : Nat
  len : Nat

/-- The nine CRC steps on the three scalar streams (three words of each), as written in
the main loop and again in the final scalar chunk. -/
def scalarChunk (mem : List (Fin 256)) (klen : Nat) (s : VecState) : Option VecState := do
  let crc0 := mm_crc32_u64 s.crc0 (← load64 mem s.buf)
  let crc1 := mm_crc32_u64 s.crc1 (← load64 mem (s.buf + klen))
  let crc2 := mm_crc32_u64 s.crc2 (← load64 mem (s.buf + klen * 2))
  let crc0 := mm_crc32_u64 crc0 (← load64 mem (s.buf + 8))
  let crc1 := mm_crc32_u64 crc1 (← load64 mem (s.buf + klen + 8))
  let crc2 := mm_crc32_u64 crc2 (← load64 mem (s.buf + klen * 2 + 8))
  let crc0 := mm_crc32_u64 crc0 (← load64 mem (s.buf + 16))
  let crc1 := mm_crc32_u64 crc1 (← load64 mem (s.buf + klen + 16))
  let crc2 := mm_crc32_u64 crc2 (← load64 mem (s.buf + klen * 2 + 16))
  pure { s with crc0 := crc0, crc1 := crc1, crc2 := crc2 }

/-- Body of the main loop of `crc32_iscsi_impl`. -/
def mainBody (mem : List (Fin 256)) (klen : Nat) (s : VecState) : Option VecState := do
  let k := _mm_setr_epi32 0x740eef02 0 0x9e4addf8 0
  let y0 := clmul_lo s.x0 k
  let x0 := clmul_hi s.x0 k
  let y1 := clmul_lo s.x1 k
  let x1 := clmul_hi s.x1 k
  let y2 := clmul_lo s.x2 k
  let x2 := clmul_hi s.x2 k
  let y3 := clmul_lo s.x3 k
  let x3 := clmul_hi s.x3 k
  let y0 := _mm_xor_si128 y0 (← load128 mem s.buf2)
  let x0 := _mm_xor_si128 x0 y0
  let y1 := _mm_xor_si128 y1 (← load128 mem (s.buf2 + 16))
  let x1 := _mm_xor_si128 x1 y1
  let y2 := _mm_xor_si128 y2 (← load128 mem (s.buf2 + 32))
  let x2 := _mm_xor_si128 x2 y2
  let y3 := _mm_xor_si128 y3 (← load128 mem (s.buf2 + 48))
  let x3 := _mm_xor_si128 x3 y3
  let s ← scalarChunk mem klen { s with x0 := x0, x1 := x1, x2 := x2, x3 := x3 }
  pure { s with buf := s.buf + 24, buf2 := s.buf2 + 64, len := s.len - 136 }

/-- Main loop of `crc32_iscsi_impl`: `while (len >= 144) { ... }`. -/
def mainLoop (mem : List (Fin 256)) (klen : Nat) : Nat → VecState → Option VecState
  | 0, _ => none
  | fuel + 1, s =>
    if s.len ≥ 144 then (mainBody mem klen s).bind (mainLoop mem klen fuel) else some s

/-- First vector chunk of the block `if (len >= 144)`: the loads of `x0 ... x3`, the XOR
of `crc0` into `x0` and the initial values of the other variables. -/
def firstChunk (mem : List (Fin 256)) (blk : Nat) (c : Cursor) : Option VecState := do
  let buf2 := c.buf + 0
  let crc1 := 0
  let crc2 := 0
  let x0 ← load128 mem buf2
  let x1 ← load128 mem (buf2 + 16)
  let x2 ← load128 mem (buf2 + 32)
  let x3 ← load128 mem (buf2 + 48)
  let x0 := _mm_xor_si128 (_mm_cvtsi32_si128 c.crc0) x0
  let crc0 := 0
  let buf2 := buf2 + 64
  let len := c.len - 136
  let buf := c.buf + blk * 64
  pure ⟨x0, x1, x2, x3, crc0, crc1, crc2, buf, buf2, len⟩

/-- The statements under `Reduce x0 ... x3 to just x0`; the result is `x0`. -/
def reduceLanes (s : VecState) : Nat :=
  let k := _mm_setr_epi32 0xf20c0dfe 0 0x493c7d27 0
  let y0 := clmul_lo s.x0 k
  let x0 := clmul_hi s.x0 k
  let y2 := clmul_lo s.x2 k
  let x2 := clmul_hi s.x2 k
  let y0 := _mm_xor_si128 y0 s.x1
  let x0 := _mm_xor_si128 x0 y0
  let y2 := _mm_xor_si128 y2 s.x3
  let x2 := _mm_xor_si128 x2 y2
  let k := _mm_setr_epi32 0x3da6d0cb 0 0xba4fc28e 0
  let y0 := clmul_lo x0 k
  let x0 := clmul_hi x0 k
  let y0 := _mm_xor_si128 y0 x2
  _mm_xor_si128 x0 y0

/-- The block `if (len >= 144) { ... }` of `crc32_iscsi_impl`. -/
def vectorPhase (mem : List (Fin 256)) (c : Cursor) : Option Cursor := do
  let blk := (c.len - 8) / 136
  let klen := blk * 24
  -- First vector chunk.
  let s ← firstChunk mem blk c
  -- Main loop.
  let s ← mainLoop mem klen (s.len + 1) s
  -- Reduce x0 ... x3 to just x0.
  let x0 := reduceLanes s
  -- Final scalar chunk.
  let s ← scalarChunk mem klen s
  let buf := s.buf + 24
  let vc0 ← crc_shift s.crc0 (klen * 2 + 8)
  let vc1 ← crc_shift s.crc1 (klen + 8)
  let vc := mm_extract_epi64 (_mm_xor_si128 vc0 vc1) 0
  -- Reduce 128 bits to 32 bits, and multiply by x^32.
  let x0_low := mm_extract_epi64 x0 0
  let x0_high := mm_extract_epi64 x0 1
  let x0_combined :=
    mm_extract_epi64
      (← crc_shift (mm_crc32_u64 (mm_crc32_u64 0 x0_low) x0_high) (klen * 3 + 8)) 0
  let vc := vc ^^^ x0_combined
  -- Final 8 bytes.
  let buf := buf + klen * 2
  let crc0 := s.crc2
  let crc0 := mm_crc32_u64 crc0 ((← load64 mem buf) ^^^ vc)
  let buf := buf + 8
  let len := sub64 s.len 8
  pure ⟨crc0, buf, len⟩

/-- Function `crc32_iscsi_impl(uint32_t crc0, const char* buf, size_t len)` of the x86 back-end;
`addr` is the address `buf` and `mem` the `len` bytes at it. -/
def crc32_iscsi_impl (crc0 addr : Nat) (mem : List (Fin 256)) : Option Nat := do
  let crc0 := not32 crc0
  let c ← headLoop addr mem (mem.length + 1) ⟨crc0, 0, mem.length⟩
  let c ← headWord addr mem c
  let c ← if c.len ≥ 144 then vectorPhase mem c else some c
  let c ← tailWords mem (c.len + 1) c
  let c ← tailBytes mem (c.len + 1) c
  pure (not32 c.crc0)

end X86

/-! ## AArch64 back-end (`crc32_iscsi_neon_blended.c`) -/

namespace Neon

/-- Intrinsic `__crc32cb`. -/
def __crc32cb (crc v : Nat) : Nat := crc32c_u8 crc v

/-- Intrinsic `__crc32cw`. -/
def __crc32cw (crc v : Nat) : Nat := crc32c_u32 crc v

/-- Intrinsic `__crc32cd`. -/
def __crc32cd (crc v : Nat) : Nat := crc32c_u64 crc v

/-- Instruction `pmull Vd.1q, Vn.1d, Vm.1d`: carry-less product of the low lanes. -/
def pmull (a b : Nat) : Nat := clmul64 (lane0 a) (lane0 b)

/-- Instruction `pmull2 Vd.1q, Vn.2d, Vm.2d`: carry-less product of the high lanes. -/
def pmull2 (a b : Nat) : Nat := clmul64 (lane1 a) (lane1 b)

/-- Intrinsic `vmovq_n_u64`: both lanes hold the value. -/
def vmovq_n_u64 (a : Nat) : Nat := a % 2 ^ 64 + 2 ^ 64 * (a % 2 ^ 64)

/-- Intrinsic `vmov_n_u64`: a 64-bit vector holding the value. -/
def vmov_n_u64 (a : Nat) : Nat := a % 2 ^ 64

/-- Intrinsic `vgetq_lane_u64`. -/
def vgetq_lane_u64 (v lane : Nat) : Nat := if lane = 0 then lane0 v else lane1 v

/-- Intrinsic `veorq_u64`. -/
def veorq_u64 (a b : Nat) : Nat := a ^^^ b

/-- Intrinsic `veor3q_u64`. -/
def veor3q_u64 (a b c : Nat) : Nat := a ^^^ b ^^^ c

/-- The `i`-th 8-bit element of a vector. -/
def byteLane (v i : Nat) : Nat := (v >>> (8 * i)) % 2 ^ 8

/-- Intrinsic `vmull_p8`: the eight 8 x 8 -> 16 bit carry-less products of the elements
of two 64-bit vectors, element `i` of the result in bits `16 i .. 16 i + 15`. -/
def vmull_p8 (a b : Nat) : Nat :=
  clmulBits (byteLane a 0) (byteLane b 0) 8
    + 2 ^ 16 * (clmulBits (byteLane a 1) (byteLane b 1) 8
    + 2 ^ 16 * (clmulBits (byteLane a 2) (byteLane b 2) 8
    + 2 ^ 16 * (clmulBits (byteLane a 3) (byteLane b 3) 8
    + 2 ^ 16 * (clmulBits (byteLane a 4) (byteLane b 4) 8
    + 2 ^ 16 * (clmulBits (byteLane a 5) (byteLane b 5) 8
    + 2 ^ 16 * (clmulBits (byteLane a 6) (byteLane b 6) 8
    + 2 ^ 16 * clmulBits (byteLane a 7) (byteLane b 7) 8))))))

/-- Function `clmul_lo_eor3(a, b)`. -/
def clmul_lo_eor3 (a b : Nat) : Nat := pmull a b

/-- Function `clmul_hi_eor3(a, b)`. -/
def clmul_hi_eor3 (a b : Nat) : Nat := pmull2 a b

/-- Function `clmul_scalar(uint32_t a, uint32_t b)`. -/
def clmul_scalar (a b : Nat) : Nat := pmull (vmovq_n_u64 a) (vmovq_n_u64 b)

/-- Function `clmul_lo_e(a, b, c)`: `pmull` followed by `eor` with `c`. -/
def clmul_lo_e (a b c : Nat) : Nat := pmull a b ^^^ c

/-- Function `clmul_hi_e(a, b, c)`: `pmull2` followed by `eor` with `c`. -/
def clmul_hi_e (a b c : Nat) : Nat := pmull2 a b ^^^ c

/-- The squaring step inside `xnmodp`:
`x = vreinterpret_p8_u64(vmov_n_u64(acc));
y = vgetq_lane_u64(vreinterpretq_u64_p16(vmull_p8(x, x)), 0);` -/
def xnmodpSq (acc : Nat) : Nat :=
  let x := vmov_n_u64 acc
  vgetq_lane_u64 (vmull_p8 x x) 0

/-- Function `xnmodp(uint64_t n)`. -/
def xnmodp (n : Nat) : Option Nat := xnmodpWith xnmodpSq n

/-- Function `crc_shift(uint32_t crc, size_t nbytes)`; `nbytes * 8 - 33` is computed in `size_t`. -/
def crc_shift (crc nbytes : Nat) : Option Nat :=
  (xnmodp ((nbytes * 8 + (2 ^ 64 - 33)) % 2 ^ 64)).map fun p => clmul_scalar crc p

/-- The constant vector `k_[] = {lo, hi}` loaded by `vld1q_u64`. -/
def kvec (lo hi : Nat) : Nat := lo + 2 ^ 64 * hi

/-! ### `crc32_iscsi_large_impl` -/

/-- Variables of the interleaved phase of `crc32_iscsi_large_impl`. -/
structure LargeState where
  x0 : Nat
  x1 : Nat
  x2 : Nat
  x3 : Nat
  x4 : Nat
  x5 : Nat
  x6 : Nat
  x7 : Nat
  x8 : Nat
  crc0 : Nat
  crc1 : Nat
  crc2 : Nat
  buf : Nat
  buf2 : Nat

/-- The six CRC steps on the three scalar streams (two words of each), as written in the
main loop and again in the final scalar chunk. -/
def largeScalarChunk (mem : List (Fin 256)) (klen : Nat) (s : LargeState) :
    Option LargeState := do
  let crc0 := __crc32cd s.crc0 (← load64 mem s.buf)
  let crc1 := __crc32cd s.crc1 (← load64 mem (s.buf + klen))
  let crc2 := __crc32cd s.crc2 (← load64 mem (s.buf + klen * 2))
  let crc0 := __crc32cd crc0 (← load64 mem (s.buf + 8))
  let crc1 := __crc32cd crc1 (← load64 mem (s.buf + klen + 8))
  let crc2 := __crc32cd crc2 (← load64 mem (s.buf + klen * 2 + 8))
  pure { s with crc0 := crc0, crc1 := crc1, crc2 := crc2 }

/-- Body of the main loop of `crc32_iscsi_large_impl`. -/
def largeBody (mem : List (Fin 256)) (klen : Nat) (s : LargeState) : Option LargeState := do
  let k := kvec 0x7e908048 0xc96cfdc0
  let y0 := clmul_lo_eor3 s.x0 k
  let x0 := clmul_hi_eor3 s.x0 k
  let y1 := clmul_lo_eor3 s.x1 k
  let x1 := clmul_hi_eor3 s.x1 k
  let y2 := clmul_lo_eor3 s.x2 k
  let x2 := clmul_hi_eor3 s.x2 k
  let y3 := clmul_lo_eor3 s.x3 k
  let x3 := clmul_hi_eor3 s.x3 k
  let y4 := clmul_lo_eor3 s.x4 k
  let x4 := clmul_hi_eor3 s.x4 k
  let y5 := clmul_lo_eor3 s.x5 k
  let x5 := clmul_hi_eor3 s.x5 k
  let y6 := clmul_lo_eor3 s.x6 k
  let x6 := clmul_hi_eor3 s.x6 k
  let y7 := clmul_lo_eor3 s.x7 k
  let x7 := clmul_hi_eor3 s.x7 k
  let y8 := clmul_lo_eor3 s.x8 k
  let x8 := clmul_hi_eor3 s.x8 k
  let x0 := veor3q_u64 x0 y0 (← load128 mem s.buf2)
  let x1 := veor3q_u64 x1 y1 (← load128 mem (s.buf2 + 16))
  let x2 := veor3q_u64 x2 y2 (← load128 mem (s.buf2 + 32))
  let x3 := veor3q_u64 x3 y3 (← load128 mem (s.buf2 + 48))
  let x4 := veor3q_u64 x4 y4 (← load128 mem (s.buf2 + 64))
  let x5 := veor3q_u64 x5 y5 (← load128 mem (s.buf2 + 80))
  let x6 := veor3q_u64 x6 y6 (← load128 mem (s.buf2 + 96))
  let x7 := veor3q_u64 x7 y7 (← load128 mem (s.buf2 + 112))
  let x8 := veor3q_u64 x8 y8 (← load128 mem (s.buf2 + 128))
  let s ← largeScalarChunk mem klen
    { s with x0 := x0, x1 := x1, x2 := x2, x3 := x3, x4 := x4, x5 := x5, x6 := x6, x7 := x7, x8 := x8 }
  pure { s with buf := s.buf + 16, buf2 := s.buf2 + 144 }

/-- Main loop of `crc32_iscsi_large_impl`: `while (buf <= limit) { ... }`; `limit` may
lie before the buffer, so it is an integer. -/
def largeLoop (mem : List (Fin 256)) (klen : Nat) (limit : Int) :
    Nat → LargeState → Option LargeState
  | 0, _ => none
  | fuel + 1, s =>
    if (s.buf : Int) ≤ limit then
      (largeBody mem klen s).bind (largeLoop mem klen limit fuel)
    else some s

/-- First vector chunk of the block `if (len >= 192)` of `crc32_iscsi_large_impl`: the
loads of `x0 ... x8` and the initial values of the other variables. -/
def largeFirstChunk (mem : List (Fin 256)) (klen : Nat) (c : Cursor) : Option LargeState := do
  let buf2 := c.buf + klen * 3
  let crc1 := 0
  let crc2 := 0
  let x0 ← load128 mem buf2
  let x1 ← load128 mem (buf2 + 16)
  let x2 ← load128 mem (buf2 + 32)
  let x3 ← load128 mem (buf2 + 48)
  let x4 ← load128 mem (buf2 + 64)
  let x5 ← load128 mem (buf2 + 80)
  let x6 ← load128 mem (buf2 + 96)
  let x7 ← load128 mem (buf2 + 112)
  let x8 ← load128 mem (buf2 + 128)
  let buf2 := buf2 + 144
  pure ⟨x0, x1, x2, x3, x4, x5, x6, x7, x8, c.crc0, crc1, crc2, c.buf, buf2⟩

/-- The statements under `Reduce x0 ... x8 to just x0`; the result is `x0`. -/
def largeReduce (s : LargeState) : Nat :=
  let k := kvec 0xf20c0dfe 0x493c7d27
  let y0 := clmul_lo_eor3 s.x0 k
  let x0 := clmul_hi_eor3 s.x0 k
  let x0 := veor3q_u64 x0 y0 s.x1
  let x1 := s.x2
  let x2 := s.x3
  let x3 := s.x4
  let x4 := s.x5
  let x5 := s.x6
  let x6 := s.x7
  let x7 := s.x8
  let y0 := clmul_lo_eor3 x0 k
  let x0 := clmul_hi_eor3 x0 k
  let y2 := clmul_lo_eor3 x2 k
  let x2 := clmul_hi_eor3 x2 k
  let y4 := clmul_lo_eor3 x4 k
  let x4 := clmul_hi_eor3 x4 k
  let y6 := clmul_lo_eor3 x6 k
  let x6 := clmul_hi_eor3 x6 k
  let x0 := veor3q_u64 x0 y0 x1
  let x2 := veor3q_u64 x2 y2 x3
  let x4 := veor3q_u64 x4 y4 x5
  let x6 := veor3q_u64 x6 y6 x7
  let k := kvec 0x3da6d0cb 0xba4fc28e
  let y0 := clmul_lo_eor3 x0 k
  let x0 := clmul_hi_eor3 x0 k
  let y4 := clmul_lo_eor3 x4 k
  let x4 := clmul_hi_eor3 x4 k
  let x0 := veor3q_u64 x0 y0 x2
  let x4 := veor3q_u64 x4 y4 x6
  let k := kvec 0x740eef02 0x9e4addf8
  let y0 := clmul_lo_eor3 x0 k
  let x0 := clmul_hi_eor3 x0 k
  veor3q_u64 x0 y0 x4

/-- The block `if (len >= 192) { ... }` of `crc32_iscsi_large_impl`. -/
def largeVectorPhase (mem : List (Fin 256)) (c : Cursor) : Option Cursor := do
  let end_ := c.buf + c.len
  let blk := (c.len - 0) / 192
  let klen := blk * 16
  let limit : Int := (c.buf : Int) + klen - 32
  -- First vector chunk.
  let s ← largeFirstChunk mem klen c
  -- Main loop.
  let s ← largeLoop mem klen limit (c.len + 1) s
  -- Reduce x0 ... x8 to just x0.
  let x0 := largeReduce s
  -- Final scalar chunk.
  let s ← largeScalarChunk mem klen s
  let vc0 ← crc_shift s.crc0 (klen * 2 + blk * 144)
  let vc1 ← crc_shift s.crc1 (klen + blk * 144)
  let vc2 ← crc_shift s.crc2 (0 + blk * 144)
  let vc := vgetq_lane_u64 (veor3q_u64 vc0 vc1 vc2) 0
  -- Reduce 128 bits to 32 bits, and multiply by x^32.
  let crc0 := __crc32cd 0 (vgetq_lane_u64 x0 0)
  let crc0 := __crc32cd crc0 (vc ^^^ vgetq_lane_u64 x0 1)
  let buf := s.buf2
  let len := sub64 end_ buf
  pure ⟨crc0, buf, len⟩

/-- Variables of the three-way scalar loop of `crc32_iscsi_large_impl`. -/
structure TripleState where
  crc0 : Nat
  crc1 : Nat
  crc2 : Nat
  buf : Nat
  len : Nat

/-- The loop `do { ... } while (len >= 32);` of `crc32_iscsi_large_impl`. -/
def tripleLoop (mem : List (Fin 256)) (klen : Nat) : Nat → TripleState → Option TripleState
  | 0, _ => none
  | fuel + 1, s => do
    let crc0 := __crc32cd s.crc0 (← load64 mem s.buf)
    let crc1 := __crc32cd s.crc1 (← load64 mem (s.buf + klen))
    let crc2 := __crc32cd s.crc2 (← load64 mem (s.buf + klen * 2))
    let s : TripleState := ⟨crc0, crc1, crc2, s.buf + 8, s.len - 24⟩
    if s.len ≥ 32 then tripleLoop mem klen fuel s else some s

/-- The block `if (len >= 32) { ... }` of `crc32_iscsi_large_impl`. -/
def triplePhase (mem : List (Fin 256)) (c : Cursor) : Option Cursor := do
  let klen := ((c.len - 8) / 24) * 8
  let crc1 := 0
  let crc2 := 0
  -- Main loop.
  let s ← tripleLoop mem klen (c.len + 1) ⟨c.crc0, crc1, crc2, c.buf, c.len⟩
  let vc0 ← crc_shift s.crc0 (klen * 2 + 8)
  let vc1 ← crc_shift s.crc1 (klen + 8)
  let vc := vgetq_lane_u64 (veorq_u64 vc0 vc1) 0
  -- Final 8 bytes.
  let buf := s.buf + klen * 2
  let crc0 := s.crc2
  let crc0 := __crc32cd crc0 ((← load64 mem buf) ^^^ vc)
  let buf := buf + 8
  let len := sub64 s.len 8
  pure ⟨crc0, buf, len⟩

/-- Function `crc32_iscsi_large_impl(uint32_t crc0, const char* buf, size_t len)`; `addr` is the
address `buf` and `mem` the `len` bytes at it. -/
def crc32_iscsi_large_impl (crc0 addr : Nat) (mem : List (Fin 256)) : Option Nat := do
  let crc0 := not32 crc0
  let c ← headLoop addr mem (mem.length + 1) ⟨crc0, 0, mem.length⟩
  let c ← headWord addr mem c
  let c ← if c.len ≥ 192 then largeVectorPhase mem c else some c
  let c ← if c.len ≥ 32 then triplePhase mem c else some c
  let c ← tailWords mem (c.len + 1) c
  let c ← tailBytes mem (c.len + 1) c
  pure (not32 c.crc0)

/-! ### `crc32_iscsi_small_impl` -/

/-- Variables of the 12-lane phase of `crc32_iscsi_small_impl`. -/
structure SmallState where
  x0 : Nat
  x1 : Nat
  x2 : Nat
  x3 : Nat
  x4 : Nat
  x5 : Nat
  x6 : Nat
  x7 : Nat
  x8 : Nat
  x9 : Nat
  x10 : Nat
  x11 : Nat
  buf : Nat

/-- Body of the main loop of `crc32_iscsi_small_impl`. -/
def smallBody (mem : List (Fin 256)) (s : SmallState) : Option SmallState := do
  let k := kvec 0xa87ab8a8 0xab7aff2a
  let y0 := clmul_lo_e s.x0 k (← load128 mem s.buf)
  let x0 := clmul_hi_e s.x0 k y0
  let y1 := clmul_lo_e s.x1 k (← load128 mem (s.buf + 16))
  let x1 := clmul_hi_e s.x1 k y1
  let y2 := clmul_lo_e s.x2 k (← load128 mem (s.buf + 32))
  let x2 := clmul_hi_e s.x2 k y2
  let y3 := clmul_lo_e s.x3 k (← load128 mem (s.buf + 48))
  let x3 := clmul_hi_e s.x3 k y3
  let y4 := clmul_lo_e s.x4 k (← load128 mem (s.buf + 64))
  let x4 := clmul_hi_e s.x4 k y4
  let y5 := clmul_lo_e s.x5 k (← load128 mem (s.buf + 80))
  let x5 := clmul_hi_e s.x5 k y5
  let y6 := clmul_lo_e s.x6 k (← load128 mem (s.buf + 96))
  let x6 := clmul_hi_e s.x6 k y6
  let y7 := clmul_lo_e s.x7 k (← load128 mem (s.buf + 112))
  let x7 := clmul_hi_e s.x7 k y7
  let y8 := clmul_lo_e s.x8 k (← load128 mem (s.buf + 128))
  let x8 := clmul_hi_e s.x8 k y8
  let y9 := clmul_lo_e s.x9 k (← load128 mem (s.buf + 144))
  let x9 := clmul_hi_e s.x9 k y9
  let y10 := clmul_lo_e s.x10 k (← load128 mem (s.buf + 160))
  let x10 := clmul_hi_e s.x10 k y10
  let y11 := clmul_lo_e s.x11 k (← load128 mem (s.buf + 176))
  let x11 := clmul_hi_e s.x11 k y11
  pure ⟨x0, x1, x2, x3, x4, x5, x6, x7, x8, x9, x10, x11, s.buf + 192⟩

/-- Main loop of the 12-lane phase: `while (buf <= limit) { ... }`. -/
def smallLoop (mem : List (Fin 256)) (limit : Nat) : Nat → SmallState → Option SmallState
  | 0, _ => none
  | fuel + 1, s =>
    if s.buf ≤ limit then (smallBody mem s).bind (smallLoop mem limit fuel) else some s

/-- First vector chunk of the block `if (len >= 192)` of `crc32_iscsi_small_impl`: the
loads of `x0 ... x11`, the XOR of `crc0` into `x0`, and `buf += 192`. -/
def smallFirstChunk (mem : List (Fin 256)) (c : Cursor) : Option SmallState := do
  let x0 ← load128 mem c.buf
  let x1 ← load128 mem (c.buf + 16)
  let x2 ← load128 mem (c.buf + 32)
  let x3 ← load128 mem (c.buf + 48)
  let x4 ← load128 mem (c.buf + 64)
  let x5 ← load128 mem (c.buf + 80)
  let x6 ← load128 mem (c.buf + 96)
  let x7 ← load128 mem (c.buf + 112)
  let x8 ← load128 mem (c.buf + 128)
  let x9 ← load128 mem (c.buf + 144)
  let x10 ← load128 mem (c.buf + 160)
  let x11 ← load128 mem (c.buf + 176)
  let x0 := veorq_u64 c.crc0 x0
  let buf := c.buf + 192
  pure ⟨x0, x1, x2, x3, x4, x5, x6, x7, x8, x9, x10, x11, buf⟩

/-- The statements under `Reduce x0 ... x11 to just x0`; the result is `x0`. -/
def smallReduce (s : SmallState) : Nat :=
  let k := kvec 0xf20c0dfe 0x493c7d27
  let y0 := clmul_lo_e s.x0 k s.x1
  let x0 := clmul_hi_e s.x0 k y0
  let y2 := clmul_lo_e s.x2 k s.x3
  let x2 := clmul_hi_e s.x2 k y2
  let y4 := clmul_lo_e s.x4 k s.x5
  let x4 := clmul_hi_e s.x4 k y4
  let y6 := clmul_lo_e s.x6 k s.x7
  let x6 := clmul_hi_e s.x6 k y6
  let y8 := clmul_lo_e s.x8 k s.x9
  let x8 := clmul_hi_e s.x8 k y8
  let y10 := clmul_lo_e s.x10 k s.x11
  let x10 := clmul_hi_e s.x10 k y10
  let k := kvec 0x3da6d0cb 0xba4fc28e
  let y0 := clmul_lo_e x0 k x2
  let x0 := clmul_hi_e x0 k y0
  let y4 := clmul_lo_e x4 k x6
  let x4 := clmul_hi_e x4 k y4
  let y8 := clmul_lo_e x8 k x10
  let x8 := clmul_hi_e x8 k y8
  let k := kvec 0x740eef02 0x9e4addf8
  let y0 := clmul_lo_e x0 k x4
  let x0 := clmul_hi_e x0 k y0
  let x4 := x8
  let y0 := clmul_lo_e x0 k x4
  clmul_hi_e x0 k y0

/-- The block `if (len >= 192) { ... }` of `crc32_iscsi_small_impl`. -/
def smallVectorPhase (mem : List (Fin 256)) (c : Cursor) : Option Cursor := do
  let end_ := c.buf + c.len
  let limit := c.buf + c.len - 192
  -- First vector chunk.
  let s ← smallFirstChunk mem c
  -- Main loop.
  let s ← smallLoop mem limit (c.len + 1) s
  -- Reduce x0 ... x11 to just x0.
  let x0 := smallReduce s
  -- Reduce 128 bits to 32 bits, and multiply by x^32.
  let crc0 := __crc32cd 0 (vgetq_lane_u64 x0 0)
  let crc0 := __crc32cd crc0 (vgetq_lane_u64 x0 1)
  let len := sub64 end_ s.buf
  pure ⟨crc0, s.buf, len⟩

/-- Variables of the single-register loop of `crc32_iscsi_small_impl`. -/
structure SingleState where
  x0 : Nat
  buf : Nat
  len : Nat

/-- Main loop of the single-register phase: `while (len >= 16) { ... }`. -/
def singleLoop (mem : List (Fin 256)) (k : Nat) : Nat → SingleState → Option SingleState
  | 0, _ => none
  | fuel + 1, s =>
    if s.len ≥ 16 then do
      let y0 := clmul_lo_e s.x0 k (← load128 mem s.buf)
      let x0 := clmul_hi_e s.x0 k y0
      singleLoop mem k fuel ⟨x0, s.buf + 16, s.len - 16⟩
    else some s

/-- The block `if (len >= 16) { ... }` of `crc32_iscsi_small_impl`. -/
def singlePhase (mem : List (Fin 256)) (c : Cursor) : Option Cursor := do
  -- First vector chunk.
  let x0 ← load128 mem c.buf
  let k := kvec 0xf20c0dfe 0x493c7d27
  let x0 := veorq_u64 c.crc0 x0
  let buf := c.buf + 16
  let len := c.len - 16
  -- Main loop.
  let s ← singleLoop mem k (len + 1) ⟨x0, buf, len⟩
  -- Reduce 128 bits to 32 bits, and multiply by x^32.
  let crc0 := __crc32cd 0 (vgetq_lane_u64 s.x0 0)
  let crc0 := __crc32cd crc0 (vgetq_lane_u64 s.x0 1)
  pure ⟨crc0, s.buf, s.len⟩

/-- Function `crc32_iscsi_small_impl(uint32_t crc0, const char* buf, size_t len)`; `addr` is the
address `buf` and `mem` the `len` bytes at it. -/
def crc32_iscsi_small_impl (crc0 addr : Nat) (mem : List (Fin 256)) : Option Nat := do
  let crc0 := not32 crc0
  let c ← headLoop addr mem (mem.length + 1) ⟨crc0, 0, mem.length⟩
  let c ← headWord addr mem c
  let c ← if c.len ≥ 192 then smallVectorPhase mem c else some c
  let c ← if c.len ≥ 16 then singlePhase mem c else some c
  let c ← tailWords mem (c.len + 1) c
  let c ← tailBytes mem (c.len + 1) c
  pure (not32 c.crc0)

/-- The constant `LARGE_BUFFER_THRESHOLD` of `crc32_iscsi_impl`. -/
def LARGE_BUFFER_THRESHOLD : Nat := 1024

/-- Function `crc32_iscsi_impl(uint32_t crc0, const char* buf, size_t len)` of the AArch64
back-end. -/
def crc32_iscsi_impl (crc0 addr : Nat) (mem : List (Fin 256)) : Option Nat :=
  if mem.length ≤ LARGE_BUFFER_THRESHOLD then
    crc32_iscsi_small_impl crc0 addr mem
  else
    crc32_iscsi_large_impl crc0 addr mem

end Neon

/-! ## Definitions used by the proofs

The algebra of the proofs: registers are read as elements of `GF(2)[x] / (P)`. -/

open Polynomial

/-- The polynomial over GF(2) whose coefficient of `X ^ i` is bit `i` of `v`. -/
noncomputable def natPoly (v : Nat) : (ZMod 2)[X] :=
  ∑ i in Finset.range (v + 1), if v.testBit i then X ^ i else 0

/-- The CRC32C generator polynomial `x^32 + 0x1EDC6F41` over GF(2). -/
noncomputable def genPoly : (ZMod 2)[X] := natPoly 0x11EDC6F41

/-- The ring `GF(2)[x] / (P)` of residues modulo the generator polynomial. -/
abbrev CrcRing : Type := AdjoinRoot genPoly

/-- The residue of `x`. -/
noncomputable def xR : CrcRing := AdjoinRoot.root genPoly

/-- The inverse of `x` modulo the generator: `(P - 1) / x`. -/
noncomputable def yR : CrcRing := AdjoinRoot.mk genPoly (natPoly 0x8F6E37A0)

/-- Value of a register in the residue ring: bit `i` contributes `x ^ (-i)`. -/
noncomputable def sem (v : Nat) : CrcRing := Polynomial.aeval yR (natPoly v)

/-- Value in the residue ring of the raw state after feeding bytes, from the value `r`
of the state before. -/
noncomputable def feedSem (r : CrcRing) (bs : List (Fin 256)) : CrcRing :=
  bs.foldl (fun r b => (r + sem b.val) * xR ^ 8) r

/-- The cursor is inside the buffer and its accumulator is a 32-bit value. -/
def Cursor.WF (mem : List (Fin 256)) (c : Cursor) : Prop :=
  c.buf + c.len = mem.length ∧ c.crc0 < 2 ^ 32

/-- The cursor `c'` is `c` after the next `n` bytes have been fed to the accumulator. -/
def Cursor.Adv (mem : List (Fin 256)) (c c' : Cursor) : Prop :=
  ∃ n, n ≤ c.len ∧ c'.buf = c.buf + n ∧ c'.len = c.len - n ∧
    c'.crc0 = refRaw c.crc0 (slice mem c.buf n)

/-- What the back-end's squaring primitive has to do on a 32-bit accumulator. -/
def SqOK (sq : Nat → Nat) : Prop :=
  ∀ acc, acc < 2 ^ 32 → sq acc < 2 ^ 63 ∧ sem (sq acc) = sem acc * sem acc

/-- Value of a 128-bit register as the 16 message bytes it holds. -/
noncomputable def vsem (v : Nat) : CrcRing := sem v * xR ^ 128

/-- One fold of a register `x` by the constant pair `(klo, khi)` onto the data `d`. -/
def foldv (x klo khi d : Nat) : Nat :=
  clmul64 (lane1 x) khi ^^^ (clmul64 (lane0 x) klo ^^^ d)

/-- The constant pair folds by `D` bytes. -/
def FoldConst (D klo khi : Nat) : Prop :=
  klo < 2 ^ 32 ∧ khi < 2 ^ 32 ∧ sem klo = xR ^ (8 * D) ∧ sem khi * xR ^ 64 = xR ^ (8 * D)

namespace X86

/-- The lanes and accumulators of the interleaved phase are in range. -/
def VecState.Bounded (s : VecState) : Prop :=
  s.x0 < 2 ^ 128 ∧ s.x1 < 2 ^ 128 ∧ s.x2 < 2 ^ 128 ∧ s.x3 < 2 ^ 128 ∧
  s.crc0 < 2 ^ 32 ∧ s.crc1 < 2 ^ 32 ∧ s.crc2 < 2 ^ 32

/-- Message value of the four lanes together (64 bytes). -/
noncomputable def VecState.W (s : VecState) : CrcRing :=
  vsem s.x0 * xR ^ (8 * 48) + vsem s.x1 * xR ^ (8 * 32) + vsem s.x2 * xR ^ (8 * 16) + vsem s.x3

end X86

namespace Neon

/-- The lanes and accumulators of the interleaved phase are in range. -/
def LargeState.Bounded (s : LargeState) : Prop :=
  s.x0 < 2 ^ 128 ∧ s.x1 < 2 ^ 128 ∧ s.x2 < 2 ^ 128 ∧ s.x3 < 2 ^ 128 ∧ s.x4 < 2 ^ 128 ∧ s.x5 < 2 ^ 128 ∧ s.x6 < 2 ^ 128 ∧ s.x7 < 2 ^ 128 ∧ s.x8 < 2 ^ 128 ∧
  s.crc0 < 2 ^ 32 ∧ s.crc1 < 2 ^ 32 ∧ s.crc2 < 2 ^ 32

/-- Message value of the nine lanes together (144 bytes). -/
noncomputable def LargeState.W (s : LargeState) : CrcRing :=
  vsem s.x0 * xR ^ (8 * 128) + vsem s.x1 * xR ^ (8 * 112) + vsem s.x2 * xR ^ (8 * 96) + vsem s.x3 * xR ^ (8 * 80) + vsem s.x4 * xR ^ (8 * 64) + vsem s.x5 * xR ^ (8 * 48) + vsem s.x6 * xR ^ (8 * 32) + vsem s.x7 * xR ^ (8 * 16) + vsem s.x8

/-- The lanes of the 12-lane phase are in range. -/
def SmallState.Bounded (s : SmallState) : Prop :=
  s.x0 < 2 ^ 128 ∧ s.x1 < 2 ^ 128 ∧ s.x2 < 2 ^ 128 ∧ s.x3 < 2 ^ 128 ∧ s.x4 < 2 ^ 128 ∧ s.x5 < 2 ^ 128 ∧ s.x6 < 2 ^ 128 ∧ s.x7 < 2 ^ 128 ∧ s.x8 < 2 ^ 128 ∧ s.x9 < 2 ^ 128 ∧ s.x10 < 2 ^ 128 ∧ s.x11 < 2 ^ 128

/-- Message value of the twelve lanes together (192 bytes). -/
noncomputable def SmallState.W (s : SmallState) : CrcRing :=
  vsem s.x0 * xR ^ (8 * 176) + vsem s.x1 * xR ^ (8 * 160) + vsem s.x2 * xR ^ (8 * 144) + vsem s.x3 * xR ^ (8 * 128) + vsem s.x4 * xR ^ (8 * 112) + vsem s.x5 * xR ^ (8 * 96) + vsem s.x6 * xR ^ (8 * 80) + vsem s.x7 * xR ^ (8 * 64) + vsem s.x8 * xR ^ (8 * 48) + vsem s.x9 * xR ^ (8 * 32) + vsem s.x10 * xR ^ (8 * 16) + vsem s.x11

end Neon

/-- The ASCII bytes of "123456789". -/
def checkString : List (Fin 256) := [0x31, 0x32, 0x33, 0x34, 0x35, 0x36, 0x37, 0x38, 0x39]

/-- A buffer of `n` bytes `0, 1, 2, ...` (modulo 256). -/
def ramp (n : Nat) : List (Fin 256) := (List.range n).map fun i => Fin.ofNat i

/-- The statements under `Reduce 128 bits to 32 bits`: two 64-bit CRC steps from state 0,
on the low lane and then on the high lane of the register. -/
def reduce128 (v : Nat) : Nat := crc32c_u64 (crc32c_u64 0 (lane0 v)) (lane1 v)

/-- Bytewise XOR of two buffers. -/
def xorBuf (as bs : List (Fin 256)) : List (Fin 256) :=
  List.zipWith (fun a b => Fin.ofNat (a.val ^^^ b.val)) as bs

/-! ## Traced engines

The three engines once more, statement for statement, in a form where every load and every
call of `crc_shift` also writes an entry to a trace. Dropping the trace gives back the
engines above; the trace is what the statements about loads and about the arguments of
`crc_shift` are about. -/

namespace Traced

/-- What a run has done so far, oldest first: its loads, each as (offset, width in bytes),
and its calls of `crc_shift`, each as (`nbytes`, the argument passed on to `xnmodp`). -/
structure Trace where
  loads : List (Nat × Nat)
  shifts : List (Nat × Nat)

/-- Code that extends the trace. As in the engines above there is no result when a load is
outside the buffer or the fuel of a loop is exhausted. -/
def Run (α : Type) : Type := Trace → Option (α × Trace)

instance : Monad Run where
  pure a := fun t => some (a, t)
  bind m f := fun t => (m t).bind fun p => f p.1 p.2

/-- Exhausted fuel. -/
def Run.fail {α : Type} : Run α := fun _ => none

/-- Byte load `*buf`, written to the trace. -/
def load8 (buf : List (Fin 256)) (off : Nat) : Run Nat := fun t =>
  (CrcFast.load8 buf off).map fun v => (v, { t with loads := t.loads ++ [(off, 1)] })

/-- Word load `*(const uint64_t*)buf`, written to the trace. -/
def load64 (buf : List (Fin 256)) (off : Nat) : Run Nat := fun t =>
  (CrcFast.load64 buf off).map fun v => (v, { t with loads := t.loads ++ [(off, 8)] })

/-- Unaligned 128-bit load (`_mm_loadu_si128`, `vld1q_u64`), written to the trace. -/
def load128 (buf : List (Fin 256)) (off : Nat) : Run Nat := fun t =>
  (CrcFast.load128 buf off).map fun v => (v, { t with loads := t.loads ++ [(off, 16)] })

/-- Loop `for (; len && ((uintptr_t)buf & 7); --len) crc0 = crc32c_u8(crc0, *buf++);` -/
def headLoop (addr : Nat) (mem : List (Fin 256)) : Nat → Cursor → Run Cursor
  | 0, _ => Run.fail
  | fuel + 1, s =>
    if s.len ≠ 0 ∧ (addr + s.buf) &&& 7 ≠ 0 then
      load8 mem s.buf >>= fun b =>
        headLoop addr mem fuel ⟨crc32c_u8 s.crc0 b, s.buf + 1, s.len - 1⟩
    else pure s

/-- Statement `if (((uintptr_t)buf & 8) && len >= 8) { crc0 = crc32c_u64(crc0, *(const uint64_t*)buf);
buf += 8; len -= 8; }` -/
def headWord (addr : Nat) (mem : List (Fin 256)) (s : Cursor) : Run Cursor :=
  if (addr + s.buf) &&& 8 ≠ 0 ∧ s.len ≥ 8 then
    load64 mem s.buf >>= fun w => pure ⟨crc32c_u64 s.crc0 w, s.buf + 8, s.len - 8⟩
  else pure s

/-- Loop `for (; len >= 8; buf += 8, len -= 8) crc0 = crc32c_u64(crc0, *(const uint64_t*)buf);` -/
def tailWords (mem : List (Fin 256)) : Nat → Cursor → Run Cursor
  | 0, _ => Run.fail
  | fuel + 1, s =>
    if s.len ≥ 8 then
      load64 mem s.buf >>= fun w =>
        tailWords mem fuel ⟨crc32c_u64 s.crc0 w, s.buf + 8, s.len - 8⟩
    else pure s

/-- Loop `for (; len; --len) crc0 = crc32c_u8(crc0, *buf++);` -/
def tailBytes (mem : List (Fin 256)) : Nat → Cursor → Run Cursor
  | 0, _ => Run.fail
  | fuel + 1, s =>
    if s.len ≠ 0 then
      load8 mem s.buf >>= fun b =>
        tailBytes mem fuel ⟨crc32c_u8 s.crc0 b, s.buf + 1, s.len - 1⟩
    else pure s

/-! ### x86 back-end -/

namespace X86

open CrcFast.X86

/-- Function `crc_shift(uint32_t crc, size_t nbytes)`; `nbytes * 8 - 33` is computed in
`size_t`. The call and the argument it passes to `xnmodp` are written to the trace. -/
def crc_shift (crc nbytes : Nat) : Run Nat := fun t =>
  let n := (nbytes * 8 + (2 ^ 64 - 33)) % 2 ^ 64
  (xnmodp n).map fun p =>
    (clmul_scalar crc p, { t with shifts := t.shifts ++ [(nbytes, n)] })

/-- The nine CRC steps on the three scalar streams (three words of each), as written in
the main loop and again in the final scalar chunk. -/
def scalarChunk (mem : List (Fin 256)) (klen : Nat) (s : VecState) : Run VecState := do
  let crc0 := mm_crc32_u64 s.crc0 (← load64 mem s.buf)
  let crc1 := mm_crc32_u64 s.crc1 (← load64 mem (s.buf + klen))
  let crc2 := mm_crc32_u64 s.crc2 (← load64 mem (s.buf + klen * 2))
  let crc0 := mm_crc32_u64 crc0 (← load64 mem (s.buf + 8))
  let crc1 := mm_crc32_u64 crc1 (← load64 mem (s.buf + klen + 8))
  let crc2 := mm_crc32_u64 crc2 (← load64 mem (s.buf + klen * 2 + 8))
  let crc0 := mm_crc32_u64 crc0 (← load64 mem (s.buf + 16))
  let crc1 := mm_crc32_u64 crc1 (← load64 mem (s.buf + klen + 16))
  let crc2 := mm_crc32_u64 crc2 (← load64 mem (s.buf + klen * 2 + 16))
  pure { s with crc0 := crc0, crc1 := crc1, crc2 := crc2 }

/-- Body of the main loop of `crc32_iscsi_impl`. -/
def mainBody (mem : List (Fin 256)) (klen : Nat) (s : VecState) : Run VecState := do
  let k := _mm_setr_epi32 0x740eef02 0 0x9e4addf8 0
  let y0 := clmul_lo s.x0 k
  let x0 := clmul_hi s.x0 k
  let y1 := clmul_lo s.x1 k
  let x1 := clmul_hi s.x1 k
  let y2 := clmul_lo s.x2 k
  let x2 := clmul_hi s.x2 k
  let y3 := clmul_lo s.x3 k
  let x3 := clmul_hi s.x3 k
  let y0 := _mm_xor_si128 y0 (← load128 mem s.buf2)
  let x0 := _mm_xor_si128 x0 y0
  let y1 := _mm_xor_si128 y1 (← load128 mem (s.buf2 + 16))
  let x1 := _mm_xor_si128 x1 y1
  let y2 := _mm_xor_si128 y2 (← load128 mem (s.buf2 + 32))
  let x2 := _mm_xor_si128 x2 y2
  let y3 := _mm_xor_si128 y3 (← load128 mem (s.buf2 + 48))
  let x3 := _mm_xor_si128 x3 y3
  let s ← scalarChunk mem klen { s with x0 := x0, x1 := x1, x2 := x2, x3 := x3 }
  pure { s with buf := s.buf + 24, buf2 := s.buf2 + 64, len := s.len - 136 }

/-- Main loop of `crc32_iscsi_impl`: `while (len >= 144) { ... }`. -/
def mainLoop (mem : List (Fin 256)) (klen : Nat) : Nat → VecState → Run VecState
  | 0, _ => Run.fail
  | fuel + 1, s =>
    if s.len ≥ 144 then mainBody mem klen s >>= mainLoop mem klen fuel else pure s

/-- First vector chunk of the block `if (len >= 144)`: the loads of `x0 ... x3`, the XOR
of `crc0` into `x0` and the initial values of the other variables. -/
def firstChunk (mem : List (Fin 256)) (blk : Nat) (c : Cursor) : Run VecState := do
  let buf2 := c.buf + 0
  let crc1 := 0
  let crc2 := 0
  let x0 ← load128 mem buf2
  let x1 ← load128 mem (buf2 + 16)
  let x2 ← load128 mem (buf2 + 32)
  let x3 ← load128 mem (buf2 + 48)
  let x0 := _mm_xor_si128 (_mm_cvtsi32_si128 c.crc0) x0
  let crc0 := 0
  let buf2 := buf2 + 64
  let len := c.len - 136
  let buf := c.buf + blk * 64
  pure ⟨x0, x1, x2, x3, crc0, crc1, crc2, buf, buf2, len⟩

/-- The block `if (len >= 144) { ... }` of `crc32_iscsi_impl`. -/
def vectorPhase (mem : List (Fin 256)) (c : Cursor) : Run Cursor := do
  let blk := (c.len - 8) / 136
  let klen := blk * 24
  -- First vector chunk.
  let s ← firstChunk mem blk c
  -- Main loop.
  let s ← mainLoop mem klen (s.len + 1) s
  -- Reduce x0 ... x3 to just x0.
  let x0 := reduceLanes s
  -- Final scalar chunk.
  let s ← scalarChunk mem klen s
  let buf := s.buf + 24
  let vc0 ← crc_shift s.crc0 (klen * 2 + 8)
  let vc1 ← crc_shift s.crc1 (klen + 8)
  let vc := mm_extract_epi64 (_mm_xor_si128 vc0 vc1) 0
  -- Reduce 128 bits to 32 bits, and multiply by x^32.
  let x0_low := mm_extract_epi64 x0 0
  let x0_high := mm_extract_epi64 x0 1
  let x0_combined :=
    mm_extract_epi64
      (← crc_shift (mm_crc32_u64 (mm_crc32_u64 0 x0_low) x0_high) (klen * 3 + 8)) 0
  let vc := vc ^^^ x0_combined
  -- Final 8 bytes.
  let buf := buf + klen * 2
  let crc0 := s.crc2
  let crc0 := mm_crc32_u64 crc0 ((← load64 mem buf) ^^^ vc)
  let buf := buf + 8
  let len := sub64 s.len 8
  pure ⟨crc0, buf, len⟩

/-- Function `crc32_iscsi_impl(uint32_t crc0, const char* buf, size_t len)` of the x86 back-end;
`addr` is the address `buf` and `mem` the `len` bytes at it. -/
def crc32_iscsi_impl (crc0 addr : Nat) (mem : List (Fin 256)) : Run Nat := do
  let crc0 := not32 crc0
  let c ← headLoop addr mem (mem.length + 1) ⟨crc0, 0, mem.length⟩
  let c ← headWord addr mem c
  let c ← if c.len ≥ 144 then vectorPhase mem c else pure c
  let c ← tailWords mem (c.len + 1) c
  let c ← tailBytes mem (c.len + 1) c
  pure (not32 c.crc0)

end X86

/-! ### AArch64 back-end -/

namespace Neon

open CrcFast.Neon

/-- Function `crc_shift(uint32_t crc, size_t nbytes)`; `nbytes * 8 - 33` is computed in
`size_t`. The call and the argument it passes to `xnmodp` are written to the trace. -/
def crc_shift (crc nbytes : Nat) : Run Nat := fun t =>
  let n := (nbytes * 8 + (2 ^ 64 - 33)) % 2 ^ 64
  (xnmodp n).map fun p =>
    (clmul_scalar crc p, { t with shifts := t.shifts ++ [(nbytes, n)] })

/-- The six CRC steps on the three scalar streams (two words of each), as written in the
main loop and again in the final scalar chunk. -/
def largeScalarChunk (mem : List (Fin 256)) (klen : Nat) (s : LargeState) :
    Run LargeState := do
  let crc0 := __crc32cd s.crc0 (← load64 mem s.buf)
  let crc1 := __crc32cd s.crc1 (← load64 mem (s.buf + klen))
  let crc2 := __crc32cd s.crc2 (← load64 mem (s.buf + klen * 2))
  let crc0 := __crc32cd crc0 (← load64 mem (s.buf + 8))
  let crc1 := __crc32cd crc1 (← load64 mem (s.buf + klen + 8))
  let crc2 := __crc32cd crc2 (← load64 mem (s.buf + klen * 2 + 8))
  pure { s with crc0 := crc0, crc1 := crc1, crc2 := crc2 }

/-- Body of the main loop of `crc32_iscsi_large_impl`. -/
def largeBody (mem : List (Fin 256)) (klen : Nat) (s : LargeState) : Run LargeState := do
  let k := kvec 0x7e908048 0xc96cfdc0
  let y0 := clmul_lo_eor3 s.x0 k
  let x0 := clmul_hi_eor3 s.x0 k
  let y1 := clmul_lo_eor3 s.x1 k
  let x1 := clmul_hi_eor3 s.x1 k
  let y2 := clmul_lo_eor3 s.x2 k
  let x2 := clmul_hi_eor3 s.x2 k
  let y3 := clmul_lo_eor3 s.x3 k
  let x3 := clmul_hi_eor3 s.x3 k
  let y4 := clmul_lo_eor3 s.x4 k
  let x4 := clmul_hi_eor3 s.x4 k
  let y5 := clmul_lo_eor3 s.x5 k
  let x5 := clmul_hi_eor3 s.x5 k
  let y6 := clmul_lo_eor3 s.x6 k
  let x6 := clmul_hi_eor3 s.x6 k
  let y7 := clmul_lo_eor3 s.x7 k
  let x7 := clmul_hi_eor3 s.x7 k
  let y8 := clmul_lo_eor3 s.x8 k
  let x8 := clmul_hi_eor3 s.x8 k
  let x0 := veor3q_u64 x0 y0 (← load128 mem s.buf2)
  let x1 := veor3q_u64 x1 y1 (← load128 mem (s.buf2 + 16))
  let x2 := veor3q_u64 x2 y2 (← load128 mem (s.buf2 + 32))
  let x3 := veor3q_u64 x3 y3 (← load128 mem (s.buf2 + 48))
  let x4 := veor3q_u64 x4 y4 (← load128 mem (s.buf2 + 64))
  let x5 := veor3q_u64 x5 y5 (← load128 mem (s.buf2 + 80))
  let x6 := veor3q_u64 x6 y6 (← load128 mem (s.buf2 + 96))
  let x7 := veor3q_u64 x7 y7 (← load128 mem (s.buf2 + 112))
  let x8 := veor3q_u64 x8 y8 (← load128 mem (s.buf2 + 128))
  let s ← largeScalarChunk mem klen
    { s with x0 := x0, x1 := x1, x2 := x2, x3 := x3, x4 := x4, x5 := x5, x6 := x6, x7 := x7, x8 := x8 }
  pure { s with buf := s.buf + 16, buf2 := s.buf2 + 144 }

/-- Main loop of `crc32_iscsi_large_impl`: `while (buf <= limit) { ... }`; `limit` may
lie before the buffer, so it is an integer. -/
def largeLoop (mem : List (Fin 256)) (klen : Nat) (limit : Int) :
    Nat → LargeState → Run LargeState
  | 0, _ => Run.fail
  | fuel + 1, s =>
    if (s.buf : Int) ≤ limit then
      largeBody mem klen s >>= largeLoop mem klen limit fuel
    else pure s

/-- First vector chunk of the block `if (len >= 192)` of `crc32_iscsi_large_impl`: the
loads of `x0 ... x8` and the initial values of the other variables. -/
def largeFirstChunk (mem : List (Fin 256)) (klen : Nat) (c : Cursor) : Run LargeState := do
  let buf2 := c.buf + klen * 3
  let crc1 := 0
  let crc2 := 0
  let x0 ← load128 mem buf2
  let x1 ← load128 mem (buf2 + 16)
  let x2 ← load128 mem (buf2 + 32)
  let x3 ← load128 mem (buf2 + 48)
  let x4 ← load128 mem (buf2 + 64)
  let x5 ← load128 mem (buf2 + 80)
  let x6 ← load128 mem (buf2 + 96)
  let x7 ← load128 mem (buf2 + 112)
  let x8 ← load128 mem (buf2 + 128)
  let buf2 := buf2 + 144
  pure ⟨x0, x1, x2, x3, x4, x5, x6, x7, x8, c.crc0, crc1, crc2, c.buf, buf2⟩

/-- The block `if (len >= 192) { ... }` of `crc32_iscsi_large_impl`. -/
def largeVectorPhase (mem : List (Fin 256)) (c : Cursor) : Run Cursor := do
  let end_ := c.buf + c.len
  let blk := (c.len - 0) / 192
  let klen := blk * 16
  let limit : Int := (c.buf : Int) + klen - 32
  -- First vector chunk.
  let s ← largeFirstChunk mem klen c
  -- Main loop.
  let s ← largeLoop mem klen limit (c.len + 1) s
  -- Reduce x0 ... x8 to just x0.
  let x0 := largeReduce s
  -- Final scalar chunk.
  let s ← largeScalarChunk mem klen s
  let vc0 ← crc_shift s.crc0 (klen * 2 + blk * 144)
  let vc1 ← crc_shift s.crc1 (klen + blk * 144)
  let vc2 ← crc_shift s.crc2 (0 + blk * 144)
  let vc := vgetq_lane_u64 (veor3q_u64 vc0 vc1 vc2) 0
  -- Reduce 128 bits to 32 bits, and multiply by x^32.
  let crc0 := __crc32cd 0 (vgetq_lane_u64 x0 0)
  let crc0 := __crc32cd crc0 (vc ^^^ vgetq_lane_u64 x0 1)
  let buf := s.buf2
  let len := sub64 end_ buf
  pure ⟨crc0, buf, len⟩

/-- The loop `do { ... } while (len >= 32);` of `crc32_iscsi_large_impl`. -/
def tripleLoop (mem : List (Fin 256)) (klen : Nat) : Nat → TripleState → Run TripleState
  | 0, _ => Run.fail
  | fuel + 1, s => do
    let crc0 := __crc32cd s.crc0 (← load64 mem s.buf)
    let crc1 := __crc32cd s.crc1 (← load64 mem (s.buf + klen))
    let crc2 := __crc32cd s.crc2 (← load64 mem (s.buf + klen * 2))
    let s : TripleState := ⟨crc0, crc1, crc2, s.buf + 8, s.len - 24⟩
    if s.len ≥ 32 then tripleLoop mem klen fuel s else pure s

/-- The block `if (len >= 32) { ... }` of `crc32_iscsi_large_impl`. -/
def triplePhase (mem : List (Fin 256)) (c : Cursor) : Run Cursor := do
  let klen := ((c.len - 8) / 24) * 8
  let crc1 := 0
  let crc2 := 0
  -- Main loop.
  let s ← tripleLoop mem klen (c.len + 1) ⟨c.crc0, crc1, crc2, c.buf, c.len⟩
  let vc0 ← crc_shift s.crc0 (klen * 2 + 8)
  let vc1 ← crc_shift s.crc1 (klen + 8)
  let vc := vgetq_lane_u64 (veorq_u64 vc0 vc1) 0
  -- Final 8 bytes.
  let buf := s.buf + klen * 2
  let crc0 := s.crc2
  let crc0 := __crc32cd crc0 ((← load64 mem buf) ^^^ vc)
  let buf := buf + 8
  let len := sub64 s.len 8
  pure ⟨crc0, buf, len⟩

/-- Function `crc32_iscsi_large_impl(uint32_t crc0, const char* buf, size_t len)`; `addr` is the
address `buf` and `mem` the `len` bytes at it. -/
def crc32_iscsi_large_impl (crc0 addr : Nat) (mem : List (Fin 256)) : Run Nat := do
  let crc0 := not32 crc0
  let c ← headLoop addr mem (mem.length + 1) ⟨crc0, 0, mem.length⟩
  let c ← headWord addr mem c
  let c ← if c.len ≥ 192 then largeVectorPhase mem c else pure c
  let c ← if c.len ≥ 32 then triplePhase mem c else pure c
  let c ← tailWords mem (c.len + 1) c
  let c ← tailBytes mem (c.len + 1) c
  pure (not32 c.crc0)

/-- Body of the main loop of `crc32_iscsi_small_impl`. -/
def smallBody (mem : List (Fin 256)) (s : SmallState) : Run SmallState := do
  let k := kvec 0xa87ab8a8 0xab7aff2a
  let y0 := clmul_lo_e s.x0 k (← load128 mem s.buf)
  let x0 := clmul_hi_e s.x0 k y0
  let y1 := clmul_lo_e s.x1 k (← load128 mem (s.buf + 16))
  let x1 := clmul_hi_e s.x1 k y1
  let y2 := clmul_lo_e s.x2 k (← load128 mem (s.buf + 32))
  let x2 := clmul_hi_e s.x2 k y2
  let y3 := clmul_lo_e s.x3 k (← load128 mem (s.buf + 48))
  let x3 := clmul_hi_e s.x3 k y3
  let y4 := clmul_lo_e s.x4 k (← load128 mem (s.buf + 64))
  let x4 := clmul_hi_e s.x4 k y4
  let y5 := clmul_lo_e s.x5 k (← load128 mem (s.buf + 80))
  let x5 := clmul_hi_e s.x5 k y5
  let y6 := clmul_lo_e s.x6 k (← load128 mem (s.buf + 96))
  let x6 := clmul_hi_e s.x6 k y6
  let y7 := clmul_lo_e s.x7 k (← load128 mem (s.buf + 112))
  let x7 := clmul_hi_e s.x7 k y7
  let y8 := clmul_lo_e s.x8 k (← load128 mem (s.buf + 128))
  let x8 := clmul_hi_e s.x8 k y8
  let y9 := clmul_lo_e s.x9 k (← load128 mem (s.buf + 144))
  let x9 := clmul_hi_e s.x9 k y9
  let y10 := clmul_lo_e s.x10 k (← load128 mem (s.buf + 160))
  let x10 := clmul_hi_e s.x10 k y10
  let y11 := clmul_lo_e s.x11 k (← load128 mem (s.buf + 176))
  let x11 := clmul_hi_e s.x11 k y11
  pure ⟨x0, x1, x2, x3, x4, x5, x6, x7, x8, x9, x10, x11, s.buf + 192⟩

/-- Main loop of the 12-lane phase: `while (buf <= limit) { ... }`. -/
def smallLoop (mem : List (Fin 256)) (limit : Nat) : Nat → SmallState → Run SmallState
  | 0, _ => Run.fail
  | fuel + 1, s =>
    if s.buf ≤ limit then smallBody mem s >>= smallLoop mem limit fuel else pure s

/-- First vector chunk of the block `if (len >= 192)` of `crc32_iscsi_small_impl`: the
loads of `x0 ... x11`, the XOR of `crc0` into `x0`, and `buf += 192`. -/
def smallFirstChunk (mem : List (Fin 256)) (c : Cursor) : Run SmallState := do
  let x0 ← load128 mem c.buf
  let x1 ← load128 mem (c.buf + 16)
  let x2 ← load128 mem (c.buf + 32)
  let x3 ← load128 mem (c.buf + 48)
  let x4 ← load128 mem (c.buf + 64)
  let x5 ← load128 mem (c.buf + 80)
  let x6 ← load128 mem (c.buf + 96)
  let x7 ← load128 mem (c.buf + 112)
  let x8 ← load128 mem (c.buf + 128)
  let x9 ← load128 mem (c.buf + 144)
  let x10 ← load128 mem (c.buf + 160)
  let x11 ← load128 mem (c.buf + 176)
  let x0 := veorq_u64 c.crc0 x0
  let buf := c.buf + 192
  pure ⟨x0, x1, x2, x3, x4, x5, x6, x7, x8, x9, x10, x11, buf⟩

/-- The block `if (len >= 192) { ... }` of `crc32_iscsi_small_impl`. -/
def smallVectorPhase (mem : List (Fin 256)) (c : Cursor) : Run Cursor := do
  let end_ := c.buf + c.len
  let limit := c.buf + c.len - 192
  -- First vector chunk.
  let s ← smallFirstChunk mem c
  -- Main loop.
  let s ← smallLoop mem limit (c.len + 1) s
  -- Reduce x0 ... x11 to just x0.
  let x0 := smallReduce s
  -- Reduce 128 bits to 32 bits, and multiply by x^32.
  let crc0 := __crc32cd 0 (vgetq_lane_u64 x0 0)
  let crc0 := __crc32cd crc0 (vgetq_lane_u64 x0 1)
  let len := sub64 end_ s.buf
  pure ⟨crc0, s.buf, len⟩

/-- Main loop of the single-register phase: `while (len >= 16) { ... }`. -/
def singleLoop (mem : List (Fin 256)) (k : Nat) : Nat → SingleState → Run SingleState
  | 0, _ => Run.fail
  | fuel + 1, s =>
    if s.len ≥ 16 then do
      let y0 := clmul_lo_e s.x0 k (← load128 mem s.buf)
      let x0 := clmul_hi_e s.x0 k y0
      singleLoop mem k fuel ⟨x0, s.buf + 16, s.len - 16⟩
    else pure s

/-- The block `if (len >= 16) { ... }` of `crc32_iscsi_small_impl`. -/
def singlePhase (mem : List (Fin 256)) (c : Cursor) : Run Cursor := do
  -- First vector chunk.
  let x0 ← load128 mem c.buf
  let k := kvec 0xf20c0dfe 0x493c7d27
  let x0 := veorq_u64 c.crc0 x0
  let buf := c.buf + 16
  let len := c.len - 16
  -- Main loop.
  let s ← singleLoop mem k (len + 1) ⟨x0, buf, len⟩
  -- Reduce 128 bits to 32 bits, and multiply by x^32.
  let crc0 := __crc32cd 0 (vgetq_lane_u64 s.x0 0)
  let crc0 := __crc32cd crc0 (vgetq_lane_u64 s.x0 1)
  pure ⟨crc0, s.buf, s.len⟩

/-- Function `crc32_iscsi_small_impl(uint32_t crc0, const char* buf, size_t len)`; `addr` is the
address `buf` and `mem` the `len` bytes at it. -/
def crc32_iscsi_small_impl (crc0 addr : Nat) (mem : List (Fin 256)) : Run Nat := do
  let crc0 := not32 crc0
  let c ← headLoop addr mem (mem.length + 1) ⟨crc0, 0, mem.length⟩
  let c ← headWord addr mem c
  let c ← if c.len ≥ 192 then smallVectorPhase mem c else pure c
  let c ← if c.len ≥ 16 then singlePhase mem c else pure c
  let c ← tailWords mem (c.len + 1) c
  let c ← tailBytes mem (c.len + 1) c
  pure (not32 c.crc0)

/-- Function `crc32_iscsi_impl(uint32_t crc0, const char* buf, size_t len)` of the AArch64
back-end. -/
def crc32_iscsi_impl (crc0 addr : Nat) (mem : List (Fin 256)) : Run Nat :=
  if mem.length ≤ LARGE_BUFFER_THRESHOLD then
    crc32_iscsi_small_impl crc0 addr mem
  else
    crc32_iscsi_large_impl crc0 addr mem

end Neon

/-- The run `m` has, on every trace, the result `v` once its trace is dropped. -/
def Run.Erases {α : Type} (m : Run α) (v : Option α) : Prop :=
  ∀ t, (m t).map Prod.fst = v

end Traced

/-! ## Load logs

The loads of a traced run depend on the address and the length of the buffer only, not on
its contents. The functions below compute them without the data: they follow the control
flow of the engines and keep the log of the loads, the offset and the width in bytes of
each, in program order. The proofs show that the loads in the trace of a traced engine are
this log, and count on the log how often each byte is read. -/

/-- Read pointer, remaining length and the loads performed so far (offset, width), oldest
first. -/
structure LogCursor where
  buf : Nat
  len : Nat
  log : List (Nat × Nat)

/-- Loads of the loop `for (; len && ((uintptr_t)buf & 7); --len) crc0 = crc32c_u8(crc0, *buf++);` -/
def headLoopLog (addr : Nat) : Nat → LogCursor → Option LogCursor
  | 0, _ => none
  | fuel + 1, s =>
    if s.len ≠ 0 ∧ (addr + s.buf) &&& 7 ≠ 0 then
      headLoopLog addr fuel ⟨s.buf + 1, s.len - 1, s.log ++ [(s.buf, 1)]⟩
    else some s

/-- Loads of the statement `if (((uintptr_t)buf & 8) && len >= 8) { crc0 = crc32c_u64(crc0,
*(const uint64_t*)buf); buf += 8; len -= 8; }` -/
def headWordLog (addr : Nat) (s : LogCursor) : LogCursor :=
  if (addr + s.buf) &&& 8 ≠ 0 ∧ s.len ≥ 8 then ⟨s.buf + 8, s.len - 8, s.log ++ [(s.buf, 8)]⟩
  else s

/-- Loads of the loop `for (; len >= 8; buf += 8, len -= 8) crc0 = crc32c_u64(crc0, *(const uint64_t*)buf);` -/
def tailWordsLog : Nat → LogCursor → Option LogCursor
  | 0, _ => none
  | fuel + 1, s =>
    if s.len ≥ 8 then tailWordsLog fuel ⟨s.buf + 8, s.len - 8, s.log ++ [(s.buf, 8)]⟩
    else some s

/-- Loads of the loop `for (; len; --len) crc0 = crc32c_u8(crc0, *buf++);` -/
def tailBytesLog : Nat → LogCursor → Option LogCursor
  | 0, _ => none
  | fuel + 1, s =>
    if s.len ≠ 0 then tailBytesLog fuel ⟨s.buf + 1, s.len - 1, s.log ++ [(s.buf, 1)]⟩
    else some s

namespace X86

/-- Pointers, remaining length and load log of the interleaved phase of `crc32_iscsi_impl`. -/
structure VecLog where
  buf : Nat
  buf2 : Nat
  len : Nat
  log : List (Nat × Nat)

/-- Loads of the nine CRC steps on the three scalar streams. -/
def scalarChunkLog (klen : Nat) (s : VecLog) : VecLog :=
  { s with log := s.log ++
      [(s.buf, 8), (s.buf + klen, 8), (s.buf + klen * 2, 8),
       (s.buf + 8, 8), (s.buf + klen + 8, 8), (s.buf + klen * 2 + 8, 8),
       (s.buf + 16, 8), (s.buf + klen + 16, 8), (s.buf + klen * 2 + 16, 8)] }

/-- Loads of the body of the main loop of `crc32_iscsi_impl`. -/
def mainBodyLog (klen : Nat) (s : VecLog) : VecLog :=
  let s := { s with log := s.log ++
      [(s.buf2, 16), (s.buf2 + 16, 16), (s.buf2 + 32, 16), (s.buf2 + 48, 16)] }
  let s := scalarChunkLog klen s
  { s with buf := s.buf + 24, buf2 := s.buf2 + 64, len := s.len - 136 }

/-- Loads of the main loop of `crc32_iscsi_impl`: `while (len >= 144) { ... }`. -/
def mainLoopLog (klen : Nat) : Nat → VecLog → Option VecLog
  | 0, _ => none
  | fuel + 1, s => if s.len ≥ 144 then mainLoopLog klen fuel (mainBodyLog klen s) else some s

/-- Loads of the block `if (len >= 144) { ... }` of `crc32_iscsi_impl`. -/
def vectorPhaseLog (c : LogCursor) : Option LogCursor := do
  let blk := (c.len - 8) / 136
  let klen := blk * 24
  let buf2 := c.buf + 0
  -- First vector chunk.
  let log := c.log ++ [(buf2, 16), (buf2 + 16, 16), (buf2 + 32, 16), (buf2 + 48, 16)]
  let buf2 := buf2 + 64
  let len := c.len - 136
  let buf := c.buf + blk * 64
  -- Main loop.
  let s ← mainLoopLog klen (len + 1) ⟨buf, buf2, len, log⟩
  -- Final scalar chunk.
  let s := scalarChunkLog klen s
  let buf := s.buf + 24
  -- Final 8 bytes.
  let buf := buf + klen * 2
  let log := s.log ++ [(buf, 8)]
  let buf := buf + 8
  let len := sub64 s.len 8
  pure ⟨buf, len, log⟩

/-- Loads of `crc32_iscsi_impl(crc0, buf, len)` of the x86 back-end, `addr` being the
address `buf`. -/
def loadLog (addr len : Nat) : Option (List (Nat × Nat)) := do
  let c ← headLoopLog addr (len + 1) ⟨0, len, []⟩
  let c := headWordLog addr c
  let c ← if c.len ≥ 144 then vectorPhaseLog c else some c
  let c ← tailWordsLog (c.len + 1) c
  let c ← tailBytesLog (c.len + 1) c
  pure c.log

end X86

namespace Neon

/-- Pointers and load log of the interleaved phase of `crc32_iscsi_large_impl`. -/
structure LargeLog where
  buf : Nat
  buf2 : Nat
  log : List (Nat × Nat)

/-- Loads of the six CRC steps on the three scalar streams. -/
def largeScalarChunkLog (klen : Nat) (s : LargeLog) : LargeLog :=
  { s with log := s.log ++
      [(s.buf, 8), (s.buf + klen, 8), (s.buf + klen * 2, 8),
       (s.buf + 8, 8), (s.buf + klen + 8, 8), (s.buf + klen * 2 + 8, 8)] }

/-- Loads of the body of the main loop of `crc32_iscsi_large_impl`. -/
def largeBodyLog (klen : Nat) (s : LargeLog) : LargeLog :=
  let s := { s with log := s.log ++
      [(s.buf2, 16), (s.buf2 + 16, 16), (s.buf2 + 32, 16), (s.buf2 + 48, 16),
       (s.buf2 + 64, 16), (s.buf2 + 80, 16), (s.buf2 + 96, 16), (s.buf2 + 112, 16),
       (s.buf2 + 128, 16)] }
  let s := largeScalarChunkLog klen s
  { s with buf := s.buf + 16, buf2 := s.buf2 + 144 }

/-- Loads of the main loop of `crc32_iscsi_large_impl`: `while (buf <= limit) { ... }`. -/
def largeLoopLog (klen : Nat) (limit : Int) : Nat → LargeLog → Option LargeLog
  | 0, _ => none
  | fuel + 1, s =>
    if (s.buf : Int) ≤ limit then largeLoopLog klen limit fuel (largeBodyLog klen s) else some s

/-- Loads of the block `if (len >= 192) { ... }` of `crc32_iscsi_large_impl`. -/
def largeVectorPhaseLog (c : LogCursor) : Option LogCursor := do
  let end_ := c.buf + c.len
  let blk := (c.len - 0) / 192
  let klen := blk * 16
  let buf2 := c.buf + klen * 3
  let limit : Int := (c.buf : Int) + klen - 32
  -- First vector chunk.
  let log := c.log ++
    [(buf2, 16), (buf2 + 16, 16), (buf2 + 32, 16), (buf2 + 48, 16), (buf2 + 64, 16),
     (buf2 + 80, 16), (buf2 + 96, 16), (buf2 + 112, 16), (buf2 + 128, 16)]
  let buf2 := buf2 + 144
  -- Main loop.
  let s ← largeLoopLog klen limit (c.len + 1) ⟨c.buf, buf2, log⟩
  -- Final scalar chunk.
  let s := largeScalarChunkLog klen s
  let buf := s.buf2
  let len := sub64 end_ buf
  pure ⟨buf, len, s.log⟩

/-- Loads of the loop `do { ... } while (len >= 32);` of `crc32_iscsi_large_impl`. -/
def tripleLoopLog (klen : Nat) : Nat → LogCursor → Option LogCursor
  | 0, _ => none
  | fuel + 1, s =>
    let s : LogCursor :=
      ⟨s.buf + 8, s.len - 24, s.log ++ [(s.buf, 8), (s.buf + klen, 8), (s.buf + klen * 2, 8)]⟩
    if s.len ≥ 32 then tripleLoopLog klen fuel s else some s

/-- Loads of the block `if (len >= 32) { ... }` of `crc32_iscsi_large_impl`. -/
def triplePhaseLog (c : LogCursor) : Option LogCursor := do
  let klen := ((c.len - 8) / 24) * 8
  -- Main loop.
  let s ← tripleLoopLog klen (c.len + 1) c
  -- Final 8 bytes.
  let buf := s.buf + klen * 2
  let log := s.log ++ [(buf, 8)]
  let buf := buf + 8
  let len := sub64 s.len 8
  pure ⟨buf, len, log⟩

/-- Loads of `crc32_iscsi_large_impl(crc0, buf, len)`, `addr` being the address `buf`. -/
def largeLoadLog (addr len : Nat) : Option (List (Nat × Nat)) := do
  let c ← headLoopLog addr (len + 1) ⟨0, len, []⟩
  let c := headWordLog addr c
  let c ← if c.len ≥ 192 then largeVectorPhaseLog c else some c
  let c ← if c.len ≥ 32 then triplePhaseLog c else some c
  let c ← tailWordsLog (c.len + 1) c
  let c ← tailBytesLog (c.len + 1) c
  pure c.log

/-- Read pointer and load log of the 12-lane phase of `crc32_iscsi_small_impl`. -/
structure SmallLog where
  buf : Nat
  log : List (Nat × Nat)

/-- Loads of the body of the main loop of `crc32_iscsi_small_impl`. -/
def smallBodyLog (s : SmallLog) : SmallLog :=
  ⟨s.buf + 192, s.log ++
    [(s.buf, 16), (s.buf + 16, 16), (s.buf + 32, 16), (s.buf + 48, 16), (s.buf + 64, 16),
     (s.buf + 80, 16), (s.buf + 96, 16), (s.buf + 112, 16), (s.buf + 128, 16),
     (s.buf + 144, 16), (s.buf + 160, 16), (s.buf + 176, 16)]⟩

/-- Loads of the main loop of the 12-lane phase: `while (buf <= limit) { ... }`. -/
def smallLoopLog (limit : Nat) : Nat → SmallLog → Option SmallLog
  | 0, _ => none
  | fuel + 1, s => if s.buf ≤ limit then smallLoopLog limit fuel (smallBodyLog s) else some s

/-- Loads of the block `if (len >= 192) { ... }` of `crc32_iscsi_small_impl`. -/
def smallVectorPhaseLog (c : LogCursor) : Option LogCursor := do
  let end_ := c.buf + c.len
  let limit := c.buf + c.len - 192
  -- First vector chunk.
  let log := c.log ++
    [(c.buf, 16), (c.buf + 16, 16), (c.buf + 32, 16), (c.buf + 48, 16), (c.buf + 64, 16),
     (c.buf + 80, 16), (c.buf + 96, 16), (c.buf + 112, 16), (c.buf + 128, 16),
     (c.buf + 144, 16), (c.buf + 160, 16), (c.buf + 176, 16)]
  let buf := c.buf + 192
  -- Main loop.
  let s ← smallLoopLog limit (c.len + 1) ⟨buf, log⟩
  let len := sub64 end_ s.buf
  pure ⟨s.buf, len, s.log⟩

/-- Loads of the main loop of the single-register phase: `while (len >= 16) { ... }`. -/
def singleLoopLog : Nat → LogCursor → Option LogCursor
  | 0, _ => none
  | fuel + 1, s =>
    if s.len ≥ 16 then singleLoopLog fuel ⟨s.buf + 16, s.len - 16, s.log ++ [(s.buf, 16)]⟩
    else some s

/-- Loads of the block `if (len >= 16) { ... }` of `crc32_iscsi_small_impl`. -/
def singlePhaseLog (c : LogCursor) : Option LogCursor :=
  -- First vector chunk.
  let log := c.log ++ [(c.buf, 16)]
  let buf := c.buf + 16
  let len := c.len - 16
  -- Main loop.
  singleLoopLog (len + 1) ⟨buf, len, log⟩

/-- Loads of `crc32_iscsi_small_impl(crc0, buf, len)`, `addr` being the address `buf`. -/
def smallLoadLog (addr len : Nat) : Option (List (Nat × Nat)) := do
  let c ← headLoopLog addr (len + 1) ⟨0, len, []⟩
  let c := headWordLog addr c
  let c ← if c.len ≥ 192 then smallVectorPhaseLog c else some c
  let c ← if c.len ≥ 16 then singlePhaseLog c else some c
  let c ← tailWordsLog (c.len + 1) c
  let c ← tailBytesLog (c.len + 1) c
  pure c.log

end Neon

/-- Indicator of the byte range `[a, a + n)`: 1 at an offset inside it, 0 elsewhere. -/
def cover (a n off : Nat) : Nat := if a ≤ off ∧ off < a + n then 1 else 0

/-- Number of loads of the log that read the byte at offset `off`. -/
def readCount (log : List (Nat × Nat)) (off : Nat) : Nat :=
  (log.map fun l => cover l.1 l.2 off).sum

/-- The log cursor `c'` is `c` after loads that read each of the next `n` bytes exactly once
and nothing else. -/
def LogCursor.Adv (c c' : LogCursor) : Prop :=
  ∃ n l, n ≤ c.len ∧ c'.buf = c.buf + n ∧ c'.len = c.len - n ∧ c'.log = c.log ++ l ∧
    ∀ off, readCount l off = cover c.buf n off

/-- The `k` loads of `w` bytes each at `a`, `a + w`, `a + 2 w`, ... -/
def blockLoads (a w k : Nat) : List (Nat × Nat) := (List.range k).map fun i => (a + w * i, w)

/-- The 64-bit loads of three interleaved streams `k` words long that start at `a`, `a + klen`
and `a + klen * 2`: word `i` of each stream in turn. -/
def streamLoads (a klen k : Nat) : List (Nat × Nat) :=
  (List.range k).flatMap fun i => [(a + 8 * i, 8), (a + klen + 8 * i, 8), (a + klen * 2 + 8 * i, 8)]

/-- The 128-bit loads of a log, in order. -/
def wideLoads (log : List (Nat × Nat)) : List (Nat × Nat) := log.filter fun l => l.2 == 16

/-- The other loads of a log, in order. -/
def narrowLoads (log : List (Nat × Nat)) : List (Nat × Nat) := log.filter fun l => !(l.2 == 16)

/-! ## x86 back-end on a 32-bit host

The branch `#else` of `#if defined(__x86_64__) || defined(_M_X64)` in
`crc32_iscsi_sse_v4s3x3.c`, and the functions that call it. On such a host `size_t` and
`uintptr_t` have 32 bits, `uint64_t` still has 64. -/

namespace X86

/-- Intrinsic `_mm_cvtsi64_si128`: the 64-bit value in the low lane, zero above. -/
def _mm_cvtsi64_si128 (a : Nat) : Nat := a % 2 ^ 64

/-- Intrinsic `_mm_slli_si128`: shift left by `n` bytes, inside 128 bits. -/
def _mm_slli_si128 (v n : Nat) : Nat := (v <<< (8 * n)) % 2 ^ 128

/-- Intrinsic `_mm_or_si128`. -/
def _mm_or_si128 (a b : Nat) : Nat := a ||| b

/-- Intrinsic `_mm_cvtsi128_si32`: the low 32 bits. -/
def _mm_cvtsi128_si32 (v : Nat) : Nat := v % 2 ^ 32

/-- Intrinsic `_mm_extract_epi32`: the 32-bit element `idx`. -/
def _mm_extract_epi32 (v idx : Nat) : Nat := (v >>> (32 * idx)) % 2 ^ 32

/-- Function `mm_cvtsi64_si128` of the 64-bit host. -/
def mm_cvtsi64_si128 (val : Nat) : Nat := _mm_cvtsi64_si128 val

namespace Host32

/-- C subtraction on a 32-bit `size_t`, wrapping modulo `2 ^ 32`. -/
def sub32 (a b : Nat) : Nat := (a + 2 ^ 32 - b % 2 ^ 32) % 2 ^ 32

/-- Function `mm_cvtsi64_si128` of the 32-bit host. -/
def mm_cvtsi64_si128 (val : Nat) : Nat :=
  let result := _mm_cvtsi32_si128 (val % 2 ^ 32)
  let temp := _mm_cvtsi32_si128 ((val >>> 32) % 2 ^ 32)
  let temp := _mm_slli_si128 temp 4
  _mm_or_si128 result temp

/-- Function `mm_cvtsi128_si64` of the 32-bit host. -/
def mm_cvtsi128_si64 (val : Nat) : Nat :=
  let low := _mm_cvtsi128_si32 val
  let high := _mm_extract_epi32 val 1
  ((high <<< 32) % 2 ^ 64) ||| low

/-- Function `mm_extract_epi64` of the 32-bit host. -/
def mm_extract_epi64 (val idx : Nat) : Nat :=
  let low := if idx = 0 then _mm_cvtsi128_si32 val else _mm_extract_epi32 val 2
  let high := if idx = 0 then _mm_extract_epi32 val 1 else _mm_extract_epi32 val 3
  ((high <<< 32) % 2 ^ 64) ||| low

/-- Function `mm_crc32_u64` of the 32-bit host: two 32-bit steps, low half first. -/
def mm_crc32_u64 (crc val : Nat) : Nat :=
  let crc := _mm_crc32_u32 crc (val % 2 ^ 32)
  _mm_crc32_u32 crc ((val >>> 32) % 2 ^ 32)

/-- The squaring step inside `xnmodp`, with the shim of the 32-bit host. -/
def xnmodpSq (acc : Nat) : Nat :=
  let x := _mm_cvtsi32_si128 acc
  mm_cvtsi128_si64 (_mm_clmulepi64_si128 x x 0)

/-- The squaring loop of `xnmodp`, with the shims of the 32-bit host:
`while ((low = stack & 1), stack >>= 1) { ...; acc = mm_crc32_u64(0, y << low); }` -/
def xnmodpPop : Nat → Nat → Nat → Option Nat
  | 0, _, _ => none
  | fuel + 1, stack, acc =>
    let low := stack &&& 1
    let stack := stack >>> 1
    if stack ≠ 0 then
      let y := xnmodpSq acc
      xnmodpPop fuel stack (mm_crc32_u64 0 ((y <<< low) % 2 ^ 64))
    else some acc

/-- Function `xnmodp(uint64_t n)` on the 32-bit host. -/
def xnmodp (n : Nat) : Option Nat :=
  (xnmodpPush 64 n (not64 1)).bind fun (n, stack) =>
    let stack := not64 stack
    let acc := 0x80000000 >>> (n &&& 31)
    let acc := xnmodpWords (n >>> 5) acc
    xnmodpPop 64 stack acc

/-- Function `crc_shift(uint32_t crc, size_t nbytes)` on the 32-bit host; `nbytes * 8 - 33` is
computed in the 32-bit `size_t` and then widened to the `uint64_t` parameter of `xnmodp`. -/
def crc_shift (crc nbytes : Nat) : Option Nat :=
  (xnmodp ((nbytes * 8 + (2 ^ 32 - 33)) % 2 ^ 32)).map fun p => clmul_scalar crc p

/-- Statement `if (((uintptr_t)buf & 8) && len >= 8) { crc0 = mm_crc32_u64(crc0, *(const uint64_t*)buf);
buf += 8; len -= 8; }` on the 32-bit host. -/
def headWord (addr : Nat) (mem : List (Fin 256)) (s : Cursor) : Option Cursor :=
  if (addr + s.buf) &&& 8 ≠ 0 ∧ s.len ≥ 8 then
    (load64 mem s.buf).bind fun w => some ⟨mm_crc32_u64 s.crc0 w, s.buf + 8, s.len - 8⟩
  else some s

/-- Loop `for (; len >= 8; buf += 8, len -= 8) crc0 = mm_crc32_u64(crc0, *(const uint64_t*)buf);`
on the 32-bit host. -/
def tailWords (mem : List (Fin 256)) : Nat → Cursor → Option Cursor
  | 0, _ => none
  | fuel + 1, s =>
    if s.len ≥ 8 then
      (load64 mem s.buf).bind fun w =>
        tailWords mem fuel ⟨mm_crc32_u64 s.crc0 w, s.buf + 8, s.len - 8⟩
    else some s

/-- The nine CRC steps on the three scalar streams, on the 32-bit host. -/
def scalarChunk (mem : List (Fin 256)) (klen : Nat) (s : VecState) : Option VecState := do
  let crc0 := mm_crc32_u64 s.crc0 (← load64 mem s.buf)
  let crc1 := mm_crc32_u64 s.crc1 (← load64 mem (s.buf + klen))
  let crc2 := mm_crc32_u64 s.crc2 (← load64 mem (s.buf + klen * 2))
  let crc0 := mm_crc32_u64 crc0 (← load64 mem (s.buf + 8))
  let crc1 := mm_crc32_u64 crc1 (← load64 mem (s.buf + klen + 8))
  let crc2 := mm_crc32_u64 crc2 (← load64 mem (s.buf + klen * 2 + 8))
  let crc0 := mm_crc32_u64 crc0 (← load64 mem (s.buf + 16))
  let crc1 := mm_crc32_u64 crc1 (← load64 mem (s.buf + klen + 16))
  let crc2 := mm_crc32_u64 crc2 (← load64 mem (s.buf + klen * 2 + 16))
  pure { s with crc0 := crc0, crc1 := crc1, crc2 := crc2 }

/-- Body of the main loop of `crc32_iscsi_impl`, on the 32-bit host. -/
def mainBody (mem : List (Fin 256)) (klen : Nat) (s : VecState) : Option VecState := do
  let k := _mm_setr_epi32 0x740eef02 0 0x9e4addf8 0
  let y0 := clmul_lo s.x0 k
  let x0 := clmul_hi s.x0 k
  let y1 := clmul_lo s.x1 k
  let x1 := clmul_hi s.x1 k
  let y2 := clmul_lo s.x2 k
  let x2 := clmul_hi s.x2 k
  let y3 := clmul_lo s.x3 k
  let x3 := clmul_hi s.x3 k
  let y0 := _mm_xor_si128 y0 (← load128 mem s.buf2)
  let x0 := _mm_xor_si128 x0 y0
  let y1 := _mm_xor_si128 y1 (← load128 mem (s.buf2 + 16))
  let x1 := _mm_xor_si128 x1 y1
  let y2 := _mm_xor_si128 y2 (← load128 mem (s.buf2 + 32))
  let x2 := _mm_xor_si128 x2 y2
  let y3 := _mm_xor_si128 y3 (← load128 mem (s.buf2 + 48))
  let x3 := _mm_xor_si128 x3 y3
  let s ← scalarChunk mem klen { s with x0 := x0, x1 := x1, x2 := x2, x3 := x3 }
  pure { s with buf := s.buf + 24, buf2 := s.buf2 + 64, len := s.len - 136 }

/-- Main loop of `crc32_iscsi_impl`, on the 32-bit host: `while (len >= 144) { ... }`. -/
def mainLoop (mem : List (Fin 256)) (klen : Nat) : Nat → VecState → Option VecState
  | 0, _ => none
  | fuel + 1, s =>
    if s.len ≥ 144 then (mainBody mem klen s).bind (mainLoop mem klen fuel) else some s

/-- The block `if (len >= 144) { ... }` of `crc32_iscsi_impl`, on the 32-bit host. -/
def vectorPhase (mem : List (Fin 256)) (c : Cursor) : Option Cursor := do
  let blk := (c.len - 8) / 136
  let klen := blk * 24
  -- First vector chunk.
  let s ← firstChunk mem blk c
  -- Main loop.
  let s ← mainLoop mem klen (s.len + 1) s
  -- Reduce x0 ... x3 to just x0.
  let x0 := reduceLanes s
  -- Final scalar chunk.
  let s ← scalarChunk mem klen s
  let buf := s.buf + 24
  let vc0 ← crc_shift s.crc0 (klen * 2 + 8)
  let vc1 ← crc_shift s.crc1 (klen + 8)
  let vc := mm_extract_epi64 (_mm_xor_si128 vc0 vc1) 0
  -- Reduce 128 bits to 32 bits, and multiply by x^32.
  let x0_low := mm_extract_epi64 x0 0
  let x0_high := mm_extract_epi64 x0 1
  let x0_combined :=
    mm_extract_epi64
      (← crc_shift (mm_crc32_u64 (mm_crc32_u64 0 x0_low) x0_high) (klen * 3 + 8)) 0
  let vc := vc ^^^ x0_combined
  -- Final 8 bytes.
  let buf := buf + klen * 2
  let crc0 := s.crc2
  let crc0 := mm_crc32_u64 crc0 ((← load64 mem buf) ^^^ vc)
  let buf := buf + 8
  let len := sub32 s.len 8
  pure ⟨crc0, buf, len⟩

/-- Function `crc32_iscsi_impl(uint32_t crc0, const char* buf, size_t len)` of the x86 back-end
on the 32-bit host; `addr` is the address `buf` and `mem` the `len` bytes at it. -/
def crc32_iscsi_impl (crc0 addr : Nat) (mem : List (Fin 256)) : Option Nat := do
  let crc0 := not32 crc0
  let c ← headLoop addr mem (mem.length + 1) ⟨crc0, 0, mem.length⟩
  let c ← headWord addr mem c
  let c ← if c.len ≥ 144 then vectorPhase mem c else some c
  let c ← tailWords mem (c.len + 1) c
  let c ← tailBytes mem (c.len + 1) c
  pure (not32 c.crc0)

end Host32

end X86

/-- Number of message bits by which `crc_shift` of the 32-bit host advances a state: the
exponent it passes to `xnmodp`, plus 33. -/
def shiftBits32 (nbytes : Nat) : Nat := (nbytes * 8 + (2 ^ 32 - 33)) % 2 ^ 32 + 33

/-! ## Theorems -/

theorem testBit_of_gt (v i : Nat) (h : v < i) : v.testBit i = false :=
  Nat.testBit_eq_false_of_lt (lt_trans h (Nat.lt_two_pow i))

theorem coeff_natPoly (v j : Nat) :
    (natPoly v).coeff j = if v.testBit j then 1 else 0 := by
  unfold natPoly
  rw [Polynomial.finset_sum_coeff]
  by_cases hj : j < v + 1
  · rw [Finset.sum_eq_single j]
    · by_cases hb : v.testBit j <;> simp [hb]
    · intro i _ hij
      by_cases hb : v.testBit i <;> simp [hb, Polynomial.coeff_X_pow, Ne.symm hij]
    · intro h
      exact absurd (Finset.mem_range.mpr hj) h
  · have hb : v.testBit j = false := testBit_of_gt v j (by omega)
    rw [hb]
    simp only [Bool.false_eq_true, if_false]
    apply Finset.sum_eq_zero
    intro i hi
    have : i ≠ j := by
      have := Finset.mem_range.mp hi
      omega
    by_cases hb : v.testBit i <;> simp [hb, Polynomial.coeff_X_pow, Ne.symm this]

theorem natPoly_inj {a b : Nat} (h : natPoly a = natPoly b) : a = b := by
  apply Nat.eq_of_testBit_eq
  intro i
  have := congrArg (fun p => p.coeff i) h
  simp only [coeff_natPoly] at this
  by_cases ha : a.testBit i <;> by_cases hb : b.testBit i <;> simp_all

theorem natPoly_zero : natPoly 0 = 0 := by
  ext j; simp [coeff_natPoly]

theorem natPoly_xor (a b : Nat) : natPoly (a ^^^ b) = natPoly a + natPoly b := by
  ext j
  simp only [coeff_natPoly, coeff_add, Nat.testBit_xor]
  by_cases ha : a.testBit j <;> by_cases hb : b.testBit j <;> simp [ha, hb]
  decide

theorem natPoly_two_pow_mul_add (k a b : Nat) (hb : b < 2 ^ k) :
    natPoly (2 ^ k * a + b) = X ^ k * natPoly a + natPoly b := by
  ext j
  simp only [coeff_natPoly, coeff_add, Polynomial.coeff_X_pow_mul', Nat.testBit_mul_pow_two_add a hb]
  by_cases hj : j < k
  · have h1 : ¬ k ≤ j := by omega
    simp [hj, h1]
  · have h1 : k ≤ j := by omega
    have h2 : b.testBit j = false :=
      Nat.testBit_eq_false_of_lt (lt_of_lt_of_le hb (Nat.pow_le_pow_right (by decide) h1))
    simp [hj, h1, h2]

theorem natPoly_two_pow_mul (k a : Nat) : natPoly (2 ^ k * a) = X ^ k * natPoly a := by
  have := natPoly_two_pow_mul_add k a 0 (Nat.two_pow_pos k)
  simpa [natPoly_zero] using this

theorem natPoly_shiftLeft (a k : Nat) : natPoly (a <<< k) = X ^ k * natPoly a := by
  rw [Nat.shiftLeft_eq, Nat.mul_comm, natPoly_two_pow_mul]

theorem natPoly_split (v k : Nat) :
    natPoly v = X ^ k * natPoly (v / 2 ^ k) + natPoly (v % 2 ^ k) := by
  conv_lhs => rw [← Nat.div_add_mod v (2 ^ k)]
  exact natPoly_two_pow_mul_add k _ _ (Nat.mod_lt _ (Nat.two_pow_pos k))

theorem natPoly_one : natPoly 1 = 1 := by
  ext j
  rw [coeff_natPoly, Polynomial.coeff_one]
  rcases j with _ | j
  · simp
  · have : Nat.testBit 1 (j + 1) = false :=
      Nat.testBit_eq_false_of_lt (Nat.one_lt_two_pow (by omega))
    simp [this]

theorem natPoly_two_pow (k : Nat) : natPoly (2 ^ k) = X ^ k := by
  have := natPoly_two_pow_mul k 1
  simpa [natPoly_one] using this

theorem natPoly_mod_two (v : Nat) :
    natPoly (v % 2) = if v % 2 = 1 then 1 else 0 := by
  rcases Nat.mod_two_eq_zero_or_one v with h | h <;> simp [h, natPoly_zero, natPoly_one]

theorem degree_natPoly_lt {v n : Nat} (h : v < 2 ^ n) : (natPoly v).degree < n := by
  rw [Polynomial.degree_lt_iff_coeff_zero]
  intro m hm
  rw [coeff_natPoly, Nat.testBit_eq_false_of_lt (lt_of_lt_of_le h (Nat.pow_le_pow_right (by decide) hm))]
  simp

theorem natPoly_clmulBits (a b n : Nat) :
    natPoly (clmulBits a b n) = natPoly a * natPoly (b % 2 ^ n) := by
  induction n with
  | zero => simp [clmulBits, Nat.mod_one, natPoly_zero]
  | succ n ih =>
    have hsplit : natPoly (b % 2 ^ (n + 1)) =
        X ^ n * natPoly (b % 2 ^ (n + 1) / 2 ^ n) + natPoly (b % 2 ^ n) := by
      rw [natPoly_split (b % 2 ^ (n + 1)) n]
      congr 2
      rw [Nat.mod_mod_of_dvd _ (pow_dvd_pow 2 (Nat.le_succ n))]
    have hbit : b % 2 ^ (n + 1) / 2 ^ n = if b.testBit n then 1 else 0 := by
      rw [Nat.testBit_to_div_mod]
      rw [Nat.mod_pow_succ]
      rw [Nat.add_mul_div_left _ _ (Nat.two_pow_pos n), Nat.div_eq_of_lt (Nat.mod_lt _ (Nat.two_pow_pos n))]
      rcases Nat.mod_two_eq_zero_or_one (b / 2 ^ n) with h | h <;> simp [h]
    rw [clmulBits, natPoly_xor, ih, hsplit, hbit]
    by_cases hb : b.testBit n
    · simp [hb, natPoly_shiftLeft, natPoly_one]; ring
    · simp [hb, natPoly_zero]

theorem two_eq_zero : (2 : CrcRing) = 0 := by
  have h : (2 : ZMod 2) = 0 := by decide
  have := congrArg (algebraMap (ZMod 2) CrcRing) h
  simpa using this

theorem add_self (a : CrcRing) : a + a = 0 := by
  linear_combination a * two_eq_zero

theorem genPoly_eq : genPoly = X ^ 32 + natPoly 0x1EDC6F41 := by
  have h : (0x11EDC6F41 : Nat) = 2 ^ 32 * 1 + 0x1EDC6F41 := by norm_num
  unfold genPoly
  rw [h, natPoly_two_pow_mul_add _ _ _ (by norm_num), natPoly_one, mul_one]

theorem genPoly_explicit :
    genPoly = X ^ 32 + X ^ 28 + X ^ 27 + X ^ 26 + X ^ 25 + X ^ 23 + X ^ 22 + X ^ 20 + X ^ 19
      + X ^ 18 + X ^ 14 + X ^ 13 + X ^ 11 + X ^ 10 + X ^ 9 + X ^ 8 + X ^ 6 + 1 := by
  have h : (0x11EDC6F41 : Nat) = 2 ^ 32 ^^^ 2 ^ 28 ^^^ 2 ^ 27 ^^^ 2 ^ 26 ^^^ 2 ^ 25 ^^^ 2 ^ 23
      ^^^ 2 ^ 22 ^^^ 2 ^ 20 ^^^ 2 ^ 19 ^^^ 2 ^ 18 ^^^ 2 ^ 14 ^^^ 2 ^ 13 ^^^ 2 ^ 11 ^^^ 2 ^ 10
      ^^^ 2 ^ 9 ^^^ 2 ^ 8 ^^^ 2 ^ 6 ^^^ 1 := by decide
  unfold genPoly
  rw [h]
  simp only [natPoly_xor, natPoly_two_pow, natPoly_one]

theorem genPoly_monic : genPoly.Monic := by
  rw [genPoly_eq]
  exact monic_X_pow_add (degree_natPoly_lt (by norm_num))

theorem genPoly_degree : genPoly.degree = 32 := by
  have h : (natPoly 0x1EDC6F41).degree < ((X : (ZMod 2)[X]) ^ 32).degree := by
    rw [Polynomial.degree_X_pow]
    exact degree_natPoly_lt (by norm_num)
  rw [genPoly_eq, add_comm, Polynomial.degree_add_eq_right_of_degree_lt h, Polynomial.degree_X_pow]
  rfl

theorem mk_genPoly : AdjoinRoot.mk genPoly genPoly = 0 := AdjoinRoot.mk_self

theorem x_mul_y : xR * yR = 1 := by
  have h1 : X * natPoly 0x8F6E37A0 = genPoly + 1 := by
    have h : (0x11EDC6F41 : Nat) = 0x11EDC6F40 ^^^ 1 := by decide
    have h' : (0x11EDC6F40 : Nat) = 2 ^ 1 * 0x8F6E37A0 := by norm_num
    unfold genPoly
    rw [h, natPoly_xor, natPoly_one, h', natPoly_two_pow_mul, pow_one, add_assoc,
      CharTwo.add_self_eq_zero, add_zero]
  have h2 := congrArg (AdjoinRoot.mk genPoly) h1
  rw [map_mul, map_add, mk_genPoly, zero_add, map_one, AdjoinRoot.mk_X] at h2
  exact h2

theorem y_mul_x : yR * xR = 1 := by rw [mul_comm]; exact x_mul_y

theorem x_pow_mul_y_pow (k : Nat) : xR ^ k * yR ^ k = 1 := by
  rw [← mul_pow, x_mul_y, one_pow]

theorem y_pow_mul_x_pow (k : Nat) : yR ^ k * xR ^ k = 1 := by
  rw [← mul_pow, y_mul_x, one_pow]

theorem mul_x_pow_cancel {a b : CrcRing} (k : Nat) (h : a * xR ^ k = b * xR ^ k) : a = b := by
  have := congrArg (fun t => t * yR ^ k) h
  simp only [mul_assoc, x_pow_mul_y_pow, mul_one] at this
  exact this

theorem sem_zero : sem 0 = 0 := by simp [sem, natPoly_zero]

theorem sem_one : sem 1 = 1 := by simp [sem, natPoly_one]

theorem sem_xor (a b : Nat) : sem (a ^^^ b) = sem a + sem b := by
  simp [sem, natPoly_xor]

theorem sem_two_pow_mul_add (k a b : Nat) (hb : b < 2 ^ k) :
    sem (2 ^ k * a + b) = yR ^ k * sem a + sem b := by
  simp [sem, natPoly_two_pow_mul_add k a b hb]

theorem sem_two_pow_mul (k a : Nat) : sem (2 ^ k * a) = yR ^ k * sem a := by
  simp [sem, natPoly_two_pow_mul]

theorem sem_shiftLeft (a k : Nat) : sem (a <<< k) = yR ^ k * sem a := by
  simp [sem, natPoly_shiftLeft]

theorem sem_split (v k : Nat) : sem v = yR ^ k * sem (v / 2 ^ k) + sem (v % 2 ^ k) := by
  conv_lhs => rw [sem, natPoly_split v k]
  simp [sem]

theorem sem_clmulBits (a b n : Nat) : sem (clmulBits a b n) = sem a * sem (b % 2 ^ n) := by
  simp [sem, natPoly_clmulBits]

theorem aeval_reflect (N : Nat) (f : (ZMod 2)[X]) (hf : f.natDegree ≤ N) :
    Polynomial.aeval yR (reflect N f) * xR ^ N = AdjoinRoot.mk genPoly f := by
  letI : Invertible xR := ⟨yR, y_mul_x, x_mul_y⟩
  have := Polynomial.eval₂_reflect_mul_pow (algebraMap (ZMod 2) CrcRing) xR N f hf
  rw [← AdjoinRoot.aeval_eq]
  exact this

theorem natDegree_natPoly_le {v n : Nat} (h : v < 2 ^ (n + 1)) : (natPoly v).natDegree ≤ n := by
  by_cases h0 : natPoly v = 0
  · simp [h0]
  · have := degree_natPoly_lt h
    rw [Polynomial.degree_eq_natDegree h0] at this
    have h2 : (natPoly v).natDegree < n + 1 := by exact_mod_cast this
    omega

theorem reflect_poly : reflect 31 (natPoly 0x1EDC6F41) = natPoly 0x82F63B78 := by
  ext j
  rw [coeff_reflect, coeff_natPoly, coeff_natPoly]
  by_cases hj : j ≤ 31
  · rw [Polynomial.revAt_le hj]
    interval_cases j <;> simp <;> decide
  · rw [Polynomial.revAt_eq_self_of_lt (by omega)]
    rw [Nat.testBit_eq_false_of_lt (n := 0x1EDC6F41) (i := j), Nat.testBit_eq_false_of_lt (n := 0x82F63B78) (i := j)]
    · exact lt_of_lt_of_le (by norm_num : 0x82F63B78 < 2 ^ 32) (Nat.pow_le_pow_right (by decide) (by omega))
    · exact lt_of_lt_of_le (by norm_num : 0x1EDC6F41 < 2 ^ 32) (Nat.pow_le_pow_right (by decide) (by omega))

theorem mk_low : AdjoinRoot.mk genPoly (natPoly 0x1EDC6F41) = xR ^ 32 := by
  have h : AdjoinRoot.mk genPoly (X ^ 32 + natPoly 0x1EDC6F41) = 0 := by
    rw [← genPoly_eq]
    exact mk_genPoly
  rw [map_add, map_pow, AdjoinRoot.mk_X] at h
  generalize AdjoinRoot.mk genPoly (natPoly 0x1EDC6F41) = p at h
  change xR ^ 32 + p = 0 at h
  generalize xR ^ 32 = q at h
  calc p = (q + p) + q := by rw [add_comm q p, add_assoc, add_self, add_zero]
    _ = q := by rw [h, zero_add]

theorem sem_poly : sem 0x82F63B78 = xR := by
  have h := aeval_reflect 31 (natPoly 0x1EDC6F41) (natDegree_natPoly_le (by norm_num))
  rw [reflect_poly, mk_low] at h
  apply mul_x_pow_cancel 31
  rw [← pow_succ']
  exact h

theorem sem_crcBit (c : Nat) : sem (crcBit c) = sem c * xR := by
  have hs := sem_split c 1
  rw [pow_one, pow_one] at hs
  have hshift : c >>> 1 = c / 2 := by rw [Nat.shiftRight_eq_div_pow, pow_one]
  have hand : c &&& 1 = c % 2 := Nat.and_one_is_mod c
  unfold crcBit
  rw [sem_xor, hshift, hand, hs]
  rcases Nat.mod_two_eq_zero_or_one c with h | h
  · simp only [h, sem_zero]
    simp only [Nat.zero_ne_one, if_false, sem_zero, add_zero]
    rw [mul_comm yR, mul_assoc, y_mul_x, mul_one]
  · simp only [h, sem_one, if_true, sem_poly]
    linear_combination (-(sem (c / 2))) * y_mul_x

theorem sem_crcBits (k c : Nat) : sem (crcBits k c) = sem c * xR ^ k := by
  induction k generalizing c with
  | zero => simp [crcBits]
  | succ k ih => rw [crcBits, ih, sem_crcBit, pow_succ']; ring

theorem reflect_reflect (N : Nat) (f : (ZMod 2)[X]) : reflect N (reflect N f) = f := by
  ext j
  rw [coeff_reflect, coeff_reflect, Polynomial.revAt_invol]

theorem natDegree_reflect_natPoly {a : Nat} (ha : a < 2 ^ 32) :
    (reflect 31 (natPoly a)).natDegree ≤ 31 := by
  rw [Polynomial.natDegree_le_iff_coeff_eq_zero]
  intro j hj
  rw [coeff_reflect, Polynomial.revAt_eq_self_of_lt hj, coeff_natPoly,
    Nat.testBit_eq_false_of_lt (lt_of_lt_of_le ha (Nat.pow_le_pow_right (by decide) (by omega)))]
  simp

theorem sem_eq_zero {a : Nat} (ha : a < 2 ^ 32) (h : sem a = 0) : a = 0 := by
  have hg := natDegree_reflect_natPoly ha
  have h1 := aeval_reflect 31 (reflect 31 (natPoly a)) hg
  rw [reflect_reflect] at h1
  have h2 : AdjoinRoot.mk genPoly (reflect 31 (natPoly a)) = 0 := by
    rw [← h1]
    show sem a * xR ^ 31 = 0
    rw [h, zero_mul]
  rw [AdjoinRoot.mk_eq_zero] at h2
  have hlt : (reflect 31 (natPoly a)).degree < genPoly.degree := by
    rw [genPoly_degree]
    calc (reflect 31 (natPoly a)).degree ≤ ((reflect 31 (natPoly a)).natDegree : WithBot ℕ) :=
          Polynomial.degree_le_natDegree
      _ ≤ (31 : ℕ) := by exact_mod_cast hg
      _ < 32 := by norm_num
  have h3 := Polynomial.eq_zero_of_dvd_of_degree_lt h2 hlt
  rw [Polynomial.reflect_eq_zero_iff] at h3
  exact natPoly_inj (h3.trans natPoly_zero.symm)

theorem sem_inj {a b : Nat} (ha : a < 2 ^ 32) (hb : b < 2 ^ 32) (h : sem a = sem b) : a = b := by
  have h0 : sem (a ^^^ b) = 0 := by rw [sem_xor, h, add_self]
  have := sem_eq_zero (Nat.xor_lt_two_pow ha hb) h0
  exact Nat.xor_eq_zero.mp this

theorem crcBit_lt {c n : Nat} (h : c < 2 ^ (n + 1)) (hn : 32 ≤ n) : crcBit c < 2 ^ n := by
  unfold crcBit
  apply Nat.xor_lt_two_pow
  · rw [Nat.shiftRight_eq_div_pow, pow_one]
    rw [pow_succ] at h
    omega
  · have : (0x82F63B78 : Nat) < 2 ^ 32 := by norm_num
    have h2 : 2 ^ 32 ≤ 2 ^ n := Nat.pow_le_pow_right (by decide) hn
    split <;> omega

theorem crcBits_lt (k : Nat) {c : Nat} (h : c < 2 ^ (32 + k)) : crcBits k c < 2 ^ 32 := by
  induction k generalizing c with
  | zero => simpa [crcBits] using h
  | succ k ih =>
    rw [crcBits]
    exact ih (crcBit_lt (by rw [← add_assoc] at h; exact h) (by omega))

/-! ### Message semantics -/

theorem feedSem_nil (r : CrcRing) : feedSem r [] = r := rfl

theorem feedSem_cons (r : CrcRing) (b : Fin 256) (bs : List (Fin 256)) :
    feedSem r (b :: bs) = feedSem ((r + sem b.val) * xR ^ 8) bs := rfl

theorem feedSem_append (r : CrcRing) (as bs : List (Fin 256)) :
    feedSem r (as ++ bs) = feedSem (feedSem r as) bs := by
  simp [feedSem, List.foldl_append]

theorem feedSem_eq (r : CrcRing) (bs : List (Fin 256)) :
    feedSem r bs = r * xR ^ (8 * bs.length) + feedSem 0 bs := by
  induction bs generalizing r with
  | nil => simp [feedSem_nil]
  | cons b bs ih =>
    rw [feedSem_cons, feedSem_cons, ih, ih ((0 + sem b.val) * xR ^ 8), List.length_cons]
    ring

theorem sem_refByte (c : Nat) (b : Fin 256) :
    sem (refByte c b) = (sem c + sem b.val) * xR ^ 8 := by
  rw [refByte, sem_crcBits, sem_xor]

theorem sem_refRaw (c : Nat) (bs : List (Fin 256)) :
    sem (refRaw c bs) = feedSem (sem c) bs := by
  induction bs generalizing c with
  | nil => rfl
  | cons b bs ih =>
    show sem (refRaw (refByte c b) bs) = _
    rw [ih, sem_refByte, feedSem_cons]

theorem refByte_lt {c : Nat} (b : Fin 256) (h : c < 2 ^ 32) : refByte c b < 2 ^ 32 := by
  apply crcBits_lt
  have hb : b.val < 2 ^ 32 := lt_trans b.isLt (by norm_num)
  exact lt_of_lt_of_le (Nat.xor_lt_two_pow h hb) (Nat.pow_le_pow_right (by decide) (by omega))

theorem refRaw_lt {c : Nat} (bs : List (Fin 256)) (h : c < 2 ^ 32) : refRaw c bs < 2 ^ 32 := by
  induction bs generalizing c with
  | nil => exact h
  | cons b bs ih => exact ih (refByte_lt b h)

theorem refRaw_append (c : Nat) (as bs : List (Fin 256)) :
    refRaw c (as ++ bs) = refRaw (refRaw c as) bs := by
  simp [refRaw, List.foldl_append]

theorem leBytes_lt (bs : List (Fin 256)) : leBytes bs < 2 ^ (8 * bs.length) := by
  induction bs with
  | nil => simp [leBytes]
  | cons b bs ih =>
    rw [leBytes, List.length_cons, Nat.mul_succ, pow_add]
    have := b.isLt
    norm_num
    nlinarith

theorem sem_leBytes (bs : List (Fin 256)) :
    sem (leBytes bs) * xR ^ (8 * bs.length) = feedSem 0 bs := by
  induction bs with
  | nil => simp [leBytes, sem_zero, feedSem_nil]
  | cons b bs ih =>
    have h : leBytes (b :: bs) = 2 ^ 8 * leBytes bs + b.val := by
      rw [leBytes]; norm_num; ring
    rw [h, sem_two_pow_mul_add _ _ _ (by have := b.isLt; norm_num), feedSem_cons,
      feedSem_eq, List.length_cons]
    linear_combination (sem (leBytes bs) * xR ^ (8 * bs.length)) * (y_pow_mul_x_pow 8) + ih

/-! ### Slices of the buffer -/

theorem slice_length {mem : List (Fin 256)} {off n : Nat} (h : off + n ≤ mem.length) :
    (slice mem off n).length = n := by
  simp [slice]; omega

theorem slice_add (mem : List (Fin 256)) (off m n : Nat) :
    slice mem off (m + n) = slice mem off m ++ slice mem (off + m) n := by
  simp only [slice]
  rw [List.take_add, List.drop_drop]

theorem slice_zero (mem : List (Fin 256)) (off : Nat) : slice mem off 0 = [] := by
  simp [slice]

theorem slice_all (mem : List (Fin 256)) : slice mem 0 mem.length = mem := by
  simp [slice]

theorem loadBytes_eq {mem : List (Fin 256)} {off n : Nat} (h : off + n ≤ mem.length) :
    loadBytes mem off n = some (leBytes (slice mem off n)) := by
  simp [loadBytes, h]

theorem load64_eq {mem : List (Fin 256)} {off : Nat} (h : off + 8 ≤ mem.length) :
    load64 mem off = some (leBytes (slice mem off 8)) := loadBytes_eq h

theorem load128_eq {mem : List (Fin 256)} {off : Nat} (h : off + 16 ≤ mem.length) :
    load128 mem off = some (leBytes (slice mem off 16)) := loadBytes_eq h

theorem load8_eq {mem : List (Fin 256)} {off : Nat} (h : off + 1 ≤ mem.length) :
    load8 mem off = some (leBytes (slice mem off 1)) := loadBytes_eq h

/-! ### The hardware steps against the reference -/

theorem sem_crc32c_u64 (c v : Nat) : sem (crc32c_u64 c v) = (sem c + sem v) * xR ^ 64 := by
  rw [crc32c_u64, sem_crcBits, sem_xor]

theorem crc32c_u64_lt {c v : Nat} (hc : c < 2 ^ 32) (hv : v < 2 ^ 64) :
    crc32c_u64 c v < 2 ^ 32 := by
  apply crcBits_lt
  have hc' : c < 2 ^ 64 := lt_trans hc (by norm_num)
  exact lt_of_lt_of_le (Nat.xor_lt_two_pow hc' hv) (Nat.pow_le_pow_right (by decide) (by omega))

theorem slice_lt {mem : List (Fin 256)} {off n : Nat} (h : off + n ≤ mem.length) :
    leBytes (slice mem off n) < 2 ^ (8 * n) := by
  have := leBytes_lt (slice mem off n)
  rwa [slice_length h] at this

theorem sem_slice {mem : List (Fin 256)} {off n : Nat} (h : off + n ≤ mem.length) :
    sem (leBytes (slice mem off n)) * xR ^ (8 * n) = feedSem 0 (slice mem off n) := by
  have := sem_leBytes (slice mem off n)
  rwa [slice_length h] at this

/-- The 64-bit step on a loaded word is the reference fed with its 8 bytes. -/
theorem crc32c_u64_slice {mem : List (Fin 256)} {off c : Nat} (h : off + 8 ≤ mem.length)
    (hc : c < 2 ^ 32) :
    crc32c_u64 c (leBytes (slice mem off 8)) = refRaw c (slice mem off 8) := by
  apply sem_inj (crc32c_u64_lt hc (slice_lt h)) (refRaw_lt _ hc)
  rw [sem_crc32c_u64, sem_refRaw, feedSem_eq, slice_length h, ← sem_slice h]
  ring

/-- The 8-bit step on a loaded byte is the reference fed with that byte. -/
theorem crc32c_u8_slice {mem : List (Fin 256)} {off c : Nat} (h : off + 1 ≤ mem.length) :
    crc32c_u8 c (leBytes (slice mem off 1)) = refRaw c (slice mem off 1) := by
  have hl := slice_length h
  match hs : slice mem off 1, hl with
  | [b], _ => simp [leBytes, refRaw, refByte, crc32c_u8]

/-! ### Phases of an engine -/

theorem Cursor.Adv.refl (mem : List (Fin 256)) (c : Cursor) : Cursor.Adv mem c c :=
  ⟨0, Nat.zero_le _, rfl, rfl, by rw [slice_zero]; rfl⟩

theorem Cursor.Adv.trans {mem : List (Fin 256)} {a b c : Cursor}
    (h1 : Cursor.Adv mem a b) (h2 : Cursor.Adv mem b c) : Cursor.Adv mem a c := by
  obtain ⟨n, hn, hb, hl, hc⟩ := h1
  obtain ⟨m, hm, hb', hl', hc'⟩ := h2
  refine ⟨n + m, by omega, by omega, by omega, ?_⟩
  rw [hc', hc, hb, slice_add, refRaw_append]

theorem Cursor.Adv.wf {mem : List (Fin 256)} {a b : Cursor}
    (h : Cursor.Adv mem a b) (hw : Cursor.WF mem a) : Cursor.WF mem b := by
  obtain ⟨n, hn, hb, hl, hc⟩ := h
  refine ⟨by have := hw.1; omega, ?_⟩
  rw [hc]
  exact refRaw_lt _ hw.2

theorem Cursor.Adv.len_le {mem : List (Fin 256)} {a b : Cursor}
    (h : Cursor.Adv mem a b) : b.len ≤ a.len := by
  obtain ⟨n, hn, hb, hl, hc⟩ := h
  omega

/-- Feeding `n` bytes explicitly. -/
theorem Cursor.Adv.mk' {mem : List (Fin 256)} (c : Cursor) (n : Nat) (hn : n ≤ c.len) :
    Cursor.Adv mem c ⟨refRaw c.crc0 (slice mem c.buf n), c.buf + n, c.len - n⟩ :=
  ⟨n, hn, rfl, rfl, rfl⟩

theorem adv_step8 {mem : List (Fin 256)} {c : Cursor} (hw : Cursor.WF mem c) (h : 1 ≤ c.len) :
    load8 mem c.buf = some (leBytes (slice mem c.buf 1)) ∧
    Cursor.Adv mem c ⟨crc32c_u8 c.crc0 (leBytes (slice mem c.buf 1)), c.buf + 1, c.len - 1⟩ := by
  have hb : c.buf + 1 ≤ mem.length := by have := hw.1; omega
  refine ⟨load8_eq hb, ?_⟩
  rw [crc32c_u8_slice hb]
  exact Cursor.Adv.mk' c 1 h

theorem adv_step64 {mem : List (Fin 256)} {c : Cursor} (hw : Cursor.WF mem c) (h : 8 ≤ c.len) :
    load64 mem c.buf = some (leBytes (slice mem c.buf 8)) ∧
    Cursor.Adv mem c ⟨crc32c_u64 c.crc0 (leBytes (slice mem c.buf 8)), c.buf + 8, c.len - 8⟩ := by
  have hb : c.buf + 8 ≤ mem.length := by have := hw.1; omega
  refine ⟨load64_eq hb, ?_⟩
  rw [crc32c_u64_slice hb hw.2]
  exact Cursor.Adv.mk' c 8 h

theorem headLoop_spec (addr : Nat) (mem : List (Fin 256)) (fuel : Nat) (c : Cursor)
    (hf : c.len < fuel) (hw : Cursor.WF mem c) :
    ∃ c', headLoop addr mem fuel c = some c' ∧ Cursor.Adv mem c c' := by
  induction fuel generalizing c with
  | zero => omega
  | succ fuel ih =>
    rw [headLoop]
    split
    · rename_i hcond
      have h1 : 1 ≤ c.len := by have := hcond.1; omega
      obtain ⟨hl, ha⟩ := adv_step8 hw h1
      rw [hl, Option.some_bind]
      obtain ⟨c', hc', ha'⟩ := ih _ (by show c.len - 1 < fuel; omega) (ha.wf hw)
      exact ⟨c', hc', ha.trans ha'⟩
    · exact ⟨c, rfl, Cursor.Adv.refl mem c⟩

theorem headWord_spec (addr : Nat) (mem : List (Fin 256)) (c : Cursor)
    (hw : Cursor.WF mem c) :
    ∃ c', headWord addr mem c = some c' ∧ Cursor.Adv mem c c' := by
  rw [headWord]
  split
  · rename_i hcond
    obtain ⟨hl, ha⟩ := adv_step64 hw hcond.2
    rw [hl, Option.some_bind]
    exact ⟨_, rfl, ha⟩
  · exact ⟨c, rfl, Cursor.Adv.refl mem c⟩

theorem tailWords_spec (mem : List (Fin 256)) (fuel : Nat) (c : Cursor)
    (hf : c.len < fuel) (hw : Cursor.WF mem c) :
    ∃ c', tailWords mem fuel c = some c' ∧ Cursor.Adv mem c c' ∧ c'.len < 8 := by
  induction fuel generalizing c with
  | zero => omega
  | succ fuel ih =>
    rw [tailWords]
    split
    · rename_i hcond
      obtain ⟨hl, ha⟩ := adv_step64 hw hcond
      rw [hl, Option.some_bind]
      obtain ⟨c', hc', ha', hlt⟩ := ih _ (by show c.len - 8 < fuel; omega) (ha.wf hw)
      exact ⟨c', hc', ha.trans ha', hlt⟩
    · exact ⟨c, rfl, Cursor.Adv.refl mem c, by omega⟩

theorem tailBytes_spec (mem : List (Fin 256)) (fuel : Nat) (c : Cursor)
    (hf : c.len < fuel) (hw : Cursor.WF mem c) :
    ∃ c', tailBytes mem fuel c = some c' ∧ Cursor.Adv mem c c' ∧ c'.len = 0 := by
  induction fuel generalizing c with
  | zero => omega
  | succ fuel ih =>
    rw [tailBytes]
    split
    · rename_i hcond
      obtain ⟨hl, ha⟩ := adv_step8 hw (by omega)
      rw [hl, Option.some_bind]
      obtain ⟨c', hc', ha', hlt⟩ := ih _ (by show c.len - 1 < fuel; omega) (ha.wf hw)
      exact ⟨c', hc', ha.trans ha', hlt⟩
    · exact ⟨c, rfl, Cursor.Adv.refl mem c, by omega⟩

/-- An engine whose phases each feed the next bytes of the buffer, the last one leaving
nothing, computes the reference CRC. -/
theorem adv_total {mem : List (Fin 256)} {seed : Nat} {c : Cursor}
    (h : Cursor.Adv mem ⟨not32 seed, 0, mem.length⟩ c) (h0 : c.len = 0) :
    not32 c.crc0 = crc32c_reference seed mem := by
  obtain ⟨n, hn, hb, hl, hc⟩ := h
  simp only at hn hb hl hc
  have : n = mem.length := by omega
  subst this
  rw [hc, slice_all]
  rfl

theorem not32_lt {c : Nat} (h : c < 2 ^ 32) : not32 c < 2 ^ 32 :=
  Nat.xor_lt_two_pow h (by norm_num)

theorem not32_not32 (c : Nat) : not32 (not32 c) = c := by
  unfold not32
  exact Nat.xor_cancel_right _ _

/-! ### Bit-level facts -/

theorem and_one_eq (n : Nat) : n &&& 1 = n % 2 := Nat.and_one_is_mod n

theorem and_31_eq (n : Nat) : n &&& 31 = n % 32 := by
  have := Nat.and_pow_two_sub_one_eq_mod n 5
  simpa using this

theorem not64_eq {t : Nat} (h : t < 2 ^ 64) : not64 t = 2 ^ 64 - 1 - t := by
  apply Nat.eq_of_testBit_eq
  intro i
  have h2 : 2 ^ 64 - 1 - t = 2 ^ 64 - (t + 1) := by omega
  rw [h2, Nat.testBit_two_pow_sub_succ h, not64, Nat.testBit_xor]
  have h3 : (0xFFFFFFFFFFFFFFFF : Nat) = 2 ^ 64 - 1 := by norm_num
  rw [h3, Nat.testBit_two_pow_sub_one]
  by_cases hi : i < 64
  · simp [hi]
  · have : t.testBit i = false :=
      Nat.testBit_eq_false_of_lt (lt_of_lt_of_le h (Nat.pow_le_pow_right (by decide) (by omega)))
    simp [hi, this]

theorem clmulBits_lt (a b n p : Nat) (ha : a < 2 ^ p) : clmulBits a b n < 2 ^ (p + n - 1) := by
  induction n with
  | zero => exact Nat.two_pow_pos _
  | succ n ih =>
    rw [clmulBits]
    have e : p + (n + 1) - 1 = p + n := by omega
    rw [e]
    apply Nat.xor_lt_two_pow
    · exact lt_of_lt_of_le ih (Nat.pow_le_pow_right (by decide) (by omega))
    · split
      · rw [Nat.shiftLeft_eq, pow_add]
        exact Nat.mul_lt_mul_of_lt_of_le ha (le_refl _) (Nat.two_pow_pos n)
      · exact Nat.two_pow_pos _

theorem clmulBits_of_lt (a b m n : Nat) (hb : b < 2 ^ m) (hmn : m ≤ n) :
    clmulBits a b n = clmulBits a b m := by
  induction n with
  | zero =>
    have : m = 0 := by omega
    subst this; rfl
  | succ n ih =>
    by_cases h : m = n + 1
    · subst h; rfl
    · have hmn' : m ≤ n := by omega
      rw [clmulBits, ih hmn',
        Nat.testBit_eq_false_of_lt (lt_of_lt_of_le hb (Nat.pow_le_pow_right (by decide) hmn'))]
      simp

theorem clmul64_lt32 {a b : Nat} (ha : a < 2 ^ 32) (hb : b < 2 ^ 32) : clmul64 a b < 2 ^ 63 := by
  unfold clmul64
  rw [Nat.mod_eq_of_lt (lt_trans ha (by norm_num)), clmulBits_of_lt a b 32 64 hb (by norm_num)]
  exact clmulBits_lt a b 32 32 ha

theorem sem_clmul64 {a b : Nat} (ha : a < 2 ^ 64) (hb : b < 2 ^ 64) :
    sem (clmul64 a b) = sem a * sem b := by
  unfold clmul64
  rw [sem_clmulBits, Nat.mod_eq_of_lt ha, Nat.mod_eq_of_lt hb]

theorem sem_two_pow (k : Nat) : sem (2 ^ k) = yR ^ k := by
  have := sem_two_pow_mul k 1
  simpa [sem_one] using this

/-! ### `xnmodp` -/

theorem sem_xnmodpWords (m acc : Nat) (h : acc < 2 ^ 32) :
    xnmodpWords m acc < 2 ^ 32 ∧ sem (xnmodpWords m acc) = sem acc * xR ^ (32 * m) := by
  induction m generalizing acc with
  | zero => exact ⟨h, by simp [xnmodpWords]⟩
  | succ m ih =>
    rw [xnmodpWords]
    have h1 : crc32c_u32 acc 0 < 2 ^ 32 := by
      unfold crc32c_u32
      apply crcBits_lt
      rw [Nat.xor_zero]
      exact lt_trans h (by norm_num)
    obtain ⟨hlt, hs⟩ := ih _ h1
    refine ⟨hlt, ?_⟩
    rw [hs, crc32c_u32, sem_crcBits, Nat.xor_zero]
    ring

/-- The start value and the zero-word loop give `x ^ n`. -/
theorem sem_xnmodp_base (n : Nat) :
    xnmodpWords (n >>> 5) (0x80000000 >>> (n &&& 31)) < 2 ^ 32 ∧
    sem (xnmodpWords (n >>> 5) (0x80000000 >>> (n &&& 31))) * xR ^ 31 = xR ^ n := by
  have hacc : (0x80000000 : Nat) >>> (n &&& 31) = 2 ^ (31 - n % 32) := by
    rw [and_31_eq, Nat.shiftRight_eq_div_pow]
    have h : (0x80000000 : Nat) = 2 ^ 31 := by norm_num
    rw [h, Nat.pow_div (by omega) (by decide)]
  have hlt : (0x80000000 : Nat) >>> (n &&& 31) < 2 ^ 32 := by
    rw [hacc]
    exact Nat.pow_lt_pow_right (by decide) (by omega)
  obtain ⟨h1, h2⟩ := sem_xnmodpWords (n >>> 5) _ hlt
  refine ⟨h1, ?_⟩
  rw [h2, hacc, sem_two_pow, Nat.shiftRight_eq_div_pow]
  have hn : n = 32 * (n / 2 ^ 5) + n % 32 := by omega
  have h31 : xR ^ 31 = xR ^ (31 - n % 32) * xR ^ (n % 32) := by
    rw [← pow_add]; congr 1; omega
  have key : yR ^ (31 - n % 32) * xR ^ 31 = xR ^ (n % 32) := by
    rw [h31, ← mul_assoc, y_pow_mul_x_pow, one_mul]
  conv_rhs => rw [hn, pow_add]
  rw [← key]
  ring

theorem sem_sq_step {sq : Nat → Nat} (hsq : SqOK sq) {acc n1 p : Nat} (hacc : acc < 2 ^ 32)
    (hp : p < 2) (hs : sem acc * xR ^ 31 = xR ^ n1) :
    crc32c_u64 0 ((sq acc <<< (1 - p)) % 2 ^ 64) < 2 ^ 32 ∧
    sem (crc32c_u64 0 ((sq acc <<< (1 - p)) % 2 ^ 64)) * xR ^ 31 = xR ^ (2 * (n1 + 16) + p) := by
  obtain ⟨hlt, hsem⟩ := hsq acc hacc
  have hv : sq acc <<< (1 - p) < 2 ^ 64 := by
    rw [Nat.shiftLeft_eq]
    have : 2 ^ (1 - p) ≤ 2 := by
      calc 2 ^ (1 - p) ≤ 2 ^ 1 := Nat.pow_le_pow_right (by decide) (by omega)
        _ = 2 := by norm_num
    nlinarith
  rw [Nat.mod_eq_of_lt hv]
  refine ⟨crc32c_u64_lt (by norm_num) hv, ?_⟩
  rw [sem_crc32c_u64, sem_zero, zero_add, sem_shiftLeft, hsem]
  have hsq2 : sem acc * sem acc * xR ^ 62 = xR ^ (2 * n1) := by
    have := congrArg (fun t => t * t) hs
    simp only at this
    rw [← pow_add] at this
    rw [two_mul, ← this]
    ring
  interval_cases p
  · have e : 1 - 0 = 1 := rfl
    rw [e, pow_one]
    have : xR ^ (2 * (n1 + 16) + 0) = xR ^ (2 * n1) * xR ^ 32 := by rw [← pow_add]; congr 1
    rw [this, ← hsq2]
    linear_combination (sem acc * sem acc * xR ^ 94) * y_mul_x
  · have e : 1 - 1 = 0 := rfl
    rw [e, pow_zero, one_mul]
    have : xR ^ (2 * (n1 + 16) + 1) = xR ^ (2 * n1) * xR ^ 33 := by rw [← pow_add]; congr 1
    rw [this, ← hsq2]
    ring

theorem xnmodp_push_pop (sq : Nat → Nat) (hsq : SqOK sq) (fuel : Nat) :
    ∀ n t m, 1 ≤ fuel → m ≤ fuel + 6 → m ≤ 64 → n < 2 ^ m → 1 ≤ t → t < 2 ^ (65 - m) →
    ∃ n' s' j, xnmodpPush fuel n (not64 t) = some (n', s') ∧ n' ≤ 191 ∧
      (j + 7 ≤ m ∨ j = 0) ∧
      ∀ pf acc, acc < 2 ^ 32 → sem acc * xR ^ 31 = xR ^ n' →
        ∃ acc', acc' < 2 ^ 32 ∧ sem acc' * xR ^ 31 = xR ^ n ∧
          xnmodpPop sq (pf + j) (not64 s') acc = xnmodpPop sq pf t acc' := by
  induction fuel with
  | zero => intro n t m h; omega
  | succ fuel ih =>
    intro n t m _ hm hm64 hn ht1 ht
    rw [xnmodpPush]
    by_cases hbig : n > 191
    · rw [if_pos hbig]
      have hm8 : 8 ≤ m := by
        by_contra hcon
        have : 2 ^ m ≤ 2 ^ 7 := Nat.pow_le_pow_right (by decide) (by omega)
        norm_num at this
        omega
      have ht57 : t < 2 ^ 57 :=
        lt_of_lt_of_le ht (Nat.pow_le_pow_right (by decide) (by omega))
      have ht64 : t < 2 ^ 64 := lt_trans ht57 (by norm_num)
      have ht2 : 2 * t + (1 - n % 2) < 2 ^ 64 := by
        have : (2 : Nat) ^ 57 * 2 < 2 ^ 64 := by norm_num
        omega
      have hstack : ((not64 t <<< 1) + (n &&& 1)) % 2 ^ 64 = not64 (2 * t + (1 - n % 2)) := by
        rw [not64_eq ht64, not64_eq ht2, and_one_eq, Nat.shiftLeft_eq]
        have := Nat.mod_two_eq_zero_or_one n
        omega
      have hn1 : n >>> 1 - 16 < 2 ^ (m - 1) := by
        rw [Nat.shiftRight_eq_div_pow, pow_one]
        have : 2 ^ m = 2 * 2 ^ (m - 1) := by
          rw [← pow_succ']; congr 1; omega
        omega
      have ht' : 2 * t + (1 - n % 2) < 2 ^ (65 - (m - 1)) := by
        have : 2 ^ (65 - (m - 1)) = 2 * 2 ^ (65 - m) := by
          rw [← pow_succ']; congr 1; omega
        omega
      obtain ⟨n', s', j, hpush, hn', hj, hpop⟩ :=
        ih (n >>> 1 - 16) (2 * t + (1 - n % 2)) (m - 1)
          (by omega) (by omega) (by omega) hn1 (by omega) ht'
      rw [hstack]
      refine ⟨n', s', j + 1, hpush, hn', by omega, ?_⟩
      intro pf acc hacc hsem
      obtain ⟨acc1, hacc1, hsem1, hrun⟩ := hpop (pf + 1) acc hacc hsem
      have hp2 : n % 2 < 2 := Nat.mod_lt _ (by decide)
      obtain ⟨hlt2, hsem2⟩ := sem_sq_step hsq (p := n % 2) hacc1 hp2 hsem1
      refine ⟨_, hlt2, ?_, ?_⟩
      · rw [hsem2]
        congr 1
        rw [Nat.shiftRight_eq_div_pow, pow_one]
        omega
      · have e : pf + (j + 1) = pf + 1 + j := by omega
        rw [e, hrun, xnmodpPop]
        have hlow : (2 * t + (1 - n % 2)) &&& 1 = 1 - n % 2 := by
          rw [and_one_eq]; omega
        have hshift : (2 * t + (1 - n % 2)) >>> 1 = t := by
          rw [Nat.shiftRight_eq_div_pow, pow_one]; omega
        simp only [hlow, hshift]
        rw [if_pos (by omega)]
    · rw [if_neg hbig]
      refine ⟨n, not64 t, 0, rfl, by omega, Or.inr rfl, ?_⟩
      intro pf acc hacc hsem
      refine ⟨acc, hacc, hsem, ?_⟩
      have : not64 (not64 t) = t := Nat.xor_cancel_right _ _
      rw [this, Nat.add_zero]

/-- The body of `xnmodp` returns `x ^ n mod P`, as a register value: for every 64-bit
`n`. -/
theorem xnmodpWith_spec (sq : Nat → Nat) (hsq : SqOK sq) (n : Nat) (hn : n < 2 ^ 64) :
    ∃ r, xnmodpWith sq n = some r ∧ r < 2 ^ 32 ∧ sem r * xR ^ 31 = xR ^ n := by
  obtain ⟨n', s', j, hpush, _, hj, hpop⟩ :=
    xnmodp_push_pop sq hsq 64 n 1 64 (by norm_num) (by norm_num) (by norm_num) hn
      (by norm_num) (by norm_num)
  obtain ⟨hb1, hb2⟩ := sem_xnmodp_base n'
  obtain ⟨acc', hacc', hsem', hrun⟩ := hpop (64 - j) _ hb1 hb2
  refine ⟨acc', ?_, hacc', hsem'⟩
  have e : 64 - j + j = 64 := by omega
  rw [e] at hrun
  rw [xnmodpWith, hpush, Option.some_bind]
  simp only
  rw [hrun]
  obtain ⟨pf, hpf⟩ : ∃ pf, 64 - j = pf + 1 := ⟨63 - j, by omega⟩
  rw [hpf, xnmodpPop]
  simp

/-! ### Vector registers -/

theorem lane0_lt (v : Nat) : lane0 v < 2 ^ 64 := Nat.mod_lt _ (Nat.two_pow_pos 64)

theorem lane1_lt (v : Nat) : lane1 v < 2 ^ 64 := Nat.mod_lt _ (Nat.two_pow_pos 64)

theorem lane0_of_lt {v : Nat} (h : v < 2 ^ 64) : lane0 v = v := Nat.mod_eq_of_lt h

theorem lane1_of_lt {v : Nat} (h : v < 2 ^ 64) : lane1 v = 0 := by
  unfold lane1
  rw [Nat.shiftRight_eq_div_pow, Nat.div_eq_of_lt h]
  rfl

theorem lane0_pair {lo : Nat} (hi : Nat) (h : lo < 2 ^ 64) : lane0 (lo + 2 ^ 64 * hi) = lo := by
  unfold lane0
  rw [Nat.add_mul_mod_self_left, Nat.mod_eq_of_lt h]

theorem lane1_pair {lo hi : Nat} (h : lo < 2 ^ 64) (h' : hi < 2 ^ 64) :
    lane1 (lo + 2 ^ 64 * hi) = hi := by
  unfold lane1
  rw [Nat.shiftRight_eq_div_pow, Nat.add_mul_div_left _ _ (Nat.two_pow_pos 64),
    Nat.div_eq_of_lt h, Nat.zero_add, Nat.mod_eq_of_lt h']

theorem sem_lanes {v : Nat} (h : v < 2 ^ 128) :
    sem v = sem (lane0 v) + yR ^ 64 * sem (lane1 v) := by
  have h1 : v / 2 ^ 64 < 2 ^ 64 := by
    rw [Nat.div_lt_iff_lt_mul (Nat.two_pow_pos 64)]
    calc v < 2 ^ 128 := h
      _ = 2 ^ 64 * 2 ^ 64 := by norm_num
  rw [sem_split v 64, lane0, lane1, Nat.shiftRight_eq_div_pow, Nat.mod_eq_of_lt h1]
  ring

theorem clmul64_lt (a b : Nat) : clmul64 a b < 2 ^ 127 := by
  unfold clmul64
  exact clmulBits_lt _ b 64 64 (Nat.mod_lt _ (Nat.two_pow_pos 64))

theorem foldv_lt {x klo khi d : Nat} (hd : d < 2 ^ 128) : foldv x klo khi d < 2 ^ 128 := by
  unfold foldv
  have h1 : ∀ a b, clmul64 a b < 2 ^ 128 := fun a b => lt_trans (clmul64_lt a b) (by norm_num)
  exact Nat.xor_lt_two_pow (h1 _ _) (Nat.xor_lt_two_pow (h1 _ _) hd)

theorem vsem_foldv {D klo khi : Nat} (hk : FoldConst D klo khi) {x d : Nat} (hx : x < 2 ^ 128) :
    vsem (foldv x klo khi d) = vsem x * xR ^ (8 * D) + vsem d := by
  obtain ⟨hlo, hhi, slo, shi⟩ := hk
  have hlo' : klo < 2 ^ 64 := lt_trans hlo (by norm_num)
  have hhi' : khi < 2 ^ 64 := lt_trans hhi (by norm_num)
  unfold vsem foldv
  rw [sem_xor, sem_xor, sem_clmul64 (lane1_lt x) hhi', sem_clmul64 (lane0_lt x) hlo',
    sem_lanes hx, slo]
  linear_combination (sem (lane1 x) * xR ^ 64) * shi
    - (sem (lane1 x) * xR ^ (8 * D) * xR ^ 64) * (y_pow_mul_x_pow 64)

theorem vsem_xor (a b : Nat) : vsem (a ^^^ b) = vsem a + vsem b := by
  unfold vsem; rw [sem_xor]; ring

/-- Reducing a register to 32 bits with two CRC steps gives its message value. -/
theorem sem_reduce {v : Nat} (h : v < 2 ^ 128) :
    crc32c_u64 (crc32c_u64 0 (lane0 v)) (lane1 v) < 2 ^ 32 ∧
    sem (crc32c_u64 (crc32c_u64 0 (lane0 v)) (lane1 v)) = vsem v := by
  have h1 := crc32c_u64_lt (c := 0) (by norm_num) (lane0_lt v)
  refine ⟨crc32c_u64_lt h1 (lane1_lt v), ?_⟩
  rw [sem_crc32c_u64, sem_crc32c_u64, sem_zero, vsem, sem_lanes h]
  linear_combination (-(sem (lane1 v) * xR ^ 64)) * (y_pow_mul_x_pow 64)

/-- The same reduction with an extra word XORed into the high lane. -/
theorem sem_reduce_xor {v w : Nat} (h : v < 2 ^ 128) (hw : w < 2 ^ 64) :
    crc32c_u64 (crc32c_u64 0 (lane0 v)) (w ^^^ lane1 v) < 2 ^ 32 ∧
    sem (crc32c_u64 (crc32c_u64 0 (lane0 v)) (w ^^^ lane1 v)) = vsem v + sem w * xR ^ 64 := by
  have h1 := crc32c_u64_lt (c := 0) (by norm_num) (lane0_lt v)
  refine ⟨crc32c_u64_lt h1 (Nat.xor_lt_two_pow hw (lane1_lt v)), ?_⟩
  rw [sem_crc32c_u64, sem_crc32c_u64, sem_zero, sem_xor, vsem, sem_lanes h]
  linear_combination (-(sem (lane1 v) * xR ^ 64)) * (y_pow_mul_x_pow 64)

theorem vsem_slice {mem : List (Fin 256)} {off : Nat} (h : off + 16 ≤ mem.length) :
    vsem (leBytes (slice mem off 16)) = feedSem 0 (slice mem off 16) := by
  have := sem_slice (n := 16) h
  exact this

/-! ### The squaring primitives and `crc_shift` -/

theorem X86.xnmodpSq_eq {acc : Nat} (h : acc < 2 ^ 32) : X86.xnmodpSq acc = clmul64 acc acc := by
  have h64 : acc < 2 ^ 64 := lt_trans h (by norm_num)
  simp only [X86.xnmodpSq, X86._mm_cvtsi32_si128, X86.mm_cvtsi128_si64, X86._mm_cvtsi128_si64,
    X86._mm_clmulepi64_si128, Nat.mod_eq_of_lt h, lane0_of_lt h64]
  simp only [Nat.zero_and, if_true]
  exact Nat.mod_eq_of_lt (lt_trans (clmul64_lt32 h h) (by norm_num))

theorem X86.x86_sqOK : SqOK X86.xnmodpSq := by
  intro acc h
  have h64 : acc < 2 ^ 64 := lt_trans h (by norm_num)
  rw [X86.xnmodpSq_eq h]
  exact ⟨clmul64_lt32 h h, sem_clmul64 h64 h64⟩

theorem X86.x86_clmul_scalar_eq {a b : Nat} (ha : a < 2 ^ 32) (hb : b < 2 ^ 32) :
    X86.clmul_scalar a b = clmul64 a b := by
  have ha64 : a < 2 ^ 64 := lt_trans ha (by norm_num)
  have hb64 : b < 2 ^ 64 := lt_trans hb (by norm_num)
  simp only [X86.clmul_scalar, X86._mm_cvtsi32_si128, X86._mm_clmulepi64_si128,
    Nat.mod_eq_of_lt ha, Nat.mod_eq_of_lt hb, lane0_of_lt ha64, lane0_of_lt hb64]
  simp only [Nat.zero_and, if_true]

theorem shift_exponent {nbytes : Nat} (h5 : 5 ≤ nbytes) (h61 : nbytes < 2 ^ 61) :
    (nbytes * 8 + (2 ^ 64 - 33)) % 2 ^ 64 = 8 * nbytes - 33 := by
  omega

/-- A product `clmul64 c p` of an accumulator with `x ^ (8 * nbytes - 33)`, stepped through
64 bits, is the accumulator advanced by `nbytes` zero bytes. -/
theorem sem_shift {c p nbytes : Nat} (hc : c < 2 ^ 32) (hp : p < 2 ^ 32) (h5 : 5 ≤ nbytes)
    (hs : sem p * xR ^ 31 = xR ^ (8 * nbytes - 33)) :
    clmul64 c p < 2 ^ 63 ∧ sem (clmul64 c p) * xR ^ 64 = sem c * xR ^ (8 * nbytes) := by
  refine ⟨clmul64_lt32 hc hp, ?_⟩
  rw [sem_clmul64 (lt_trans hc (by norm_num)) (lt_trans hp (by norm_num))]
  have e : xR ^ (8 * nbytes) = xR ^ (8 * nbytes - 33) * xR ^ 33 := by
    rw [← pow_add]; congr 1; omega
  rw [e, ← hs]
  ring

theorem X86.x86_crc_shift_spec {c nbytes : Nat} (hc : c < 2 ^ 32) (h5 : 5 ≤ nbytes)
    (h61 : nbytes < 2 ^ 61) :
    ∃ v, X86.crc_shift c nbytes = some v ∧ v < 2 ^ 63 ∧
      sem v * xR ^ 64 = sem c * xR ^ (8 * nbytes) := by
  obtain ⟨p, hp, hlt, hs⟩ := xnmodpWith_spec X86.xnmodpSq X86.x86_sqOK (8 * nbytes - 33) (by omega)
  obtain ⟨h1, h2⟩ := sem_shift hc hlt h5 hs
  refine ⟨clmul64 c p, ?_, h1, h2⟩
  rw [X86.crc_shift, shift_exponent h5 h61, X86.xnmodp, hp, Option.map_some',
    X86.x86_clmul_scalar_eq hc hlt]

theorem byteLane_lt (v i : Nat) : Neon.byteLane v i < 2 ^ 8 := Nat.mod_lt _ (Nat.two_pow_pos 8)

theorem byteLane_high {v i : Nat} (h : v < 2 ^ 32) (hi : 4 ≤ i) : Neon.byteLane v i = 0 := by
  unfold Neon.byteLane
  rw [Nat.shiftRight_eq_div_pow, Nat.div_eq_of_lt]
  · rfl
  · exact lt_of_lt_of_le h (Nat.pow_le_pow_right (by decide) (by omega))

theorem sem_sq8 {b : Nat} (hb : b < 2 ^ 8) :
    clmulBits b b 8 < 2 ^ 15 ∧ sem (clmulBits b b 8) = sem b * sem b := by
  refine ⟨clmulBits_lt b b 8 8 hb, ?_⟩
  rw [sem_clmulBits, Nat.mod_eq_of_lt hb]

theorem Neon.neon_sqOK : SqOK Neon.xnmodpSq := by
  intro acc h
  have h64 : acc < 2 ^ 64 := lt_trans h (by norm_num)
  have hz : clmulBits 0 0 8 = 0 := by decide
  obtain ⟨l0, s0⟩ := sem_sq8 (byteLane_lt acc 0)
  obtain ⟨l1, s1⟩ := sem_sq8 (byteLane_lt acc 1)
  obtain ⟨l2, s2⟩ := sem_sq8 (byteLane_lt acc 2)
  obtain ⟨l3, s3⟩ := sem_sq8 (byteLane_lt acc 3)
  have hacc : acc = 2 ^ 8 * (2 ^ 8 * (2 ^ 8 * Neon.byteLane acc 3 + Neon.byteLane acc 2)
      + Neon.byteLane acc 1) + Neon.byteLane acc 0 := by
    simp only [Neon.byteLane, Nat.shiftRight_eq_div_pow]
    norm_num
    omega
  have hsq : Neon.xnmodpSq acc =
      2 ^ 16 * (2 ^ 16 * (2 ^ 16 * clmulBits (Neon.byteLane acc 3) (Neon.byteLane acc 3) 8
        + clmulBits (Neon.byteLane acc 2) (Neon.byteLane acc 2) 8)
        + clmulBits (Neon.byteLane acc 1) (Neon.byteLane acc 1) 8)
        + clmulBits (Neon.byteLane acc 0) (Neon.byteLane acc 0) 8 := by
    simp only [Neon.xnmodpSq, Neon.vmov_n_u64, Neon.vgetq_lane_u64, if_true, Neon.vmull_p8,
      Nat.mod_eq_of_lt h64, byteLane_high h (by norm_num : 4 ≤ 4),
      byteLane_high h (by norm_num : 4 ≤ 5), byteLane_high h (by norm_num : 4 ≤ 6),
      byteLane_high h (by norm_num : 4 ≤ 7), hz, lane0]
    norm_num at l0 l1 l2 l3 ⊢
    omega
  have b0 := byteLane_lt acc 0
  have b1 := byteLane_lt acc 1
  have b2 := byteLane_lt acc 2
  constructor
  · rw [hsq]
    norm_num at l0 l1 l2 l3 ⊢
    omega
  · rw [hsq]
    conv_rhs => rw [hacc]
    rw [sem_two_pow_mul_add 16 _ _ (lt_trans l0 (by norm_num)),
      sem_two_pow_mul_add 16 _ _ (lt_trans l1 (by norm_num)),
      sem_two_pow_mul_add 16 _ _ (lt_trans l2 (by norm_num)), s0, s1, s2, s3,
      sem_two_pow_mul_add 8 _ _ b0, sem_two_pow_mul_add 8 _ _ b1, sem_two_pow_mul_add 8 _ _ b2]
    generalize sem (Neon.byteLane acc 0) = t0
    generalize sem (Neon.byteLane acc 1) = t1
    generalize sem (Neon.byteLane acc 2) = t2
    generalize sem (Neon.byteLane acc 3) = t3
    linear_combination (-(t0 * (yR ^ 8 * t1) + t0 * (yR ^ 16 * t2) + t0 * (yR ^ 24 * t3)
      + (yR ^ 8 * t1) * (yR ^ 16 * t2) + (yR ^ 8 * t1) * (yR ^ 24 * t3)
      + (yR ^ 16 * t2) * (yR ^ 24 * t3))) * two_eq_zero

theorem Neon.neon_clmul_scalar_eq {a b : Nat} (ha : a < 2 ^ 32) (hb : b < 2 ^ 32) :
    Neon.clmul_scalar a b = clmul64 a b := by
  have ha64 : a < 2 ^ 64 := lt_trans ha (by norm_num)
  have hb64 : b < 2 ^ 64 := lt_trans hb (by norm_num)
  simp only [Neon.clmul_scalar, Neon.pmull, Neon.vmovq_n_u64, Nat.mod_eq_of_lt ha64,
    Nat.mod_eq_of_lt hb64, lane0_pair _ ha64, lane0_pair _ hb64]

theorem Neon.neon_crc_shift_spec {c nbytes : Nat} (hc : c < 2 ^ 32) (h5 : 5 ≤ nbytes)
    (h61 : nbytes < 2 ^ 61) :
    ∃ v, Neon.crc_shift c nbytes = some v ∧ v < 2 ^ 63 ∧
      sem v * xR ^ 64 = sem c * xR ^ (8 * nbytes) := by
  obtain ⟨p, hp, hlt, hs⟩ := xnmodpWith_spec Neon.xnmodpSq Neon.neon_sqOK (8 * nbytes - 33) (by omega)
  obtain ⟨h1, h2⟩ := sem_shift hc hlt h5 hs
  refine ⟨clmul64 c p, ?_, h1, h2⟩
  rw [Neon.crc_shift, shift_exponent h5 h61, Neon.xnmodp, hp, Option.map_some',
    Neon.neon_clmul_scalar_eq hc hlt]

/-! ### The folding constants -/

theorem foldConst_of_xnmodp {D klo khi : Nat} (hD : 5 ≤ D) (hD' : D < 2 ^ 60)
    (hlo : X86.xnmodp (8 * D + 31) = some klo) (hhi : X86.xnmodp (8 * D - 33) = some khi) :
    FoldConst D klo khi := by
  obtain ⟨r, hr, hlt, hs⟩ := xnmodpWith_spec X86.xnmodpSq X86.x86_sqOK (8 * D + 31) (by omega)
  obtain ⟨r', hr', hlt', hs'⟩ := xnmodpWith_spec X86.xnmodpSq X86.x86_sqOK (8 * D - 33) (by omega)
  rw [X86.xnmodp] at hlo hhi
  rw [hlo] at hr
  rw [hhi] at hr'
  cases hr
  cases hr'
  refine ⟨hlt, hlt', ?_, ?_⟩
  · apply mul_x_pow_cancel 31
    rw [hs, pow_add]
  · have e : xR ^ (8 * D) = xR ^ (8 * D - 33) * xR ^ 33 := by
      rw [← pow_add]; congr 1; omega
    rw [e, ← hs']
    ring

set_option maxRecDepth 100000 in
theorem foldConst16 : FoldConst 16 0xf20c0dfe 0x493c7d27 :=
  foldConst_of_xnmodp (by norm_num) (by norm_num) (by decide) (by decide)

set_option maxRecDepth 100000 in
theorem foldConst32 : FoldConst 32 0x3da6d0cb 0xba4fc28e :=
  foldConst_of_xnmodp (by norm_num) (by norm_num) (by decide) (by decide)

set_option maxRecDepth 100000 in
theorem foldConst64 : FoldConst 64 0x740eef02 0x9e4addf8 :=
  foldConst_of_xnmodp (by norm_num) (by norm_num) (by decide) (by decide)

set_option maxRecDepth 100000 in
theorem foldConst144 : FoldConst 144 0x7e908048 0xc96cfdc0 :=
  foldConst_of_xnmodp (by norm_num) (by norm_num) (by decide) (by decide)

set_option maxRecDepth 100000 in
theorem foldConst192 : FoldConst 192 0xa87ab8a8 0xab7aff2a :=
  foldConst_of_xnmodp (by norm_num) (by norm_num) (by decide) (by decide)

/-! ### Runs of scalar steps -/

theorem refRaw_words2 {mem : List (Fin 256)} {off c : Nat} (h : off + 16 ≤ mem.length)
    (hc : c < 2 ^ 32) :
    crc32c_u64 (crc32c_u64 c (leBytes (slice mem off 8))) (leBytes (slice mem (off + 8) 8))
      = refRaw c (slice mem off 16) := by
  rw [crc32c_u64_slice (by omega) hc, crc32c_u64_slice (by omega) (refRaw_lt _ hc),
    ← refRaw_append, ← slice_add]

theorem refRaw_words3 {mem : List (Fin 256)} {off c : Nat} (h : off + 24 ≤ mem.length)
    (hc : c < 2 ^ 32) :
    crc32c_u64 (crc32c_u64 (crc32c_u64 c (leBytes (slice mem off 8)))
      (leBytes (slice mem (off + 8) 8))) (leBytes (slice mem (off + 16) 8))
      = refRaw c (slice mem off 24) := by
  rw [refRaw_words2 (by omega) hc, crc32c_u64_slice (by omega) (refRaw_lt _ hc),
    ← refRaw_append, ← slice_add]

theorem refRaw_slice_add (mem : List (Fin 256)) (c off m n : Nat) :
    refRaw (refRaw c (slice mem off m)) (slice mem (off + m) n) = refRaw c (slice mem off (m + n)) := by
  rw [slice_add, refRaw_append]

theorem feedSem_slice_add (mem : List (Fin 256)) (r : CrcRing) (off m n : Nat) :
    feedSem (feedSem r (slice mem off m)) (slice mem (off + m) n)
      = feedSem r (slice mem off (m + n)) := by
  rw [slice_add, feedSem_append]

theorem feedSem_slice {mem : List (Fin 256)} {off n : Nat} (r : CrcRing)
    (h : off + n ≤ mem.length) :
    feedSem r (slice mem off n) = r * xR ^ (8 * n) + feedSem 0 (slice mem off n) := by
  rw [feedSem_eq, slice_length h]

theorem feedSem0_block {mem : List (Fin 256)} {off n : Nat} (h : off + (16 + n) ≤ mem.length) :
    feedSem 0 (slice mem off (16 + n)) =
      vsem (leBytes (slice mem off 16)) * xR ^ (8 * n) + feedSem 0 (slice mem (off + 16) n) := by
  rw [slice_add, feedSem_append, feedSem_slice _ (show off + 16 + n ≤ mem.length by omega),
    vsem_slice (by omega)]

theorem slice128_lt {mem : List (Fin 256)} {off : Nat} (h : off + 16 ≤ mem.length) :
    leBytes (slice mem off 16) < 2 ^ 128 := slice_lt h

theorem slice64_lt {mem : List (Fin 256)} {off : Nat} (h : off + 8 ≤ mem.length) :
    leBytes (slice mem off 8) < 2 ^ 64 := slice_lt h

namespace X86

theorem fold_eq (x klo khi d : Nat) (hlo : klo < 2 ^ 32) (hhi : khi < 2 ^ 32) :
    _mm_xor_si128 (clmul_hi x (_mm_setr_epi32 klo 0 khi 0))
      (_mm_xor_si128 (clmul_lo x (_mm_setr_epi32 klo 0 khi 0)) d) = foldv x klo khi d := by
  have hlo' : klo < 2 ^ 64 := lt_trans hlo (by norm_num)
  have hhi' : khi < 2 ^ 64 := lt_trans hhi (by norm_num)
  have hk : _mm_setr_epi32 klo 0 khi 0 = klo + 2 ^ 64 * khi := by
    simp [_mm_setr_epi32]
  have h17 : (17 : Nat) &&& 1 = 1 := by decide
  have h17' : (17 : Nat) &&& 16 = 16 := by decide
  simp only [_mm_xor_si128, clmul_hi, clmul_lo, _mm_clmulepi64_si128, hk, lane0_pair _ hlo',
    lane1_pair hlo' hhi', foldv, h17, h17', Nat.zero_and]
  simp

theorem scalarChunk_spec {mem : List (Fin 256)} {klen : Nat} {s : VecState}
    (h0 : s.crc0 < 2 ^ 32) (h1 : s.crc1 < 2 ^ 32) (h2 : s.crc2 < 2 ^ 32)
    (h : s.buf + klen * 2 + 24 ≤ mem.length) :
    scalarChunk mem klen s = some { s with
      crc0 := refRaw s.crc0 (slice mem s.buf 24)
      crc1 := refRaw s.crc1 (slice mem (s.buf + klen) 24)
      crc2 := refRaw s.crc2 (slice mem (s.buf + klen * 2) 24) } := by
  simp only [scalarChunk, bind_pure_comp, Option.bind_eq_bind, Option.pure_def,
    load64_eq (show s.buf + 8 ≤ mem.length by omega),
    load64_eq (show s.buf + 8 + 8 ≤ mem.length by omega),
    load64_eq (show s.buf + 16 + 8 ≤ mem.length by omega),
    load64_eq (show s.buf + klen + 8 ≤ mem.length by omega),
    load64_eq (show s.buf + klen + 8 + 8 ≤ mem.length by omega),
    load64_eq (show s.buf + klen + 16 + 8 ≤ mem.length by omega),
    load64_eq (show s.buf + klen * 2 + 8 ≤ mem.length by omega),
    load64_eq (show s.buf + klen * 2 + 8 + 8 ≤ mem.length by omega),
    load64_eq (show s.buf + klen * 2 + 16 + 8 ≤ mem.length by omega),
    Option.some_bind, Option.map_some', mm_crc32_u64, _mm_crc32_u64,
    refRaw_words3 (show s.buf + 24 ≤ mem.length by omega) h0,
    refRaw_words3 (show s.buf + klen + 24 ≤ mem.length by omega) h1,
    refRaw_words3 (show s.buf + klen * 2 + 24 ≤ mem.length by omega) h2]

theorem mainBody_spec {mem : List (Fin 256)} {klen : Nat} {s : VecState}
    (hb : s.Bounded) (hv : s.buf2 + 64 ≤ mem.length) (h : s.buf + klen * 2 + 24 ≤ mem.length) :
    ∃ s', mainBody mem klen s = some s' ∧ s'.Bounded ∧
      s'.W = feedSem s.W (slice mem s.buf2 64) ∧
      s'.crc0 = refRaw s.crc0 (slice mem s.buf 24) ∧
      s'.crc1 = refRaw s.crc1 (slice mem (s.buf + klen) 24) ∧
      s'.crc2 = refRaw s.crc2 (slice mem (s.buf + klen * 2) 24) ∧
      s'.buf = s.buf + 24 ∧ s'.buf2 = s.buf2 + 64 ∧ s'.len = s.len - 136 := by
  obtain ⟨b0, b1, b2, b3, c0, c1, c2⟩ := hb
  have k64 := foldConst64
  simp only [mainBody, bind_pure_comp, Option.bind_eq_bind, Option.pure_def,
    load128_eq (show s.buf2 + 16 ≤ mem.length by omega),
    load128_eq (show s.buf2 + 16 + 16 ≤ mem.length by omega),
    load128_eq (show s.buf2 + 32 + 16 ≤ mem.length by omega),
    load128_eq (show s.buf2 + 48 + 16 ≤ mem.length by omega),
    Option.some_bind, Option.map_some', fold_eq _ _ _ _ k64.1 k64.2.1]
  rw [scalarChunk_spec (by exact c0) (by exact c1) (by exact c2) (by exact h)]
  refine ⟨_, rfl, ?_, ?_, rfl, rfl, rfl, rfl, rfl, rfl⟩
  · exact ⟨foldv_lt (slice128_lt (by omega)), foldv_lt (slice128_lt (by omega)),
      foldv_lt (slice128_lt (by omega)), foldv_lt (slice128_lt (by omega)),
      refRaw_lt _ c0, refRaw_lt _ c1, refRaw_lt _ c2⟩
  · simp only [VecState.W, vsem_foldv k64 b0, vsem_foldv k64 b1, vsem_foldv k64 b2,
      vsem_foldv k64 b3]
    rw [feedSem_slice _ hv, feedSem0_block (n := 48) (by omega), feedSem0_block (n := 32) (by omega),
      feedSem0_block (n := 16) (by omega), feedSem0_block (n := 0) (by omega), slice_zero,
      feedSem_nil]
    ring

theorem mainLoop_spec (mem : List (Fin 256)) (klen : Nat) (k : Nat) :
    ∀ (fuel : Nat) (s : VecState), k < fuel → s.Bounded →
      136 * k + 8 ≤ s.len → s.len < 136 * (k + 1) + 8 →
      s.buf2 + 64 * k ≤ mem.length → s.buf + klen * 2 + 24 * k ≤ mem.length →
      ∃ s', mainLoop mem klen fuel s = some s' ∧ s'.Bounded ∧
        s'.W = feedSem s.W (slice mem s.buf2 (64 * k)) ∧
        s'.crc0 = refRaw s.crc0 (slice mem s.buf (24 * k)) ∧
        s'.crc1 = refRaw s.crc1 (slice mem (s.buf + klen) (24 * k)) ∧
        s'.crc2 = refRaw s.crc2 (slice mem (s.buf + klen * 2) (24 * k)) ∧
        s'.buf = s.buf + 24 * k ∧ s'.buf2 = s.buf2 + 64 * k ∧ s'.len = s.len - 136 * k := by
  induction k with
  | zero =>
    intro fuel s hf hb h1 h2 _ _
    obtain ⟨fuel, rfl⟩ : ∃ f, fuel = f + 1 := ⟨fuel - 1, by omega⟩
    rw [mainLoop, if_neg (by omega)]
    refine ⟨s, rfl, hb, ?_, ?_, ?_, ?_, rfl, rfl, rfl⟩
    · rw [Nat.mul_zero, slice_zero, feedSem_nil]
    · rw [Nat.mul_zero, slice_zero]; rfl
    · rw [Nat.mul_zero, slice_zero]; rfl
    · rw [Nat.mul_zero, slice_zero]; rfl
  | succ k ih =>
    intro fuel s hf hb h1 h2 hv hs
    obtain ⟨fuel, rfl⟩ : ∃ f, fuel = f + 1 := ⟨fuel - 1, by omega⟩
    rw [mainLoop, if_pos (by omega)]
    obtain ⟨s1, e1, hb1, w1, c0, c1, c2, p1, p2, l1⟩ :=
      mainBody_spec hb (show s.buf2 + 64 ≤ mem.length by omega)
        (show s.buf + klen * 2 + 24 ≤ mem.length by omega)
    rw [e1, Option.some_bind]
    obtain ⟨s2, e2, hb2, w2, d0, d1, d2, q1, q2, l2⟩ :=
      ih fuel s1 (by omega) hb1 (by omega) (by omega) (by omega) (by omega)
    refine ⟨s2, e2, hb2, ?_, ?_, ?_, ?_, by omega, by omega, by omega⟩
    · rw [w2, w1, p2, feedSem_slice_add]
      congr 2; omega
    · rw [d0, c0, p1, refRaw_slice_add]
      congr 2; omega
    · rw [d1, c1, p1, show s.buf + 24 + klen = s.buf + klen + 24 by omega, refRaw_slice_add]
      congr 2; omega
    · rw [d2, c2, p1, show s.buf + 24 + klen * 2 = s.buf + klen * 2 + 24 by omega,
        refRaw_slice_add]
      congr 2; omega

theorem firstChunk_spec {mem : List (Fin 256)} (blk : Nat) {c : Cursor}
    (hc : c.crc0 < 2 ^ 32) (h : c.buf + 64 ≤ mem.length) :
    ∃ s, firstChunk mem blk c = some s ∧ s.Bounded ∧
      s.W = feedSem (sem c.crc0) (slice mem c.buf 64) ∧
      s.crc0 = 0 ∧ s.crc1 = 0 ∧ s.crc2 = 0 ∧
      s.buf = c.buf + blk * 64 ∧ s.buf2 = c.buf + 64 ∧ s.len = c.len - 136 := by
  simp only [firstChunk, bind_pure_comp, Option.bind_eq_bind, Option.pure_def, Nat.add_zero,
    load128_eq (show c.buf + 16 ≤ mem.length by omega),
    load128_eq (show c.buf + 16 + 16 ≤ mem.length by omega),
    load128_eq (show c.buf + 32 + 16 ≤ mem.length by omega),
    load128_eq (show c.buf + 48 + 16 ≤ mem.length by omega),
    Option.some_bind, Option.map_some', _mm_xor_si128, _mm_cvtsi32_si128, Nat.mod_eq_of_lt hc]
  refine ⟨_, rfl, ?_, ?_, rfl, rfl, rfl, rfl, rfl, rfl⟩
  · exact ⟨Nat.xor_lt_two_pow (lt_trans hc (by norm_num)) (slice128_lt (by omega)),
      slice128_lt (by omega), slice128_lt (by omega), slice128_lt (by omega),
      by norm_num, by norm_num, by norm_num⟩
  · simp only [VecState.W, vsem_xor]
    rw [feedSem_slice _ h, feedSem0_block (n := 48) (by omega), feedSem0_block (n := 32) (by omega),
      feedSem0_block (n := 16) (by omega), feedSem0_block (n := 0) (by omega), slice_zero,
      feedSem_nil, vsem]
    ring

theorem reduceLanes_spec {s : VecState} (hb : s.Bounded) :
    reduceLanes s < 2 ^ 128 ∧ vsem (reduceLanes s) = s.W := by
  obtain ⟨b0, b1, b2, b3, _, _, _⟩ := hb
  have k16 := foldConst16
  have k32 := foldConst32
  simp only [reduceLanes, fold_eq _ _ _ _ k16.1 k16.2.1, fold_eq _ _ _ _ k32.1 k32.2.1]
  refine ⟨foldv_lt (foldv_lt b3), ?_⟩
  rw [vsem_foldv k32 (foldv_lt b1), vsem_foldv k16 b0, vsem_foldv k16 b2, VecState.W]
  ring

end X86

theorem sub64_eq {a b : Nat} (hb : b ≤ a) (ha : a < 2 ^ 64) : sub64 a b = a - b := by
  unfold sub64
  rw [Nat.mod_eq_of_lt (lt_of_le_of_lt hb ha)]
  omega

namespace X86

theorem mm_extract_epi64_zero (v : Nat) : mm_extract_epi64 v 0 = lane0 v := by
  simp [mm_extract_epi64, _mm_cvtsi128_si64, lane0]

theorem mm_extract_epi64_one (v : Nat) : mm_extract_epi64 v 1 = lane1 v := by
  simp [mm_extract_epi64, _mm_cvtsi128_si64, _mm_srli_si128, lane1]

theorem vectorPhase_spec {mem : List (Fin 256)} {c : Cursor} (hw : c.WF mem)
    (h144 : 144 ≤ c.len) (h61 : c.len < 2 ^ 61) :
    ∃ c', vectorPhase mem c = some c' ∧ Cursor.Adv mem c c' := by
  obtain ⟨hlen, hcrc⟩ := hw
  unfold vectorPhase
  simp only [Option.bind_eq_bind]
  have key : 136 * ((c.len - 8) / 136) + 8 ≤ c.len ∧ c.len < 136 * ((c.len - 8) / 136) + 144 := by
    omega
  generalize (c.len - 8) / 136 = blk at key ⊢
  obtain ⟨hk1, hk2⟩ := key
  have hbk : 1 ≤ blk := by omega
  -- first chunk and main loop
  obtain ⟨s0, e0, hb0, w0, z0, z1, z2, p0, q0, l0⟩ :=
    firstChunk_spec blk hcrc (show c.buf + 64 ≤ mem.length by omega)
  obtain ⟨s1, e1, hb1, w1, c0, c1, c2, p1, q1, l1⟩ :=
    mainLoop_spec mem (blk * 24) (blk - 1) (s0.len + 1) s0
      (by omega) hb0 (by omega) (by omega) (by omega) (by omega)
  obtain ⟨hx, sx⟩ := reduceLanes_spec hb1
  obtain ⟨_, _, _, _, b0, b1, b2⟩ := hb1
  -- the three scalar streams
  have hR0 : refRaw s1.crc0 (slice mem s1.buf 24) = refRaw 0 (slice mem (c.buf + 64 * blk) (blk * 24)) := by
    rw [c0, z0, p1, refRaw_slice_add, p0]
    congr 2 <;> omega
  have hR1 : refRaw s1.crc1 (slice mem (s1.buf + blk * 24) 24)
      = refRaw 0 (slice mem (c.buf + 64 * blk + blk * 24) (blk * 24)) := by
    rw [c1, z1, p1, show s0.buf + 24 * (blk - 1) + blk * 24 = s0.buf + blk * 24 + 24 * (blk - 1) by omega,
      refRaw_slice_add, p0]
    congr 2 <;> omega
  have hR2 : refRaw s1.crc2 (slice mem (s1.buf + blk * 24 * 2) 24)
      = refRaw 0 (slice mem (c.buf + 64 * blk + blk * 24 + blk * 24) (blk * 24)) := by
    rw [c2, z2, p1,
      show s0.buf + 24 * (blk - 1) + blk * 24 * 2 = s0.buf + blk * 24 * 2 + 24 * (blk - 1) by omega,
      refRaw_slice_add, p0]
    congr 2 <;> omega
  have hW : vsem (reduceLanes s1) = feedSem (sem c.crc0) (slice mem c.buf (64 * blk)) := by
    rw [sx, w1, w0, q0, feedSem_slice_add]
    congr 2; omega
  have e2 := scalarChunk_spec b0 b1 b2
    (show s1.buf + blk * 24 * 2 + 24 ≤ mem.length by omega)
  rw [hR0, hR1, hR2] at e2
  have r0 := refRaw_lt (slice mem (c.buf + 64 * blk) (blk * 24)) (show 0 < 2 ^ 32 by norm_num)
  have r1 := refRaw_lt (slice mem (c.buf + 64 * blk + blk * 24) (blk * 24))
    (show 0 < 2 ^ 32 by norm_num)
  have r2 := refRaw_lt (slice mem (c.buf + 64 * blk + blk * 24 + blk * 24) (blk * 24))
    (show 0 < 2 ^ 32 by norm_num)
  obtain ⟨hr, sr⟩ := sem_reduce hx
  obtain ⟨v0, e3, hv0, sv0⟩ :=
    x86_crc_shift_spec r0 (show 5 ≤ blk * 24 * 2 + 8 by omega) (by omega)
  obtain ⟨v1, e4, hv1, sv1⟩ :=
    x86_crc_shift_spec r1 (show 5 ≤ blk * 24 + 8 by omega) (by omega)
  obtain ⟨v2, e5, hv2, sv2⟩ :=
    x86_crc_shift_spec hr (show 5 ≤ blk * 24 * 3 + 8 by omega) (by omega)
  have hlast : s1.buf + 24 + blk * 24 * 2 = c.buf + 64 * blk + blk * 24 + blk * 24 + blk * 24 := by
    omega
  have hin : c.buf + 64 * blk + blk * 24 + blk * 24 + blk * 24 + 8 ≤ mem.length := by omega
  have e6 := load64_eq hin
  rw [e0, Option.some_bind, e1, Option.some_bind, e2, Option.some_bind]
  simp only [mm_extract_epi64_zero, mm_extract_epi64_one, mm_crc32_u64, _mm_crc32_u64,
    _mm_xor_si128, hlast]
  rw [e3, Option.some_bind, e4, Option.some_bind, e5, Option.some_bind, e6, Option.some_bind]
  have h64 : (2 : Nat) ^ 63 < 2 ^ 64 := by norm_num
  have hv01 : v0 ^^^ v1 < 2 ^ 64 :=
    Nat.xor_lt_two_pow (lt_trans hv0 h64) (lt_trans hv1 h64)
  rw [lane0_of_lt hv01, lane0_of_lt (lt_trans hv2 h64)]
  refine ⟨_, rfl, 136 * blk + 8, by omega, ?_, ?_, ?_⟩
  · show c.buf + 64 * blk + blk * 24 + blk * 24 + blk * 24 + 8 = _
    omega
  · show sub64 s1.len 8 = _
    rw [sub64_eq (by omega) (by omega)]
    omega
  · show crc32c_u64 _ _ = _
    have hvc : v0 ^^^ v1 ^^^ v2 < 2 ^ 64 := Nat.xor_lt_two_pow hv01 (lt_trans hv2 h64)
    apply sem_inj (crc32c_u64_lt r2 (Nat.xor_lt_two_pow (slice64_lt hin) hvc)) (refRaw_lt _ hcrc)
    have hsplit : 136 * blk + 8 = 64 * blk + (blk * 24 + (blk * 24 + (blk * 24 + 8))) := by omega
    rw [sem_crc32c_u64, sem_xor, sem_xor, sem_xor, sem_refRaw c.crc0, hsplit,
      ← feedSem_slice_add, ← feedSem_slice_add, ← feedSem_slice_add, ← feedSem_slice_add, ← hW,
      feedSem_slice _ (show c.buf + 64 * blk + blk * 24 ≤ mem.length by omega),
      feedSem_slice _ (show c.buf + 64 * blk + blk * 24 + blk * 24 ≤ mem.length by omega),
      feedSem_slice _ (show c.buf + 64 * blk + blk * 24 + blk * 24 + blk * 24 ≤ mem.length by omega),
      feedSem_slice _ hin, ← sem_slice hin]
    rw [sr] at sv2
    have f0 := sem_refRaw 0 (slice mem (c.buf + 64 * blk) (blk * 24))
    have f1 := sem_refRaw 0 (slice mem (c.buf + 64 * blk + blk * 24) (blk * 24))
    have f2 := sem_refRaw 0 (slice mem (c.buf + 64 * blk + blk * 24 + blk * 24) (blk * 24))
    rw [sem_zero] at f0 f1 f2
    rw [← f0, ← f1, ← f2]
    linear_combination sv0 + sv1 + sv2

end X86

/-- The alignment prologue shared by the engines. -/
theorem prologue_spec (seed addr : Nat) (mem : List (Fin 256)) (hs : seed < 2 ^ 32) :
    ∃ c1 c, headLoop addr mem (mem.length + 1) ⟨not32 seed, 0, mem.length⟩ = some c1 ∧
      headWord addr mem c1 = some c ∧
      Cursor.Adv mem ⟨not32 seed, 0, mem.length⟩ c ∧ Cursor.WF mem c := by
  have hw0 : Cursor.WF mem ⟨not32 seed, 0, mem.length⟩ := ⟨by simp, not32_lt hs⟩
  obtain ⟨c1, e1, a1⟩ := headLoop_spec addr mem (mem.length + 1) _ (Nat.lt_succ_self _) hw0
  obtain ⟨c2, e2, a2⟩ := headWord_spec addr mem c1 (a1.wf hw0)
  exact ⟨c1, c2, e1, e2, a1.trans a2, (a1.trans a2).wf hw0⟩

/-- The scalar epilogue shared by the engines. -/
theorem epilogue_spec {seed : Nat} {mem : List (Fin 256)} {c : Cursor}
    (a : Cursor.Adv mem ⟨not32 seed, 0, mem.length⟩ c) (hs : seed < 2 ^ 32) :
    ((tailWords mem (c.len + 1) c).bind fun c =>
      (tailBytes mem (c.len + 1) c).bind fun c => pure (not32 c.crc0))
      = some (crc32c_reference seed mem) := by
  have hw0 : Cursor.WF mem ⟨not32 seed, 0, mem.length⟩ := ⟨by simp, not32_lt hs⟩
  obtain ⟨c4, e4, a4, _⟩ := tailWords_spec mem (c.len + 1) c (Nat.lt_succ_self _) (a.wf hw0)
  obtain ⟨c5, e5, a5, h5⟩ :=
    tailBytes_spec mem (c4.len + 1) c4 (Nat.lt_succ_self _) ((a.trans a4).wf hw0)
  rw [e4, Option.some_bind, e5, Option.some_bind]
  show some (not32 c5.crc0) = _
  rw [adv_total ((a.trans a4).trans a5) h5]

namespace X86

/-- The x86 engine returns the reference CRC32C. -/
theorem x86_correct (seed addr : Nat) (mem : List (Fin 256)) (hs : seed < 2 ^ 32)
    (hl : mem.length < 2 ^ 61) :
    crc32_iscsi_impl seed addr mem = some (crc32c_reference seed mem) := by
  obtain ⟨c1, c2, e1, e2, a2, hw2⟩ := prologue_spec seed addr mem hs
  have hlen2 : c2.len ≤ mem.length := a2.len_le
  unfold crc32_iscsi_impl
  simp only [Option.bind_eq_bind]
  rw [e1, Option.some_bind, e2, Option.some_bind]
  split
  · rename_i h
    obtain ⟨c3, e3, a3⟩ := vectorPhase_spec hw2 h (by omega)
    rw [e3, Option.some_bind]
    exact epilogue_spec (a2.trans a3) hs
  · rw [Option.some_bind]
    exact epilogue_spec a2 hs

end X86

namespace Neon

theorem kvec_lanes {klo khi : Nat} (hlo : klo < 2 ^ 32) (hhi : khi < 2 ^ 32) :
    lane0 (kvec klo khi) = klo ∧ lane1 (kvec klo khi) = khi := by
  have hlo' : klo < 2 ^ 64 := lt_trans hlo (by norm_num)
  have hhi' : khi < 2 ^ 64 := lt_trans hhi (by norm_num)
  exact ⟨lane0_pair _ hlo', lane1_pair hlo' hhi'⟩

theorem fold3_eq (x klo khi d : Nat) (hlo : klo < 2 ^ 32) (hhi : khi < 2 ^ 32) :
    veor3q_u64 (clmul_hi_eor3 x (kvec klo khi)) (clmul_lo_eor3 x (kvec klo khi)) d
      = foldv x klo khi d := by
  obtain ⟨h0, h1⟩ := kvec_lanes hlo hhi
  simp only [veor3q_u64, clmul_hi_eor3, clmul_lo_eor3, pmull, pmull2, h0, h1, foldv,
    Nat.xor_assoc]

theorem folde_eq (x klo khi d : Nat) (hlo : klo < 2 ^ 32) (hhi : khi < 2 ^ 32) :
    clmul_hi_e x (kvec klo khi) (clmul_lo_e x (kvec klo khi) d) = foldv x klo khi d := by
  obtain ⟨h0, h1⟩ := kvec_lanes hlo hhi
  simp only [clmul_hi_e, clmul_lo_e, pmull, pmull2, h0, h1, foldv]

theorem vgetq_lane_zero (v : Nat) : vgetq_lane_u64 v 0 = lane0 v := by
  simp [vgetq_lane_u64]

theorem vgetq_lane_one (v : Nat) : vgetq_lane_u64 v 1 = lane1 v := by
  simp [vgetq_lane_u64]

theorem largeScalarChunk_spec {mem : List (Fin 256)} {klen : Nat} {s : LargeState}
    (h0 : s.crc0 < 2 ^ 32) (h1 : s.crc1 < 2 ^ 32) (h2 : s.crc2 < 2 ^ 32)
    (h : s.buf + klen * 2 + 16 ≤ mem.length) :
    largeScalarChunk mem klen s = some { s with
      crc0 := refRaw s.crc0 (slice mem s.buf 16)
      crc1 := refRaw s.crc1 (slice mem (s.buf + klen) 16)
      crc2 := refRaw s.crc2 (slice mem (s.buf + klen * 2) 16) } := by
  simp only [largeScalarChunk, bind_pure_comp, Option.bind_eq_bind, Option.pure_def,
    load64_eq (show s.buf + 8 ≤ mem.length by omega),
    load64_eq (show s.buf + 8 + 8 ≤ mem.length by omega),
    load64_eq (show s.buf + klen + 8 ≤ mem.length by omega),
    load64_eq (show s.buf + klen + 8 + 8 ≤ mem.length by omega),
    load64_eq (show s.buf + klen * 2 + 8 ≤ mem.length by omega),
    load64_eq (show s.buf + klen * 2 + 8 + 8 ≤ mem.length by omega),
    Option.some_bind, Option.map_some', __crc32cd,
    refRaw_words2 (show s.buf + 16 ≤ mem.length by omega) h0,
    refRaw_words2 (show s.buf + klen + 16 ≤ mem.length by omega) h1,
    refRaw_words2 (show s.buf + klen * 2 + 16 ≤ mem.length by omega) h2]

theorem largeBody_spec {mem : List (Fin 256)} {klen : Nat} {s : LargeState}
    (hb : s.Bounded) (hv : s.buf2 + 144 ≤ mem.length) (h : s.buf + klen * 2 + 16 ≤ mem.length) :
    ∃ s', largeBody mem klen s = some s' ∧ s'.Bounded ∧
      s'.W = feedSem s.W (slice mem s.buf2 144) ∧
      s'.crc0 = refRaw s.crc0 (slice mem s.buf 16) ∧
      s'.crc1 = refRaw s.crc1 (slice mem (s.buf + klen) 16) ∧
      s'.crc2 = refRaw s.crc2 (slice mem (s.buf + klen * 2) 16) ∧
      s'.buf = s.buf + 16 ∧ s'.buf2 = s.buf2 + 144 := by
  obtain ⟨b0, b1, b2, b3, b4, b5, b6, b7, b8, c0, c1, c2⟩ := hb
  have kc := foldConst144
  simp only [largeBody, bind_pure_comp, Option.bind_eq_bind, Option.pure_def,
    load128_eq (show s.buf2 + 16 ≤ mem.length by omega),
    load128_eq (show s.buf2 + 16 + 16 ≤ mem.length by omega),
    load128_eq (show s.buf2 + 32 + 16 ≤ mem.length by omega),
    load128_eq (show s.buf2 + 48 + 16 ≤ mem.length by omega),
    load128_eq (show s.buf2 + 64 + 16 ≤ mem.length by omega),
    load128_eq (show s.buf2 + 80 + 16 ≤ mem.length by omega),
    load128_eq (show s.buf2 + 96 + 16 ≤ mem.length by omega),
    load128_eq (show s.buf2 + 112 + 16 ≤ mem.length by omega),
    load128_eq (show s.buf2 + 128 + 16 ≤ mem.length by omega),
    Option.some_bind, Option.map_some', fold3_eq _ _ _ _ kc.1 kc.2.1]
  rw [largeScalarChunk_spec (by exact c0) (by exact c1) (by exact c2) (by exact h)]
  refine ⟨_, rfl, ?_, ?_, rfl, rfl, rfl, rfl, rfl⟩
  · exact ⟨foldv_lt (slice128_lt (by omega)), foldv_lt (slice128_lt (by omega)), foldv_lt (slice128_lt (by omega)), foldv_lt (slice128_lt (by omega)), foldv_lt (slice128_lt (by omega)), foldv_lt (slice128_lt (by omega)), foldv_lt (slice128_lt (by omega)), foldv_lt (slice128_lt (by omega)), foldv_lt (slice128_lt (by omega)),
      refRaw_lt _ c0, refRaw_lt _ c1, refRaw_lt _ c2⟩
  · simp only [LargeState.W, vsem_foldv kc b0, vsem_foldv kc b1, vsem_foldv kc b2, vsem_foldv kc b3, vsem_foldv kc b4, vsem_foldv kc b5, vsem_foldv kc b6, vsem_foldv kc b7, vsem_foldv kc b8]
    rw [feedSem_slice _ hv, feedSem0_block (n := 128) (by omega), feedSem0_block (n := 112) (by omega), feedSem0_block (n := 96) (by omega), feedSem0_block (n := 80) (by omega), feedSem0_block (n := 64) (by omega), feedSem0_block (n := 48) (by omega), feedSem0_block (n := 32) (by omega), feedSem0_block (n := 16) (by omega), feedSem0_block (n := 0) (by omega), slice_zero, feedSem_nil]
    ring

theorem largeLoop_spec (mem : List (Fin 256)) (klen : Nat) (limit : Int) (k : Nat) :
    ∀ (fuel : Nat) (s : LargeState), k < fuel → s.Bounded →
      (s.buf : Int) + 16 * k = limit + 16 →
      s.buf2 + 144 * k ≤ mem.length → s.buf + klen * 2 + 16 * k ≤ mem.length →
      ∃ s', largeLoop mem klen limit fuel s = some s' ∧ s'.Bounded ∧
        s'.W = feedSem s.W (slice mem s.buf2 (144 * k)) ∧
        s'.crc0 = refRaw s.crc0 (slice mem s.buf (16 * k)) ∧
        s'.crc1 = refRaw s.crc1 (slice mem (s.buf + klen) (16 * k)) ∧
        s'.crc2 = refRaw s.crc2 (slice mem (s.buf + klen * 2) (16 * k)) ∧
        s'.buf = s.buf + 16 * k ∧ s'.buf2 = s.buf2 + 144 * k := by
  induction k with
  | zero =>
    intro fuel s hf hb h1 _ _
    obtain ⟨fuel, rfl⟩ : ∃ f, fuel = f + 1 := ⟨fuel - 1, by omega⟩
    rw [largeLoop, if_neg (by omega)]
    refine ⟨s, rfl, hb, ?_, ?_, ?_, ?_, rfl, rfl⟩
    · rw [Nat.mul_zero, slice_zero, feedSem_nil]
    · rw [Nat.mul_zero, slice_zero]; rfl
    · rw [Nat.mul_zero, slice_zero]; rfl
    · rw [Nat.mul_zero, slice_zero]; rfl
  | succ k ih =>
    intro fuel s hf hb h1 hv hs
    obtain ⟨fuel, rfl⟩ : ∃ f, fuel = f + 1 := ⟨fuel - 1, by omega⟩
    rw [largeLoop, if_pos (by push_cast at h1; omega)]
    obtain ⟨s1, e1, hb1, w1, c0, c1, c2, p1, p2⟩ :=
      largeBody_spec hb (show s.buf2 + 144 ≤ mem.length by omega)
        (show s.buf + klen * 2 + 16 ≤ mem.length by omega)
    rw [e1, Option.some_bind]
    obtain ⟨s2, e2, hb2, w2, d0, d1, d2, q1, q2⟩ :=
      ih fuel s1 (by omega) hb1 (by rw [p1]; push_cast at h1 ⊢; omega) (by omega) (by omega)
    refine ⟨s2, e2, hb2, ?_, ?_, ?_, ?_, by omega, by omega⟩
    · rw [w2, w1, p2, feedSem_slice_add]
      congr 2; omega
    · rw [d0, c0, p1, refRaw_slice_add]
      congr 2; omega
    · rw [d1, c1, p1, show s.buf + 16 + klen = s.buf + klen + 16 by omega, refRaw_slice_add]
      congr 2; omega
    · rw [d2, c2, p1, show s.buf + 16 + klen * 2 = s.buf + klen * 2 + 16 by omega,
        refRaw_slice_add]
      congr 2; omega

theorem largeFirstChunk_spec {mem : List (Fin 256)} (klen : Nat) {c : Cursor}
    (hc : c.crc0 < 2 ^ 32) (h : c.buf + klen * 3 + 144 ≤ mem.length) :
    ∃ s, largeFirstChunk mem klen c = some s ∧ s.Bounded ∧
      s.W = feedSem 0 (slice mem (c.buf + klen * 3) 144) ∧
      s.crc0 = c.crc0 ∧ s.crc1 = 0 ∧ s.crc2 = 0 ∧
      s.buf = c.buf ∧ s.buf2 = c.buf + klen * 3 + 144 := by
  simp only [largeFirstChunk, bind_pure_comp, Option.bind_eq_bind, Option.pure_def,
    load128_eq (show c.buf + klen * 3 + 16 ≤ mem.length by omega),
    load128_eq (show c.buf + klen * 3 + 16 + 16 ≤ mem.length by omega),
    load128_eq (show c.buf + klen * 3 + 32 + 16 ≤ mem.length by omega),
    load128_eq (show c.buf + klen * 3 + 48 + 16 ≤ mem.length by omega),
    load128_eq (show c.buf + klen * 3 + 64 + 16 ≤ mem.length by omega),
    load128_eq (show c.buf + klen * 3 + 80 + 16 ≤ mem.length by omega),
    load128_eq (show c.buf + klen * 3 + 96 + 16 ≤ mem.length by omega),
    load128_eq (show c.buf + klen * 3 + 112 + 16 ≤ mem.length by omega),
    load128_eq (show c.buf + klen * 3 + 128 + 16 ≤ mem.length by omega),
    Option.some_bind, Option.map_some']
  refine ⟨_, rfl, ?_, ?_, rfl, rfl, rfl, rfl, rfl⟩
  · exact ⟨slice128_lt (by omega), slice128_lt (by omega), slice128_lt (by omega), slice128_lt (by omega), slice128_lt (by omega), slice128_lt (by omega), slice128_lt (by omega), slice128_lt (by omega), slice128_lt (by omega),
      hc, by norm_num, by norm_num⟩
  · simp only [LargeState.W]
    rw [feedSem0_block (n := 128) (by omega), feedSem0_block (n := 112) (by omega), feedSem0_block (n := 96) (by omega), feedSem0_block (n := 80) (by omega), feedSem0_block (n := 64) (by omega), feedSem0_block (n := 48) (by omega), feedSem0_block (n := 32) (by omega), feedSem0_block (n := 16) (by omega), feedSem0_block (n := 0) (by omega), slice_zero, feedSem_nil]
    ring

theorem largeReduce_spec {s : LargeState} (hb : s.Bounded) :
    largeReduce s < 2 ^ 128 ∧ vsem (largeReduce s) = s.W := by
  obtain ⟨b0, b1, b2, b3, b4, b5, b6, b7, b8, _, _, _⟩ := hb
  have k16 := foldConst16
  have k32 := foldConst32
  have k64 := foldConst64
  simp only [largeReduce, fold3_eq _ _ _ _ k16.1 k16.2.1, fold3_eq _ _ _ _ k32.1 k32.2.1,
    fold3_eq _ _ _ _ k64.1 k64.2.1]
  refine ⟨foldv_lt (foldv_lt (foldv_lt b8)), ?_⟩
  rw [vsem_foldv k64 (foldv_lt (foldv_lt b4)), vsem_foldv k32 (foldv_lt b2),
    vsem_foldv k16 (foldv_lt b1), vsem_foldv k16 b0, vsem_foldv k16 b3,
    vsem_foldv k32 (foldv_lt b6), vsem_foldv k16 b5, vsem_foldv k16 b7, LargeState.W]
  ring

theorem largeVectorPhase_spec {mem : List (Fin 256)} {c : Cursor} (hw : c.WF mem)
    (h192 : 192 ≤ c.len) (h61 : mem.length < 2 ^ 61) :
    ∃ c', largeVectorPhase mem c = some c' ∧ Cursor.Adv mem c c' := by
  obtain ⟨hlen, hcrc⟩ := hw
  unfold largeVectorPhase
  simp only [Option.bind_eq_bind]
  have key : 192 * ((c.len - 0) / 192) ≤ c.len ∧ c.len < 192 * ((c.len - 0) / 192) + 192 := by
    omega
  generalize (c.len - 0) / 192 = blk at key ⊢
  obtain ⟨hk1, hk2⟩ := key
  have hbk : 1 ≤ blk := by omega
  obtain ⟨s0, e0, hb0, w0, z0, z1, z2, p0, q0⟩ :=
    largeFirstChunk_spec (blk * 16) hcrc (show c.buf + blk * 16 * 3 + 144 ≤ mem.length by omega)
  obtain ⟨s1, e1, hb1, w1, c0, c1, c2, p1, q1⟩ :=
    largeLoop_spec mem (blk * 16) ((c.buf : Int) + ((blk * 16 : Nat) : Int) - 32) (blk - 1)
      (c.len + 1) s0 (by omega) hb0 (by rw [p0]; push_cast; omega) (by omega) (by omega)
  obtain ⟨hx, sx⟩ := largeReduce_spec hb1
  obtain ⟨_, _, _, _, _, _, _, _, _, b0, b1, b2⟩ := hb1
  have hR0 : refRaw s1.crc0 (slice mem s1.buf 16) = refRaw c.crc0 (slice mem c.buf (blk * 16)) := by
    rw [c0, z0, p1, refRaw_slice_add, p0]
    congr 2; omega
  have hR1 : refRaw s1.crc1 (slice mem (s1.buf + blk * 16) 16)
      = refRaw 0 (slice mem (c.buf + blk * 16) (blk * 16)) := by
    rw [c1, z1, p1, show s0.buf + 16 * (blk - 1) + blk * 16 = s0.buf + blk * 16 + 16 * (blk - 1) by omega,
      refRaw_slice_add, p0]
    congr 2; omega
  have hR2 : refRaw s1.crc2 (slice mem (s1.buf + blk * 16 * 2) 16)
      = refRaw 0 (slice mem (c.buf + blk * 16 + blk * 16) (blk * 16)) := by
    rw [c2, z2, p1,
      show s0.buf + 16 * (blk - 1) + blk * 16 * 2 = s0.buf + blk * 16 * 2 + 16 * (blk - 1) by omega,
      refRaw_slice_add, p0]
    congr 2 <;> omega
  have hW : vsem (largeReduce s1)
      = feedSem 0 (slice mem (c.buf + blk * 16 + blk * 16 + blk * 16) (144 * blk)) := by
    rw [sx, w1, w0, q0, feedSem_slice_add]
    congr 2 <;> omega
  have e2 := largeScalarChunk_spec b0 b1 b2
    (show s1.buf + blk * 16 * 2 + 16 ≤ mem.length by omega)
  rw [hR0, hR1, hR2] at e2
  have r0 := refRaw_lt (slice mem c.buf (blk * 16)) hcrc
  have r1 := refRaw_lt (slice mem (c.buf + blk * 16) (blk * 16)) (show 0 < 2 ^ 32 by norm_num)
  have r2 := refRaw_lt (slice mem (c.buf + blk * 16 + blk * 16) (blk * 16))
    (show 0 < 2 ^ 32 by norm_num)
  obtain ⟨v0, e3, hv0, sv0⟩ :=
    neon_crc_shift_spec r0 (show 5 ≤ blk * 16 * 2 + blk * 144 by omega) (by omega)
  obtain ⟨v1, e4, hv1, sv1⟩ :=
    neon_crc_shift_spec r1 (show 5 ≤ blk * 16 + blk * 144 by omega) (by omega)
  obtain ⟨v2, e5, hv2, sv2⟩ :=
    neon_crc_shift_spec r2 (show 5 ≤ 0 + blk * 144 by omega) (by omega)
  rw [e0, Option.some_bind, e1, Option.some_bind, e2, Option.some_bind]
  simp only [vgetq_lane_zero, vgetq_lane_one, __crc32cd, veor3q_u64]
  rw [e3, Option.some_bind, e4, Option.some_bind, e5, Option.some_bind]
  have h64 : (2 : Nat) ^ 63 < 2 ^ 64 := by norm_num
  have hvc : v0 ^^^ v1 ^^^ v2 < 2 ^ 64 :=
    Nat.xor_lt_two_pow (Nat.xor_lt_two_pow (lt_trans hv0 h64) (lt_trans hv1 h64))
      (lt_trans hv2 h64)
  rw [lane0_of_lt hvc]
  obtain ⟨hr, sr⟩ := sem_reduce_xor hx hvc
  refine ⟨_, rfl, 192 * blk, by omega, ?_, ?_, ?_⟩
  · show s1.buf2 = _
    omega
  · show sub64 (c.buf + c.len) s1.buf2 = _
    rw [sub64_eq (by omega) (by omega)]
    omega
  · show crc32c_u64 _ _ = _
    apply sem_inj hr (refRaw_lt _ hcrc)
    have hsplit : 192 * blk = blk * 16 + (blk * 16 + (blk * 16 + 144 * blk)) := by omega
    rw [sr, sem_xor, sem_xor, sem_refRaw c.crc0, hsplit,
      ← feedSem_slice_add, ← feedSem_slice_add, ← feedSem_slice_add,
      feedSem_slice _ (show c.buf + blk * 16 + blk * 16 ≤ mem.length by omega),
      feedSem_slice _ (show c.buf + blk * 16 + blk * 16 + blk * 16 ≤ mem.length by omega),
      feedSem_slice _
        (show c.buf + blk * 16 + blk * 16 + blk * 16 + 144 * blk ≤ mem.length by omega), hW]
    have f0 := sem_refRaw c.crc0 (slice mem c.buf (blk * 16))
    have f1 := sem_refRaw 0 (slice mem (c.buf + blk * 16) (blk * 16))
    have f2 := sem_refRaw 0 (slice mem (c.buf + blk * 16 + blk * 16) (blk * 16))
    rw [sem_zero] at f1 f2
    rw [← f0, ← f1, ← f2]
    linear_combination sv0 + sv1 + sv2

theorem tripleLoop_spec (mem : List (Fin 256)) (klen : Nat) (k : Nat) :
    ∀ (fuel : Nat) (s : TripleState), k < fuel →
      s.crc0 < 2 ^ 32 → s.crc1 < 2 ^ 32 → s.crc2 < 2 ^ 32 →
      24 * (k + 1) + 8 ≤ s.len → s.len < 24 * (k + 1) + 32 →
      s.buf + klen * 2 + 8 * (k + 1) ≤ mem.length →
      ∃ s', tripleLoop mem klen fuel s = some s' ∧
        s'.crc0 = refRaw s.crc0 (slice mem s.buf (8 * (k + 1))) ∧
        s'.crc1 = refRaw s.crc1 (slice mem (s.buf + klen) (8 * (k + 1))) ∧
        s'.crc2 = refRaw s.crc2 (slice mem (s.buf + klen * 2) (8 * (k + 1))) ∧
        s'.buf = s.buf + 8 * (k + 1) ∧ s'.len = s.len - 24 * (k + 1) := by
  induction k with
  | zero =>
    intro fuel s hf h0 h1 h2 hl1 hl2 hs
    obtain ⟨fuel, rfl⟩ : ∃ f, fuel = f + 1 := ⟨fuel - 1, by omega⟩
    rw [tripleLoop]
    simp only [Option.bind_eq_bind, Option.pure_def,
      load64_eq (show s.buf + 8 ≤ mem.length by omega),
      load64_eq (show s.buf + klen + 8 ≤ mem.length by omega),
      load64_eq (show s.buf + klen * 2 + 8 ≤ mem.length by omega), Option.some_bind, __crc32cd,
      crc32c_u64_slice (show s.buf + 8 ≤ mem.length by omega) h0,
      crc32c_u64_slice (show s.buf + klen + 8 ≤ mem.length by omega) h1,
      crc32c_u64_slice (show s.buf + klen * 2 + 8 ≤ mem.length by omega) h2]
    rw [if_neg (by omega)]
    exact ⟨_, rfl, rfl, rfl, rfl, rfl, rfl⟩
  | succ k ih =>
    intro fuel s hf h0 h1 h2 hl1 hl2 hs
    obtain ⟨fuel, rfl⟩ : ∃ f, fuel = f + 1 := ⟨fuel - 1, by omega⟩
    rw [tripleLoop]
    simp only [Option.bind_eq_bind, Option.pure_def,
      load64_eq (show s.buf + 8 ≤ mem.length by omega),
      load64_eq (show s.buf + klen + 8 ≤ mem.length by omega),
      load64_eq (show s.buf + klen * 2 + 8 ≤ mem.length by omega), Option.some_bind, __crc32cd,
      crc32c_u64_slice (show s.buf + 8 ≤ mem.length by omega) h0,
      crc32c_u64_slice (show s.buf + klen + 8 ≤ mem.length by omega) h1,
      crc32c_u64_slice (show s.buf + klen * 2 + 8 ≤ mem.length by omega) h2]
    rw [if_pos (by omega)]
    obtain ⟨s2, e2, d0, d1, d2, q1, q2⟩ :=
      ih fuel ⟨refRaw s.crc0 (slice mem s.buf 8), refRaw s.crc1 (slice mem (s.buf + klen) 8),
        refRaw s.crc2 (slice mem (s.buf + klen * 2) 8), s.buf + 8, s.len - 24⟩
        (by omega) (refRaw_lt _ h0) (refRaw_lt _ h1) (refRaw_lt _ h2)
        (by show 24 * (k + 1) + 8 ≤ s.len - 24; omega)
        (by show s.len - 24 < 24 * (k + 1) + 32; omega)
        (by show s.buf + 8 + klen * 2 + 8 * (k + 1) ≤ mem.length; omega)
    simp only at d0 d1 d2 q1 q2
    refine ⟨s2, e2, ?_, ?_, ?_, by omega, by omega⟩
    · rw [d0, refRaw_slice_add]
      congr 2; omega
    · rw [d1, show s.buf + 8 + klen = s.buf + klen + 8 by omega, refRaw_slice_add]
      congr 2; omega
    · rw [d2, show s.buf + 8 + klen * 2 = s.buf + klen * 2 + 8 by omega, refRaw_slice_add]
      congr 2; omega

theorem triplePhase_spec {mem : List (Fin 256)} {c : Cursor} (hw : c.WF mem)
    (h32 : 32 ≤ c.len) (h61 : mem.length < 2 ^ 61) :
    ∃ c', triplePhase mem c = some c' ∧ Cursor.Adv mem c c' := by
  obtain ⟨hlen, hcrc⟩ := hw
  unfold triplePhase
  simp only [Option.bind_eq_bind]
  have key : 24 * ((c.len - 8) / 24) + 8 ≤ c.len ∧ c.len < 24 * ((c.len - 8) / 24) + 32 := by
    omega
  generalize (c.len - 8) / 24 = q at key ⊢
  obtain ⟨hk1, hk2⟩ := key
  have hq : 1 ≤ q := by omega
  obtain ⟨s1, e1, c0, c1, c2, p1, l1⟩ :=
    tripleLoop_spec mem (q * 8) (q - 1) (c.len + 1) ⟨c.crc0, 0, 0, c.buf, c.len⟩ (by omega)
      hcrc (by norm_num) (by norm_num) (by show 24 * (q - 1 + 1) + 8 ≤ c.len; omega)
      (by show c.len < 24 * (q - 1 + 1) + 32; omega)
      (by show c.buf + q * 8 * 2 + 8 * (q - 1 + 1) ≤ mem.length; omega)
  simp only at c0 c1 c2 p1 l1
  have hq1 : 8 * (q - 1 + 1) = q * 8 := by omega
  rw [hq1] at c0 c1 c2 p1
  have r0 : s1.crc0 < 2 ^ 32 := by rw [c0]; exact refRaw_lt _ hcrc
  have r1 : s1.crc1 < 2 ^ 32 := by rw [c1]; exact refRaw_lt _ (by norm_num)
  have r2 : s1.crc2 < 2 ^ 32 := by rw [c2]; exact refRaw_lt _ (by norm_num)
  obtain ⟨v0, e3, hv0, sv0⟩ := neon_crc_shift_spec r0 (show 5 ≤ q * 8 * 2 + 8 by omega) (by omega)
  obtain ⟨v1, e4, hv1, sv1⟩ := neon_crc_shift_spec r1 (show 5 ≤ q * 8 + 8 by omega) (by omega)
  have hin : c.buf + q * 8 + q * 8 + q * 8 + 8 ≤ mem.length := by omega
  have hlast : s1.buf + q * 8 * 2 = c.buf + q * 8 + q * 8 + q * 8 := by omega
  have e6 := load64_eq hin
  rw [e1, Option.some_bind, e3, Option.some_bind, e4, Option.some_bind, hlast, e6,
    Option.some_bind]
  simp only [vgetq_lane_zero, __crc32cd, veorq_u64]
  have h64 : (2 : Nat) ^ 63 < 2 ^ 64 := by norm_num
  have hv01 : v0 ^^^ v1 < 2 ^ 64 := Nat.xor_lt_two_pow (lt_trans hv0 h64) (lt_trans hv1 h64)
  rw [lane0_of_lt hv01]
  refine ⟨_, rfl, 24 * q + 8, by omega, ?_, ?_, ?_⟩
  · show c.buf + q * 8 + q * 8 + q * 8 + 8 = _
    omega
  · show sub64 s1.len 8 = _
    rw [sub64_eq (by omega) (by omega)]
    omega
  · show crc32c_u64 _ _ = _
    apply sem_inj (crc32c_u64_lt r2 (Nat.xor_lt_two_pow (slice64_lt hin) hv01))
      (refRaw_lt _ hcrc)
    have hsplit : 24 * q + 8 = q * 8 + (q * 8 + (q * 8 + 8)) := by omega
    rw [sem_crc32c_u64, sem_xor, sem_xor, sem_refRaw c.crc0, hsplit,
      ← feedSem_slice_add, ← feedSem_slice_add, ← feedSem_slice_add,
      feedSem_slice _ (show c.buf + q * 8 + q * 8 ≤ mem.length by omega),
      feedSem_slice _ (show c.buf + q * 8 + q * 8 + q * 8 ≤ mem.length by omega),
      feedSem_slice _ hin, ← sem_slice hin]
    have f0 := sem_refRaw c.crc0 (slice mem c.buf (q * 8))
    have f1 := sem_refRaw 0 (slice mem (c.buf + q * 8) (q * 8))
    have f2 := sem_refRaw 0 (slice mem (c.buf + q * 8 * 2) (q * 8))
    rw [sem_zero] at f1 f2
    rw [show c.buf + q * 8 * 2 = c.buf + q * 8 + q * 8 by omega] at f2 c2
    rw [← c0] at f0 
    rw [← c1] at f1
    rw [← c2] at f2
    rw [← f0, ← f1, ← f2]
    linear_combination sv0 + sv1

end Neon

/-- An optional phase `if len >= n then f`, followed by the rest of the engine. -/
theorem phase_ge {mem : List (Fin 256)} (n : Nat) (f : Cursor → Option Cursor)
    (K : Cursor → Option Nat) (r : Nat) (c : Cursor)
    (hf : c.len ≥ n → ∃ c', f c = some c' ∧ Cursor.Adv mem c c')
    (hK : ∀ c', Cursor.Adv mem c c' → K c' = some r) :
    (if c.len ≥ n then (f c).bind K else (some c).bind K) = some r := by
  split
  · rename_i h
    obtain ⟨c', e, a⟩ := hf h
    rw [e, Option.some_bind]
    exact hK c' a
  · rw [Option.some_bind]
    exact hK c (Cursor.Adv.refl mem c)

namespace Neon

/-- The large AArch64 engine returns the reference CRC32C, for every length. -/
theorem large_correct (seed addr : Nat) (mem : List (Fin 256)) (hs : seed < 2 ^ 32)
    (hl : mem.length < 2 ^ 61) :
    crc32_iscsi_large_impl seed addr mem = some (crc32c_reference seed mem) := by
  have hw0 : Cursor.WF mem ⟨not32 seed, 0, mem.length⟩ := ⟨by simp, not32_lt hs⟩
  obtain ⟨c1, c2, e1, e2, a2, hw2⟩ := prologue_spec seed addr mem hs
  unfold crc32_iscsi_large_impl
  simp only [Option.bind_eq_bind]
  rw [e1, Option.some_bind, e2, Option.some_bind]
  refine phase_ge 192 (largeVectorPhase mem) _ _ c2
    (fun h => largeVectorPhase_spec hw2 h hl) ?_
  intro c3 a3
  refine phase_ge 32 (triplePhase mem) _ _ c3
    (fun h => triplePhase_spec ((a2.trans a3).wf hw0) h hl) ?_
  intro c4 a4
  exact epilogue_spec ((a2.trans a3).trans a4) hs

theorem smallBody_spec {mem : List (Fin 256)} {s : SmallState}
    (hb : s.Bounded) (hv : s.buf + 192 ≤ mem.length) :
    ∃ s', smallBody mem s = some s' ∧ s'.Bounded ∧
      s'.W = feedSem s.W (slice mem s.buf 192) ∧ s'.buf = s.buf + 192 := by
  obtain ⟨b0, b1, b2, b3, b4, b5, b6, b7, b8, b9, b10, b11⟩ := hb
  have kc := foldConst192
  simp only [smallBody, bind_pure_comp, Option.bind_eq_bind, Option.pure_def,
    load128_eq (show s.buf + 16 ≤ mem.length by omega),
    load128_eq (show s.buf + 16 + 16 ≤ mem.length by omega),
    load128_eq (show s.buf + 32 + 16 ≤ mem.length by omega),
    load128_eq (show s.buf + 48 + 16 ≤ mem.length by omega),
    load128_eq (show s.buf + 64 + 16 ≤ mem.length by omega),
    load128_eq (show s.buf + 80 + 16 ≤ mem.length by omega),
    load128_eq (show s.buf + 96 + 16 ≤ mem.length by omega),
    load128_eq (show s.buf + 112 + 16 ≤ mem.length by omega),
    load128_eq (show s.buf + 128 + 16 ≤ mem.length by omega),
    load128_eq (show s.buf + 144 + 16 ≤ mem.length by omega),
    load128_eq (show s.buf + 160 + 16 ≤ mem.length by omega),
    load128_eq (show s.buf + 176 + 16 ≤ mem.length by omega),
    Option.some_bind, Option.map_some', folde_eq _ _ _ _ kc.1 kc.2.1]
  refine ⟨_, rfl, ?_, ?_, rfl⟩
  · exact ⟨foldv_lt (slice128_lt (by omega)), foldv_lt (slice128_lt (by omega)), foldv_lt (slice128_lt (by omega)), foldv_lt (slice128_lt (by omega)), foldv_lt (slice128_lt (by omega)), foldv_lt (slice128_lt (by omega)), foldv_lt (slice128_lt (by omega)), foldv_lt (slice128_lt (by omega)), foldv_lt (slice128_lt (by omega)), foldv_lt (slice128_lt (by omega)), foldv_lt (slice128_lt (by omega)), foldv_lt (slice128_lt (by omega))⟩
  · simp only [SmallState.W, vsem_foldv kc b0, vsem_foldv kc b1, vsem_foldv kc b2, vsem_foldv kc b3, vsem_foldv kc b4, vsem_foldv kc b5, vsem_foldv kc b6, vsem_foldv kc b7, vsem_foldv kc b8, vsem_foldv kc b9, vsem_foldv kc b10, vsem_foldv kc b11]
    rw [feedSem_slice _ hv, feedSem0_block (n := 176) (by omega), feedSem0_block (n := 160) (by omega), feedSem0_block (n := 144) (by omega), feedSem0_block (n := 128) (by omega), feedSem0_block (n := 112) (by omega), feedSem0_block (n := 96) (by omega), feedSem0_block (n := 80) (by omega), feedSem0_block (n := 64) (by omega), feedSem0_block (n := 48) (by omega), feedSem0_block (n := 32) (by omega), feedSem0_block (n := 16) (by omega), feedSem0_block (n := 0) (by omega), slice_zero, feedSem_nil]
    ring

theorem smallLoop_spec (mem : List (Fin 256)) (limit : Nat) (k : Nat) :
    ∀ (fuel : Nat) (s : SmallState), k < fuel → s.Bounded →
      s.buf + 192 * k ≤ limit + 192 → limit + 192 < s.buf + 192 * (k + 1) →
      s.buf + 192 * k ≤ mem.length →
      ∃ s', smallLoop mem limit fuel s = some s' ∧ s'.Bounded ∧
        s'.W = feedSem s.W (slice mem s.buf (192 * k)) ∧ s'.buf = s.buf + 192 * k := by
  induction k with
  | zero =>
    intro fuel s hf hb h1 h2 _
    obtain ⟨fuel, rfl⟩ : ∃ f, fuel = f + 1 := ⟨fuel - 1, by omega⟩
    rw [smallLoop, if_neg (by omega)]
    refine ⟨s, rfl, hb, ?_, rfl⟩
    rw [Nat.mul_zero, slice_zero, feedSem_nil]
  | succ k ih =>
    intro fuel s hf hb h1 h2 hv
    obtain ⟨fuel, rfl⟩ : ∃ f, fuel = f + 1 := ⟨fuel - 1, by omega⟩
    rw [smallLoop, if_pos (by omega)]
    obtain ⟨s1, e1, hb1, w1, p1⟩ := smallBody_spec hb (show s.buf + 192 ≤ mem.length by omega)
    rw [e1, Option.some_bind]
    obtain ⟨s2, e2, hb2, w2, q1⟩ := ih fuel s1 (by omega) hb1 (by omega) (by omega) (by omega)
    refine ⟨s2, e2, hb2, ?_, by omega⟩
    rw [w2, w1, p1, feedSem_slice_add]
    congr 2; omega

theorem smallFirstChunk_spec {mem : List (Fin 256)} {c : Cursor}
    (hc : c.crc0 < 2 ^ 32) (h : c.buf + 192 ≤ mem.length) :
    ∃ s, smallFirstChunk mem c = some s ∧ s.Bounded ∧
      s.W = feedSem (sem c.crc0) (slice mem c.buf 192) ∧ s.buf = c.buf + 192 := by
  simp only [smallFirstChunk, bind_pure_comp, Option.bind_eq_bind, Option.pure_def,
    load128_eq (show c.buf + 16 ≤ mem.length by omega),
    load128_eq (show c.buf + 16 + 16 ≤ mem.length by omega),
    load128_eq (show c.buf + 32 + 16 ≤ mem.length by omega),
    load128_eq (show c.buf + 48 + 16 ≤ mem.length by omega),
    load128_eq (show c.buf + 64 + 16 ≤ mem.length by omega),
    load128_eq (show c.buf + 80 + 16 ≤ mem.length by omega),
    load128_eq (show c.buf + 96 + 16 ≤ mem.length by omega),
    load128_eq (show c.buf + 112 + 16 ≤ mem.length by omega),
    load128_eq (show c.buf + 128 + 16 ≤ mem.length by omega),
    load128_eq (show c.buf + 144 + 16 ≤ mem.length by omega),
    load128_eq (show c.buf + 160 + 16 ≤ mem.length by omega),
    load128_eq (show c.buf + 176 + 16 ≤ mem.length by omega),
    Option.some_bind, Option.map_some', veorq_u64]
  refine ⟨_, rfl, ?_, ?_, rfl⟩
  · exact ⟨Nat.xor_lt_two_pow (lt_trans hc (by norm_num)) (slice128_lt (by omega)),
      slice128_lt (by omega), slice128_lt (by omega), slice128_lt (by omega), slice128_lt (by omega), slice128_lt (by omega), slice128_lt (by omega), slice128_lt (by omega), slice128_lt (by omega), slice128_lt (by omega), slice128_lt (by omega), slice128_lt (by omega)⟩
  · simp only [SmallState.W, vsem_xor]
    rw [feedSem_slice _ h, feedSem0_block (n := 176) (by omega), feedSem0_block (n := 160) (by omega), feedSem0_block (n := 144) (by omega), feedSem0_block (n := 128) (by omega), feedSem0_block (n := 112) (by omega), feedSem0_block (n := 96) (by omega), feedSem0_block (n := 80) (by omega), feedSem0_block (n := 64) (by omega), feedSem0_block (n := 48) (by omega), feedSem0_block (n := 32) (by omega), feedSem0_block (n := 16) (by omega), feedSem0_block (n := 0) (by omega), slice_zero, feedSem_nil, vsem]
    ring

theorem smallReduce_spec {s : SmallState} (hb : s.Bounded) :
    smallReduce s < 2 ^ 128 ∧ vsem (smallReduce s) = s.W := by
  obtain ⟨b0, b1, b2, b3, b4, b5, b6, b7, b8, b9, b10, b11⟩ := hb
  have k16 := foldConst16
  have k32 := foldConst32
  have k64 := foldConst64
  simp only [smallReduce, folde_eq _ _ _ _ k16.1 k16.2.1, folde_eq _ _ _ _ k32.1 k32.2.1,
    folde_eq _ _ _ _ k64.1 k64.2.1]
  refine ⟨foldv_lt (foldv_lt (foldv_lt b11)), ?_⟩
  rw [vsem_foldv k64 (foldv_lt (foldv_lt (foldv_lt b7))), vsem_foldv k64 (foldv_lt (foldv_lt b3)),
    vsem_foldv k32 (foldv_lt b1), vsem_foldv k16 b0, vsem_foldv k16 b2,
    vsem_foldv k32 (foldv_lt b5), vsem_foldv k16 b4, vsem_foldv k16 b6,
    vsem_foldv k32 (foldv_lt b9), vsem_foldv k16 b8, vsem_foldv k16 b10, SmallState.W]
  ring

theorem smallVectorPhase_spec {mem : List (Fin 256)} {c : Cursor} (hw : c.WF mem)
    (h192 : 192 ≤ c.len) (h61 : mem.length < 2 ^ 61) :
    ∃ c', smallVectorPhase mem c = some c' ∧ Cursor.Adv mem c c' := by
  obtain ⟨hlen, hcrc⟩ := hw
  unfold smallVectorPhase
  simp only [Option.bind_eq_bind]
  have key : 192 * (c.len / 192) ≤ c.len ∧ c.len < 192 * (c.len / 192) + 192 := by omega
  generalize c.len / 192 = q at key
  obtain ⟨hk1, hk2⟩ := key
  have hq : 1 ≤ q := by omega
  obtain ⟨s0, e0, hb0, w0, p0⟩ :=
    smallFirstChunk_spec hcrc (show c.buf + 192 ≤ mem.length by omega)
  obtain ⟨s1, e1, hb1, w1, p1⟩ :=
    smallLoop_spec mem (c.buf + c.len - 192) (q - 1) (c.len + 1) s0 (by omega) hb0
      (by omega) (by omega) (by omega)
  obtain ⟨hx, sx⟩ := smallReduce_spec hb1
  obtain ⟨hr, sr⟩ := sem_reduce hx
  rw [e0, Option.some_bind, e1, Option.some_bind]
  simp only [vgetq_lane_zero, vgetq_lane_one, __crc32cd]
  refine ⟨_, rfl, 192 * q, by omega, ?_, ?_, ?_⟩
  · show s1.buf = _
    omega
  · show sub64 (c.buf + c.len) s1.buf = _
    rw [sub64_eq (by omega) (by omega)]
    omega
  · show crc32c_u64 _ _ = _
    apply sem_inj hr (refRaw_lt _ hcrc)
    rw [sr, sx, w1, w0, p0, feedSem_slice_add, sem_refRaw]
    congr 2; omega

theorem singleLoop_spec (mem : List (Fin 256)) (k : Nat) :
    ∀ (fuel : Nat) (s : SingleState), k < fuel → s.x0 < 2 ^ 128 →
      16 * k ≤ s.len → s.len < 16 * (k + 1) → s.buf + 16 * k ≤ mem.length →
      ∃ s', singleLoop mem (kvec 0xf20c0dfe 0x493c7d27) fuel s = some s' ∧ s'.x0 < 2 ^ 128 ∧
        vsem s'.x0 = feedSem (vsem s.x0) (slice mem s.buf (16 * k)) ∧
        s'.buf = s.buf + 16 * k ∧ s'.len = s.len - 16 * k := by
  have kc := foldConst16
  induction k with
  | zero =>
    intro fuel s hf hb h1 h2 _
    obtain ⟨fuel, rfl⟩ : ∃ f, fuel = f + 1 := ⟨fuel - 1, by omega⟩
    rw [singleLoop, if_neg (by omega)]
    refine ⟨s, rfl, hb, ?_, rfl, rfl⟩
    rw [Nat.mul_zero, slice_zero, feedSem_nil]
  | succ k ih =>
    intro fuel s hf hb h1 h2 hv
    obtain ⟨fuel, rfl⟩ : ∃ f, fuel = f + 1 := ⟨fuel - 1, by omega⟩
    have hin : s.buf + 16 ≤ mem.length := by omega
    rw [singleLoop, if_pos (by omega)]
    simp only [Option.bind_eq_bind, load128_eq hin, Option.some_bind,
      folde_eq _ _ _ _ kc.1 kc.2.1]
    obtain ⟨s2, e2, hb2, w2, q1, q2⟩ :=
      ih fuel ⟨foldv s.x0 0xf20c0dfe 0x493c7d27 (leBytes (slice mem s.buf 16)), s.buf + 16,
        s.len - 16⟩ (by omega) (foldv_lt (slice128_lt hin))
        (by show 16 * k ≤ s.len - 16; omega) (by show s.len - 16 < 16 * (k + 1); omega)
        (by show s.buf + 16 + 16 * k ≤ mem.length; omega)
    simp only at w2 q1 q2
    refine ⟨s2, e2, hb2, ?_, by omega, by omega⟩
    rw [w2, vsem_foldv kc hb,
      show 16 * (k + 1) = 16 + 16 * k by omega, ← feedSem_slice_add,
      feedSem_slice (vsem s.x0) hin, vsem_slice hin]

theorem singlePhase_spec {mem : List (Fin 256)} {c : Cursor} (hw : c.WF mem)
    (h16 : 16 ≤ c.len) :
    ∃ c', singlePhase mem c = some c' ∧ Cursor.Adv mem c c' := by
  obtain ⟨hlen, hcrc⟩ := hw
  have hin : c.buf + 16 ≤ mem.length := by omega
  have key : 16 * ((c.len - 16) / 16) ≤ c.len - 16 ∧ c.len - 16 < 16 * ((c.len - 16) / 16 + 1) := by
    omega
  generalize (c.len - 16) / 16 = q at key
  obtain ⟨hk1, hk2⟩ := key
  have hx0 : c.crc0 ^^^ leBytes (slice mem c.buf 16) < 2 ^ 128 :=
    Nat.xor_lt_two_pow (lt_trans hcrc (by norm_num)) (slice128_lt hin)
  obtain ⟨s1, e1, hb1, w1, p1, l1⟩ :=
    singleLoop_spec mem q (c.len - 16 + 1)
      ⟨c.crc0 ^^^ leBytes (slice mem c.buf 16), c.buf + 16, c.len - 16⟩ (by omega) hx0
      (by show 16 * q ≤ c.len - 16; omega) (by show c.len - 16 < 16 * (q + 1); omega)
      (by show c.buf + 16 + 16 * q ≤ mem.length; omega)
  simp only at w1 p1 l1
  obtain ⟨hr, sr⟩ := sem_reduce hb1
  unfold singlePhase
  simp only [Option.bind_eq_bind, load128_eq hin, veorq_u64]
  rw [Option.some_bind, e1, Option.some_bind]
  simp only [vgetq_lane_zero, vgetq_lane_one, __crc32cd]
  refine ⟨_, rfl, 16 + 16 * q, by omega, ?_, ?_, ?_⟩
  · show s1.buf = _
    omega
  · show s1.len = _
    omega
  · show crc32c_u64 _ _ = _
    apply sem_inj hr (refRaw_lt _ hcrc)
    rw [sr, w1, vsem_xor, sem_refRaw, ← feedSem_slice_add, feedSem_slice (sem c.crc0) hin,
      vsem_slice hin, vsem]

/-- The small AArch64 engine returns the reference CRC32C, for every length. -/
theorem small_correct (seed addr : Nat) (mem : List (Fin 256)) (hs : seed < 2 ^ 32)
    (hl : mem.length < 2 ^ 61) :
    crc32_iscsi_small_impl seed addr mem = some (crc32c_reference seed mem) := by
  have hw0 : Cursor.WF mem ⟨not32 seed, 0, mem.length⟩ := ⟨by simp, not32_lt hs⟩
  obtain ⟨c1, c2, e1, e2, a2, hw2⟩ := prologue_spec seed addr mem hs
  unfold crc32_iscsi_small_impl
  simp only [Option.bind_eq_bind]
  rw [e1, Option.some_bind, e2, Option.some_bind]
  refine phase_ge 192 (smallVectorPhase mem) _ _ c2
    (fun h => smallVectorPhase_spec hw2 h hl) ?_
  intro c3 a3
  refine phase_ge 16 (singlePhase mem) _ _ c3
    (fun h => singlePhase_spec ((a2.trans a3).wf hw0) h) ?_
  intro c4 a4
  exact epilogue_spec ((a2.trans a3).trans a4) hs

/-- The AArch64 dispatcher returns the reference CRC32C. -/
theorem neon_correct (seed addr : Nat) (mem : List (Fin 256)) (hs : seed < 2 ^ 32)
    (hl : mem.length < 2 ^ 61) :
    crc32_iscsi_impl seed addr mem = some (crc32c_reference seed mem) := by
  unfold crc32_iscsi_impl
  split
  · exact small_correct seed addr mem hs hl
  · exact large_correct seed addr mem hs hl

end Neon

theorem reference_lt (seed : Nat) (mem : List (Fin 256)) (hs : seed < 2 ^ 32) :
    crc32c_reference seed mem < 2 ^ 32 :=
  not32_lt (refRaw_lt _ (not32_lt hs))

theorem reference_append (seed : Nat) (as bs : List (Fin 256)) :
    crc32c_reference (crc32c_reference seed as) bs = crc32c_reference seed (as ++ bs) := by
  unfold crc32c_reference
  rw [not32_not32, refRaw_append]

theorem reference_nil (seed : Nat) : crc32c_reference seed [] = seed := by
  unfold crc32c_reference
  exact not32_not32 seed

/-- Both back-ends compute the same power of `x`. -/
theorem xnmodp_agree (n : Nat) (hn : n < 2 ^ 64) :
    ∃ r, X86.xnmodp n = some r ∧ Neon.xnmodp n = some r ∧ r < 2 ^ 32 ∧
      sem r * xR ^ 31 = xR ^ n := by
  obtain ⟨r, hr, hlt, hs⟩ := xnmodpWith_spec X86.xnmodpSq X86.x86_sqOK n hn
  obtain ⟨r', hr', hlt', hs'⟩ := xnmodpWith_spec Neon.xnmodpSq Neon.neon_sqOK n hn
  have : r' = r := sem_inj hlt' hlt (mul_x_pow_cancel 31 (hs'.trans hs.symm))
  subst this
  exact ⟨r', hr, hr', hlt, hs⟩

/-- A 32-bit register whose value times `x ^ 31` is the residue of `f` holds the
coefficients of `f mod P`, bit `31 - i` being the coefficient of `x ^ i`. -/
theorem coeff_of_sem {r : Nat} (hr : r < 2 ^ 32) (f : (ZMod 2)[X])
    (h : sem r * xR ^ 31 = AdjoinRoot.mk genPoly f) (i : Nat) (hi : i < 32) :
    (f %ₘ genPoly).coeff i = if r.testBit (31 - i) then 1 else 0 := by
  have hg := natDegree_reflect_natPoly hr
  have h1 := aeval_reflect 31 (reflect 31 (natPoly r)) hg
  rw [reflect_reflect] at h1
  have h2 : AdjoinRoot.mk genPoly (reflect 31 (natPoly r)) = AdjoinRoot.mk genPoly (f %ₘ genPoly) := by
    rw [← h1]
    show sem r * xR ^ 31 = _
    rw [h]
    conv_lhs => rw [← Polynomial.modByMonic_add_div f genPoly_monic]
    rw [map_add, map_mul, mk_genPoly, zero_mul, add_zero]
  have h3 : genPoly ∣ reflect 31 (natPoly r) - f %ₘ genPoly := by
    rw [← AdjoinRoot.mk_eq_zero, map_sub, h2, sub_self]
  have hlt : (reflect 31 (natPoly r) - f %ₘ genPoly).degree < genPoly.degree := by
    apply lt_of_le_of_lt (Polynomial.degree_sub_le _ _)
    apply max_lt
    · rw [genPoly_degree]
      calc (reflect 31 (natPoly r)).degree ≤ ((reflect 31 (natPoly r)).natDegree : WithBot ℕ) :=
            Polynomial.degree_le_natDegree
        _ ≤ (31 : ℕ) := by exact_mod_cast hg
        _ < 32 := by norm_num
    · exact Polynomial.degree_modByMonic_lt f genPoly_monic
  have h4 := Polynomial.eq_zero_of_dvd_of_degree_lt h3 hlt
  have h5 : f %ₘ genPoly = reflect 31 (natPoly r) := (sub_eq_zero.mp h4).symm
  rw [h5, coeff_reflect, Polynomial.revAt_le (by omega), coeff_natPoly]

/-- The combination step with a shifted partial CRC, for appended ranges of at least 5
bytes. -/
theorem combine_spec (c : Nat) (as bs : List (Fin 256)) (hc : c < 2 ^ 32)
    (h5 : 5 ≤ bs.length) (h61 : bs.length < 2 ^ 61) :
    ∃ v, X86.crc_shift (refRaw c as) bs.length = some v ∧
      Neon.crc_shift (refRaw c as) bs.length = some v ∧
      crc32c_u64 0 (lane0 v) ^^^ refRaw 0 bs = refRaw c (as ++ bs) := by
  have hA := refRaw_lt as hc
  obtain ⟨p, hp, hp', hlt, hs⟩ := xnmodp_agree (8 * bs.length - 33) (by omega)
  obtain ⟨h1, h2⟩ := sem_shift hA hlt h5 hs
  refine ⟨clmul64 (refRaw c as) p, ?_, ?_, ?_⟩
  · rw [X86.crc_shift, shift_exponent h5 h61, hp, Option.map_some', X86.x86_clmul_scalar_eq hA hlt]
  · rw [Neon.crc_shift, shift_exponent h5 h61, hp', Option.map_some',
      Neon.neon_clmul_scalar_eq hA hlt]
  · have hv : clmul64 (refRaw c as) p < 2 ^ 64 := lt_trans h1 (by norm_num)
    rw [lane0_of_lt hv]
    have hz : (0 : Nat) < 2 ^ 32 := by norm_num
    apply sem_inj (Nat.xor_lt_two_pow (crc32c_u64_lt hz hv) (refRaw_lt bs hz))
      (refRaw_lt _ hc)
    rw [sem_xor, sem_crc32c_u64, sem_zero, zero_add, h2, refRaw_append, sem_refRaw 0,
      sem_refRaw (refRaw c as), sem_zero, feedSem_eq (sem (refRaw c as))]

theorem x86_empty (seed addr : Nat) : X86.crc32_iscsi_impl seed addr [] = some seed := by
  simp [X86.crc32_iscsi_impl, headLoop, headWord, tailWords, tailBytes, not32_not32]

theorem neon_empty (seed addr : Nat) : Neon.crc32_iscsi_impl seed addr [] = some seed := by
  simp [Neon.crc32_iscsi_impl, Neon.crc32_iscsi_small_impl, Neon.LARGE_BUFFER_THRESHOLD,
    headLoop, headWord, tailWords, tailBytes, not32_not32]

theorem ramp_length (n : Nat) : (ramp n).length = n := by simp [ramp]

set_option maxRecDepth 10000 in
theorem reference_check : crc32c_reference 0 checkString = 0xE3069283 := by decide

/-- C1. x86 back-end: for every 32-bit seed, every buffer shorter than 2^61 bytes and every
starting address, `crc32_iscsi_impl` returns the bit-by-bit reflected CRC32C reference
(and performs no load outside the buffer). -/
theorem x86_equals_reference (seed addr : Nat) (mem : List (Fin 256)) (hs : seed < 2 ^ 32)
    (hl : mem.length < 2 ^ 61) :
    X86.crc32_iscsi_impl seed addr mem = some (crc32c_reference seed mem) :=
  X86.x86_correct seed addr mem hs hl

theorem x86_equals_reference_witness :
    X86.crc32_iscsi_impl 0xDEADBEEF 5 (ramp 145)
      = some (crc32c_reference 0xDEADBEEF (ramp 145)) :=
  x86_equals_reference 0xDEADBEEF 5 (ramp 145) (by norm_num) (by rw [ramp_length]; norm_num)

/-- C2. AArch64 back-end: for every 32-bit seed, every buffer shorter than 2^61 bytes and
every starting address, the dispatcher `crc32_iscsi_impl` (small engine up to 1024 bytes,
large engine above) returns the bit-by-bit reflected CRC32C reference. -/
theorem neon_equals_reference (seed addr : Nat) (mem : List (Fin 256)) (hs : seed < 2 ^ 32)
    (hl : mem.length < 2 ^ 61) :
    Neon.crc32_iscsi_impl seed addr mem = some (crc32c_reference seed mem) :=
  Neon.neon_correct seed addr mem hs hl

theorem neon_equals_reference_witness :
    Neon.crc32_iscsi_impl 0xDEADBEEF 5 (ramp 1025)
      = some (crc32c_reference 0xDEADBEEF (ramp 1025)) :=
  neon_equals_reference 0xDEADBEEF 5 (ramp 1025) (by norm_num) (by rw [ramp_length]; norm_num)

/-- C3. Incremental chaining law: in each back-end, the CRC of `as` from seed 0, used as the
seed for `bs`, gives the CRC of `as ++ bs` from seed 0, whatever the three addresses (and
hence whatever engines the three calls are routed to). -/
theorem chaining_law (as bs : List (Fin 256)) (a1 a2 a3 : Nat)
    (hl : (as ++ bs).length < 2 ^ 61) :
    (∃ r t, X86.crc32_iscsi_impl 0 a1 as = some r ∧ X86.crc32_iscsi_impl r a2 bs = some t ∧
      X86.crc32_iscsi_impl 0 a3 (as ++ bs) = some t) ∧
    (∃ r t, Neon.crc32_iscsi_impl 0 a1 as = some r ∧ Neon.crc32_iscsi_impl r a2 bs = some t ∧
      Neon.crc32_iscsi_impl 0 a3 (as ++ bs) = some t) := by
  rw [List.length_append] at hl
  have h0 : (0 : Nat) < 2 ^ 32 := by norm_num
  have hr := reference_lt 0 as h0
  have hab : (as ++ bs).length < 2 ^ 61 := by rw [List.length_append]; exact hl
  refine ⟨⟨_, _, X86.x86_correct 0 a1 as h0 (by omega),
      X86.x86_correct _ a2 bs hr (by omega), ?_⟩,
    ⟨_, _, Neon.neon_correct 0 a1 as h0 (by omega),
      Neon.neon_correct _ a2 bs hr (by omega), ?_⟩⟩
  · rw [X86.x86_correct 0 a3 (as ++ bs) h0 hab, reference_append]
  · rw [Neon.neon_correct 0 a3 (as ++ bs) h0 hab, reference_append]

theorem chaining_law_witness :
    (∃ r t, X86.crc32_iscsi_impl 0 1 (ramp 150) = some r ∧
      X86.crc32_iscsi_impl r 2 checkString = some t ∧
      X86.crc32_iscsi_impl 0 3 (ramp 150 ++ checkString) = some t) ∧
    (∃ r t, Neon.crc32_iscsi_impl 0 1 (ramp 150) = some r ∧
      Neon.crc32_iscsi_impl r 2 checkString = some t ∧
      Neon.crc32_iscsi_impl 0 3 (ramp 150 ++ checkString) = some t) :=
  chaining_law (ramp 150) checkString 1 2 3
    (by rw [List.length_append, ramp_length]; decide)

/-- C4. Cross-backend agreement: for every 32-bit seed, every buffer shorter than 2^61 bytes
and every pair of addresses, the x86 and the AArch64 `crc32_iscsi_impl` return the same
value. -/
theorem backends_agree (seed a a' : Nat) (mem : List (Fin 256)) (hs : seed < 2 ^ 32)
    (hl : mem.length < 2 ^ 61) :
    ∃ r, X86.crc32_iscsi_impl seed a mem = some r ∧ Neon.crc32_iscsi_impl seed a' mem = some r :=
  ⟨_, X86.x86_correct seed a mem hs hl, Neon.neon_correct seed a' mem hs hl⟩

theorem backends_agree_witness :
    ∃ r, X86.crc32_iscsi_impl 7 0 (ramp 300) = some r ∧
      Neon.crc32_iscsi_impl 7 4 (ramp 300) = some r :=
  backends_agree 7 0 4 (ramp 300) (by norm_num) (by rw [ramp_length]; norm_num)

/-- C5. Standard check value: with seed 0 the nine ASCII bytes "123456789" give
`0xE3069283` in the x86 and in the AArch64 back-end, at every starting address. -/
theorem check_value (addr : Nat) :
    X86.crc32_iscsi_impl 0 addr checkString = some 0xE3069283 ∧
    Neon.crc32_iscsi_impl 0 addr checkString = some 0xE3069283 := by
  have h0 : (0 : Nat) < 2 ^ 32 := by norm_num
  have hl : checkString.length < 2 ^ 61 := by decide
  rw [X86.x86_correct 0 addr checkString h0 hl, Neon.neon_correct 0 addr checkString h0 hl,
    reference_check]
  exact ⟨rfl, rfl⟩

/-- C6. Small/large equivalence of the AArch64 engines: for every 32-bit seed, every buffer
of every length below 2^61 and every pair of addresses, the two engines return the same
value; hence the dispatcher returns the same value for every threshold. -/
theorem small_large_agree (seed a a' : Nat) (mem : List (Fin 256)) (hs : seed < 2 ^ 32)
    (hl : mem.length < 2 ^ 61) :
    (∃ r, Neon.crc32_iscsi_small_impl seed a mem = some r ∧
      Neon.crc32_iscsi_large_impl seed a' mem = some r) ∧
    ∀ threshold : Nat,
      (if mem.length ≤ threshold then Neon.crc32_iscsi_small_impl seed a mem
        else Neon.crc32_iscsi_large_impl seed a mem) = Neon.crc32_iscsi_impl seed a mem := by
  refine ⟨⟨_, Neon.small_correct seed a mem hs hl, Neon.large_correct seed a' mem hs hl⟩, ?_⟩
  intro threshold
  rw [Neon.neon_correct seed a mem hs hl, Neon.small_correct seed a mem hs hl,
    Neon.large_correct seed a mem hs hl]
  split <;> rfl

theorem small_large_agree_witness :
    (∃ r, Neon.crc32_iscsi_small_impl 9 1 (ramp 2000) = some r ∧
      Neon.crc32_iscsi_large_impl 9 2 (ramp 2000) = some r) ∧
    ∀ threshold : Nat,
      (if (ramp 2000).length ≤ threshold then Neon.crc32_iscsi_small_impl 9 1 (ramp 2000)
        else Neon.crc32_iscsi_large_impl 9 1 (ramp 2000))
        = Neon.crc32_iscsi_impl 9 1 (ramp 2000) :=
  small_large_agree 9 1 2 (ramp 2000) (by norm_num) (by rw [ramp_length]; norm_num)

/-- C7. Alignment independence: in each back-end, for every 32-bit seed and every buffer
shorter than 2^61 bytes, `crc32_iscsi_impl` returns the same value at any two starting
addresses. -/
theorem alignment_independent (seed a a' : Nat) (mem : List (Fin 256)) (hs : seed < 2 ^ 32)
    (hl : mem.length < 2 ^ 61) :
    (∃ r, X86.crc32_iscsi_impl seed a mem = some r ∧ X86.crc32_iscsi_impl seed a' mem = some r) ∧
    (∃ r, Neon.crc32_iscsi_impl seed a mem = some r ∧
      Neon.crc32_iscsi_impl seed a' mem = some r) :=
  ⟨⟨_, X86.x86_correct seed a mem hs hl, X86.x86_correct seed a' mem hs hl⟩,
    ⟨_, Neon.neon_correct seed a mem hs hl, Neon.neon_correct seed a' mem hs hl⟩⟩

theorem alignment_independent_witness :
    (∃ r, X86.crc32_iscsi_impl 1 0 (ramp 200) = some r ∧
      X86.crc32_iscsi_impl 1 7 (ramp 200) = some r) ∧
    (∃ r, Neon.crc32_iscsi_impl 1 0 (ramp 200) = some r ∧
      Neon.crc32_iscsi_impl 1 7 (ramp 200) = some r) :=
  alignment_independent 1 0 7 (ramp 200) (by norm_num) (by rw [ramp_length]; norm_num)

/-- C8. Empty input: in each back-end `crc32_iscsi_impl(seed, buf, 0)` returns `seed`, for
every seed and every address, without any load; in particular seed 0 gives 0. -/
theorem empty_input (seed addr : Nat) :
    X86.crc32_iscsi_impl seed addr [] = some seed ∧
    Neon.crc32_iscsi_impl seed addr [] = some seed :=
  ⟨x86_empty seed addr, neon_empty seed addr⟩

/-- C9. For every 64-bit `n`, `xnmodp(n)` of either back-end returns a 32-bit value whose
bit `31 - i` is the coefficient of `x ^ i` in `x ^ n mod P`, where `P = x^32 + 0x1EDC6F41`
over GF(2), that is `x^32 + x^28 + x^27 + x^26 + x^25 + x^23 + x^22 + x^20 + x^19 + x^18 +
x^14 + x^13 + x^11 + x^10 + x^9 + x^8 + x^6 + 1`. -/
theorem xnmodp_is_power (n : Nat) (hn : n < 2 ^ 64) :
    ∃ r, X86.xnmodp n = some r ∧ Neon.xnmodp n = some r ∧ r < 2 ^ 32 ∧
      ∀ i, i < 32 →
        ((X : (ZMod 2)[X]) ^ n %ₘ
          (X ^ 32 + X ^ 28 + X ^ 27 + X ^ 26 + X ^ 25 + X ^ 23 + X ^ 22 + X ^ 20 + X ^ 19
            + X ^ 18 + X ^ 14 + X ^ 13 + X ^ 11 + X ^ 10 + X ^ 9 + X ^ 8 + X ^ 6 + 1)).coeff i
          = if r.testBit (31 - i) then 1 else 0 := by
  obtain ⟨r, h1, h2, hlt, hs⟩ := xnmodp_agree n hn
  rw [← genPoly_explicit]
  refine ⟨r, h1, h2, hlt, fun i hi => coeff_of_sem hlt (X ^ n) ?_ i hi⟩
  rw [hs, map_pow, AdjoinRoot.mk_X]
  rfl

theorem xnmodp_is_power_witness :
    ∃ r, X86.xnmodp 1000000 = some r ∧ Neon.xnmodp 1000000 = some r ∧ r < 2 ^ 32 ∧
      ∀ i, i < 32 →
        ((X : (ZMod 2)[X]) ^ 1000000 %ₘ
          (X ^ 32 + X ^ 28 + X ^ 27 + X ^ 26 + X ^ 25 + X ^ 23 + X ^ 22 + X ^ 20 + X ^ 19
            + X ^ 18 + X ^ 14 + X ^ 13 + X ^ 11 + X ^ 10 + X ^ 9 + X ^ 8 + X ^ 6 + 1)).coeff i
          = if r.testBit (31 - i) then 1 else 0 :=
  xnmodp_is_power 1000000 (by norm_num)

/-- C10 as stated fails: for `Lb = 0` (empty `A` and `B`, raw state `0x80000000`) the
combination gives `0x08000000`, not the state `0x80000000`. -/
theorem combine_fails_at_zero :
    ¬ (∀ (c : Nat) (as bs : List (Fin 256)), c < 2 ^ 32 →
      ∃ v, X86.crc_shift (refRaw c as) bs.length = some v ∧
        crc32c_u64 0 (lane0 v) ^^^ refRaw 0 bs = refRaw c (as ++ bs)) := by
  intro h
  obtain ⟨v, hv, he⟩ := h 0x80000000 [] [] (by norm_num)
  have hv' : X86.crc_shift 0x80000000 0 = some (0xd94f3c0b <<< 31) := by decide!
  have e : v = 0xd94f3c0b <<< 31 := by
    have h2 : X86.crc_shift 0x80000000 0 = some v := hv
    rw [hv'] at h2
    exact (Option.some.inj h2).symm
  subst e
  revert he
  decide!

/-- C10, amended. Combine identity for every `Lb` with `5 <= Lb < 2^61`: with `sA` the raw
state after feeding `A` from `c` and `sB` the raw state after feeding `B` from 0,
`step64(0, low64(crc_shift(sA, Lb))) XOR sB` is the raw state after feeding `A ++ B` from
`c`; `crc_shift` returns the same vector in both back-ends. -/
theorem combine_identity (c : Nat) (as bs : List (Fin 256)) (hc : c < 2 ^ 32)
    (h5 : 5 ≤ bs.length) (h61 : bs.length < 2 ^ 61) :
    ∃ v, X86.crc_shift (refRaw c as) bs.length = some v ∧
      Neon.crc_shift (refRaw c as) bs.length = some v ∧
      crc32c_u64 0 (lane0 v) ^^^ refRaw 0 bs = refRaw c (as ++ bs) :=
  combine_spec c as bs hc h5 h61

theorem combine_identity_witness :
    ∃ v, X86.crc_shift (refRaw 0xFFFFFFFF checkString) (ramp 5).length = some v ∧
      Neon.crc_shift (refRaw 0xFFFFFFFF checkString) (ramp 5).length = some v ∧
      crc32c_u64 0 (lane0 v) ^^^ refRaw 0 (ramp 5) = refRaw 0xFFFFFFFF (checkString ++ ramp 5) :=
  combine_identity 0xFFFFFFFF checkString (ramp 5) (by norm_num)
    (by rw [ramp_length]) (by rw [ramp_length]; norm_num)

/-! ### Further facts about the reference and the buffer -/

theorem feedSem_zeros (n : Nat) : feedSem 0 (List.replicate n (0 : Fin 256)) = 0 := by
  induction n with
  | zero => rfl
  | succ n ih =>
    rw [List.replicate_succ, feedSem_cons]
    have : sem ((0 : Fin 256).val) = 0 := sem_zero
    rw [this, add_zero, zero_mul, ih]

/-- Feeding zero bytes multiplies the state by a power of `x`. -/
theorem sem_refRaw_zeros (c n : Nat) :
    sem (refRaw c (List.replicate n (0 : Fin 256))) = sem c * xR ^ (8 * n) := by
  rw [sem_refRaw, feedSem_eq, feedSem_zeros, add_zero, List.length_replicate]

theorem not32_inj {a b : Nat} (h : not32 a = not32 b) : a = b := by
  have := congrArg not32 h
  rwa [not32_not32, not32_not32] at this

theorem slice_replicate (n off m : Nat) (a : Fin 256) (h : off + m ≤ n) :
    slice (List.replicate n a) off m = List.replicate m a := by
  unfold slice
  rw [List.drop_replicate, List.take_replicate, Nat.min_eq_left (by omega)]

set_option maxRecDepth 100000 in
/-- C11. Every folding-constant pair `(lo, hi)` of the code is `lo = xnmodp(8*D + 31)` and
`hi = xnmodp(8*D - 33)` for its fold distance `D` bytes, in both back-ends. -/
theorem folding_constants :
    (X86.xnmodp (8 * 16 + 31) = some 0xf20c0dfe ∧ X86.xnmodp (8 * 16 - 33) = some 0x493c7d27 ∧
      Neon.xnmodp (8 * 16 + 31) = some 0xf20c0dfe ∧ Neon.xnmodp (8 * 16 - 33) = some 0x493c7d27) ∧
    (X86.xnmodp (8 * 32 + 31) = some 0x3da6d0cb ∧ X86.xnmodp (8 * 32 - 33) = some 0xba4fc28e ∧
      Neon.xnmodp (8 * 32 + 31) = some 0x3da6d0cb ∧ Neon.xnmodp (8 * 32 - 33) = some 0xba4fc28e) ∧
    (X86.xnmodp (8 * 64 + 31) = some 0x740eef02 ∧ X86.xnmodp (8 * 64 - 33) = some 0x9e4addf8 ∧
      Neon.xnmodp (8 * 64 + 31) = some 0x740eef02 ∧ Neon.xnmodp (8 * 64 - 33) = some 0x9e4addf8) ∧
    (X86.xnmodp (8 * 144 + 31) = some 0x7e908048 ∧ X86.xnmodp (8 * 144 - 33) = some 0xc96cfdc0 ∧
      Neon.xnmodp (8 * 144 + 31) = some 0x7e908048 ∧
      Neon.xnmodp (8 * 144 - 33) = some 0xc96cfdc0) ∧
    (X86.xnmodp (8 * 192 + 31) = some 0xa87ab8a8 ∧ X86.xnmodp (8 * 192 - 33) = some 0xab7aff2a ∧
      Neon.xnmodp (8 * 192 + 31) = some 0xa87ab8a8 ∧
      Neon.xnmodp (8 * 192 - 33) = some 0xab7aff2a) := by
  refine ⟨⟨?_, ?_, ?_, ?_⟩, ⟨?_, ?_, ?_, ?_⟩, ⟨?_, ?_, ?_, ?_⟩, ⟨?_, ?_, ?_, ?_⟩, ?_, ?_, ?_, ?_⟩ <;>
    decide

theorem foldConst_mem {D klo khi : Nat}
    (hk : (D, klo, khi) ∈ [(16, 0xf20c0dfe, 0x493c7d27), (32, 0x3da6d0cb, 0xba4fc28e),
      (64, 0x740eef02, 0x9e4addf8), (144, 0x7e908048, 0xc96cfdc0),
      (192, 0xa87ab8a8, 0xab7aff2a)]) : FoldConst D klo khi := by
  simp only [List.mem_cons, Prod.mk.injEq, List.mem_singleton, List.not_mem_nil, or_false] at hk
  rcases hk with h | h | h | h | h <;> obtain ⟨rfl, rfl, rfl⟩ := h
  · exact foldConst16
  · exact foldConst32
  · exact foldConst64
  · exact foldConst144
  · exact foldConst192

theorem reduce128_spec {v : Nat} (h : v < 2 ^ 128) :
    reduce128 v < 2 ^ 32 ∧ sem (reduce128 v) = vsem v := sem_reduce h

theorem foldv_xor (x klo khi d : Nat) :
    clmul64 (lane0 x) klo ^^^ clmul64 (lane1 x) khi ^^^ d = foldv x klo khi d := by
  unfold foldv
  rw [Nat.xor_comm (clmul64 (lane0 x) klo), Nat.xor_assoc]

theorem vsem_leBytes16 {xs : List (Fin 256)} (h : xs.length = 16) :
    vsem (leBytes xs) = feedSem 0 xs := by
  have := sem_leBytes xs
  rw [h] at this
  exact this

/-- C12. Fold step. With `reduce128 v = step64(step64(0, v.lo), v.hi)`: for each constant
pair `(klo, khi)` of the code, of fold distance `D` bytes (16, 32, 64, 144, 192), every
128-bit accumulator `x` and every 128-bit block `d`, the three spellings of the fold in the
code compute `clmul(x.lo, klo) XOR clmul(x.hi, khi) XOR d`, and the reduction of that
value is the reduction of `x` advanced by `D` zero bytes, XOR the reduction of `d`. For
`D = 16` it is the raw state after feeding the 32 bytes of `x` and `d` from state 0. -/
theorem fold_step (x d D klo khi : Nat) (hx : x < 2 ^ 128) (hd : d < 2 ^ 128)
    (hk : (D, klo, khi) ∈ [(16, 0xf20c0dfe, 0x493c7d27), (32, 0x3da6d0cb, 0xba4fc28e),
      (64, 0x740eef02, 0x9e4addf8), (144, 0x7e908048, 0xc96cfdc0),
      (192, 0xa87ab8a8, 0xab7aff2a)]) :
    (X86._mm_xor_si128 (X86.clmul_hi x (X86._mm_setr_epi32 klo 0 khi 0))
        (X86._mm_xor_si128 (X86.clmul_lo x (X86._mm_setr_epi32 klo 0 khi 0)) d)
        = clmul64 (lane0 x) klo ^^^ clmul64 (lane1 x) khi ^^^ d ∧
      Neon.veor3q_u64 (Neon.clmul_hi_eor3 x (Neon.kvec klo khi))
        (Neon.clmul_lo_eor3 x (Neon.kvec klo khi)) d
        = clmul64 (lane0 x) klo ^^^ clmul64 (lane1 x) khi ^^^ d ∧
      Neon.clmul_hi_e x (Neon.kvec klo khi) (Neon.clmul_lo_e x (Neon.kvec klo khi) d)
        = clmul64 (lane0 x) klo ^^^ clmul64 (lane1 x) khi ^^^ d) ∧
    reduce128 (clmul64 (lane0 x) klo ^^^ clmul64 (lane1 x) khi ^^^ d)
      = refRaw (reduce128 x) (List.replicate D 0) ^^^ reduce128 d ∧
    (D = 16 → ∀ xs ds : List (Fin 256), xs.length = 16 → ds.length = 16 →
      leBytes xs = x → leBytes ds = d →
      reduce128 (clmul64 (lane0 x) klo ^^^ clmul64 (lane1 x) khi ^^^ d) = refRaw 0 (xs ++ ds)) := by
  have hf := foldConst_mem hk
  have hv : foldv x klo khi d < 2 ^ 128 := foldv_lt hd
  obtain ⟨rx, sx⟩ := reduce128_spec hx
  obtain ⟨rd, sd⟩ := reduce128_spec hd
  obtain ⟨rv, sv⟩ := reduce128_spec hv
  have h0 : (0 : Nat) < 2 ^ 32 := by norm_num
  rw [foldv_xor]
  refine ⟨⟨X86.fold_eq x klo khi d hf.1 hf.2.1, Neon.fold3_eq x klo khi d hf.1 hf.2.1,
    Neon.folde_eq x klo khi d hf.1 hf.2.1⟩, ?_, ?_⟩
  · apply sem_inj rv (Nat.xor_lt_two_pow (refRaw_lt _ rx) rd)
    rw [sv, vsem_foldv hf hx, sem_xor, sem_refRaw_zeros, sx, sd]
  · intro hD xs ds hxs hds ex ed
    subst hD
    apply sem_inj rv (refRaw_lt _ h0)
    rw [sv, vsem_foldv hf hx, sem_refRaw, sem_zero, feedSem_append, feedSem_eq _ ds, hds,
      ← ex, ← ed, vsem_leBytes16 hxs, vsem_leBytes16 hds]

theorem fold_step_witness :
    (X86._mm_xor_si128 (X86.clmul_hi 5 (X86._mm_setr_epi32 0x740eef02 0 0x9e4addf8 0))
        (X86._mm_xor_si128 (X86.clmul_lo 5 (X86._mm_setr_epi32 0x740eef02 0 0x9e4addf8 0)) 7)
        = clmul64 (lane0 5) 0x740eef02 ^^^ clmul64 (lane1 5) 0x9e4addf8 ^^^ 7 ∧
      Neon.veor3q_u64 (Neon.clmul_hi_eor3 5 (Neon.kvec 0x740eef02 0x9e4addf8))
        (Neon.clmul_lo_eor3 5 (Neon.kvec 0x740eef02 0x9e4addf8)) 7
        = clmul64 (lane0 5) 0x740eef02 ^^^ clmul64 (lane1 5) 0x9e4addf8 ^^^ 7 ∧
      Neon.clmul_hi_e 5 (Neon.kvec 0x740eef02 0x9e4addf8)
        (Neon.clmul_lo_e 5 (Neon.kvec 0x740eef02 0x9e4addf8) 7)
        = clmul64 (lane0 5) 0x740eef02 ^^^ clmul64 (lane1 5) 0x9e4addf8 ^^^ 7) ∧
    reduce128 (clmul64 (lane0 5) 0x740eef02 ^^^ clmul64 (lane1 5) 0x9e4addf8 ^^^ 7)
      = refRaw (reduce128 5) (List.replicate 64 0) ^^^ reduce128 7 ∧
    (64 = 16 → ∀ xs ds : List (Fin 256), xs.length = 16 → ds.length = 16 →
      leBytes xs = 5 → leBytes ds = 7 →
      reduce128 (clmul64 (lane0 5) 0x740eef02 ^^^ clmul64 (lane1 5) 0x9e4addf8 ^^^ 7)
        = refRaw 0 (xs ++ ds)) :=
  fold_step 5 7 64 0x740eef02 0x9e4addf8 (by norm_num) (by norm_num) (by simp)

namespace Neon

/-- The single-register phase, with the number of bytes it consumes. -/
theorem singlePhase_exact {mem : List (Fin 256)} {c : Cursor} (hlen : c.buf + c.len ≤ mem.length)
    (hcrc : c.crc0 < 2 ^ 32) (h16 : 16 ≤ c.len) :
    ∃ c', singlePhase mem c = some c' ∧
      c'.crc0 = refRaw c.crc0 (slice mem c.buf (16 * (c.len / 16))) ∧
      c'.buf = c.buf + 16 * (c.len / 16) ∧ c'.len = c.len % 16 := by
  have hin : c.buf + 16 ≤ mem.length := by omega
  have key : 16 * ((c.len - 16) / 16) ≤ c.len - 16 ∧
      c.len - 16 < 16 * ((c.len - 16) / 16 + 1) ∧ c.len / 16 = (c.len - 16) / 16 + 1 := by
    omega
  generalize (c.len - 16) / 16 = q at key
  obtain ⟨hk1, hk2, hk3⟩ := key
  have hx0 : c.crc0 ^^^ leBytes (slice mem c.buf 16) < 2 ^ 128 :=
    Nat.xor_lt_two_pow (lt_trans hcrc (by norm_num)) (slice128_lt hin)
  obtain ⟨s1, e1, hb1, w1, p1, l1⟩ :=
    singleLoop_spec mem q (c.len - 16 + 1)
      ⟨c.crc0 ^^^ leBytes (slice mem c.buf 16), c.buf + 16, c.len - 16⟩ (by omega) hx0
      (by show 16 * q ≤ c.len - 16; omega) (by show c.len - 16 < 16 * (q + 1); omega)
      (by show c.buf + 16 + 16 * q ≤ mem.length; omega)
  simp only at w1 p1 l1
  obtain ⟨hr, sr⟩ := sem_reduce hb1
  unfold singlePhase
  simp only [Option.bind_eq_bind, load128_eq hin, veorq_u64]
  rw [Option.some_bind, e1, Option.some_bind]
  simp only [vgetq_lane_zero, vgetq_lane_one, __crc32cd]
  refine ⟨_, rfl, ?_, ?_, ?_⟩
  · show crc32c_u64 _ _ = _
    apply sem_inj hr (refRaw_lt _ hcrc)
    rw [hk3, show 16 * (q + 1) = 16 + 16 * q by omega]
    rw [sr, w1, vsem_xor, sem_refRaw, ← feedSem_slice_add, feedSem_slice (sem c.crc0) hin,
      vsem_slice hin, vsem]
  · show s1.buf = _
    omega
  · show s1.len = _
    omega

/-- With fewer units of fuel than the loop has iterations, `tripleLoop` has no result. -/
theorem tripleLoop_short (mem : List (Fin 256)) (klen : Nat) (k : Nat) :
    ∀ (fuel : Nat) (s : TripleState), fuel ≤ k →
      24 * (k + 1) + 8 ≤ s.len → s.buf + klen * 2 + 8 * (k + 1) ≤ mem.length →
      tripleLoop mem klen fuel s = none := by
  induction k with
  | zero =>
    intro fuel s hf _ _
    obtain rfl : fuel = 0 := by omega
    rfl
  | succ k ih =>
    intro fuel s hf hl hs
    cases fuel with
    | zero => rfl
    | succ fuel =>
      rw [tripleLoop]
      simp only [Option.bind_eq_bind, Option.pure_def,
        load64_eq (show s.buf + 8 ≤ mem.length by omega),
        load64_eq (show s.buf + klen + 8 ≤ mem.length by omega),
        load64_eq (show s.buf + klen * 2 + 8 ≤ mem.length by omega), Option.some_bind]
      rw [if_pos (by show s.len - 24 ≥ 32; omega)]
      exact ih fuel _ (by omega) (by show 24 * (k + 1) + 8 ≤ s.len - 24; omega)
        (by show s.buf + 8 + klen * 2 + 8 * (k + 1) ≤ mem.length; omega)

/-- The three-way scalar phase, with the number of bytes it consumes. -/
theorem triplePhase_exact {mem : List (Fin 256)} {c : Cursor} (hlen : c.buf + c.len ≤ mem.length)
    (hcrc : c.crc0 < 2 ^ 32) (h32 : 32 ≤ c.len) (h61 : c.len < 2 ^ 61) (q : Nat)
    (hq0 : q = (c.len - 8) / 24) :
    ∃ c', triplePhase mem c = some c' ∧
      c'.crc0 = refRaw c.crc0 (slice mem c.buf (3 * (q * 8) + 8)) ∧
      c'.buf = c.buf + (3 * (q * 8) + 8) ∧ c'.len = (c.len - 8) % 24 := by
  unfold triplePhase
  simp only [Option.bind_eq_bind]
  have key : 24 * ((c.len - 8) / 24) + 8 ≤ c.len ∧ c.len < 24 * ((c.len - 8) / 24) + 32 ∧
      (c.len - 8) % 24 = c.len - 8 - 24 * ((c.len - 8) / 24) := by
    omega
  rw [← hq0] at key ⊢
  generalize (c.len - 8) % 24 = rem at key ⊢
  clear hq0
  obtain ⟨hk1, hk2, hk3⟩ := key
  have hq : 1 ≤ q := by omega
  obtain ⟨s1, e1, c0, c1, c2, p1, l1⟩ :=
    tripleLoop_spec mem (q * 8) (q - 1) (c.len + 1) ⟨c.crc0, 0, 0, c.buf, c.len⟩ (by omega)
      hcrc (by norm_num) (by norm_num) (by show 24 * (q - 1 + 1) + 8 ≤ c.len; omega)
      (by show c.len < 24 * (q - 1 + 1) + 32; omega)
      (by show c.buf + q * 8 * 2 + 8 * (q - 1 + 1) ≤ mem.length; omega)
  simp only at c0 c1 c2 p1 l1
  have hq1 : 8 * (q - 1 + 1) = q * 8 := by omega
  rw [hq1] at c0 c1 c2 p1
  have r0 : s1.crc0 < 2 ^ 32 := by rw [c0]; exact refRaw_lt _ hcrc
  have r1 : s1.crc1 < 2 ^ 32 := by rw [c1]; exact refRaw_lt _ (by norm_num)
  have r2 : s1.crc2 < 2 ^ 32 := by rw [c2]; exact refRaw_lt _ (by norm_num)
  obtain ⟨v0, e3, hv0, sv0⟩ := neon_crc_shift_spec r0 (show 5 ≤ q * 8 * 2 + 8 by omega) (by omega)
  obtain ⟨v1, e4, hv1, sv1⟩ := neon_crc_shift_spec r1 (show 5 ≤ q * 8 + 8 by omega) (by omega)
  have hin : c.buf + q * 8 + q * 8 + q * 8 + 8 ≤ mem.length := by omega
  have hlast : s1.buf + q * 8 * 2 = c.buf + q * 8 + q * 8 + q * 8 := by omega
  have e6 := load64_eq hin
  rw [e1, Option.some_bind, e3, Option.some_bind, e4, Option.some_bind, hlast, e6,
    Option.some_bind]
  simp only [vgetq_lane_zero, __crc32cd, veorq_u64]
  have h64 : (2 : Nat) ^ 63 < 2 ^ 64 := by norm_num
  have hv01 : v0 ^^^ v1 < 2 ^ 64 := Nat.xor_lt_two_pow (lt_trans hv0 h64) (lt_trans hv1 h64)
  rw [lane0_of_lt hv01]
  refine ⟨_, rfl, ?_, ?_, ?_⟩
  · show crc32c_u64 _ _ = _
    apply sem_inj (crc32c_u64_lt r2 (Nat.xor_lt_two_pow (slice64_lt hin) hv01))
      (refRaw_lt _ hcrc)
    have hsplit : 3 * (q * 8) + 8 = q * 8 + (q * 8 + (q * 8 + 8)) := by omega
    rw [sem_crc32c_u64, sem_xor, sem_xor, sem_refRaw c.crc0, hsplit,
      ← feedSem_slice_add, ← feedSem_slice_add, ← feedSem_slice_add,
      feedSem_slice _ (show c.buf + q * 8 + q * 8 ≤ mem.length by omega),
      feedSem_slice _ (show c.buf + q * 8 + q * 8 + q * 8 ≤ mem.length by omega),
      feedSem_slice _ hin, ← sem_slice hin]
    have f0 := sem_refRaw c.crc0 (slice mem c.buf (q * 8))
    have f1 := sem_refRaw 0 (slice mem (c.buf + q * 8) (q * 8))
    have f2 := sem_refRaw 0 (slice mem (c.buf + q * 8 * 2) (q * 8))
    rw [sem_zero] at f1 f2
    rw [show c.buf + q * 8 * 2 = c.buf + q * 8 + q * 8 by omega] at f2 c2
    rw [← c0] at f0
    rw [← c1] at f1
    rw [← c2] at f2
    rw [← f0, ← f1, ← f2]
    linear_combination sv0 + sv1
  · show c.buf + q * 8 + q * 8 + q * 8 + 8 = _
    omega
  · show sub64 s1.len 8 = _
    rw [sub64_eq (by omega) (by omega)]
    omega

end Neon

/-- C13. Single-register folding phase of `crc32_iscsi_small_impl` (the block
`if (len >= 16)`): for every 32-bit raw state in `crc0` and every remaining buffer of length
`L >= 16`, the block has a result in which `crc0` is the raw state after feeding the next
`16 * floor(L / 16)` bytes one at a time, `buf` has advanced by that many bytes and the
remaining length is `L mod 16`, fewer than 16. -/
theorem single_register_phase (mem : List (Fin 256)) (crc0 buf L : Nat)
    (hL : buf + L ≤ mem.length) (hc : crc0 < 2 ^ 32) (h16 : 16 ≤ L) :
    ∃ c', Neon.singlePhase mem ⟨crc0, buf, L⟩ = some c' ∧
      c'.crc0 = refRaw crc0 (slice mem buf (16 * (L / 16))) ∧
      c'.buf = buf + 16 * (L / 16) ∧ c'.len = L % 16 ∧ c'.len < 16 := by
  obtain ⟨c', e, h1, h2, h3⟩ :=
    Neon.singlePhase_exact (c := ⟨crc0, buf, L⟩) hL hc h16
  exact ⟨c', e, h1, h2, h3, by rw [h3]; exact Nat.mod_lt _ (by norm_num)⟩

theorem single_register_phase_witness :
    ∃ c', Neon.singlePhase (ramp 60) ⟨0xFFFFFFFF, 3, 57⟩ = some c' ∧
      c'.crc0 = refRaw 0xFFFFFFFF (slice (ramp 60) 3 (16 * (57 / 16))) ∧
      c'.buf = 3 + 16 * (57 / 16) ∧ c'.len = 57 % 16 ∧ c'.len < 16 :=
  single_register_phase (ramp 60) 0xFFFFFFFF 3 57 (by rw [ramp_length]) (by norm_num)
    (by norm_num)

/-- C14. Three-way scalar phase of `crc32_iscsi_large_impl` (the block `if (len >= 32)`): for
every 32-bit raw state in `crc0` and every remaining buffer of length `32 <= L < 2^61`, with
`klen = 8 * floor((L - 8) / 24)`, the do-while loop runs exactly `klen / 8` times (it has a
result with `klen / 8` units of fuel, one per execution of its body, and none with one
unit less), and the block has a result in which `crc0` is the raw state after feeding the
next `3 * klen + 8` bytes in order, `buf` has advanced by `3 * klen + 8` and the remaining
length is `(L - 8) mod 24`. -/
theorem three_way_phase (mem : List (Fin 256)) (crc0 buf L klen : Nat)
    (hL : buf + L ≤ mem.length) (hc : crc0 < 2 ^ 32) (h32 : 32 ≤ L) (h61 : L < 2 ^ 61)
    (hk : klen = ((L - 8) / 24) * 8) :
    (∃ s, Neon.tripleLoop mem klen (klen / 8) ⟨crc0, 0, 0, buf, L⟩ = some s ∧
      s.buf = buf + klen ∧ s.len = L - 3 * klen) ∧
    Neon.tripleLoop mem klen (klen / 8 - 1) ⟨crc0, 0, 0, buf, L⟩ = none ∧
    ∃ c', Neon.triplePhase mem ⟨crc0, buf, L⟩ = some c' ∧
      c'.crc0 = refRaw crc0 (slice mem buf (3 * klen + 8)) ∧
      c'.buf = buf + (3 * klen + 8) ∧ c'.len = (L - 8) % 24 := by
  have key : 24 * ((L - 8) / 24) + 8 ≤ L ∧ L < 24 * ((L - 8) / 24) + 32 := by omega
  obtain ⟨c', e, h1, h2, h3⟩ :=
    Neon.triplePhase_exact (c := ⟨crc0, buf, L⟩) hL hc h32 h61 ((L - 8) / 24) rfl
  generalize (L - 8) / 24 = q at key hk e h1 h2
  subst hk
  obtain ⟨hk1, hk2⟩ := key
  have hq : 1 ≤ q := by omega
  have hdiv : q * 8 / 8 = q := by omega
  rw [hdiv]
  refine ⟨?_, ?_, c', e, h1, h2, h3⟩
  · obtain ⟨s, es, _, _, _, pb, pl⟩ :=
      Neon.tripleLoop_spec mem (q * 8) (q - 1) q ⟨crc0, 0, 0, buf, L⟩ (by omega) hc
        (by norm_num) (by norm_num) (by show 24 * (q - 1 + 1) + 8 ≤ L; omega)
        (by show L < 24 * (q - 1 + 1) + 32; omega)
        (by show buf + q * 8 * 2 + 8 * (q - 1 + 1) ≤ mem.length; omega)
    simp only at pb pl
    exact ⟨s, es, by omega, by omega⟩
  · exact Neon.tripleLoop_short mem (q * 8) (q - 1) (q - 1) ⟨crc0, 0, 0, buf, L⟩ (le_refl _)
      (by show 24 * (q - 1 + 1) + 8 ≤ L; omega)
      (by show buf + q * 8 * 2 + 8 * (q - 1 + 1) ≤ mem.length; omega)

theorem three_way_phase_witness :
    (∃ s, Neon.tripleLoop (ramp 105) 24 (24 / 8) ⟨0xFFFFFFFF, 0, 0, 5, 100⟩ = some s ∧
      s.buf = 5 + 24 ∧ s.len = 100 - 3 * 24) ∧
    Neon.tripleLoop (ramp 105) 24 (24 / 8 - 1) ⟨0xFFFFFFFF, 0, 0, 5, 100⟩ = none ∧
    ∃ c', Neon.triplePhase (ramp 105) ⟨0xFFFFFFFF, 5, 100⟩ = some c' ∧
      c'.crc0 = refRaw 0xFFFFFFFF (slice (ramp 105) 5 (3 * 24 + 8)) ∧
      c'.buf = 5 + (3 * 24 + 8) ∧ c'.len = (100 - 8) % 24 :=
  three_way_phase (ramp 105) 0xFFFFFFFF 5 100 24 (by rw [ramp_length]) (by norm_num)
    (by norm_num) (by norm_num) (by norm_num)

/-! ### Load logs -/

theorem cover_add (a m n off : Nat) :
    cover a (m + n) off = cover a m off + cover (a + m) n off := by
  unfold cover
  split_ifs <;> omega

theorem cover_zero (a off : Nat) : cover a 0 off = 0 := by
  unfold cover
  split_ifs <;> omega

theorem readCount_nil (off : Nat) : readCount [] off = 0 := rfl

theorem readCount_append (l1 l2 : List (Nat × Nat)) (off : Nat) :
    readCount (l1 ++ l2) off = readCount l1 off + readCount l2 off := by
  simp [readCount, List.map_append, List.sum_append]

theorem readCount_cons (x : Nat × Nat) (l : List (Nat × Nat)) (off : Nat) :
    readCount (x :: l) off = cover x.1 x.2 off + readCount l off := by
  simp [readCount]

theorem readCount_single (a w off : Nat) : readCount [(a, w)] off = cover a w off := by
  simp [readCount]

/-- Every load of a log is a 128-bit load or one of the others. -/
theorem readCount_split (l : List (Nat × Nat)) (off : Nat) :
    readCount l off = readCount (wideLoads l) off + readCount (narrowLoads l) off := by
  induction l with
  | nil => rfl
  | cons x l ih =>
    unfold wideLoads narrowLoads at *
    rw [readCount_cons, ih, List.filter_cons, List.filter_cons]
    by_cases h : (x.2 == 16) = true
    · simp only [h, if_true, Bool.not_true, Bool.false_eq_true, if_false, readCount_cons]
      omega
    · simp only [h, if_false, Bool.not_eq_true] at *
      simp only [h, Bool.not_false, if_true, readCount_cons, Bool.false_eq_true, if_false]
      omega

theorem blockLoads_add (a w m n : Nat) :
    blockLoads a w (m + n) = blockLoads a w m ++ blockLoads (a + w * m) w n := by
  unfold blockLoads
  rw [List.range_add, List.map_append, List.map_map]
  congr 1
  apply List.map_congr_left
  intro i _
  simp only [Function.comp]
  rw [Nat.mul_add, Nat.add_assoc]

theorem streamLoads_add (a klen m n : Nat) :
    streamLoads a klen (m + n) = streamLoads a klen m ++ streamLoads (a + 8 * m) klen n := by
  unfold streamLoads
  rw [List.range_add, List.flatMap_append, List.flatMap_map]
  congr 1
  apply List.flatMap_congr
  intro i _
  have e1 : a + 8 * (m + i) = a + 8 * m + 8 * i := by omega
  have e2 : a + klen + 8 * (m + i) = a + 8 * m + klen + 8 * i := by omega
  have e3 : a + klen * 2 + 8 * (m + i) = a + 8 * m + klen * 2 + 8 * i := by omega
  rw [e1, e2, e3]

theorem readCount_blockLoads (a w k off : Nat) :
    readCount (blockLoads a w k) off = cover a (w * k) off := by
  induction k with
  | zero => rw [Nat.mul_zero, cover_zero]; rfl
  | succ k ih =>
    have h1 : blockLoads a w (k + 1) = blockLoads a w k ++ [(a + w * k, w)] := by
      rw [blockLoads_add]
      rfl
    rw [h1, readCount_append, ih, readCount_single, Nat.mul_succ, cover_add]

theorem readCount_streamLoads (a klen k off : Nat) :
    readCount (streamLoads a klen k) off
      = cover a (8 * k) off + cover (a + klen) (8 * k) off + cover (a + klen * 2) (8 * k) off := by
  induction k with
  | zero =>
    rw [Nat.mul_zero, cover_zero, cover_zero, cover_zero]
    rfl
  | succ k ih =>
    have h1 : streamLoads a klen (k + 1) = streamLoads a klen k ++
        [(a + 8 * k, 8), (a + 8 * k + klen, 8), (a + 8 * k + klen * 2, 8)] := by
      rw [streamLoads_add]
      rfl
    rw [h1, readCount_append, ih, readCount_cons, readCount_cons, readCount_single,
      show 8 * (k + 1) = 8 * k + 8 from by omega, cover_add a, cover_add (a + klen),
      cover_add (a + klen * 2), show a + 8 * k + klen = a + klen + 8 * k from by omega,
      show a + 8 * k + klen * 2 = a + klen * 2 + 8 * k from by omega]
    simp only []
    omega

theorem LogCursor.Adv.stay (c : LogCursor) : LogCursor.Adv c c :=
  ⟨0, [], Nat.zero_le _, rfl, rfl, by simp, fun off => by rw [cover_zero]; rfl⟩

theorem LogCursor.Adv.andThen {a b c : LogCursor} (h1 : LogCursor.Adv a b)
    (h2 : LogCursor.Adv b c) : LogCursor.Adv a c := by
  obtain ⟨n, l, hn, hb, hl, hg, hr⟩ := h1
  obtain ⟨m, l', hm, hb', hl', hg', hr'⟩ := h2
  refine ⟨n + m, l ++ l', by omega, by omega, by omega, ?_, ?_⟩
  · rw [hg', hg, List.append_assoc]
  · intro off
    rw [readCount_append, hr, hr', hb, cover_add]

theorem LogCursor.Adv.len_shrinks {a b : LogCursor} (h : LogCursor.Adv a b) : b.len ≤ a.len := by
  obtain ⟨n, l, hn, hb, hl, hg, hr⟩ := h
  omega

/-- One load of `w` bytes at the read pointer. -/
theorem LogCursor.Adv.step (c : LogCursor) (w : Nat) (h : w ≤ c.len) :
    LogCursor.Adv c ⟨c.buf + w, c.len - w, c.log ++ [(c.buf, w)]⟩ :=
  ⟨w, [(c.buf, w)], h, rfl, rfl, rfl, fun _ => readCount_single _ _ _⟩

theorem headLoopLog_spec (addr : Nat) (fuel : Nat) :
    ∀ c : LogCursor, c.len < fuel → ∃ c', headLoopLog addr fuel c = some c' ∧ c.Adv c' := by
  induction fuel with
  | zero => intro c h; omega
  | succ fuel ih =>
    intro c hf
    rw [headLoopLog]
    split
    · rename_i hcond
      have h1 : 1 ≤ c.len := by have := hcond.1; omega
      obtain ⟨c', e, a⟩ := ih ⟨c.buf + 1, c.len - 1, c.log ++ [(c.buf, 1)]⟩
        (by show c.len - 1 < fuel; omega)
      exact ⟨c', e, (LogCursor.Adv.step c 1 h1).andThen a⟩
    · exact ⟨c, rfl, LogCursor.Adv.stay c⟩

theorem headWordLog_spec (addr : Nat) (c : LogCursor) : c.Adv (headWordLog addr c) := by
  unfold headWordLog
  split
  · rename_i hcond
    exact LogCursor.Adv.step c 8 hcond.2
  · exact LogCursor.Adv.stay c

theorem tailWordsLog_spec (fuel : Nat) :
    ∀ c : LogCursor, c.len < fuel →
      ∃ c', tailWordsLog fuel c = some c' ∧ c.Adv c' ∧ c'.len < 8 := by
  induction fuel with
  | zero => intro c h; omega
  | succ fuel ih =>
    intro c hf
    rw [tailWordsLog]
    split
    · rename_i hcond
      obtain ⟨c', e, a, hl⟩ := ih ⟨c.buf + 8, c.len - 8, c.log ++ [(c.buf, 8)]⟩
        (by show c.len - 8 < fuel; omega)
      exact ⟨c', e, (LogCursor.Adv.step c 8 hcond).andThen a, hl⟩
    · exact ⟨c, rfl, LogCursor.Adv.stay c, by omega⟩

theorem tailBytesLog_spec (fuel : Nat) :
    ∀ c : LogCursor, c.len < fuel →
      ∃ c', tailBytesLog fuel c = some c' ∧ c.Adv c' ∧ c'.len = 0 := by
  induction fuel with
  | zero => intro c h; omega
  | succ fuel ih =>
    intro c hf
    rw [tailBytesLog]
    split
    · rename_i hcond
      obtain ⟨c', e, a, hl⟩ := ih ⟨c.buf + 1, c.len - 1, c.log ++ [(c.buf, 1)]⟩
        (by show c.len - 1 < fuel; omega)
      exact ⟨c', e, (LogCursor.Adv.step c 1 (by omega)).andThen a, hl⟩
    · exact ⟨c, rfl, LogCursor.Adv.stay c, by omega⟩

/-- The scalar epilogue reads each of the remaining bytes once: the finished log reads
every byte of the buffer exactly once and nothing else. -/
theorem epilogueLog_spec {len : Nat} {c : LogCursor} (a : LogCursor.Adv ⟨0, len, []⟩ c) :
    ∃ log, ((tailWordsLog (c.len + 1) c).bind fun c =>
        (tailBytesLog (c.len + 1) c).bind fun c => pure c.log) = some log ∧
      ∀ off, readCount log off = if off < len then 1 else 0 := by
  obtain ⟨c4, e4, a4, _⟩ := tailWordsLog_spec (c.len + 1) c (Nat.lt_succ_self _)
  obtain ⟨c5, e5, a5, h5⟩ := tailBytesLog_spec (c4.len + 1) c4 (Nat.lt_succ_self _)
  rw [e4, Option.some_bind, e5, Option.some_bind]
  obtain ⟨n, l, hn, hb, hl, hg, hr⟩ := (a.andThen a4).andThen a5
  simp only at hn hb hl hg hr
  refine ⟨c5.log, rfl, ?_⟩
  intro off
  have hn' : n = len := by omega
  rw [hg, List.nil_append, hr, hn']
  unfold cover
  split_ifs <;> omega

/-- An optional phase of a load log, followed by the rest of the engine. -/
theorem phaseLog_ge {α : Type} (n : Nat) (f : LogCursor → Option LogCursor)
    (K : LogCursor → Option α) (P : α → Prop) (c : LogCursor)
    (hf : c.len ≥ n → ∃ c', f c = some c' ∧ c.Adv c')
    (hK : ∀ c', c.Adv c' → ∃ r, K c' = some r ∧ P r) :
    ∃ r, (if c.len ≥ n then (f c).bind K else (some c).bind K) = some r ∧ P r := by
  split
  · rename_i h
    obtain ⟨c', e, a⟩ := hf h
    rw [e, Option.some_bind]
    exact hK c' a
  · rw [Option.some_bind]
    exact hK c (LogCursor.Adv.stay c)

theorem wideLoads_append (l1 l2 : List (Nat × Nat)) :
    wideLoads (l1 ++ l2) = wideLoads l1 ++ wideLoads l2 := List.filter_append _ _

theorem narrowLoads_append (l1 l2 : List (Nat × Nat)) :
    narrowLoads (l1 ++ l2) = narrowLoads l1 ++ narrowLoads l2 := List.filter_append _ _

theorem wideLoads_blockLoads (a k : Nat) : wideLoads (blockLoads a 16 k) = blockLoads a 16 k := by
  unfold wideLoads blockLoads
  rw [List.filter_eq_self]
  intro x hx
  rw [List.mem_map] at hx
  obtain ⟨i, _, rfl⟩ := hx
  rfl

theorem narrowLoads_blockLoads (a k : Nat) : narrowLoads (blockLoads a 16 k) = [] := by
  unfold narrowLoads blockLoads
  rw [List.filter_eq_nil_iff]
  intro x hx
  rw [List.mem_map] at hx
  obtain ⟨i, _, rfl⟩ := hx
  simp

theorem mem_streamLoads {a klen k : Nat} {x : Nat × Nat} (hx : x ∈ streamLoads a klen k) :
    x.2 = 8 := by
  unfold streamLoads at hx
  rw [List.mem_flatMap] at hx
  obtain ⟨i, _, hi⟩ := hx
  simp only [List.mem_cons, List.mem_singleton, List.not_mem_nil, or_false] at hi
  rcases hi with rfl | rfl | rfl <;> rfl

theorem wideLoads_streamLoads (a klen k : Nat) : wideLoads (streamLoads a klen k) = [] := by
  unfold wideLoads
  rw [List.filter_eq_nil_iff]
  intro x hx
  rw [mem_streamLoads hx]
  decide

theorem narrowLoads_streamLoads (a klen k : Nat) :
    narrowLoads (streamLoads a klen k) = streamLoads a klen k := by
  unfold narrowLoads
  rw [List.filter_eq_self]
  intro x hx
  rw [mem_streamLoads hx]
  decide

theorem wideLoads_word (x : Nat) : wideLoads [(x, 8)] = [] := rfl

theorem narrowLoads_word (x : Nat) : narrowLoads [(x, 8)] = [(x, 8)] := rfl

namespace X86

theorem mainBodyLog_eq (klen : Nat) (s : VecLog) :
    mainBodyLog klen s = ⟨s.buf + 24, s.buf2 + 64, s.len - 136,
      s.log ++ (blockLoads s.buf2 16 4 ++ streamLoads s.buf klen 3)⟩ := by
  unfold mainBodyLog scalarChunkLog
  simp only [List.append_assoc]
  rfl

/-- Loads of `k` iterations of the main loop. -/
theorem mainLoopLog_spec (klen : Nat) (k : Nat) :
    ∀ (fuel : Nat) (s : VecLog), k < fuel → 136 * k + 8 ≤ s.len → s.len < 136 * (k + 1) + 8 →
      ∃ s', mainLoopLog klen fuel s = some s' ∧ s'.buf = s.buf + 24 * k ∧
        s'.buf2 = s.buf2 + 64 * k ∧ s'.len = s.len - 136 * k ∧
        ∃ l, s'.log = s.log ++ l ∧ wideLoads l = blockLoads s.buf2 16 (4 * k) ∧
          narrowLoads l = streamLoads s.buf klen (3 * k) := by
  induction k with
  | zero =>
    intro fuel s hf h1 h2
    obtain ⟨fuel, rfl⟩ : ∃ f, fuel = f + 1 := ⟨fuel - 1, by omega⟩
    rw [mainLoopLog, if_neg (by omega)]
    exact ⟨s, rfl, rfl, rfl, rfl, [], by simp, rfl, rfl⟩
  | succ k ih =>
    intro fuel s hf h1 h2
    obtain ⟨fuel, rfl⟩ : ∃ f, fuel = f + 1 := ⟨fuel - 1, by omega⟩
    rw [mainLoopLog, if_pos (by omega), mainBodyLog_eq]
    obtain ⟨s', e, pb, pb2, pl, l, hl, hw, hn⟩ :=
      ih fuel ⟨s.buf + 24, s.buf2 + 64, s.len - 136,
        s.log ++ (blockLoads s.buf2 16 4 ++ streamLoads s.buf klen 3)⟩ (by omega)
        (by show 136 * k + 8 ≤ s.len - 136; omega)
        (by show s.len - 136 < 136 * (k + 1) + 8; omega)
    simp only at pb pb2 pl hl hw hn
    refine ⟨s', e, by omega, by omega, by omega,
      blockLoads s.buf2 16 4 ++ streamLoads s.buf klen 3 ++ l, ?_, ?_, ?_⟩
    · rw [hl, List.append_assoc]
    · rw [wideLoads_append, wideLoads_append, wideLoads_blockLoads, wideLoads_streamLoads, hw,
        List.append_nil, show 4 * (k + 1) = 4 + 4 * k from by omega, blockLoads_add]
    · rw [narrowLoads_append, narrowLoads_append, narrowLoads_blockLoads,
        narrowLoads_streamLoads, hn, List.nil_append,
        show 3 * (k + 1) = 3 + 3 * k from by omega, streamLoads_add]

/-- With fewer units of fuel than tests of its condition, the main loop has no result. -/
theorem mainLoopLog_short (klen : Nat) (k : Nat) :
    ∀ (fuel : Nat) (s : VecLog), fuel ≤ k → 136 * k + 8 ≤ s.len →
      mainLoopLog klen fuel s = none := by
  induction k with
  | zero =>
    intro fuel s hf _
    obtain rfl : fuel = 0 := by omega
    rfl
  | succ k ih =>
    intro fuel s hf h1
    cases fuel with
    | zero => rfl
    | succ fuel =>
      rw [mainLoopLog, if_pos (by omega), mainBodyLog_eq]
      exact ih fuel _ (by omega) (by show 136 * k + 8 ≤ s.len - 136; omega)

/-- Loads of the interleaved phase: the vector stream is the `4 * blk` blocks of 16 bytes
from `buf`, the scalar streams are the `3 * blk` words from `buf + 64 * blk`,
`buf + 64 * blk + klen` and `buf + 64 * blk + klen * 2`, and the last load is the word after
them. -/
theorem vectorPhaseLog_spec (c : LogCursor) (h144 : 144 ≤ c.len) (h64 : c.len < 2 ^ 64)
    (blk klen : Nat) (hblk : blk = (c.len - 8) / 136) (hklen : klen = blk * 24) :
    ∃ c', vectorPhaseLog c = some c' ∧ c'.buf = c.buf + (136 * blk + 8) ∧
      c'.len = c.len - (136 * blk + 8) ∧
      ∃ l, c'.log = c.log ++ l ∧ wideLoads l = blockLoads c.buf 16 (4 * blk) ∧
        narrowLoads l = streamLoads (c.buf + 64 * blk) klen (3 * blk)
          ++ [(c.buf + 64 * blk + klen * 3, 8)] := by
  have key : 136 * blk + 8 ≤ c.len ∧ c.len < 136 * blk + 144 := by omega
  obtain ⟨hk1, hk2⟩ := key
  have hbk : 1 ≤ blk := by omega
  obtain ⟨s1, e1, pb, pb2, pl, l, hl, hw, hn⟩ :=
    mainLoopLog_spec klen (blk - 1) (c.len - 136 + 1)
      ⟨c.buf + blk * 64, c.buf + 0 + 64, c.len - 136,
        c.log ++ [(c.buf + 0, 16), (c.buf + 0 + 16, 16), (c.buf + 0 + 32, 16),
          (c.buf + 0 + 48, 16)]⟩
      (by omega) (by show 136 * (blk - 1) + 8 ≤ c.len - 136; omega)
      (by show c.len - 136 < 136 * (blk - 1 + 1) + 8; omega)
  simp only at pb pb2 pl hl hw hn
  unfold vectorPhaseLog
  simp only [Option.bind_eq_bind, Option.pure_def]
  rw [← hblk, ← hklen, e1, Option.some_bind]
  refine ⟨_, rfl, ?_, ?_, blockLoads c.buf 16 4 ++ l ++ streamLoads s1.buf klen 3
    ++ [(s1.buf + 24 + klen * 2, 8)], ?_, ?_, ?_⟩
  · show (scalarChunkLog klen s1).buf + 24 + klen * 2 + 8 = _
    show s1.buf + 24 + klen * 2 + 8 = _
    omega
  · show sub64 (scalarChunkLog klen s1).len 8 = _
    show sub64 s1.len 8 = _
    rw [sub64_eq (by omega) (by omega)]
    omega
  · show (scalarChunkLog klen s1).log ++ [((scalarChunkLog klen s1).buf + 24 + klen * 2, 8)] = _
    show s1.log ++ streamLoads s1.buf klen 3 ++ [(s1.buf + 24 + klen * 2, 8)] = _
    rw [hl]
    simp only [List.append_assoc]
    rfl
  · rw [wideLoads_append, wideLoads_append, wideLoads_append, wideLoads_blockLoads, hw,
      wideLoads_streamLoads, List.append_nil,
      show 4 * blk = 4 + 4 * (blk - 1) from by omega, blockLoads_add]
    rw [wideLoads_word, List.append_nil]
  · rw [narrowLoads_append, narrowLoads_append, narrowLoads_append, narrowLoads_blockLoads, hn,
      narrowLoads_streamLoads, List.nil_append,
      show 3 * blk = 3 * (blk - 1) + 3 from by omega, streamLoads_add, pb]
    rw [narrowLoads_word,
      show c.buf + blk * 64 + 24 * (blk - 1) + 24 + klen * 2 = c.buf + 64 * blk + klen * 3
        from by omega,
      show c.buf + blk * 64 = c.buf + 64 * blk from by omega,
      show c.buf + 64 * blk + 24 * (blk - 1) = c.buf + 64 * blk + 8 * (3 * (blk - 1))
        from by omega]

/-- The interleaved phase reads each of the next `136 * blk + 8` bytes exactly once. -/
theorem vectorPhaseLog_adv (c : LogCursor) (h144 : 144 ≤ c.len) (h64 : c.len < 2 ^ 64) :
    ∃ c', vectorPhaseLog c = some c' ∧ c.Adv c' := by
  obtain ⟨c', e, pb, pl, l, hl, hw, hn⟩ :=
    vectorPhaseLog_spec c h144 h64 ((c.len - 8) / 136) ((c.len - 8) / 136 * 24) rfl rfl
  have key : 136 * ((c.len - 8) / 136) + 8 ≤ c.len := by omega
  generalize (c.len - 8) / 136 = blk at key pb pl hw hn
  refine ⟨c', e, 136 * blk + 8, l, key, pb, pl, hl, ?_⟩
  intro off
  rw [readCount_split, hw, hn, readCount_blockLoads, readCount_append, readCount_streamLoads,
    readCount_single]
  unfold cover
  split_ifs <;> omega

end X86

namespace Neon

theorem largeBodyLog_eq (klen : Nat) (s : LargeLog) :
    largeBodyLog klen s = ⟨s.buf + 16, s.buf2 + 144,
      s.log ++ (blockLoads s.buf2 16 9 ++ streamLoads s.buf klen 2)⟩ := by
  unfold largeBodyLog largeScalarChunkLog
  simp only [List.append_assoc]
  rfl

/-- Loads of `k` iterations of the main loop of the large engine. -/
theorem largeLoopLog_spec (klen : Nat) (limit : Int) (k : Nat) :
    ∀ (fuel : Nat) (s : LargeLog), k < fuel →
      (k ≠ 0 → (s.buf : Int) + 16 * k ≤ limit + 16) → limit < (s.buf : Int) + 16 * k →
      ∃ s', largeLoopLog klen limit fuel s = some s' ∧ s'.buf = s.buf + 16 * k ∧
        s'.buf2 = s.buf2 + 144 * k ∧
        ∃ l, s'.log = s.log ++ l ∧ wideLoads l = blockLoads s.buf2 16 (9 * k) ∧
          narrowLoads l = streamLoads s.buf klen (2 * k) := by
  induction k with
  | zero =>
    intro fuel s hf _ h2
    obtain ⟨fuel, rfl⟩ : ∃ f, fuel = f + 1 := ⟨fuel - 1, by omega⟩
    rw [largeLoopLog, if_neg (by omega)]
    exact ⟨s, rfl, rfl, rfl, [], by simp, rfl, rfl⟩
  | succ k ih =>
    intro fuel s hf h1 h2
    obtain ⟨fuel, rfl⟩ : ∃ f, fuel = f + 1 := ⟨fuel - 1, by omega⟩
    have h1' := h1 (by omega)
    rw [largeLoopLog, if_pos (by omega), largeBodyLog_eq]
    obtain ⟨s', e, pb, pb2, l, hl, hw, hn⟩ :=
      ih fuel ⟨s.buf + 16, s.buf2 + 144,
        s.log ++ (blockLoads s.buf2 16 9 ++ streamLoads s.buf klen 2)⟩ (by omega)
        (by intro _; show ((s.buf + 16 : Nat) : Int) + 16 * k ≤ limit + 16; omega)
        (by show limit < ((s.buf + 16 : Nat) : Int) + 16 * k; omega)
    simp only at pb pb2 hl hw hn
    refine ⟨s', e, by omega, by omega,
      blockLoads s.buf2 16 9 ++ streamLoads s.buf klen 2 ++ l, ?_, ?_, ?_⟩
    · rw [hl, List.append_assoc]
    · rw [wideLoads_append, wideLoads_append, wideLoads_blockLoads, wideLoads_streamLoads, hw,
        List.append_nil, show 9 * (k + 1) = 9 + 9 * k from by omega, blockLoads_add]
    · rw [narrowLoads_append, narrowLoads_append, narrowLoads_blockLoads,
        narrowLoads_streamLoads, hn, List.nil_append,
        show 2 * (k + 1) = 2 + 2 * k from by omega, streamLoads_add]

/-- With fewer units of fuel than tests of its condition, the main loop has no result. -/
theorem largeLoopLog_short (klen : Nat) (limit : Int) (k : Nat) :
    ∀ (fuel : Nat) (s : LargeLog), fuel ≤ k →
      (k ≠ 0 → (s.buf : Int) + 16 * k ≤ limit + 16) → largeLoopLog klen limit fuel s = none := by
  induction k with
  | zero =>
    intro fuel s hf _
    obtain rfl : fuel = 0 := by omega
    rfl
  | succ k ih =>
    intro fuel s hf h1
    cases fuel with
    | zero => rfl
    | succ fuel =>
      have h1' := h1 (by omega)
      rw [largeLoopLog, if_pos (by omega), largeBodyLog_eq]
      exact ih fuel _ (by omega)
        (by intro _; show ((s.buf + 16 : Nat) : Int) + 16 * k ≤ limit + 16; omega)

/-- Loads of the interleaved phase of the large engine: the scalar streams are the
`2 * blk` words from `buf`, `buf + klen` and `buf + klen * 2`, the vector stream is the
`9 * blk` blocks of 16 bytes from `buf + klen * 3`. -/
theorem largeVectorPhaseLog_spec (c : LogCursor) (h192 : 192 ≤ c.len)
    (h64 : c.buf + c.len < 2 ^ 64) (blk klen : Nat) (hblk : blk = (c.len - 0) / 192)
    (hklen : klen = blk * 16) :
    ∃ c', largeVectorPhaseLog c = some c' ∧ c'.buf = c.buf + 192 * blk ∧
      c'.len = c.len - 192 * blk ∧
      ∃ l, c'.log = c.log ++ l ∧ wideLoads l = blockLoads (c.buf + klen * 3) 16 (9 * blk) ∧
        narrowLoads l = streamLoads c.buf klen (2 * blk) := by
  have key : 192 * blk ≤ c.len ∧ c.len < 192 * blk + 192 := by omega
  obtain ⟨hk1, hk2⟩ := key
  have hbk : 1 ≤ blk := by omega
  obtain ⟨s1, e1, pb, pb2, l, hl, hw, hn⟩ :=
    largeLoopLog_spec klen ((c.buf : Int) + klen - 32) (blk - 1) (c.len + 1)
      ⟨c.buf, c.buf + klen * 3 + 144, c.log ++ blockLoads (c.buf + klen * 3) 16 9⟩
      (by omega) (by intro _; show (c.buf : Int) + 16 * ((blk - 1 : Nat) : Int) ≤ _; omega)
      (by show _ < (c.buf : Int) + 16 * ((blk - 1 : Nat) : Int); omega)
  simp only at pb pb2 hl hw hn
  have e1' : largeLoopLog klen ((c.buf : Int) + klen - 32) (c.len + 1)
      ⟨c.buf, c.buf + klen * 3 + 144, c.log ++
        [(c.buf + klen * 3, 16), (c.buf + klen * 3 + 16, 16), (c.buf + klen * 3 + 32, 16),
         (c.buf + klen * 3 + 48, 16), (c.buf + klen * 3 + 64, 16), (c.buf + klen * 3 + 80, 16),
         (c.buf + klen * 3 + 96, 16), (c.buf + klen * 3 + 112, 16),
         (c.buf + klen * 3 + 128, 16)]⟩ = some s1 := e1
  unfold largeVectorPhaseLog
  simp only [Option.bind_eq_bind, Option.pure_def]
  rw [← hblk, ← hklen, e1', Option.some_bind]
  refine ⟨_, rfl, ?_, ?_, blockLoads (c.buf + klen * 3) 16 9 ++ l ++ streamLoads s1.buf klen 2,
    ?_, ?_, ?_⟩
  · show (largeScalarChunkLog klen s1).buf2 = _
    show s1.buf2 = _
    omega
  · show sub64 (c.buf + c.len) (largeScalarChunkLog klen s1).buf2 = _
    show sub64 (c.buf + c.len) s1.buf2 = _
    rw [sub64_eq (by omega) h64]
    omega
  · show (largeScalarChunkLog klen s1).log = _
    show s1.log ++ streamLoads s1.buf klen 2 = _
    rw [hl]
    simp only [List.append_assoc]
  · rw [wideLoads_append, wideLoads_append, wideLoads_blockLoads, hw, wideLoads_streamLoads,
      List.append_nil, show 9 * blk = 9 + 9 * (blk - 1) from by omega, blockLoads_add]
  · rw [narrowLoads_append, narrowLoads_append, narrowLoads_blockLoads, hn,
      narrowLoads_streamLoads, List.nil_append,
      show 2 * blk = 2 * (blk - 1) + 2 from by omega, streamLoads_add, pb,
      show c.buf + 16 * (blk - 1) = c.buf + 8 * (2 * (blk - 1)) from by omega]

/-- The interleaved phase of the large engine reads each of the next `192 * blk` bytes
exactly once. -/
theorem largeVectorPhaseLog_adv (c : LogCursor) (h192 : 192 ≤ c.len)
    (h64 : c.buf + c.len < 2 ^ 64) :
    ∃ c', largeVectorPhaseLog c = some c' ∧ c.Adv c' := by
  obtain ⟨c', e, pb, pl, l, hl, hw, hn⟩ :=
    largeVectorPhaseLog_spec c h192 h64 ((c.len - 0) / 192) ((c.len - 0) / 192 * 16) rfl rfl
  have key : 192 * ((c.len - 0) / 192) ≤ c.len := by omega
  generalize (c.len - 0) / 192 = blk at key pb pl hw hn
  refine ⟨c', e, 192 * blk, l, key, pb, pl, hl, ?_⟩
  intro off
  rw [readCount_split, hw, hn, readCount_blockLoads, readCount_streamLoads]
  unfold cover
  split_ifs <;> omega

/-- Loads of the `k + 1` iterations of the three-way scalar loop. -/
theorem tripleLoopLog_spec (klen : Nat) (k : Nat) :
    ∀ (fuel : Nat) (s : LogCursor), k < fuel →
      24 * (k + 1) + 8 ≤ s.len → s.len < 24 * (k + 1) + 32 →
      ∃ s', tripleLoopLog klen fuel s = some s' ∧ s'.buf = s.buf + 8 * (k + 1) ∧
        s'.len = s.len - 24 * (k + 1) ∧ s'.log = s.log ++ streamLoads s.buf klen (k + 1) := by
  induction k with
  | zero =>
    intro fuel s hf h1 h2
    obtain ⟨fuel, rfl⟩ : ∃ f, fuel = f + 1 := ⟨fuel - 1, by omega⟩
    rw [tripleLoopLog]
    simp only []
    rw [if_neg (by omega)]
    exact ⟨_, rfl, rfl, rfl, rfl⟩
  | succ k ih =>
    intro fuel s hf h1 h2
    obtain ⟨fuel, rfl⟩ : ∃ f, fuel = f + 1 := ⟨fuel - 1, by omega⟩
    rw [tripleLoopLog]
    simp only []
    rw [if_pos (by omega)]
    obtain ⟨s', e, pb, pl, hl⟩ :=
      ih fuel ⟨s.buf + 8, s.len - 24,
        s.log ++ [(s.buf, 8), (s.buf + klen, 8), (s.buf + klen * 2, 8)]⟩ (by omega)
        (by show 24 * (k + 1) + 8 ≤ s.len - 24; omega)
        (by show s.len - 24 < 24 * (k + 1) + 32; omega)
    simp only at pb pl hl
    refine ⟨s', e, by omega, by omega, ?_⟩
    rw [hl, List.append_assoc, show k + 1 + 1 = 1 + (k + 1) from by omega,
      streamLoads_add s.buf klen 1 (k + 1)]
    rfl

/-- The three-way scalar phase reads each of the next `3 * klen + 8` bytes exactly once. -/
theorem triplePhaseLog_adv (c : LogCursor) (h32 : 32 ≤ c.len) (h64 : c.len < 2 ^ 64) :
    ∃ c', triplePhaseLog c = some c' ∧ c.Adv c' := by
  have key : 24 * ((c.len - 8) / 24) + 8 ≤ c.len ∧ c.len < 24 * ((c.len - 8) / 24) + 32 := by
    omega
  unfold triplePhaseLog
  simp only [Option.bind_eq_bind, Option.pure_def]
  generalize (c.len - 8) / 24 = q at key ⊢
  obtain ⟨hk1, hk2⟩ := key
  have hq : 1 ≤ q := by omega
  obtain ⟨s1, e1, pb, pl, hl⟩ :=
    tripleLoopLog_spec (q * 8) (q - 1) (c.len + 1) c (by omega)
      (by show 24 * (q - 1 + 1) + 8 ≤ c.len; omega)
      (by show c.len < 24 * (q - 1 + 1) + 32; omega)
  rw [show q - 1 + 1 = q from by omega] at pb pl hl
  rw [e1, Option.some_bind]
  refine ⟨_, rfl, 24 * q + 8, streamLoads c.buf (q * 8) q ++ [(s1.buf + q * 8 * 2, 8)], hk1,
    ?_, ?_, ?_, ?_⟩
  · show s1.buf + q * 8 * 2 + 8 = _
    omega
  · show sub64 s1.len 8 = _
    rw [sub64_eq (by omega) (by omega)]
    omega
  · show s1.log ++ [(s1.buf + q * 8 * 2, 8)] = _
    rw [hl, List.append_assoc]
  · intro off
    rw [readCount_append, readCount_streamLoads, readCount_single, pb]
    unfold cover
    split_ifs <;> omega

theorem smallBodyLog_eq (s : SmallLog) :
    smallBodyLog s = ⟨s.buf + 192, s.log ++ blockLoads s.buf 16 12⟩ := rfl

/-- Loads of `k` iterations of the main loop of the 12-lane phase. -/
theorem smallLoopLog_spec (limit : Nat) (k : Nat) :
    ∀ (fuel : Nat) (s : SmallLog), k < fuel →
      (k ≠ 0 → s.buf + 192 * k ≤ limit + 192) → limit < s.buf + 192 * k →
      ∃ s', smallLoopLog limit fuel s = some s' ∧ s'.buf = s.buf + 192 * k ∧
        s'.log = s.log ++ blockLoads s.buf 16 (12 * k) := by
  induction k with
  | zero =>
    intro fuel s hf _ h2
    obtain ⟨fuel, rfl⟩ : ∃ f, fuel = f + 1 := ⟨fuel - 1, by omega⟩
    rw [smallLoopLog, if_neg (by omega)]
    exact ⟨s, rfl, rfl, by simp [blockLoads]⟩
  | succ k ih =>
    intro fuel s hf h1 h2
    obtain ⟨fuel, rfl⟩ : ∃ f, fuel = f + 1 := ⟨fuel - 1, by omega⟩
    have h1' := h1 (by omega)
    rw [smallLoopLog, if_pos (by omega), smallBodyLog_eq]
    obtain ⟨s', e, pb, hl⟩ :=
      ih fuel ⟨s.buf + 192, s.log ++ blockLoads s.buf 16 12⟩ (by omega)
        (by intro _; show s.buf + 192 + 192 * k ≤ limit + 192; omega)
        (by show limit < s.buf + 192 + 192 * k; omega)
    simp only at pb hl
    refine ⟨s', e, by omega, ?_⟩
    rw [hl, List.append_assoc, show 12 * (k + 1) = 12 + 12 * k from by omega, blockLoads_add]

/-- The 12-lane phase reads each of the next `192 * floor(len / 192)` bytes exactly once. -/
theorem smallVectorPhaseLog_adv (c : LogCursor) (h192 : 192 ≤ c.len)
    (h64 : c.buf + c.len < 2 ^ 64) :
    ∃ c', smallVectorPhaseLog c = some c' ∧ c.Adv c' := by
  have key : 192 * ((c.len - 192) / 192) ≤ c.len - 192 ∧
      c.len - 192 < 192 * ((c.len - 192) / 192) + 192 := by omega
  generalize (c.len - 192) / 192 = k at key
  obtain ⟨hk1, hk2⟩ := key
  obtain ⟨s1, e1, pb, hl⟩ :=
    smallLoopLog_spec (c.buf + c.len - 192) k (c.len + 1)
      ⟨c.buf + 192, c.log ++ blockLoads c.buf 16 12⟩ (by omega)
      (by intro _; show c.buf + 192 + 192 * k ≤ c.buf + c.len - 192 + 192; omega)
      (by show c.buf + c.len - 192 < c.buf + 192 + 192 * k; omega)
  simp only at pb hl
  have e1' : smallLoopLog (c.buf + c.len - 192) (c.len + 1)
      ⟨c.buf + 192, c.log ++
        [(c.buf, 16), (c.buf + 16, 16), (c.buf + 32, 16), (c.buf + 48, 16), (c.buf + 64, 16),
         (c.buf + 80, 16), (c.buf + 96, 16), (c.buf + 112, 16), (c.buf + 128, 16),
         (c.buf + 144, 16), (c.buf + 160, 16), (c.buf + 176, 16)]⟩ = some s1 := e1
  unfold smallVectorPhaseLog
  simp only [Option.bind_eq_bind, Option.pure_def]
  rw [e1', Option.some_bind]
  refine ⟨_, rfl, 192 * (k + 1), blockLoads c.buf 16 (12 * (k + 1)), by omega, ?_, ?_, ?_, ?_⟩
  · show s1.buf = _
    omega
  · show sub64 (c.buf + c.len) s1.buf = _
    rw [sub64_eq (by omega) h64]
    omega
  · show s1.log = _
    rw [hl, List.append_assoc, show 12 * (k + 1) = 12 + 12 * k from by omega, blockLoads_add]
  · intro off
    rw [readCount_blockLoads, show 16 * (12 * (k + 1)) = 192 * (k + 1) from by omega]

/-- Loads of `k` iterations of the single-register loop. -/
theorem singleLoopLog_spec (k : Nat) :
    ∀ (fuel : Nat) (s : LogCursor), k < fuel → 16 * k ≤ s.len → s.len < 16 * (k + 1) →
      ∃ s', singleLoopLog fuel s = some s' ∧ s'.buf = s.buf + 16 * k ∧
        s'.len = s.len - 16 * k ∧ s'.log = s.log ++ blockLoads s.buf 16 k := by
  induction k with
  | zero =>
    intro fuel s hf _ h2
    obtain ⟨fuel, rfl⟩ : ∃ f, fuel = f + 1 := ⟨fuel - 1, by omega⟩
    rw [singleLoopLog, if_neg (by omega)]
    exact ⟨s, rfl, rfl, rfl, by simp [blockLoads]⟩
  | succ k ih =>
    intro fuel s hf h1 h2
    obtain ⟨fuel, rfl⟩ : ∃ f, fuel = f + 1 := ⟨fuel - 1, by omega⟩
    rw [singleLoopLog, if_pos (by omega)]
    obtain ⟨s', e, pb, pl, hl⟩ :=
      ih fuel ⟨s.buf + 16, s.len - 16, s.log ++ [(s.buf, 16)]⟩ (by omega)
        (by show 16 * k ≤ s.len - 16; omega) (by show s.len - 16 < 16 * (k + 1); omega)
    simp only at pb pl hl
    refine ⟨s', e, by omega, by omega, ?_⟩
    rw [hl, List.append_assoc, show k + 1 = 1 + k from by omega, blockLoads_add s.buf 16 1 k]
    rfl

/-- The single-register phase reads each of the next `16 * floor(len / 16)` bytes exactly
once. -/
theorem singlePhaseLog_adv (c : LogCursor) (h16 : 16 ≤ c.len) :
    ∃ c', singlePhaseLog c = some c' ∧ c.Adv c' := by
  have key : 16 * ((c.len - 16) / 16) ≤ c.len - 16 ∧
      c.len - 16 < 16 * ((c.len - 16) / 16 + 1) := by omega
  generalize (c.len - 16) / 16 = q at key
  obtain ⟨hk1, hk2⟩ := key
  obtain ⟨s1, e1, pb, pl, hl⟩ :=
    singleLoopLog_spec q (c.len - 16 + 1) ⟨c.buf + 16, c.len - 16, c.log ++ [(c.buf, 16)]⟩
      (by omega) (by show 16 * q ≤ c.len - 16; omega) (by show c.len - 16 < 16 * (q + 1); omega)
  simp only at pb pl hl
  refine ⟨s1, e1, 16 * (1 + q), blockLoads c.buf 16 (1 + q), by omega, by omega, by omega,
    ?_, ?_⟩
  · rw [hl, List.append_assoc, blockLoads_add c.buf 16 1 q]
    rfl
  · intro off
    rw [readCount_blockLoads]

end Neon

/-- The loads of the x86 engine read every byte of the buffer exactly once and nothing
else. -/
theorem X86.loadLog_spec (addr len : Nat) (h64 : len < 2 ^ 64) :
    ∃ log, X86.loadLog addr len = some log ∧
      ∀ off, readCount log off = if off < len then 1 else 0 := by
  obtain ⟨c1, e1, a1⟩ := headLoopLog_spec addr (len + 1) ⟨0, len, []⟩ (Nat.lt_succ_self _)
  have a12 := a1.andThen (headWordLog_spec addr c1)
  have hle : (headWordLog addr c1).len ≤ len := a12.len_shrinks
  unfold X86.loadLog
  simp only [Option.bind_eq_bind]
  rw [e1, Option.some_bind]
  refine phaseLog_ge 144 X86.vectorPhaseLog _ _ (headWordLog addr c1)
    (fun h => X86.vectorPhaseLog_adv _ h (by omega)) ?_
  intro c3 a3
  exact epilogueLog_spec (a12.andThen a3)

/-- The loads of the small AArch64 engine read every byte of the buffer exactly once and
nothing else. -/
theorem Neon.smallLoadLog_spec (addr len : Nat) (h64 : len < 2 ^ 64) :
    ∃ log, Neon.smallLoadLog addr len = some log ∧
      ∀ off, readCount log off = if off < len then 1 else 0 := by
  obtain ⟨c1, e1, a1⟩ := headLoopLog_spec addr (len + 1) ⟨0, len, []⟩ (Nat.lt_succ_self _)
  have a12 := a1.andThen (headWordLog_spec addr c1)
  have hsum : ∀ c', LogCursor.Adv ⟨0, len, []⟩ c' → c'.buf + c'.len = len := by
    intro c' a
    obtain ⟨n, l, hn, hb, hl, _, _⟩ := a
    simp only at hn hb hl
    omega
  unfold Neon.smallLoadLog
  simp only [Option.bind_eq_bind]
  rw [e1, Option.some_bind]
  refine phaseLog_ge 192 Neon.smallVectorPhaseLog _ _ (headWordLog addr c1)
    (fun h => Neon.smallVectorPhaseLog_adv _ h (by rw [hsum _ a12]; exact h64)) ?_
  intro c3 a3
  refine phaseLog_ge 16 Neon.singlePhaseLog _ _ c3
    (fun h => Neon.singlePhaseLog_adv _ h) ?_
  intro c4 a4
  exact epilogueLog_spec ((a12.andThen a3).andThen a4)

/-- The loads of the large AArch64 engine read every byte of the buffer exactly once and
nothing else. -/
theorem Neon.largeLoadLog_spec (addr len : Nat) (h64 : len < 2 ^ 64) :
    ∃ log, Neon.largeLoadLog addr len = some log ∧
      ∀ off, readCount log off = if off < len then 1 else 0 := by
  obtain ⟨c1, e1, a1⟩ := headLoopLog_spec addr (len + 1) ⟨0, len, []⟩ (Nat.lt_succ_self _)
  have a12 := a1.andThen (headWordLog_spec addr c1)
  have hsum : ∀ c', LogCursor.Adv ⟨0, len, []⟩ c' → c'.buf + c'.len = len := by
    intro c' a
    obtain ⟨n, l, hn, hb, hl, _, _⟩ := a
    simp only at hn hb hl
    omega
  unfold Neon.largeLoadLog
  simp only [Option.bind_eq_bind]
  rw [e1, Option.some_bind]
  refine phaseLog_ge 192 Neon.largeVectorPhaseLog _ _ (headWordLog addr c1)
    (fun h => Neon.largeVectorPhaseLog_adv _ h (by rw [hsum _ a12]; exact h64)) ?_
  intro c3 a3
  refine phaseLog_ge 32 Neon.triplePhaseLog _ _ c3
    (fun h => Neon.triplePhaseLog_adv _ h
      (by have := hsum _ (a12.andThen a3); omega)) ?_
  intro c4 a4
  exact epilogueLog_spec ((a12.andThen a3).andThen a4)

/-! ### Traced runs -/

namespace Traced

theorem run_bind_some {α β : Type} {m : Run α} {f : α → Run β} {t : Trace} {r : β × Trace}
    (h : (m >>= f) t = some r) : ∃ a t1, m t = some (a, t1) ∧ f a t1 = some r := by
  change (m t).bind (fun p => f p.1 p.2) = some r at h
  cases hm : m t with
  | none =>
    rw [hm] at h
    exact absurd h (by simp)
  | some p =>
    rw [hm] at h
    exact ⟨p.1, p.2, rfl, h⟩

theorem run_pure_some {α : Type} {a : α} {t : Trace} {r : α × Trace}
    (h : (pure a : Run α) t = some r) : r = (a, t) :=
  (Option.some.inj h).symm

theorem run_fail_some {α : Type} {t : Trace} {r : α × Trace}
    (h : (Run.fail : Run α) t = some r) : False := by
  cases h

theorem traced_load_some {ld : Option Nat} {w : Nat × Nat} {t : Trace} {r : Nat × Trace}
    (h : (ld.map fun v => (v, ({ t with loads := t.loads ++ [w] } : Trace))) = some r) :
    ld = some r.1 ∧ r.2 = ⟨t.loads ++ [w], t.shifts⟩ := by
  cases ld with
  | none => cases h
  | some v =>
    cases Option.some.inj h
    exact ⟨rfl, rfl⟩

theorem load8_some {β : Type} {mem : List (Fin 256)} {off : Nat} {f : Nat → Run β}
    {t : Trace} {r : β × Trace} (h : (load8 mem off >>= f) t = some r) :
    ∃ v, CrcFast.load8 mem off = some v ∧ f v ⟨t.loads ++ [(off, 1)], t.shifts⟩ = some r := by
  obtain ⟨a, t1, h1, h2⟩ := run_bind_some h
  obtain ⟨e1, e2⟩ := traced_load_some h1
  simp only at e1 e2
  subst e2
  exact ⟨a, e1, h2⟩

theorem load64_some {β : Type} {mem : List (Fin 256)} {off : Nat} {f : Nat → Run β}
    {t : Trace} {r : β × Trace} (h : (load64 mem off >>= f) t = some r) :
    ∃ v, CrcFast.load64 mem off = some v ∧ f v ⟨t.loads ++ [(off, 8)], t.shifts⟩ = some r := by
  obtain ⟨a, t1, h1, h2⟩ := run_bind_some h
  obtain ⟨e1, e2⟩ := traced_load_some h1
  simp only at e1 e2
  subst e2
  exact ⟨a, e1, h2⟩

theorem load128_some {β : Type} {mem : List (Fin 256)} {off : Nat} {f : Nat → Run β}
    {t : Trace} {r : β × Trace} (h : (load128 mem off >>= f) t = some r) :
    ∃ v, CrcFast.load128 mem off = some v ∧ f v ⟨t.loads ++ [(off, 16)], t.shifts⟩ = some r := by
  obtain ⟨a, t1, h1, h2⟩ := run_bind_some h
  obtain ⟨e1, e2⟩ := traced_load_some h1
  simp only at e1 e2
  subst e2
  exact ⟨a, e1, h2⟩

theorem traced_shift_some {x : Option Nat} {g : Nat → Nat} {w : Nat × Nat} {t : Trace}
    {r : Nat × Trace}
    (h : (x.map fun p => (g p, ({ t with shifts := t.shifts ++ [w] } : Trace))) = some r) :
    x.map g = some r.1 ∧ r.2 = ⟨t.loads, t.shifts ++ [w]⟩ := by
  cases x with
  | none => cases h
  | some v =>
    cases Option.some.inj h
    exact ⟨rfl, rfl⟩

/-! #### Dropping the trace -/

theorem erases_pure {α : Type} (a : α) : Run.Erases (pure a) (some a) :=
  fun _ => rfl

theorem erases_fail {α : Type} : Run.Erases (Run.fail : Run α) none :=
  fun _ => rfl

theorem erases_bind {α β : Type} {m : Run α} {v : Option α} {f : α → Run β}
    {g : α → Option β} (h1 : m.Erases v) (h2 : ∀ a, (f a).Erases (g a)) :
    (m >>= f).Erases (v >>= g) := by
  intro t
  have e := h1 t
  change ((m t).bind fun p => f p.1 p.2).map Prod.fst = v.bind g
  cases hm : m t with
  | none =>
    rw [hm] at e
    rw [← e]
    rfl
  | some p =>
    rw [hm] at e
    rw [← e]
    exact h2 p.1 p.2

theorem erases_ite {α : Type} (c : Prop) [Decidable c] {a b : Run α} {a' b' : Option α}
    (h1 : a.Erases a') (h2 : b.Erases b') :
    (if c then a else b).Erases (if c then a' else b') := by
  by_cases hc : c
  · rw [if_pos hc, if_pos hc]
    exact h1
  · rw [if_neg hc, if_neg hc]
    exact h2

theorem erases_traced_load (ld : Option Nat) (w : Nat × Nat) :
    Run.Erases (fun t => ld.map fun v => (v, ({ t with loads := t.loads ++ [w] } : Trace))) ld := by
  intro t
  cases ld <;> rfl

theorem erases_load8 (mem : List (Fin 256)) (off : Nat) :
    (load8 mem off).Erases (CrcFast.load8 mem off) :=
  erases_traced_load _ _

theorem erases_load64 (mem : List (Fin 256)) (off : Nat) :
    (load64 mem off).Erases (CrcFast.load64 mem off) :=
  erases_traced_load _ _

theorem erases_load128 (mem : List (Fin 256)) (off : Nat) :
    (load128 mem off).Erases (CrcFast.load128 mem off) :=
  erases_traced_load _ _

theorem erases_headLoop (addr : Nat) (mem : List (Fin 256)) :
    ∀ (fuel : Nat) (c : Cursor),
      (headLoop addr mem fuel c).Erases (CrcFast.headLoop addr mem fuel c)
  | 0, _ => erases_fail
  | fuel + 1, c => by
    rw [headLoop, CrcFast.headLoop]
    exact erases_ite _
      (erases_bind (erases_load8 _ _) fun _ => erases_headLoop addr mem fuel _) (erases_pure _)

theorem erases_headWord (addr : Nat) (mem : List (Fin 256)) (c : Cursor) :
    (headWord addr mem c).Erases (CrcFast.headWord addr mem c) :=
  erases_ite _ (erases_bind (erases_load64 _ _) fun _ => erases_pure _) (erases_pure _)

theorem erases_tailWords (mem : List (Fin 256)) :
    ∀ (fuel : Nat) (c : Cursor), (tailWords mem fuel c).Erases (CrcFast.tailWords mem fuel c)
  | 0, _ => erases_fail
  | fuel + 1, c => by
    rw [tailWords, CrcFast.tailWords]
    exact erases_ite _
      (erases_bind (erases_load64 _ _) fun _ => erases_tailWords mem fuel _) (erases_pure _)

theorem erases_tailBytes (mem : List (Fin 256)) :
    ∀ (fuel : Nat) (c : Cursor), (tailBytes mem fuel c).Erases (CrcFast.tailBytes mem fuel c)
  | 0, _ => erases_fail
  | fuel + 1, c => by
    rw [tailBytes, CrcFast.tailBytes]
    exact erases_ite _
      (erases_bind (erases_load8 _ _) fun _ => erases_tailBytes mem fuel _) (erases_pure _)

end Traced

namespace Traced

namespace X86

theorem x86_erases_crc_shift (crc nbytes : Nat) :
    (crc_shift crc nbytes).Erases (CrcFast.X86.crc_shift crc nbytes) := by
  intro t
  unfold crc_shift CrcFast.X86.crc_shift
  dsimp only
  generalize CrcFast.X86.xnmodp _ = x
  cases x
  · rfl
  · rfl

theorem erases_scalarChunk (mem : List (Fin 256)) (klen : Nat) (s : CrcFast.X86.VecState) :
    (scalarChunk mem klen s).Erases (CrcFast.X86.scalarChunk mem klen s) := by
  unfold scalarChunk CrcFast.X86.scalarChunk
  repeat (first
    | exact erases_pure _
    | exact erases_load64 _ _
    | refine erases_bind ?_ (fun _ => ?_))

theorem erases_mainBody (mem : List (Fin 256)) (klen : Nat) (s : CrcFast.X86.VecState) :
    (mainBody mem klen s).Erases (CrcFast.X86.mainBody mem klen s) := by
  unfold mainBody CrcFast.X86.mainBody
  repeat (first
    | exact erases_pure _
    | exact erases_load128 _ _
    | exact erases_scalarChunk _ _ _
    | refine erases_bind ?_ (fun _ => ?_))

theorem erases_mainLoop (mem : List (Fin 256)) (klen : Nat) :
    ∀ (fuel : Nat) (s : CrcFast.X86.VecState),
      (mainLoop mem klen fuel s).Erases (CrcFast.X86.mainLoop mem klen fuel s)
  | 0, _ => erases_fail
  | fuel + 1, s => by
    rw [mainLoop, CrcFast.X86.mainLoop]
    exact erases_ite _
      (erases_bind (erases_mainBody _ _ _) fun _ => erases_mainLoop mem klen fuel _)
      (erases_pure _)

theorem erases_firstChunk (mem : List (Fin 256)) (blk : Nat) (c : Cursor) :
    (firstChunk mem blk c).Erases (CrcFast.X86.firstChunk mem blk c) := by
  unfold firstChunk CrcFast.X86.firstChunk
  repeat (first
    | exact erases_pure _
    | exact erases_load128 _ _
    | refine erases_bind ?_ (fun _ => ?_))

theorem erases_vectorPhase (mem : List (Fin 256)) (c : Cursor) :
    (vectorPhase mem c).Erases (CrcFast.X86.vectorPhase mem c) := by
  unfold vectorPhase CrcFast.X86.vectorPhase
  refine erases_bind (erases_firstChunk _ _ _) fun _ => ?_
  refine erases_bind (erases_mainLoop _ _ _ _) fun _ => ?_
  refine erases_bind (erases_scalarChunk _ _ _) fun _ => ?_
  refine erases_bind (x86_erases_crc_shift _ _) fun _ => ?_
  refine erases_bind (x86_erases_crc_shift _ _) fun _ => ?_
  refine erases_bind (x86_erases_crc_shift _ _) fun _ => ?_
  refine erases_bind (erases_load64 _ _) fun _ => ?_
  exact erases_pure _

/-- Dropping the trace of the traced x86 engine gives the x86 engine. -/
theorem erases_x86_impl (crc0 addr : Nat) (mem : List (Fin 256)) :
    (crc32_iscsi_impl crc0 addr mem).Erases (CrcFast.X86.crc32_iscsi_impl crc0 addr mem) := by
  unfold crc32_iscsi_impl CrcFast.X86.crc32_iscsi_impl
  refine erases_bind (erases_headLoop _ _ _ _) fun _ => ?_
  refine erases_bind (erases_headWord _ _ _) fun _ => ?_
  refine erases_ite _ (erases_bind (erases_vectorPhase _ _) fun _ => ?_)
    (erases_bind (erases_pure _) fun _ => ?_)
  all_goals
    refine erases_bind (erases_tailWords _ _ _) fun _ => ?_
    refine erases_bind (erases_tailBytes _ _ _) fun _ => ?_
    exact erases_pure _

end X86

namespace Neon

theorem neon_erases_crc_shift (crc nbytes : Nat) :
    (crc_shift crc nbytes).Erases (CrcFast.Neon.crc_shift crc nbytes) := by
  intro t
  unfold crc_shift CrcFast.Neon.crc_shift
  dsimp only
  generalize CrcFast.Neon.xnmodp _ = x
  cases x
  · rfl
  · rfl

theorem erases_largeScalarChunk (mem : List (Fin 256)) (klen : Nat)
    (s : CrcFast.Neon.LargeState) :
    (largeScalarChunk mem klen s).Erases (CrcFast.Neon.largeScalarChunk mem klen s) := by
  unfold largeScalarChunk CrcFast.Neon.largeScalarChunk
  repeat (first
    | exact erases_pure _
    | exact erases_load64 _ _
    | refine erases_bind ?_ (fun _ => ?_))

theorem erases_largeBody (mem : List (Fin 256)) (klen : Nat) (s : CrcFast.Neon.LargeState) :
    (largeBody mem klen s).Erases (CrcFast.Neon.largeBody mem klen s) := by
  unfold largeBody CrcFast.Neon.largeBody
  repeat (first
    | exact erases_pure _
    | exact erases_load128 _ _
    | exact erases_largeScalarChunk _ _ _
    | refine erases_bind ?_ (fun _ => ?_))

theorem erases_largeLoop (mem : List (Fin 256)) (klen : Nat) (limit : Int) :
    ∀ (fuel : Nat) (s : CrcFast.Neon.LargeState),
      (largeLoop mem klen limit fuel s).Erases (CrcFast.Neon.largeLoop mem klen limit fuel s)
  | 0, _ => erases_fail
  | fuel + 1, s => by
    rw [largeLoop, CrcFast.Neon.largeLoop]
    exact erases_ite _
      (erases_bind (erases_largeBody _ _ _) fun _ => erases_largeLoop mem klen limit fuel _)
      (erases_pure _)

theorem erases_largeFirstChunk (mem : List (Fin 256)) (klen : Nat) (c : Cursor) :
    (largeFirstChunk mem klen c).Erases (CrcFast.Neon.largeFirstChunk mem klen c) := by
  unfold largeFirstChunk CrcFast.Neon.largeFirstChunk
  repeat (first
    | exact erases_pure _
    | exact erases_load128 _ _
    | refine erases_bind ?_ (fun _ => ?_))

theorem erases_largeVectorPhase (mem : List (Fin 256)) (c : Cursor) :
    (largeVectorPhase mem c).Erases (CrcFast.Neon.largeVectorPhase mem c) := by
  unfold largeVectorPhase CrcFast.Neon.largeVectorPhase
  refine erases_bind (erases_largeFirstChunk _ _ _) fun _ => ?_
  refine erases_bind (erases_largeLoop _ _ _ _ _) fun _ => ?_
  refine erases_bind (erases_largeScalarChunk _ _ _) fun _ => ?_
  refine erases_bind (neon_erases_crc_shift _ _) fun _ => ?_
  refine erases_bind (neon_erases_crc_shift _ _) fun _ => ?_
  refine erases_bind (neon_erases_crc_shift _ _) fun _ => ?_
  exact erases_pure _

theorem erases_tripleLoop (mem : List (Fin 256)) (klen : Nat) :
    ∀ (fuel : Nat) (s : CrcFast.Neon.TripleState),
      (tripleLoop mem klen fuel s).Erases (CrcFast.Neon.tripleLoop mem klen fuel s)
  | 0, _ => erases_fail
  | fuel + 1, s => by
    rw [tripleLoop, CrcFast.Neon.tripleLoop]
    refine erases_bind (erases_load64 _ _) fun _ => ?_
    refine erases_bind (erases_load64 _ _) fun _ => ?_
    refine erases_bind (erases_load64 _ _) fun _ => ?_
    exact erases_ite _ (erases_tripleLoop mem klen fuel _) (erases_pure _)

theorem erases_triplePhase (mem : List (Fin 256)) (c : Cursor) :
    (triplePhase mem c).Erases (CrcFast.Neon.triplePhase mem c) := by
  unfold triplePhase CrcFast.Neon.triplePhase
  refine erases_bind (erases_tripleLoop _ _ _ _) fun _ => ?_
  refine erases_bind (neon_erases_crc_shift _ _) fun _ => ?_
  refine erases_bind (neon_erases_crc_shift _ _) fun _ => ?_
  refine erases_bind (erases_load64 _ _) fun _ => ?_
  exact erases_pure _

/-- Dropping the trace of the traced `crc32_iscsi_large_impl` gives `crc32_iscsi_large_impl`. -/
theorem erases_large_impl (crc0 addr : Nat) (mem : List (Fin 256)) :
    (crc32_iscsi_large_impl crc0 addr mem).Erases
      (CrcFast.Neon.crc32_iscsi_large_impl crc0 addr mem) := by
  unfold crc32_iscsi_large_impl CrcFast.Neon.crc32_iscsi_large_impl
  refine erases_bind (erases_headLoop _ _ _ _) fun _ => ?_
  refine erases_bind (erases_headWord _ _ _) fun _ => ?_
  refine erases_ite _ (erases_bind (erases_largeVectorPhase _ _) fun _ => ?_)
    (erases_bind (erases_pure _) fun _ => ?_)
  all_goals
    refine erases_ite _ (erases_bind (erases_triplePhase _ _) fun _ => ?_)
      (erases_bind (erases_pure _) fun _ => ?_)
  all_goals
    refine erases_bind (erases_tailWords _ _ _) fun _ => ?_
    refine erases_bind (erases_tailBytes _ _ _) fun _ => ?_
    exact erases_pure _

theorem erases_smallBody (mem : List (Fin 256)) (s : CrcFast.Neon.SmallState) :
    (smallBody mem s).Erases (CrcFast.Neon.smallBody mem s) := by
  unfold smallBody CrcFast.Neon.smallBody
  repeat (first
    | exact erases_pure _
    | exact erases_load128 _ _
    | refine erases_bind ?_ (fun _ => ?_))

theorem erases_smallLoop (mem : List (Fin 256)) (limit : Nat) :
    ∀ (fuel : Nat) (s : CrcFast.Neon.SmallState),
      (smallLoop mem limit fuel s).Erases (CrcFast.Neon.smallLoop mem limit fuel s)
  | 0, _ => erases_fail
  | fuel + 1, s => by
    rw [smallLoop, CrcFast.Neon.smallLoop]
    exact erases_ite _
      (erases_bind (erases_smallBody _ _) fun _ => erases_smallLoop mem limit fuel _)
      (erases_pure _)

theorem erases_smallFirstChunk (mem : List (Fin 256)) (c : Cursor) :
    (smallFirstChunk mem c).Erases (CrcFast.Neon.smallFirstChunk mem c) := by
  unfold smallFirstChunk CrcFast.Neon.smallFirstChunk
  repeat (first
    | exact erases_pure _
    | exact erases_load128 _ _
    | refine erases_bind ?_ (fun _ => ?_))

theorem erases_smallVectorPhase (mem : List (Fin 256)) (c : Cursor) :
    (smallVectorPhase mem c).Erases (CrcFast.Neon.smallVectorPhase mem c) := by
  unfold smallVectorPhase CrcFast.Neon.smallVectorPhase
  refine erases_bind (erases_smallFirstChunk _ _) fun _ => ?_
  refine erases_bind (erases_smallLoop _ _ _ _) fun _ => ?_
  exact erases_pure _

theorem erases_singleLoop (mem : List (Fin 256)) (k : Nat) :
    ∀ (fuel : Nat) (s : CrcFast.Neon.SingleState),
      (singleLoop mem k fuel s).Erases (CrcFast.Neon.singleLoop mem k fuel s)
  | 0, _ => erases_fail
  | fuel + 1, s => by
    rw [singleLoop, CrcFast.Neon.singleLoop]
    exact erases_ite _
      (erases_bind (erases_load128 _ _) fun _ => erases_singleLoop mem k fuel _)
      (erases_pure _)

theorem erases_singlePhase (mem : List (Fin 256)) (c : Cursor) :
    (singlePhase mem c).Erases (CrcFast.Neon.singlePhase mem c) := by
  unfold singlePhase CrcFast.Neon.singlePhase
  refine erases_bind (erases_load128 _ _) fun _ => ?_
  refine erases_bind (erases_singleLoop _ _ _ _) fun _ => ?_
  exact erases_pure _

/-- Dropping the trace of the traced `crc32_iscsi_small_impl` gives `crc32_iscsi_small_impl`. -/
theorem erases_small_impl (crc0 addr : Nat) (mem : List (Fin 256)) :
    (crc32_iscsi_small_impl crc0 addr mem).Erases
      (CrcFast.Neon.crc32_iscsi_small_impl crc0 addr mem) := by
  unfold crc32_iscsi_small_impl CrcFast.Neon.crc32_iscsi_small_impl
  refine erases_bind (erases_headLoop _ _ _ _) fun _ => ?_
  refine erases_bind (erases_headWord _ _ _) fun _ => ?_
  refine erases_ite _ (erases_bind (erases_smallVectorPhase _ _) fun _ => ?_)
    (erases_bind (erases_pure _) fun _ => ?_)
  all_goals
    refine erases_ite _ (erases_bind (erases_singlePhase _ _) fun _ => ?_)
      (erases_bind (erases_pure _) fun _ => ?_)
  all_goals
    refine erases_bind (erases_tailWords _ _ _) fun _ => ?_
    refine erases_bind (erases_tailBytes _ _ _) fun _ => ?_
    exact erases_pure _

/-- Dropping the trace of the traced AArch64 `crc32_iscsi_impl` gives `crc32_iscsi_impl`. -/
theorem erases_neon_impl (crc0 addr : Nat) (mem : List (Fin 256)) :
    (crc32_iscsi_impl crc0 addr mem).Erases (CrcFast.Neon.crc32_iscsi_impl crc0 addr mem) :=
  erases_ite _ (erases_small_impl _ _ _) (erases_large_impl _ _ _)

end Neon

end Traced

/-! #### The loads of a traced run are the load log -/

namespace Traced

theorem headLoop_log (addr : Nat) (mem : List (Fin 256)) :
    ∀ (fuel : Nat) (c : Cursor) (t : Trace) (r : Cursor × Trace),
      headLoop addr mem fuel c t = some r →
      headLoopLog addr fuel ⟨c.buf, c.len, t.loads⟩ = some ⟨r.1.buf, r.1.len, r.2.loads⟩ ∧
        r.2.shifts = t.shifts
  | 0, _, _, _, h => (run_fail_some h).elim
  | fuel + 1, c, t, r, h => by
    rw [headLoop] at h
    rw [headLoopLog]
    dsimp only
    by_cases hc : c.len ≠ 0 ∧ (addr + c.buf) &&& 7 ≠ 0
    · rw [if_pos hc] at h
      rw [if_pos hc]
      obtain ⟨v, -, h⟩ := load8_some h
      exact headLoop_log addr mem fuel _ _ _ h
    · rw [if_neg hc] at h
      rw [if_neg hc]
      obtain rfl := run_pure_some h
      exact ⟨rfl, rfl⟩

theorem headWord_log (addr : Nat) (mem : List (Fin 256)) (c : Cursor) (t : Trace)
    (r : Cursor × Trace) (h : headWord addr mem c t = some r) :
    headWordLog addr ⟨c.buf, c.len, t.loads⟩ = ⟨r.1.buf, r.1.len, r.2.loads⟩ ∧
      r.2.shifts = t.shifts := by
  unfold headWord at h
  unfold headWordLog
  dsimp only
  by_cases hc : (addr + c.buf) &&& 8 ≠ 0 ∧ c.len ≥ 8
  · rw [if_pos hc] at h
    rw [if_pos hc]
    obtain ⟨v, -, h⟩ := load64_some h
    obtain rfl := run_pure_some h
    exact ⟨rfl, rfl⟩
  · rw [if_neg hc] at h
    rw [if_neg hc]
    obtain rfl := run_pure_some h
    exact ⟨rfl, rfl⟩

theorem tailWords_log (mem : List (Fin 256)) :
    ∀ (fuel : Nat) (c : Cursor) (t : Trace) (r : Cursor × Trace),
      tailWords mem fuel c t = some r →
      tailWordsLog fuel ⟨c.buf, c.len, t.loads⟩ = some ⟨r.1.buf, r.1.len, r.2.loads⟩ ∧
        r.2.shifts = t.shifts
  | 0, _, _, _, h => (run_fail_some h).elim
  | fuel + 1, c, t, r, h => by
    rw [tailWords] at h
    rw [tailWordsLog]
    dsimp only
    by_cases hc : c.len ≥ 8
    · rw [if_pos hc] at h
      rw [if_pos hc]
      obtain ⟨v, -, h⟩ := load64_some h
      exact tailWords_log mem fuel _ _ _ h
    · rw [if_neg hc] at h
      rw [if_neg hc]
      obtain rfl := run_pure_some h
      exact ⟨rfl, rfl⟩

theorem tailBytes_log (mem : List (Fin 256)) :
    ∀ (fuel : Nat) (c : Cursor) (t : Trace) (r : Cursor × Trace),
      tailBytes mem fuel c t = some r →
      tailBytesLog fuel ⟨c.buf, c.len, t.loads⟩ = some ⟨r.1.buf, r.1.len, r.2.loads⟩ ∧
        r.2.shifts = t.shifts
  | 0, _, _, _, h => (run_fail_some h).elim
  | fuel + 1, c, t, r, h => by
    rw [tailBytes] at h
    rw [tailBytesLog]
    dsimp only
    by_cases hc : c.len ≠ 0
    · rw [if_pos hc] at h
      rw [if_pos hc]
      obtain ⟨v, -, h⟩ := load8_some h
      exact tailBytes_log mem fuel _ _ _ h
    · rw [if_neg hc] at h
      rw [if_neg hc]
      obtain rfl := run_pure_some h
      exact ⟨rfl, rfl⟩

namespace X86

theorem x86_shift_some {β : Type} {crc nbytes : Nat} {f : Nat → Run β} {t : Trace}
    {r : β × Trace} (h : (crc_shift crc nbytes >>= f) t = some r) :
    ∃ v, f v ⟨t.loads, t.shifts ++ [(nbytes, (nbytes * 8 + (2 ^ 64 - 33)) % 2 ^ 64)]⟩
      = some r := by
  obtain ⟨a, t1, h1, h2⟩ := run_bind_some h
  unfold crc_shift at h1
  dsimp only at h1
  obtain ⟨-, e2⟩ := traced_shift_some h1
  simp only at e2
  subst e2
  exact ⟨a, h2⟩

theorem scalarChunk_log {mem : List (Fin 256)} {klen : Nat} {s : CrcFast.X86.VecState}
    {t : Trace} {r : CrcFast.X86.VecState × Trace} (h : scalarChunk mem klen s t = some r) :
    CrcFast.X86.scalarChunkLog klen ⟨s.buf, s.buf2, s.len, t.loads⟩
      = ⟨r.1.buf, r.1.buf2, r.1.len, r.2.loads⟩ ∧ r.2.shifts = t.shifts := by
  unfold scalarChunk at h
  obtain ⟨v1, -, h⟩ := load64_some h
  obtain ⟨v2, -, h⟩ := load64_some h
  obtain ⟨v3, -, h⟩ := load64_some h
  obtain ⟨v4, -, h⟩ := load64_some h
  obtain ⟨v5, -, h⟩ := load64_some h
  obtain ⟨v6, -, h⟩ := load64_some h
  obtain ⟨v7, -, h⟩ := load64_some h
  obtain ⟨v8, -, h⟩ := load64_some h
  obtain ⟨v9, -, h⟩ := load64_some h
  obtain rfl := run_pure_some h
  refine ⟨?_, rfl⟩
  simp only [CrcFast.X86.scalarChunkLog, List.append_assoc, List.singleton_append,
    List.cons_append, List.nil_append]

theorem mainBody_log {mem : List (Fin 256)} {klen : Nat} {s : CrcFast.X86.VecState}
    {t : Trace} {r : CrcFast.X86.VecState × Trace} (h : mainBody mem klen s t = some r) :
    CrcFast.X86.mainBodyLog klen ⟨s.buf, s.buf2, s.len, t.loads⟩
      = ⟨r.1.buf, r.1.buf2, r.1.len, r.2.loads⟩ ∧ r.2.shifts = t.shifts := by
  unfold mainBody at h
  obtain ⟨v1, -, h⟩ := load128_some h
  obtain ⟨v2, -, h⟩ := load128_some h
  obtain ⟨v3, -, h⟩ := load128_some h
  obtain ⟨v4, -, h⟩ := load128_some h
  obtain ⟨s1, t1, h1, h⟩ := run_bind_some h
  obtain ⟨e1, e2⟩ := scalarChunk_log h1
  obtain rfl := run_pure_some h
  refine ⟨?_, e2⟩
  unfold CrcFast.X86.mainBodyLog
  dsimp only at e1 ⊢
  simp only [List.append_assoc, List.singleton_append, List.cons_append,
    List.nil_append] at e1
  rw [e1]

theorem mainLoop_log (mem : List (Fin 256)) (klen : Nat) :
    ∀ (fuel : Nat) (s : CrcFast.X86.VecState) (t : Trace) (r : CrcFast.X86.VecState × Trace),
      mainLoop mem klen fuel s t = some r →
      CrcFast.X86.mainLoopLog klen fuel ⟨s.buf, s.buf2, s.len, t.loads⟩
        = some ⟨r.1.buf, r.1.buf2, r.1.len, r.2.loads⟩ ∧ r.2.shifts = t.shifts
  | 0, _, _, _, h => (run_fail_some h).elim
  | fuel + 1, s, t, r, h => by
    rw [mainLoop] at h
    rw [CrcFast.X86.mainLoopLog]
    dsimp only
    by_cases hc : s.len ≥ 144
    · rw [if_pos hc] at h
      rw [if_pos hc]
      obtain ⟨s1, t1, h1, h⟩ := run_bind_some h
      obtain ⟨e1, e2⟩ := mainBody_log h1
      obtain ⟨e3, e4⟩ := mainLoop_log mem klen fuel _ _ _ h
      rw [e1]
      exact ⟨e3, e4.trans e2⟩
    · rw [if_neg hc] at h
      rw [if_neg hc]
      obtain rfl := run_pure_some h
      exact ⟨rfl, rfl⟩

theorem firstChunk_log {mem : List (Fin 256)} {blk : Nat} {c : Cursor}
    {t : Trace} {r : CrcFast.X86.VecState × Trace} (h : firstChunk mem blk c t = some r) :
    r.1.buf = c.buf + blk * 64 ∧ r.1.buf2 = c.buf + 0 + 64 ∧ r.1.len = c.len - 136 ∧
      r.2.loads = t.loads ++ [(c.buf + 0, 16), (c.buf + 0 + 16, 16), (c.buf + 0 + 32, 16),
        (c.buf + 0 + 48, 16)] ∧ r.2.shifts = t.shifts := by
  unfold firstChunk at h
  obtain ⟨v1, -, h⟩ := load128_some h
  obtain ⟨v2, -, h⟩ := load128_some h
  obtain ⟨v3, -, h⟩ := load128_some h
  obtain ⟨v4, -, h⟩ := load128_some h
  obtain rfl := run_pure_some h
  refine ⟨rfl, rfl, rfl, ?_, rfl⟩
  simp only [List.append_assoc, List.singleton_append, List.cons_append, List.nil_append]

/-- The loads of the traced block `if (len >= 144)` are those of the load log, and its calls
of `crc_shift` are the three written in the source. -/
theorem vectorPhase_log {mem : List (Fin 256)} {c : Cursor} {t : Trace}
    {r : Cursor × Trace} (h : vectorPhase mem c t = some r) :
    CrcFast.X86.vectorPhaseLog ⟨c.buf, c.len, t.loads⟩
      = some ⟨r.1.buf, r.1.len, r.2.loads⟩ ∧
    r.2.shifts = t.shifts ++
      [((c.len - 8) / 136 * 24 * 2 + 8,
          (((c.len - 8) / 136 * 24 * 2 + 8) * 8 + (2 ^ 64 - 33)) % 2 ^ 64),
       ((c.len - 8) / 136 * 24 + 8,
          (((c.len - 8) / 136 * 24 + 8) * 8 + (2 ^ 64 - 33)) % 2 ^ 64),
       ((c.len - 8) / 136 * 24 * 3 + 8,
          (((c.len - 8) / 136 * 24 * 3 + 8) * 8 + (2 ^ 64 - 33)) % 2 ^ 64)] := by
  unfold vectorPhase at h
  obtain ⟨s0, t0, h0, h⟩ := run_bind_some h
  obtain ⟨p1, p2, p3, p4, p5⟩ := firstChunk_log h0
  obtain ⟨s1, t1, h1, h⟩ := run_bind_some h
  obtain ⟨q1, q2⟩ := mainLoop_log _ _ _ _ _ _ h1
  obtain ⟨s2, t2, h2, h⟩ := run_bind_some h
  obtain ⟨u1, u2⟩ := scalarChunk_log h2
  obtain ⟨w1, h⟩ := x86_shift_some h
  obtain ⟨w2, h⟩ := x86_shift_some h
  obtain ⟨w3, h⟩ := x86_shift_some h
  obtain ⟨w4, -, h⟩ := load64_some h
  obtain rfl := run_pure_some h
  dsimp only at p1 p2 p3 p4 p5 q1 q2 u1 u2 ⊢
  unfold CrcFast.X86.vectorPhaseLog
  simp only [Option.bind_eq_bind, Option.pure_def]
  rw [p1, p2, p3, p4] at q1
  rw [q1, Option.some_bind, u1]
  refine ⟨rfl, ?_⟩
  rw [u2, q2, p5]
  simp only [List.append_assoc, List.singleton_append, List.cons_append, List.nil_append]

end X86

end Traced

namespace Traced

namespace Neon

theorem neon_shift_some {β : Type} {crc nbytes : Nat} {f : Nat → Run β} {t : Trace}
    {r : β × Trace} (h : (crc_shift crc nbytes >>= f) t = some r) :
    ∃ v, f v ⟨t.loads, t.shifts ++ [(nbytes, (nbytes * 8 + (2 ^ 64 - 33)) % 2 ^ 64)]⟩
      = some r := by
  obtain ⟨a, t1, h1, h2⟩ := run_bind_some h
  unfold crc_shift at h1
  dsimp only at h1
  obtain ⟨-, e2⟩ := traced_shift_some h1
  simp only at e2
  subst e2
  exact ⟨a, h2⟩

theorem largeScalarChunk_log {mem : List (Fin 256)} {klen : Nat} {s : CrcFast.Neon.LargeState}
    {t : Trace} {r : CrcFast.Neon.LargeState × Trace}
    (h : largeScalarChunk mem klen s t = some r) :
    CrcFast.Neon.largeScalarChunkLog klen ⟨s.buf, s.buf2, t.loads⟩
      = ⟨r.1.buf, r.1.buf2, r.2.loads⟩ ∧ r.2.shifts = t.shifts := by
  unfold largeScalarChunk at h
  obtain ⟨v1, -, h⟩ := load64_some h
  obtain ⟨v2, -, h⟩ := load64_some h
  obtain ⟨v3, -, h⟩ := load64_some h
  obtain ⟨v4, -, h⟩ := load64_some h
  obtain ⟨v5, -, h⟩ := load64_some h
  obtain ⟨v6, -, h⟩ := load64_some h
  obtain rfl := run_pure_some h
  refine ⟨?_, rfl⟩
  simp only [CrcFast.Neon.largeScalarChunkLog, List.append_assoc, List.singleton_append,
    List.cons_append, List.nil_append]

theorem largeBody_log {mem : List (Fin 256)} {klen : Nat} {s : CrcFast.Neon.LargeState}
    {t : Trace} {r : CrcFast.Neon.LargeState × Trace} (h : largeBody mem klen s t = some r) :
    CrcFast.Neon.largeBodyLog klen ⟨s.buf, s.buf2, t.loads⟩
      = ⟨r.1.buf, r.1.buf2, r.2.loads⟩ ∧ r.2.shifts = t.shifts := by
  unfold largeBody at h
  obtain ⟨v1, -, h⟩ := load128_some h
  obtain ⟨v2, -, h⟩ := load128_some h
  obtain ⟨v3, -, h⟩ := load128_some h
  obtain ⟨v4, -, h⟩ := load128_some h
  obtain ⟨v5, -, h⟩ := load128_some h
  obtain ⟨v6, -, h⟩ := load128_some h
  obtain ⟨v7, -, h⟩ := load128_some h
  obtain ⟨v8, -, h⟩ := load128_some h
  obtain ⟨v9, -, h⟩ := load128_some h
  obtain ⟨s1, t1, h1, h⟩ := run_bind_some h
  obtain ⟨e1, e2⟩ := largeScalarChunk_log h1
  obtain rfl := run_pure_some h
  refine ⟨?_, e2⟩
  unfold CrcFast.Neon.largeBodyLog
  dsimp only at e1 ⊢
  simp only [List.append_assoc, List.singleton_append, List.cons_append,
    List.nil_append] at e1
  rw [e1]

theorem largeLoop_log (mem : List (Fin 256)) (klen : Nat) (limit : Int) :
    ∀ (fuel : Nat) (s : CrcFast.Neon.LargeState) (t : Trace)
      (r : CrcFast.Neon.LargeState × Trace),
      largeLoop mem klen limit fuel s t = some r →
      CrcFast.Neon.largeLoopLog klen limit fuel ⟨s.buf, s.buf2, t.loads⟩
        = some ⟨r.1.buf, r.1.buf2, r.2.loads⟩ ∧ r.2.shifts = t.shifts
  | 0, _, _, _, h => (run_fail_some h).elim
  | fuel + 1, s, t, r, h => by
    rw [largeLoop] at h
    rw [CrcFast.Neon.largeLoopLog]
    dsimp only
    by_cases hc : (s.buf : Int) ≤ limit
    · rw [if_pos hc] at h
      rw [if_pos hc]
      obtain ⟨s1, t1, h1, h⟩ := run_bind_some h
      obtain ⟨e1, e2⟩ := largeBody_log h1
      obtain ⟨e3, e4⟩ := largeLoop_log mem klen limit fuel _ _ _ h
      rw [e1]
      exact ⟨e3, e4.trans e2⟩
    · rw [if_neg hc] at h
      rw [if_neg hc]
      obtain rfl := run_pure_some h
      exact ⟨rfl, rfl⟩

theorem largeFirstChunk_log {mem : List (Fin 256)} {klen : Nat} {c : Cursor}
    {t : Trace} {r : CrcFast.Neon.LargeState × Trace}
    (h : largeFirstChunk mem klen c t = some r) :
    r.1.buf = c.buf ∧ r.1.buf2 = c.buf + klen * 3 + 144 ∧
      r.2.loads = t.loads ++ [(c.buf + klen * 3, 16), (c.buf + klen * 3 + 16, 16),
        (c.buf + klen * 3 + 32, 16), (c.buf + klen * 3 + 48, 16), (c.buf + klen * 3 + 64, 16),
        (c.buf + klen * 3 + 80, 16), (c.buf + klen * 3 + 96, 16),
        (c.buf + klen * 3 + 112, 16), (c.buf + klen * 3 + 128, 16)] ∧
      r.2.shifts = t.shifts := by
  unfold largeFirstChunk at h
  obtain ⟨v1, -, h⟩ := load128_some h
  obtain ⟨v2, -, h⟩ := load128_some h
  obtain ⟨v3, -, h⟩ := load128_some h
  obtain ⟨v4, -, h⟩ := load128_some h
  obtain ⟨v5, -, h⟩ := load128_some h
  obtain ⟨v6, -, h⟩ := load128_some h
  obtain ⟨v7, -, h⟩ := load128_some h
  obtain ⟨v8, -, h⟩ := load128_some h
  obtain ⟨v9, -, h⟩ := load128_some h
  obtain rfl := run_pure_some h
  refine ⟨rfl, rfl, ?_, rfl⟩
  simp only [List.append_assoc, List.singleton_append, List.cons_append, List.nil_append]

/-- The loads of the traced block `if (len >= 192)` of `crc32_iscsi_large_impl` are those of
the load log, and its calls of `crc_shift` are the three written in the source. -/
theorem largeVectorPhase_log {mem : List (Fin 256)} {c : Cursor} {t : Trace}
    {r : Cursor × Trace} (h : largeVectorPhase mem c t = some r) :
    CrcFast.Neon.largeVectorPhaseLog ⟨c.buf, c.len, t.loads⟩
      = some ⟨r.1.buf, r.1.len, r.2.loads⟩ ∧
    r.2.shifts = t.shifts ++
      [((c.len - 0) / 192 * 16 * 2 + (c.len - 0) / 192 * 144,
          (((c.len - 0) / 192 * 16 * 2 + (c.len - 0) / 192 * 144) * 8 + (2 ^ 64 - 33))
            % 2 ^ 64),
       ((c.len - 0) / 192 * 16 + (c.len - 0) / 192 * 144,
          (((c.len - 0) / 192 * 16 + (c.len - 0) / 192 * 144) * 8 + (2 ^ 64 - 33)) % 2 ^ 64),
       (0 + (c.len - 0) / 192 * 144,
          ((0 + (c.len - 0) / 192 * 144) * 8 + (2 ^ 64 - 33)) % 2 ^ 64)] := by
  unfold largeVectorPhase at h
  obtain ⟨s0, t0, h0, h⟩ := run_bind_some h
  obtain ⟨p1, p2, p3, p4⟩ := largeFirstChunk_log h0
  obtain ⟨s1, t1, h1, h⟩ := run_bind_some h
  obtain ⟨q1, q2⟩ := largeLoop_log _ _ _ _ _ _ _ h1
  obtain ⟨s2, t2, h2, h⟩ := run_bind_some h
  obtain ⟨u1, u2⟩ := largeScalarChunk_log h2
  obtain ⟨w1, h⟩ := neon_shift_some h
  obtain ⟨w2, h⟩ := neon_shift_some h
  obtain ⟨w3, h⟩ := neon_shift_some h
  obtain rfl := run_pure_some h
  dsimp only at p1 p2 p3 p4 q1 q2 u1 u2 ⊢
  unfold CrcFast.Neon.largeVectorPhaseLog
  simp only [Option.bind_eq_bind, Option.pure_def]
  rw [p1, p2, p3] at q1
  rw [q1, Option.some_bind, u1]
  refine ⟨rfl, ?_⟩
  rw [u2, q2, p4]
  simp only [List.append_assoc, List.singleton_append, List.cons_append, List.nil_append]

theorem tripleLoop_log (mem : List (Fin 256)) (klen : Nat) :
    ∀ (fuel : Nat) (s : CrcFast.Neon.TripleState) (t : Trace)
      (r : CrcFast.Neon.TripleState × Trace),
      tripleLoop mem klen fuel s t = some r →
      CrcFast.Neon.tripleLoopLog klen fuel ⟨s.buf, s.len, t.loads⟩
        = some ⟨r.1.buf, r.1.len, r.2.loads⟩ ∧ r.2.shifts = t.shifts
  | 0, _, _, _, h => (run_fail_some h).elim
  | fuel + 1, s, t, r, h => by
    rw [tripleLoop] at h
    rw [CrcFast.Neon.tripleLoopLog]
    obtain ⟨v1, -, h⟩ := load64_some h
    obtain ⟨v2, -, h⟩ := load64_some h
    obtain ⟨v3, -, h⟩ := load64_some h
    dsimp only at h ⊢
    by_cases hc : s.len - 24 ≥ 32
    · rw [if_pos hc] at h
      rw [if_pos hc]
      obtain ⟨e3, e4⟩ := tripleLoop_log mem klen fuel _ _ _ h
      dsimp only at e3 e4
      simp only [List.append_assoc, List.singleton_append, List.cons_append,
        List.nil_append] at e3
      exact ⟨e3, e4⟩
    · rw [if_neg hc] at h
      rw [if_neg hc]
      obtain rfl := run_pure_some h
      refine ⟨?_, rfl⟩
      simp only [List.append_assoc, List.singleton_append, List.cons_append, List.nil_append]

/-- The loads of the traced block `if (len >= 32)` of `crc32_iscsi_large_impl` are those of
the load log, and its calls of `crc_shift` are the two written in the source. -/
theorem triplePhase_log {mem : List (Fin 256)} {c : Cursor} {t : Trace}
    {r : Cursor × Trace} (h : triplePhase mem c t = some r) :
    CrcFast.Neon.triplePhaseLog ⟨c.buf, c.len, t.loads⟩
      = some ⟨r.1.buf, r.1.len, r.2.loads⟩ ∧
    r.2.shifts = t.shifts ++
      [((c.len - 8) / 24 * 8 * 2 + 8,
          (((c.len - 8) / 24 * 8 * 2 + 8) * 8 + (2 ^ 64 - 33)) % 2 ^ 64),
       ((c.len - 8) / 24 * 8 + 8,
          (((c.len - 8) / 24 * 8 + 8) * 8 + (2 ^ 64 - 33)) % 2 ^ 64)] := by
  unfold triplePhase at h
  obtain ⟨s1, t1, h1, h⟩ := run_bind_some h
  obtain ⟨q1, q2⟩ := tripleLoop_log _ _ _ _ _ _ h1
  obtain ⟨w1, h⟩ := neon_shift_some h
  obtain ⟨w2, h⟩ := neon_shift_some h
  obtain ⟨w4, -, h⟩ := load64_some h
  obtain rfl := run_pure_some h
  dsimp only at q1 q2 ⊢
  unfold CrcFast.Neon.triplePhaseLog
  simp only [Option.bind_eq_bind, Option.pure_def]
  rw [q1, Option.some_bind]
  refine ⟨rfl, ?_⟩
  rw [q2]
  simp only [List.append_assoc, List.singleton_append, List.cons_append, List.nil_append]

theorem smallBody_log {mem : List (Fin 256)} {s : CrcFast.Neon.SmallState}
    {t : Trace} {r : CrcFast.Neon.SmallState × Trace} (h : smallBody mem s t = some r) :
    CrcFast.Neon.smallBodyLog ⟨s.buf, t.loads⟩ = ⟨r.1.buf, r.2.loads⟩ ∧
      r.2.shifts = t.shifts := by
  unfold smallBody at h
  obtain ⟨v1, -, h⟩ := load128_some h
  obtain ⟨v2, -, h⟩ := load128_some h
  obtain ⟨v3, -, h⟩ := load128_some h
  obtain ⟨v4, -, h⟩ := load128_some h
  obtain ⟨v5, -, h⟩ := load128_some h
  obtain ⟨v6, -, h⟩ := load128_some h
  obtain ⟨v7, -, h⟩ := load128_some h
  obtain ⟨v8, -, h⟩ := load128_some h
  obtain ⟨v9, -, h⟩ := load128_some h
  obtain ⟨v10, -, h⟩ := load128_some h
  obtain ⟨v11, -, h⟩ := load128_some h
  obtain ⟨v12, -, h⟩ := load128_some h
  obtain rfl := run_pure_some h
  refine ⟨?_, rfl⟩
  simp only [CrcFast.Neon.smallBodyLog, List.append_assoc, List.singleton_append,
    List.cons_append, List.nil_append]

theorem smallLoop_log (mem : List (Fin 256)) (limit : Nat) :
    ∀ (fuel : Nat) (s : CrcFast.Neon.SmallState) (t : Trace)
      (r : CrcFast.Neon.SmallState × Trace),
      smallLoop mem limit fuel s t = some r →
      CrcFast.Neon.smallLoopLog limit fuel ⟨s.buf, t.loads⟩ = some ⟨r.1.buf, r.2.loads⟩ ∧
        r.2.shifts = t.shifts
  | 0, _, _, _, h => (run_fail_some h).elim
  | fuel + 1, s, t, r, h => by
    rw [smallLoop] at h
    rw [CrcFast.Neon.smallLoopLog]
    dsimp only
    by_cases hc : s.buf ≤ limit
    · rw [if_pos hc] at h
      rw [if_pos hc]
      obtain ⟨s1, t1, h1, h⟩ := run_bind_some h
      obtain ⟨e1, e2⟩ := smallBody_log h1
      obtain ⟨e3, e4⟩ := smallLoop_log mem limit fuel _ _ _ h
      rw [e1]
      exact ⟨e3, e4.trans e2⟩
    · rw [if_neg hc] at h
      rw [if_neg hc]
      obtain rfl := run_pure_some h
      exact ⟨rfl, rfl⟩

theorem smallFirstChunk_log {mem : List (Fin 256)} {c : Cursor}
    {t : Trace} {r : CrcFast.Neon.SmallState × Trace}
    (h : smallFirstChunk mem c t = some r) :
    r.1.buf = c.buf + 192 ∧
      r.2.loads = t.loads ++ [(c.buf, 16), (c.buf + 16, 16), (c.buf + 32, 16),
        (c.buf + 48, 16), (c.buf + 64, 16), (c.buf + 80, 16), (c.buf + 96, 16),
        (c.buf + 112, 16), (c.buf + 128, 16), (c.buf + 144, 16), (c.buf + 160, 16),
        (c.buf + 176, 16)] ∧
      r.2.shifts = t.shifts := by
  unfold smallFirstChunk at h
  obtain ⟨v1, -, h⟩ := load128_some h
  obtain ⟨v2, -, h⟩ := load128_some h
  obtain ⟨v3, -, h⟩ := load128_some h
  obtain ⟨v4, -, h⟩ := load128_some h
  obtain ⟨v5, -, h⟩ := load128_some h
  obtain ⟨v6, -, h⟩ := load128_some h
  obtain ⟨v7, -, h⟩ := load128_some h
  obtain ⟨v8, -, h⟩ := load128_some h
  obtain ⟨v9, -, h⟩ := load128_some h
  obtain ⟨v10, -, h⟩ := load128_some h
  obtain ⟨v11, -, h⟩ := load128_some h
  obtain ⟨v12, -, h⟩ := load128_some h
  obtain rfl := run_pure_some h
  refine ⟨rfl, ?_, rfl⟩
  simp only [List.append_assoc, List.singleton_append, List.cons_append, List.nil_append]

theorem smallVectorPhase_log {mem : List (Fin 256)} {c : Cursor} {t : Trace}
    {r : Cursor × Trace} (h : smallVectorPhase mem c t = some r) :
    CrcFast.Neon.smallVectorPhaseLog ⟨c.buf, c.len, t.loads⟩
      = some ⟨r.1.buf, r.1.len, r.2.loads⟩ ∧ r.2.shifts = t.shifts := by
  unfold smallVectorPhase at h
  obtain ⟨s0, t0, h0, h⟩ := run_bind_some h
  obtain ⟨p1, p2, p3⟩ := smallFirstChunk_log h0
  obtain ⟨s1, t1, h1, h⟩ := run_bind_some h
  obtain ⟨q1, q2⟩ := smallLoop_log _ _ _ _ _ _ h1
  obtain rfl := run_pure_some h
  dsimp only at p1 p2 p3 q1 q2 ⊢
  unfold CrcFast.Neon.smallVectorPhaseLog
  simp only [Option.bind_eq_bind, Option.pure_def]
  rw [p1, p2] at q1
  rw [q1, Option.some_bind]
  exact ⟨rfl, q2.trans p3⟩

theorem singleLoop_log (mem : List (Fin 256)) (k : Nat) :
    ∀ (fuel : Nat) (s : CrcFast.Neon.SingleState) (t : Trace)
      (r : CrcFast.Neon.SingleState × Trace),
      singleLoop mem k fuel s t = some r →
      CrcFast.Neon.singleLoopLog fuel ⟨s.buf, s.len, t.loads⟩
        = some ⟨r.1.buf, r.1.len, r.2.loads⟩ ∧ r.2.shifts = t.shifts
  | 0, _, _, _, h => (run_fail_some h).elim
  | fuel + 1, s, t, r, h => by
    rw [singleLoop] at h
    rw [CrcFast.Neon.singleLoopLog]
    dsimp only
    by_cases hc : s.len ≥ 16
    · rw [if_pos hc] at h
      rw [if_pos hc]
      obtain ⟨v, -, h⟩ := load128_some h
      exact singleLoop_log mem k fuel _ _ _ h
    · rw [if_neg hc] at h
      rw [if_neg hc]
      obtain rfl := run_pure_some h
      exact ⟨rfl, rfl⟩

theorem singlePhase_log {mem : List (Fin 256)} {c : Cursor} {t : Trace}
    {r : Cursor × Trace} (h : singlePhase mem c t = some r) :
    CrcFast.Neon.singlePhaseLog ⟨c.buf, c.len, t.loads⟩
      = some ⟨r.1.buf, r.1.len, r.2.loads⟩ ∧ r.2.shifts = t.shifts := by
  unfold singlePhase at h
  obtain ⟨v, -, h⟩ := load128_some h
  obtain ⟨s1, t1, h1, h⟩ := run_bind_some h
  obtain ⟨q1, q2⟩ := singleLoop_log _ _ _ _ _ _ h1
  obtain rfl := run_pure_some h
  dsimp only at q1 q2 ⊢
  unfold CrcFast.Neon.singlePhaseLog
  exact ⟨q1, q2⟩

end Neon

end Traced

/-! #### Whole runs -/

namespace Traced

/-- A run with a result, once its trace is dropped, has a result with that value. -/
theorem run_of_erases {α : Type} {m : Run α} {v : α} (h : m.Erases (some v)) (t : Trace) :
    ∃ t', m t = some (v, t') := by
  have e := h t
  cases hm : m t with
  | none =>
    rw [hm] at e
    cases e
  | some p =>
    rw [hm] at e
    cases Option.some.inj e
    exact ⟨p.2, rfl⟩

/-- A run without result has none once its trace is dropped. -/
theorem none_of_erases {α : Type} {m : Run α} {v : Option α} (h : m.Erases v) {t : Trace}
    (hn : m t = none) : v = none := by
  have e := h t
  rw [hn] at e
  exact e.symm

theorem adv_of_eq {c c' d : LogCursor} (a : c.Adv d) (e : d = c') : c.Adv c' :=
  e ▸ a

theorem adv_of_some {c c' : LogCursor} {x : Option LogCursor}
    (a : ∃ d, x = some d ∧ c.Adv d) (e : x = some c') : c.Adv c' := by
  obtain ⟨d, hd, a⟩ := a
  rw [hd] at e
  exact Option.some.inj e ▸ a

theorem adv_sum {len : Nat} {c : LogCursor} (a : LogCursor.Adv ⟨0, len, []⟩ c) :
    c.buf + c.len = len := by
  obtain ⟨n, l, hn, hb, hl, _, _⟩ := a
  simp only at hn hb hl
  omega

/-- The scalar epilogue of a traced engine. -/
theorem epilogue_log {mem : List (Fin 256)} {c : Cursor} {t : Trace} {r : Nat × Trace}
    (h : (tailWords mem (c.len + 1) c >>= fun c =>
      tailBytes mem (c.len + 1) c >>= fun c => pure (not32 c.crc0)) t = some r) :
    ((tailWordsLog (c.len + 1) ⟨c.buf, c.len, t.loads⟩).bind fun c =>
        (tailBytesLog (c.len + 1) c).bind fun c => pure c.log) = some r.2.loads ∧
      r.2.shifts = t.shifts := by
  obtain ⟨c4, t4, h4, h⟩ := run_bind_some h
  obtain ⟨e4, s4⟩ := tailWords_log _ _ _ _ _ h4
  obtain ⟨c5, t5, h5, h⟩ := run_bind_some h
  obtain ⟨e5, s5⟩ := tailBytes_log _ _ _ _ _ h5
  obtain rfl := run_pure_some h
  dsimp only at e4 s4 e5 s5 ⊢
  rw [e4, Option.some_bind]
  dsimp only
  rw [e5, Option.some_bind]
  exact ⟨rfl, s5.trans s4⟩

/-- The alignment prologue of a traced engine. -/
theorem prologue_log {addr : Nat} {mem : List (Fin 256)} {c0 : Nat} {β : Type}
    {K : Cursor → Run β} {r : β × Trace}
    (h : (headLoop addr mem (mem.length + 1) ⟨c0, 0, mem.length⟩ >>= fun c =>
      headWord addr mem c >>= K) ⟨[], []⟩ = some r) :
    ∃ c t, K c t = some r ∧ t.shifts = [] ∧
      (∃ c1, headLoopLog addr (mem.length + 1) ⟨0, mem.length, []⟩ = some c1 ∧
        headWordLog addr c1 = ⟨c.buf, c.len, t.loads⟩) ∧
      LogCursor.Adv ⟨0, mem.length, []⟩ ⟨c.buf, c.len, t.loads⟩ := by
  obtain ⟨c1, t1, h1, h⟩ := run_bind_some h
  obtain ⟨e1, s1⟩ := headLoop_log _ _ _ _ _ _ h1
  obtain ⟨c2, t2, h2, h⟩ := run_bind_some h
  obtain ⟨e2, s2⟩ := headWord_log _ _ _ _ _ h2
  dsimp only at e1 s1 e2 s2
  refine ⟨c2, t2, h, s2.trans s1, ⟨_, e1, e2⟩, ?_⟩
  have a1 := adv_of_some (headLoopLog_spec addr (mem.length + 1) ⟨0, mem.length, []⟩
    (Nat.lt_succ_self _)) e1
  exact a1.andThen (adv_of_eq (headWordLog_spec addr _) e2)

end Traced

namespace Traced

/-- The traced x86 engine returns the reference CRC; its loads are the load log of the
engine; each of its calls of `crc_shift` passes at least 16 bytes and hands `xnmodp` the
integer `8 * nbytes - 33`. -/
theorem x86_traced_run (seed addr : Nat) (mem : List (Fin 256)) (hs : seed < 2 ^ 32)
    (h61 : mem.length < 2 ^ 61) :
    ∃ t, X86.crc32_iscsi_impl seed addr mem ⟨[], []⟩ = some (crc32c_reference seed mem, t) ∧
      CrcFast.X86.loadLog addr mem.length = some t.loads ∧
      ∀ e ∈ t.shifts, 16 ≤ e.1 ∧ 33 ≤ e.1 * 8 ∧ e.2 = e.1 * 8 - 33 := by
  obtain ⟨t, hrun⟩ := run_of_erases
    (by rw [← CrcFast.X86.x86_correct seed addr mem hs h61]
        exact X86.erases_x86_impl seed addr mem) ⟨[], []⟩
  refine ⟨t, hrun, ?_⟩
  have h := hrun
  unfold X86.crc32_iscsi_impl at h
  obtain ⟨c, t2, h, s2, ⟨c1, e1, e2⟩, a2⟩ := prologue_log h
  have hl2 : c.len ≤ mem.length := a2.len_shrinks
  unfold CrcFast.X86.loadLog
  simp only [Option.bind_eq_bind]
  rw [e1, Option.some_bind]
  dsimp only at h ⊢
  rw [e2]
  dsimp only
  by_cases h144 : c.len ≥ 144
  · rw [if_pos h144] at h
    rw [if_pos h144]
    obtain ⟨c3, t3, h3, h⟩ := run_bind_some h
    obtain ⟨e3, s3⟩ := X86.vectorPhase_log h3
    obtain ⟨e4, s4⟩ := epilogue_log h
    dsimp only at e3 s3 e4 s4
    rw [e3, Option.some_bind]
    refine ⟨e4, ?_⟩
    rw [s4, s3, s2]
    intro e he
    simp only [List.nil_append, List.mem_cons, List.mem_singleton, List.not_mem_nil,
      or_false] at he
    rcases he with rfl | rfl | rfl <;> dsimp only <;> omega
  · rw [if_neg h144] at h
    rw [if_neg h144]
    obtain ⟨c3, t3, h3, h⟩ := run_bind_some h
    obtain ⟨rfl, rfl⟩ := Prod.mk.inj (run_pure_some h3)
    obtain ⟨e4, s4⟩ := epilogue_log h
    rw [Option.some_bind]
    refine ⟨e4, ?_⟩
    rw [s4, s2]
    intro e he
    cases he

/-- The traced `crc32_iscsi_large_impl` returns the reference CRC; its loads are the load
log of the engine; each of its calls of `crc_shift` passes at least 16 bytes and hands
`xnmodp` the integer `8 * nbytes - 33`. -/
theorem large_traced_run (seed addr : Nat) (mem : List (Fin 256)) (hs : seed < 2 ^ 32)
    (h61 : mem.length < 2 ^ 61) :
    ∃ t, Neon.crc32_iscsi_large_impl seed addr mem ⟨[], []⟩
        = some (crc32c_reference seed mem, t) ∧
      CrcFast.Neon.largeLoadLog addr mem.length = some t.loads ∧
      ∀ e ∈ t.shifts, 16 ≤ e.1 ∧ 33 ≤ e.1 * 8 ∧ e.2 = e.1 * 8 - 33 := by
  obtain ⟨t, hrun⟩ := run_of_erases
    (by rw [← CrcFast.Neon.large_correct seed addr mem hs h61]
        exact Neon.erases_large_impl seed addr mem) ⟨[], []⟩
  refine ⟨t, hrun, ?_⟩
  have h := hrun
  unfold Neon.crc32_iscsi_large_impl at h
  obtain ⟨c, t2, h, s2, ⟨c1, e1, e2⟩, a2⟩ := prologue_log h
  have hl2 : c.len ≤ mem.length := a2.len_shrinks
  have hsum2 := adv_sum a2
  dsimp only at hsum2
  unfold CrcFast.Neon.largeLoadLog
  simp only [Option.bind_eq_bind]
  rw [e1, Option.some_bind]
  dsimp only at h ⊢
  rw [e2]
  dsimp only
  have key : ∀ (c3 : Cursor) (t3 : Trace),
      LogCursor.Adv ⟨0, mem.length, []⟩ ⟨c3.buf, c3.len, t3.loads⟩ →
      (∀ e ∈ t3.shifts, 16 ≤ e.1 ∧ 33 ≤ e.1 * 8 ∧ e.2 = e.1 * 8 - 33) →
      (if c3.len ≥ 32 then
          Neon.triplePhase mem c3 >>= fun y =>
            tailWords mem (y.len + 1) y >>= fun c =>
              tailBytes mem (c.len + 1) c >>= fun c => pure (not32 c.crc0)
        else
          pure c3 >>= fun y =>
            tailWords mem (y.len + 1) y >>= fun c =>
              tailBytes mem (c.len + 1) c >>= fun c => pure (not32 c.crc0)) t3
        = some (crc32c_reference seed mem, t) →
      (if c3.len ≥ 32 then
          (CrcFast.Neon.triplePhaseLog ⟨c3.buf, c3.len, t3.loads⟩).bind fun c =>
            (tailWordsLog (c.len + 1) c).bind fun c =>
              (tailBytesLog (c.len + 1) c).bind fun c => pure c.log
        else
          (some (⟨c3.buf, c3.len, t3.loads⟩ : LogCursor)).bind fun c =>
            (tailWordsLog (c.len + 1) c).bind fun c =>
              (tailBytesLog (c.len + 1) c).bind fun c => pure c.log) = some t.loads ∧
        ∀ e ∈ t.shifts, 16 ≤ e.1 ∧ 33 ≤ e.1 * 8 ∧ e.2 = e.1 * 8 - 33 := by
    intro c3 t3 a3 hsh h
    have hl3 : c3.len ≤ mem.length := a3.len_shrinks
    by_cases h32 : c3.len ≥ 32
    · rw [if_pos h32] at h
      rw [if_pos h32]
      obtain ⟨c4, t4, h4, h⟩ := run_bind_some h
      obtain ⟨e4, s4⟩ := Neon.triplePhase_log h4
      obtain ⟨e5, s5⟩ := epilogue_log h
      dsimp only at e4 s4 e5 s5
      rw [e4, Option.some_bind]
      refine ⟨e5, ?_⟩
      rw [s5, s4]
      intro e he
      rw [List.mem_append] at he
      rcases he with he | he
      · exact hsh e he
      · simp only [List.mem_cons, List.mem_singleton, List.not_mem_nil, or_false] at he
        rcases he with rfl | rfl <;> dsimp only <;> omega
    · rw [if_neg h32] at h
      rw [if_neg h32]
      obtain ⟨c4, t4, h4, h⟩ := run_bind_some h
      obtain ⟨rfl, rfl⟩ := Prod.mk.inj (run_pure_some h4)
      obtain ⟨e5, s5⟩ := epilogue_log h
      rw [Option.some_bind]
      refine ⟨e5, ?_⟩
      rw [s5]
      exact hsh
  by_cases h192 : c.len ≥ 192
  · rw [if_pos h192] at h
    rw [if_pos h192]
    obtain ⟨c3, t3, h3, h⟩ := run_bind_some h
    obtain ⟨e3, s3⟩ := Neon.largeVectorPhase_log h3
    dsimp only at e3 s3
    rw [e3, Option.some_bind]
    have a3 := a2.andThen (adv_of_some
      (CrcFast.Neon.largeVectorPhaseLog_adv ⟨c.buf, c.len, t2.loads⟩ h192
        (by show c.buf + c.len < 2 ^ 64; omega)) e3)
    refine key c3 t3 a3 ?_ h
    rw [s3, s2]
    intro e he
    simp only [List.nil_append, List.mem_cons, List.mem_singleton, List.not_mem_nil,
      or_false] at he
    rcases he with rfl | rfl | rfl <;> dsimp only <;> omega
  · rw [if_neg h192] at h
    rw [if_neg h192]
    obtain ⟨c3, t3, h3, h⟩ := run_bind_some h
    obtain ⟨rfl, rfl⟩ := Prod.mk.inj (run_pure_some h3)
    rw [Option.some_bind]
    refine key c3 t3 a2 ?_ h
    rw [s2]
    intro e he
    cases he

/-- The traced `crc32_iscsi_small_impl` returns the reference CRC; its loads are the load
log of the engine; it does not call `crc_shift`. -/
theorem small_traced_run (seed addr : Nat) (mem : List (Fin 256)) (hs : seed < 2 ^ 32)
    (h61 : mem.length < 2 ^ 61) :
    ∃ t, Neon.crc32_iscsi_small_impl seed addr mem ⟨[], []⟩
        = some (crc32c_reference seed mem, t) ∧
      CrcFast.Neon.smallLoadLog addr mem.length = some t.loads ∧ t.shifts = [] := by
  obtain ⟨t, hrun⟩ := run_of_erases
    (by rw [← CrcFast.Neon.small_correct seed addr mem hs h61]
        exact Neon.erases_small_impl seed addr mem) ⟨[], []⟩
  refine ⟨t, hrun, ?_⟩
  have h := hrun
  unfold Neon.crc32_iscsi_small_impl at h
  obtain ⟨c, t2, h, s2, ⟨c1, e1, e2⟩, -⟩ := prologue_log h
  unfold CrcFast.Neon.smallLoadLog
  simp only [Option.bind_eq_bind]
  rw [e1, Option.some_bind]
  dsimp only at h ⊢
  rw [e2]
  dsimp only
  have key : ∀ (c3 : Cursor) (t3 : Trace), t3.shifts = [] →
      (if c3.len ≥ 16 then
          Neon.singlePhase mem c3 >>= fun y =>
            tailWords mem (y.len + 1) y >>= fun c =>
              tailBytes mem (c.len + 1) c >>= fun c => pure (not32 c.crc0)
        else
          pure c3 >>= fun y =>
            tailWords mem (y.len + 1) y >>= fun c =>
              tailBytes mem (c.len + 1) c >>= fun c => pure (not32 c.crc0)) t3
        = some (crc32c_reference seed mem, t) →
      (if c3.len ≥ 16 then
          (CrcFast.Neon.singlePhaseLog ⟨c3.buf, c3.len, t3.loads⟩).bind fun c =>
            (tailWordsLog (c.len + 1) c).bind fun c =>
              (tailBytesLog (c.len + 1) c).bind fun c => pure c.log
        else
          (some (⟨c3.buf, c3.len, t3.loads⟩ : LogCursor)).bind fun c =>
            (tailWordsLog (c.len + 1) c).bind fun c =>
              (tailBytesLog (c.len + 1) c).bind fun c => pure c.log) = some t.loads ∧
        t.shifts = [] := by
    intro c3 t3 hsh h
    by_cases h16 : c3.len ≥ 16
    · rw [if_pos h16] at h
      rw [if_pos h16]
      obtain ⟨c4, t4, h4, h⟩ := run_bind_some h
      obtain ⟨e4, s4⟩ := Neon.singlePhase_log h4
      obtain ⟨e5, s5⟩ := epilogue_log h
      dsimp only at e4 s4 e5 s5
      rw [e4, Option.some_bind]
      exact ⟨e5, s5.trans (s4.trans hsh)⟩
    · rw [if_neg h16] at h
      rw [if_neg h16]
      obtain ⟨c4, t4, h4, h⟩ := run_bind_some h
      obtain ⟨rfl, rfl⟩ := Prod.mk.inj (run_pure_some h4)
      obtain ⟨e5, s5⟩ := epilogue_log h
      rw [Option.some_bind]
      exact ⟨e5, s5.trans hsh⟩
  by_cases h192 : c.len ≥ 192
  · rw [if_pos h192] at h
    rw [if_pos h192]
    obtain ⟨c3, t3, h3, h⟩ := run_bind_some h
    obtain ⟨e3, s3⟩ := Neon.smallVectorPhase_log h3
    dsimp only at e3 s3
    rw [e3, Option.some_bind]
    exact key c3 t3 (s3.trans s2) h
  · rw [if_neg h192] at h
    rw [if_neg h192]
    obtain ⟨c3, t3, h3, h⟩ := run_bind_some h
    obtain ⟨rfl, rfl⟩ := Prod.mk.inj (run_pure_some h3)
    rw [Option.some_bind]
    exact key c3 t3 s2 h

end Traced

/-! #### The interleaved phases -/

namespace Traced

/-- A traced loop without result on a log that has none. -/
theorem none_of_log {α : Type} {m : Run α} {t : Trace}
    (h : ∀ r, m t = some r → False) : m t = none := by
  cases hm : m t with
  | none => rfl
  | some r => exact (h r hm).elim

/-- The interleaved phase of the traced x86 engine: the main loop, the loads and the calls
of `crc_shift`. -/
theorem x86_traced_phase {mem : List (Fin 256)} {c : Cursor} (t : Trace)
    (hb : c.buf + c.len = mem.length) (hc : c.crc0 < 2 ^ 32) (h144 : 144 ≤ c.len)
    (h61 : mem.length < 2 ^ 61) (blk klen : Nat) (hblk : blk = (c.len - 8) / 136)
    (hklen : klen = blk * 24) :
    (∃ s0 t0, X86.firstChunk mem blk c t = some (s0, t0) ∧
      CrcFast.X86.firstChunk mem blk c = some s0 ∧
      (∃ s1 t1, X86.mainLoop mem klen blk s0 t0 = some (s1, t1) ∧
        CrcFast.X86.mainLoop mem klen blk s0 = some s1) ∧
      X86.mainLoop mem klen (blk - 1) s0 t0 = none ∧
      CrcFast.X86.mainLoop mem klen (blk - 1) s0 = none) ∧
    ∃ c' t', X86.vectorPhase mem c t = some (c', t') ∧
      CrcFast.X86.vectorPhase mem c = some c' ∧
      c'.buf = c.buf + (136 * blk + 8) ∧ c'.len = c.len - (136 * blk + 8) ∧
      (∃ l, t'.loads = t.loads ++ l ∧ wideLoads l = blockLoads c.buf 16 (4 * blk) ∧
        narrowLoads l = streamLoads (c.buf + 64 * blk) klen (3 * blk)
          ++ [(c.buf + 64 * blk + klen * 3, 8)] ∧
        ∀ off, readCount l off = cover c.buf (136 * blk + 8) off) ∧
      t'.shifts = t.shifts ++ [(klen * 2 + 8, (klen * 2 + 8) * 8 - 33),
        (klen + 8, (klen + 8) * 8 - 33), (klen * 3 + 8, (klen * 3 + 8) * 8 - 33)] := by
  have key : 136 * blk + 8 ≤ c.len ∧ c.len < 136 * blk + 144 := by omega
  obtain ⟨hk1, hk2⟩ := key
  have hbk : 1 ≤ blk := by omega
  constructor
  · obtain ⟨s0, e0, hb0, -, -, -, -, p0, q0, l0⟩ :=
      CrcFast.X86.firstChunk_spec blk hc (show c.buf + 64 ≤ mem.length by omega)
    obtain ⟨t0, f0⟩ := run_of_erases (e0 ▸ X86.erases_firstChunk mem blk c) t
    obtain ⟨s1, e1, -⟩ := CrcFast.X86.mainLoop_spec mem klen (blk - 1) blk s0
      (by omega) hb0 (by omega) (by omega) (by omega) (by omega)
    obtain ⟨t1, f1⟩ := run_of_erases (e1 ▸ X86.erases_mainLoop mem klen blk s0) t0
    have f2 : X86.mainLoop mem klen (blk - 1) s0 t0 = none := by
      refine none_of_log fun r hr => ?_
      have e := (X86.mainLoop_log mem klen (blk - 1) s0 t0 r hr).1
      rw [CrcFast.X86.mainLoopLog_short klen (blk - 1) (blk - 1) _ (le_refl _)
        (by show 136 * (blk - 1) + 8 ≤ s0.len; omega)] at e
      cases e
    exact ⟨s0, t0, f0, e0, ⟨s1, t1, f1, e1⟩, f2,
      none_of_erases (X86.erases_mainLoop mem klen (blk - 1) s0) f2⟩
  · obtain ⟨c', e, -⟩ := @CrcFast.X86.vectorPhase_spec mem c ⟨hb, hc⟩ h144
      (by omega)
    obtain ⟨t', f⟩ := run_of_erases (e ▸ X86.erases_vectorPhase mem c) t
    obtain ⟨g, sh⟩ := X86.vectorPhase_log f
    obtain ⟨c'', e', pb, pl, l, hl, hw, hn⟩ :=
      CrcFast.X86.vectorPhaseLog_spec ⟨c.buf, c.len, t.loads⟩ h144
        (by show c.len < 2 ^ 64; omega) blk klen hblk hklen
    rw [g] at e'
    obtain rfl := Option.some.inj e'
    dsimp only at pb pl hl hw hn sh
    refine ⟨c', t', f, e, pb, pl, ⟨l, hl, hw, hn, ?_⟩, ?_⟩
    · intro off
      rw [readCount_split, hw, hn, readCount_blockLoads, readCount_append,
        readCount_streamLoads, readCount_single]
      unfold cover
      split_ifs <;> omega
    · rw [sh, ← hblk, ← hklen]
      have n1 : ((klen * 2 + 8) * 8 + (2 ^ 64 - 33)) % 2 ^ 64 = (klen * 2 + 8) * 8 - 33 := by
        omega
      have n2 : ((klen + 8) * 8 + (2 ^ 64 - 33)) % 2 ^ 64 = (klen + 8) * 8 - 33 := by omega
      have n3 : ((klen * 3 + 8) * 8 + (2 ^ 64 - 33)) % 2 ^ 64 = (klen * 3 + 8) * 8 - 33 := by
        omega
      rw [n1, n2, n3]

/-- The interleaved phase of the traced `crc32_iscsi_large_impl`: the main loop, the loads
and the calls of `crc_shift`. -/
theorem large_traced_phase {mem : List (Fin 256)} {c : Cursor} (t : Trace)
    (hb : c.buf + c.len = mem.length) (hc : c.crc0 < 2 ^ 32) (h192 : 192 ≤ c.len)
    (h61 : mem.length < 2 ^ 61) (blk klen : Nat) (hblk : blk = (c.len - 0) / 192)
    (hklen : klen = blk * 16) :
    (∃ s0 t0, Neon.largeFirstChunk mem klen c t = some (s0, t0) ∧
      CrcFast.Neon.largeFirstChunk mem klen c = some s0 ∧
      (∃ s1 t1, Neon.largeLoop mem klen ((c.buf : Int) + klen - 32) blk s0 t0
          = some (s1, t1) ∧
        CrcFast.Neon.largeLoop mem klen ((c.buf : Int) + klen - 32) blk s0 = some s1) ∧
      Neon.largeLoop mem klen ((c.buf : Int) + klen - 32) (blk - 1) s0 t0 = none ∧
      CrcFast.Neon.largeLoop mem klen ((c.buf : Int) + klen - 32) (blk - 1) s0 = none) ∧
    ∃ c' t', Neon.largeVectorPhase mem c t = some (c', t') ∧
      CrcFast.Neon.largeVectorPhase mem c = some c' ∧
      c'.buf = c.buf + 192 * blk ∧ c'.len = c.len - 192 * blk ∧
      (∃ l, t'.loads = t.loads ++ l ∧
        wideLoads l = blockLoads (c.buf + klen * 3) 16 (9 * blk) ∧
        narrowLoads l = streamLoads c.buf klen (2 * blk) ∧
        ∀ off, readCount l off = cover c.buf (192 * blk) off) ∧
      t'.shifts = t.shifts ++ [(klen * 2 + blk * 144, (klen * 2 + blk * 144) * 8 - 33),
        (klen + blk * 144, (klen + blk * 144) * 8 - 33),
        (0 + blk * 144, (0 + blk * 144) * 8 - 33)] := by
  have key : 192 * blk ≤ c.len ∧ c.len < 192 * blk + 192 := by omega
  obtain ⟨hk1, hk2⟩ := key
  have hbk : 1 ≤ blk := by omega
  constructor
  · obtain ⟨s0, e0, hb0, -, -, -, -, p0, q0⟩ :=
      CrcFast.Neon.largeFirstChunk_spec klen hc
        (show c.buf + klen * 3 + 144 ≤ mem.length by omega)
    obtain ⟨t0, f0⟩ := run_of_erases (e0 ▸ Neon.erases_largeFirstChunk mem klen c) t
    obtain ⟨s1, e1, -⟩ := CrcFast.Neon.largeLoop_spec mem klen ((c.buf : Int) + klen - 32)
      (blk - 1) blk s0 (by omega) hb0 (by rw [p0]; omega) (by omega) (by omega)
    obtain ⟨t1, f1⟩ := run_of_erases (e1 ▸ Neon.erases_largeLoop mem klen _ blk s0) t0
    have f2 : Neon.largeLoop mem klen ((c.buf : Int) + klen - 32) (blk - 1) s0 t0 = none := by
      refine none_of_log fun r hr => ?_
      have e := (Neon.largeLoop_log mem klen _ (blk - 1) s0 t0 r hr).1
      rw [CrcFast.Neon.largeLoopLog_short klen _ (blk - 1) (blk - 1) _ (le_refl _)
        (by intro _; show (s0.buf : Int) + 16 * ((blk - 1 : Nat) : Int) ≤ _; rw [p0]; omega)]
        at e
      cases e
    exact ⟨s0, t0, f0, e0, ⟨s1, t1, f1, e1⟩, f2,
      none_of_erases (Neon.erases_largeLoop mem klen _ (blk - 1) s0) f2⟩
  · obtain ⟨c', e, -⟩ := @CrcFast.Neon.largeVectorPhase_spec mem c ⟨hb, hc⟩
      h192 h61
    obtain ⟨t', f⟩ := run_of_erases (e ▸ Neon.erases_largeVectorPhase mem c) t
    obtain ⟨g, sh⟩ := Neon.largeVectorPhase_log f
    obtain ⟨c'', e', pb, pl, l, hl, hw, hn⟩ :=
      CrcFast.Neon.largeVectorPhaseLog_spec ⟨c.buf, c.len, t.loads⟩ h192
        (by show c.buf + c.len < 2 ^ 64; omega) blk klen hblk hklen
    rw [g] at e'
    obtain rfl := Option.some.inj e'
    dsimp only at pb pl hl hw hn sh
    refine ⟨c', t', f, e, pb, pl, ⟨l, hl, hw, hn, ?_⟩, ?_⟩
    · intro off
      rw [readCount_split, hw, hn, readCount_blockLoads, readCount_streamLoads]
      unfold cover
      split_ifs <;> omega
    · rw [sh, ← hblk, ← hklen]
      have n1 : ((klen * 2 + blk * 144) * 8 + (2 ^ 64 - 33)) % 2 ^ 64
          = (klen * 2 + blk * 144) * 8 - 33 := by omega
      have n2 : ((klen + blk * 144) * 8 + (2 ^ 64 - 33)) % 2 ^ 64
          = (klen + blk * 144) * 8 - 33 := by omega
      have n3 : ((0 + blk * 144) * 8 + (2 ^ 64 - 33)) % 2 ^ 64 = (0 + blk * 144) * 8 - 33 := by
        omega
      rw [n1, n2, n3]

/-- The three-way scalar phase of the traced `crc32_iscsi_large_impl`: its calls of
`crc_shift`. -/
theorem triple_traced_phase {mem : List (Fin 256)} {c : Cursor} (t : Trace)
    (hb : c.buf + c.len = mem.length) (hc : c.crc0 < 2 ^ 32) (h32 : 32 ≤ c.len)
    (h61 : mem.length < 2 ^ 61) (klen : Nat) (hklen : klen = (c.len - 8) / 24 * 8) :
    ∃ c' t', Neon.triplePhase mem c t = some (c', t') ∧
      CrcFast.Neon.triplePhase mem c = some c' ∧
      t'.shifts = t.shifts ++ [(klen * 2 + 8, (klen * 2 + 8) * 8 - 33),
        (klen + 8, (klen + 8) * 8 - 33)] := by
  obtain ⟨c', e, -⟩ := @CrcFast.Neon.triplePhase_spec mem c ⟨hb, hc⟩ h32 h61
  obtain ⟨t', f⟩ := run_of_erases (e ▸ Neon.erases_triplePhase mem c) t
  obtain ⟨-, sh⟩ := Neon.triplePhase_log f
  dsimp only at sh
  refine ⟨c', t', f, e, ?_⟩
  rw [sh, ← hklen]
  have n1 : ((klen * 2 + 8) * 8 + (2 ^ 64 - 33)) % 2 ^ 64 = (klen * 2 + 8) * 8 - 33 := by
    omega
  have n2 : ((klen + 8) * 8 + (2 ^ 64 - 33)) % 2 ^ 64 = (klen + 8) * 8 - 33 := by omega
  rw [n1, n2]

end Traced

/-- C15. Exact coverage. `Traced.X86.crc32_iscsi_impl`, `Traced.Neon.crc32_iscsi_small_impl`
and `Traced.Neon.crc32_iscsi_large_impl` are the engines with every load written to a trace;
dropping the trace gives back the engine, on every trace. For every seed, every address and
every buffer shorter than 2^61 bytes each traced engine returns what the engine returns, its
loads are the load log of the engine (`X86.loadLog`, `Neon.smallLoadLog`,
`Neon.largeLoadLog`), and they read every byte offset below the length exactly once and no
offset from the length on. In the interleaved phase of the x86 engine, entered at a cursor
`c` with `c.len >= 144`, `blk = (c.len - 8) / 136` and `klen = blk * 24`: the main loop runs
`blk - 1` times (a result with `blk` units of fuel, one per test of its condition, none with
`blk - 1`); the 128-bit loads are the `4 * blk` blocks from `c.buf`; the other loads are
word `i` of each of the three scalar streams in turn, for `i < 3 * blk`, and then the word
after them; the three streams are the adjacent ranges of `klen` bytes from
`c.buf + 64 * blk`; and the phase reads each of the next `136 * blk + 8` bytes once and
nothing else. In the interleaved phase of `crc32_iscsi_large_impl`, entered with
`c.len >= 192`, `blk = c.len / 192` and `klen = blk * 16`: the main loop runs `blk - 1` times
(not at all when `blk = 1`), the three scalar streams are the adjacent ranges of `klen`
bytes from `c.buf`, the 128-bit loads are the `9 * blk` blocks from `c.buf + klen * 3`, and
the phase reads each of the next `192 * blk` bytes once and nothing else. The load logs
themselves read every byte offset below `len` exactly once and no other, for every length
`len` of a `size_t`. -/
theorem exact_coverage (seed addr : Nat) (mem : List (Fin 256)) (hs : seed < 2 ^ 32)
    (h61 : mem.length < 2 ^ 61) :
    (∃ r t, Traced.X86.crc32_iscsi_impl seed addr mem ⟨[], []⟩ = some (r, t) ∧
      X86.crc32_iscsi_impl seed addr mem = some r ∧
      (∀ t0, (Traced.X86.crc32_iscsi_impl seed addr mem t0).map Prod.fst
        = X86.crc32_iscsi_impl seed addr mem) ∧
      X86.loadLog addr mem.length = some t.loads ∧
      ∀ off, readCount t.loads off = if off < mem.length then 1 else 0) ∧
    (∃ r t, Traced.Neon.crc32_iscsi_small_impl seed addr mem ⟨[], []⟩ = some (r, t) ∧
      Neon.crc32_iscsi_small_impl seed addr mem = some r ∧
      (∀ t0, (Traced.Neon.crc32_iscsi_small_impl seed addr mem t0).map Prod.fst
        = Neon.crc32_iscsi_small_impl seed addr mem) ∧
      Neon.smallLoadLog addr mem.length = some t.loads ∧
      ∀ off, readCount t.loads off = if off < mem.length then 1 else 0) ∧
    (∃ r t, Traced.Neon.crc32_iscsi_large_impl seed addr mem ⟨[], []⟩ = some (r, t) ∧
      Neon.crc32_iscsi_large_impl seed addr mem = some r ∧
      (∀ t0, (Traced.Neon.crc32_iscsi_large_impl seed addr mem t0).map Prod.fst
        = Neon.crc32_iscsi_large_impl seed addr mem) ∧
      Neon.largeLoadLog addr mem.length = some t.loads ∧
      ∀ off, readCount t.loads off = if off < mem.length then 1 else 0) ∧
    (∀ (c : Cursor) (t : Traced.Trace) (blk klen : Nat), c.buf + c.len = mem.length →
      c.crc0 < 2 ^ 32 → 144 ≤ c.len → blk = (c.len - 8) / 136 → klen = blk * 24 →
      ((∃ s0 t0, Traced.X86.firstChunk mem blk c t = some (s0, t0) ∧
          X86.firstChunk mem blk c = some s0 ∧
          (∃ s1 t1, Traced.X86.mainLoop mem klen blk s0 t0 = some (s1, t1) ∧
            X86.mainLoop mem klen blk s0 = some s1) ∧
          Traced.X86.mainLoop mem klen (blk - 1) s0 t0 = none ∧
          X86.mainLoop mem klen (blk - 1) s0 = none) ∧
        (∀ off, readCount (streamLoads (c.buf + 64 * blk) klen (3 * blk)) off
          = cover (c.buf + 64 * blk) klen off + cover (c.buf + 64 * blk + klen) klen off
            + cover (c.buf + 64 * blk + klen * 2) klen off) ∧
        ∃ c' t', Traced.X86.vectorPhase mem c t = some (c', t') ∧
          X86.vectorPhase mem c = some c' ∧
          c'.buf = c.buf + (136 * blk + 8) ∧ c'.len = c.len - (136 * blk + 8) ∧
          ∃ l, t'.loads = t.loads ++ l ∧ wideLoads l = blockLoads c.buf 16 (4 * blk) ∧
            narrowLoads l = streamLoads (c.buf + 64 * blk) klen (3 * blk)
              ++ [(c.buf + 64 * blk + klen * 3, 8)] ∧
            ∀ off, readCount l off = cover c.buf (136 * blk + 8) off)) ∧
    (∀ (c : Cursor) (t : Traced.Trace) (blk klen : Nat), c.buf + c.len = mem.length →
      c.crc0 < 2 ^ 32 → 192 ≤ c.len → blk = (c.len - 0) / 192 → klen = blk * 16 →
      ((∃ s0 t0, Traced.Neon.largeFirstChunk mem klen c t = some (s0, t0) ∧
          Neon.largeFirstChunk mem klen c = some s0 ∧
          (∃ s1 t1, Traced.Neon.largeLoop mem klen ((c.buf : Int) + klen - 32) blk s0 t0
              = some (s1, t1) ∧
            Neon.largeLoop mem klen ((c.buf : Int) + klen - 32) blk s0 = some s1) ∧
          Traced.Neon.largeLoop mem klen ((c.buf : Int) + klen - 32) (blk - 1) s0 t0 = none ∧
          Neon.largeLoop mem klen ((c.buf : Int) + klen - 32) (blk - 1) s0 = none) ∧
        (∀ off, readCount (streamLoads c.buf klen (2 * blk)) off
          = cover c.buf klen off + cover (c.buf + klen) klen off
            + cover (c.buf + klen * 2) klen off) ∧
        ∃ c' t', Traced.Neon.largeVectorPhase mem c t = some (c', t') ∧
          Neon.largeVectorPhase mem c = some c' ∧
          c'.buf = c.buf + 192 * blk ∧ c'.len = c.len - 192 * blk ∧
          ∃ l, t'.loads = t.loads ++ l ∧
            wideLoads l = blockLoads (c.buf + klen * 3) 16 (9 * blk) ∧
            narrowLoads l = streamLoads c.buf klen (2 * blk) ∧
            ∀ off, readCount l off = cover c.buf (192 * blk) off)) ∧
    (∀ len, len < 2 ^ 64 →
      (∃ log, X86.loadLog addr len = some log ∧
        ∀ off, readCount log off = if off < len then 1 else 0) ∧
      (∃ log, Neon.smallLoadLog addr len = some log ∧
        ∀ off, readCount log off = if off < len then 1 else 0) ∧
      (∃ log, Neon.largeLoadLog addr len = some log ∧
        ∀ off, readCount log off = if off < len then 1 else 0)) := by
  refine ⟨?_, ?_, ?_, ?_, ?_, ?_⟩
  · obtain ⟨t, hrun, hlog, -⟩ := Traced.x86_traced_run seed addr mem hs h61
    obtain ⟨log, hl, hc⟩ := X86.loadLog_spec addr mem.length (by omega)
    rw [hlog] at hl
    obtain rfl := Option.some.inj hl
    exact ⟨_, t, hrun, X86.x86_correct seed addr mem hs h61,
      Traced.X86.erases_x86_impl seed addr mem, hlog, hc⟩
  · obtain ⟨t, hrun, hlog, -⟩ := Traced.small_traced_run seed addr mem hs h61
    obtain ⟨log, hl, hc⟩ := Neon.smallLoadLog_spec addr mem.length (by omega)
    rw [hlog] at hl
    obtain rfl := Option.some.inj hl
    exact ⟨_, t, hrun, Neon.small_correct seed addr mem hs h61,
      Traced.Neon.erases_small_impl seed addr mem, hlog, hc⟩
  · obtain ⟨t, hrun, hlog, -⟩ := Traced.large_traced_run seed addr mem hs h61
    obtain ⟨log, hl, hc⟩ := Neon.largeLoadLog_spec addr mem.length (by omega)
    rw [hlog] at hl
    obtain rfl := Option.some.inj hl
    exact ⟨_, t, hrun, Neon.large_correct seed addr mem hs h61,
      Traced.Neon.erases_large_impl seed addr mem, hlog, hc⟩
  · intro c t blk klen hb hc h144 hblk hklen
    obtain ⟨hloop, c', t', f, e, pb, pl, hl, -⟩ :=
      Traced.x86_traced_phase t hb hc h144 h61 blk klen hblk hklen
    refine ⟨hloop, ?_, c', t', f, e, pb, pl, hl⟩
    intro off
    rw [readCount_streamLoads, show 8 * (3 * blk) = klen from by omega]
  · intro c t blk klen hb hc h192 hblk hklen
    obtain ⟨hloop, c', t', f, e, pb, pl, hl, -⟩ :=
      Traced.large_traced_phase t hb hc h192 h61 blk klen hblk hklen
    refine ⟨hloop, ?_, c', t', f, e, pb, pl, hl⟩
    intro off
    rw [readCount_streamLoads, show 8 * (2 * blk) = klen from by omega]
  · intro len hlen
    exact ⟨X86.loadLog_spec addr len hlen, Neon.smallLoadLog_spec addr len hlen,
      Neon.largeLoadLog_spec addr len hlen⟩

theorem exact_coverage_witness :
    (∃ r t, Traced.X86.crc32_iscsi_impl 0x12345678 3 (ramp 1000) ⟨[], []⟩ = some (r, t) ∧
      X86.crc32_iscsi_impl 0x12345678 3 (ramp 1000) = some r ∧
      (∀ t0, (Traced.X86.crc32_iscsi_impl 0x12345678 3 (ramp 1000) t0).map Prod.fst
        = X86.crc32_iscsi_impl 0x12345678 3 (ramp 1000)) ∧
      X86.loadLog 3 (ramp 1000).length = some t.loads ∧
      ∀ off, readCount t.loads off = if off < (ramp 1000).length then 1 else 0) ∧
    (∃ r t, Traced.Neon.crc32_iscsi_small_impl 0x12345678 3 (ramp 1000) ⟨[], []⟩ = some (r, t) ∧
      Neon.crc32_iscsi_small_impl 0x12345678 3 (ramp 1000) = some r ∧
      (∀ t0, (Traced.Neon.crc32_iscsi_small_impl 0x12345678 3 (ramp 1000) t0).map Prod.fst
        = Neon.crc32_iscsi_small_impl 0x12345678 3 (ramp 1000)) ∧
      Neon.smallLoadLog 3 (ramp 1000).length = some t.loads ∧
      ∀ off, readCount t.loads off = if off < (ramp 1000).length then 1 else 0) ∧
    (∃ r t, Traced.Neon.crc32_iscsi_large_impl 0x12345678 3 (ramp 1000) ⟨[], []⟩ = some (r, t) ∧
      Neon.crc32_iscsi_large_impl 0x12345678 3 (ramp 1000) = some r ∧
      (∀ t0, (Traced.Neon.crc32_iscsi_large_impl 0x12345678 3 (ramp 1000) t0).map Prod.fst
        = Neon.crc32_iscsi_large_impl 0x12345678 3 (ramp 1000)) ∧
      Neon.largeLoadLog 3 (ramp 1000).length = some t.loads ∧
      ∀ off, readCount t.loads off = if off < (ramp 1000).length then 1 else 0) ∧
    ((∃ s0 t0, Traced.X86.firstChunk (ramp 1000) 7 (Cursor.mk 0 0 1000) (Traced.Trace.mk [] [])
        = some (s0, t0) ∧
          X86.firstChunk (ramp 1000) 7 (Cursor.mk 0 0 1000) = some s0 ∧
          (∃ s1 t1, Traced.X86.mainLoop (ramp 1000) 168 7 s0 t0 = some (s1, t1) ∧
            X86.mainLoop (ramp 1000) 168 7 s0 = some s1) ∧
          Traced.X86.mainLoop (ramp 1000) 168 (7 - 1) s0 t0 = none ∧
          X86.mainLoop (ramp 1000) 168 (7 - 1) s0 = none) ∧
        (∀ off, readCount (streamLoads ((Cursor.mk 0 0 1000).buf + 64 * 7) 168 (3 * 7)) off
          = cover ((Cursor.mk 0 0 1000).buf + 64 * 7) 168 off + cover ((Cursor.mk 0 0 1000).buf
              + 64 * 7 + 168) 168 off
            + cover ((Cursor.mk 0 0 1000).buf + 64 * 7 + 168 * 2) 168 off) ∧
        ∃ c' t', Traced.X86.vectorPhase (ramp 1000) (Cursor.mk 0 0 1000) (Traced.Trace.mk [] [])
            = some (c', t') ∧
          X86.vectorPhase (ramp 1000) (Cursor.mk 0 0 1000) = some c' ∧
          c'.buf = (Cursor.mk 0 0 1000).buf + (136 * 7 + 8) ∧ c'.len = (Cursor.mk 0 0 1000).len -
              (136 * 7 + 8) ∧
          ∃ l, t'.loads = (Traced.Trace.mk [] []).loads ++ l ∧ wideLoads l = blockLoads
              (Cursor.mk 0 0 1000).buf 16 (4 * 7) ∧
            narrowLoads l = streamLoads ((Cursor.mk 0 0 1000).buf + 64 * 7) 168 (3 * 7)
              ++ [((Cursor.mk 0 0 1000).buf + 64 * 7 + 168 * 3, 8)] ∧
            ∀ off, readCount l off = cover (Cursor.mk 0 0 1000).buf (136 * 7 + 8) off) ∧
    ((∃ s0 t0, Traced.Neon.largeFirstChunk (ramp 1000) 80 (Cursor.mk 0 0 1000)
        (Traced.Trace.mk [] []) = some (s0, t0) ∧
          Neon.largeFirstChunk (ramp 1000) 80 (Cursor.mk 0 0 1000) = some s0 ∧
          (∃ s1 t1, Traced.Neon.largeLoop (ramp 1000) 80 (((Cursor.mk 0 0 1000).buf : Int)
              + 80 - 32) 5 s0 t0
              = some (s1, t1) ∧
            Neon.largeLoop (ramp 1000) 80 (((Cursor.mk 0 0 1000).buf : Int) + 80 - 32) 5 s0
                = some s1) ∧
          Traced.Neon.largeLoop (ramp 1000) 80 (((Cursor.mk 0 0 1000).buf : Int) + 80 - 32)
              (5 - 1) s0 t0 = none ∧
          Neon.largeLoop (ramp 1000) 80 (((Cursor.mk 0 0 1000).buf : Int) + 80 - 32) (5 - 1) s0
              = none) ∧
        (∀ off, readCount (streamLoads (Cursor.mk 0 0 1000).buf 80 (2 * 5)) off
          = cover (Cursor.mk 0 0 1000).buf 80 off + cover ((Cursor.mk 0 0 1000).buf + 80) 80 off
            + cover ((Cursor.mk 0 0 1000).buf + 80 * 2) 80 off) ∧
        ∃ c' t', Traced.Neon.largeVectorPhase (ramp 1000) (Cursor.mk 0 0 1000)
            (Traced.Trace.mk [] []) = some (c', t') ∧
          Neon.largeVectorPhase (ramp 1000) (Cursor.mk 0 0 1000) = some c' ∧
          c'.buf = (Cursor.mk 0 0 1000).buf + 192 * 5 ∧ c'.len =
              (Cursor.mk 0 0 1000).len - 192 * 5 ∧
          ∃ l, t'.loads = (Traced.Trace.mk [] []).loads ++ l ∧
            wideLoads l = blockLoads ((Cursor.mk 0 0 1000).buf + 80 * 3) 16 (9 * 5) ∧
            narrowLoads l = streamLoads (Cursor.mk 0 0 1000).buf 80 (2 * 5) ∧
            ∀ off, readCount l off = cover (Cursor.mk 0 0 1000).buf (192 * 5) off) ∧
    (∀ len, len < 2 ^ 64 →
      (∃ log, X86.loadLog 3 len = some log ∧
        ∀ off, readCount log off = if off < len then 1 else 0) ∧
      (∃ log, Neon.smallLoadLog 3 len = some log ∧
        ∀ off, readCount log off = if off < len then 1 else 0) ∧
      (∃ log, Neon.largeLoadLog 3 len = some log ∧
        ∀ off, readCount log off = if off < len then 1 else 0)) :=
  ⟨(exact_coverage 0x12345678 3 (ramp 1000) (by norm_num)
      (by rw [ramp_length]; norm_num)).1,
    (exact_coverage 0x12345678 3 (ramp 1000) (by norm_num)
      (by rw [ramp_length]; norm_num)).2.1,
    (exact_coverage 0x12345678 3 (ramp 1000) (by norm_num)
      (by rw [ramp_length]; norm_num)).2.2.1,
    (exact_coverage 0x12345678 3 (ramp 1000) (by norm_num)
      (by rw [ramp_length]; norm_num)).2.2.2.1 (Cursor.mk 0 0 1000) (Traced.Trace.mk [] []) 7 168
      (by simp only [ramp_length]) (by norm_num) (by norm_num) (by norm_num) (by norm_num),
    (exact_coverage 0x12345678 3 (ramp 1000) (by norm_num)
      (by rw [ramp_length]; norm_num)).2.2.2.2.1 (Cursor.mk 0 0 1000) (Traced.Trace.mk [] []) 5 80
      (by simp only [ramp_length]) (by norm_num) (by norm_num) (by norm_num) (by norm_num),
    (exact_coverage 0x12345678 3 (ramp 1000) (by norm_num)
      (by rw [ramp_length]; norm_num)).2.2.2.2.2⟩

/-! ### The 32-bit host -/

namespace X86

namespace Host32

theorem pack32 {lo hi : Nat} (hlo : lo < 2 ^ 32) (hhi : hi < 2 ^ 32) :
    ((hi <<< 32) % 2 ^ 64) ||| lo = lo + 2 ^ 32 * hi := by
  have h1 : hi <<< 32 = 2 ^ 32 * hi := by rw [Nat.shiftLeft_eq, Nat.mul_comm]
  have h2 : 2 ^ 32 * hi < 2 ^ 64 := by
    have : (2 : Nat) ^ 64 = 2 ^ 32 * 2 ^ 32 := by norm_num
    rw [this]
    exact Nat.mul_lt_mul_of_le_of_lt (le_refl _) hhi (by norm_num)
  rw [h1, Nat.mod_eq_of_lt h2, ← Nat.mul_add_lt_is_or hlo, Nat.add_comm]

/-- The shim `mm_cvtsi128_si64` returns the low 64 bits, as on the 64-bit host. -/
theorem mm_cvtsi128_si64_eq (v : Nat) :
    mm_cvtsi128_si64 v = lane0 v ∧ mm_cvtsi128_si64 v = X86.mm_cvtsi128_si64 v := by
  have h : mm_cvtsi128_si64 v = v % 2 ^ 64 := by
    unfold mm_cvtsi128_si64 _mm_cvtsi128_si32 _mm_extract_epi32
    simp only []
    rw [pack32 (Nat.mod_lt _ (by norm_num)) (Nat.mod_lt _ (by norm_num)),
      Nat.shiftRight_eq_div_pow]
    norm_num
    omega
  exact ⟨h, h⟩

/-- The shim `mm_extract_epi64` returns lane 0 for index 0 and lane 1 otherwise, as on the
64-bit host. -/
theorem mm_extract_epi64_eq (v idx : Nat) :
    mm_extract_epi64 v idx = (if idx = 0 then lane0 v else lane1 v) ∧
    mm_extract_epi64 v idx = X86.mm_extract_epi64 v idx := by
  have h : mm_extract_epi64 v idx = if idx = 0 then v % 2 ^ 64 else (v >>> 64) % 2 ^ 64 := by
    unfold mm_extract_epi64 _mm_cvtsi128_si32 _mm_extract_epi32
    simp only []
    by_cases hi : idx = 0
    · simp only [hi, if_true]
      rw [pack32 (Nat.mod_lt _ (by norm_num)) (Nat.mod_lt _ (by norm_num)),
        Nat.shiftRight_eq_div_pow]
      norm_num
      omega
    · simp only [hi, if_false]
      rw [pack32 (Nat.mod_lt _ (by norm_num)) (Nat.mod_lt _ (by norm_num))]
      simp only [Nat.shiftRight_eq_div_pow]
      norm_num
      omega
  refine ⟨h, ?_⟩
  rw [h]
  unfold X86.mm_extract_epi64 _mm_cvtsi128_si64 _mm_srli_si128
  rfl

/-- The shim `mm_cvtsi64_si128` puts a 64-bit value in the low lane with zero above, as on
the 64-bit host. -/
theorem mm_cvtsi64_si128_eq (val : Nat) :
    mm_cvtsi64_si128 val = val % 2 ^ 64 ∧ mm_cvtsi64_si128 val = X86.mm_cvtsi64_si128 val := by
  have h : mm_cvtsi64_si128 val = val % 2 ^ 64 := by
    unfold mm_cvtsi64_si128 _mm_cvtsi32_si128 _mm_slli_si128 _mm_or_si128
    simp only [Nat.mod_mod]
    have hhi : (val >>> 32) % 2 ^ 32 < 2 ^ 32 := Nat.mod_lt _ (by norm_num)
    have h1 : ((val >>> 32) % 2 ^ 32) <<< (8 * 4) = 2 ^ 32 * ((val >>> 32) % 2 ^ 32) := by
      rw [Nat.shiftLeft_eq, Nat.mul_comm]
    have h2 : 2 ^ 32 * ((val >>> 32) % 2 ^ 32) < 2 ^ 128 := by
      have : (2 : Nat) ^ 128 = 2 ^ 32 * 2 ^ 96 := by norm_num
      rw [this]
      exact Nat.mul_lt_mul_of_le_of_lt (le_refl _) (lt_trans hhi (by norm_num)) (by norm_num)
    rw [h1, Nat.mod_eq_of_lt h2, Nat.or_comm,
      ← Nat.mul_add_lt_is_or (Nat.mod_lt _ (by norm_num)), Nat.shiftRight_eq_div_pow]
    norm_num
    omega
  exact ⟨h, h⟩

theorem sem_crc32c_u32 (c v : Nat) : sem (crc32c_u32 c v) = (sem c + sem v) * xR ^ 32 := by
  rw [crc32c_u32, sem_crcBits, sem_xor]

theorem crc32c_u32_lt {c v : Nat} (hc : c < 2 ^ 32) (hv : v < 2 ^ 32) :
    crc32c_u32 c v < 2 ^ 32 := by
  apply crcBits_lt
  exact lt_of_lt_of_le (Nat.xor_lt_two_pow hc hv) (Nat.pow_le_pow_right (by decide) (by omega))

/-- The shim `mm_crc32_u64`, two 32-bit CRC steps (low half, then high half), is the
native 64-bit CRC step. -/
theorem mm_crc32_u64_eq {crc val : Nat} (hc : crc < 2 ^ 32) (hv : val < 2 ^ 64) :
    mm_crc32_u64 crc val = crc32c_u64 crc val := by
  have hlo : val % 2 ^ 32 < 2 ^ 32 := Nat.mod_lt _ (by norm_num)
  have hhi : (val >>> 32) % 2 ^ 32 < 2 ^ 32 := Nat.mod_lt _ (by norm_num)
  have hd : (val >>> 32) % 2 ^ 32 = val / 2 ^ 32 := by
    rw [Nat.shiftRight_eq_div_pow]
    apply Nat.mod_eq_of_lt
    rw [Nat.div_lt_iff_lt_mul (by norm_num)]
    calc val < 2 ^ 64 := hv
      _ = 2 ^ 32 * 2 ^ 32 := by norm_num
  unfold mm_crc32_u64 _mm_crc32_u32
  simp only []
  apply sem_inj (crc32c_u32_lt (crc32c_u32_lt hc hlo) hhi) (crc32c_u64_lt hc hv)
  rw [sem_crc32c_u32, sem_crc32c_u32, sem_crc32c_u64, sem_split val 32, hd]
  linear_combination (-(sem (val / 2 ^ 32) * xR ^ 32)) * (y_pow_mul_x_pow 32)

theorem host32_xnmodpSq_eq (acc : Nat) : xnmodpSq acc = X86.xnmodpSq acc := by
  unfold xnmodpSq X86.xnmodpSq
  exact (mm_cvtsi128_si64_eq _).2

theorem xnmodpPop_eq (fuel : Nat) :
    ∀ stack acc, xnmodpPop fuel stack acc = CrcFast.xnmodpPop X86.xnmodpSq fuel stack acc := by
  induction fuel with
  | zero => intro stack acc; rfl
  | succ fuel ih =>
    intro stack acc
    rw [xnmodpPop, CrcFast.xnmodpPop]
    simp only []
    rw [host32_xnmodpSq_eq, mm_crc32_u64_eq (by norm_num) (Nat.mod_lt _ (by norm_num)), ih]

theorem xnmodp_eq (n : Nat) : xnmodp n = X86.xnmodp n := by
  unfold xnmodp X86.xnmodp xnmodpWith
  generalize xnmodpPush 64 n (not64 1) = r
  cases r with
  | none => simp only [Option.none_bind]
  | some p =>
    obtain ⟨n', s'⟩ := p
    simp only [Option.some_bind]
    exact xnmodpPop_eq 64 _ _

/-- On the 32-bit host `crc_shift` advances a state by `shiftBits32 nbytes` bits. -/
theorem crc_shift_spec {c : Nat} (nbytes : Nat) (hc : c < 2 ^ 32) :
    ∃ v, crc_shift c nbytes = some v ∧ v < 2 ^ 63 ∧
      sem v * xR ^ 64 = sem c * xR ^ shiftBits32 nbytes := by
  have hn : (nbytes * 8 + (2 ^ 32 - 33)) % 2 ^ 32 < 2 ^ 64 :=
    lt_trans (Nat.mod_lt _ (by norm_num)) (by norm_num)
  obtain ⟨p, hp, hlt, hs⟩ := xnmodpWith_spec X86.xnmodpSq X86.x86_sqOK _ hn
  refine ⟨clmul64 c p, ?_, clmul64_lt32 hc hlt, ?_⟩
  · rw [crc_shift, xnmodp_eq, X86.xnmodp, hp, Option.map_some', X86.x86_clmul_scalar_eq hc hlt]
  · rw [sem_clmul64 (lt_trans hc (by norm_num)) (lt_trans hlt (by norm_num)), shiftBits32,
      pow_add, ← hs]
    ring

/-- Below `2 ^ 29 + 5` bytes the exponent does not wrap on the 32-bit host. -/
theorem shiftBits32_eq {nbytes : Nat} (h5 : 5 ≤ nbytes) (h : nbytes * 8 - 33 < 2 ^ 32) :
    shiftBits32 nbytes = 8 * nbytes := by
  unfold shiftBits32
  omega

theorem sub32_eq {a b : Nat} (hb : b ≤ a) (ha : a < 2 ^ 32) : sub32 a b = a - b := by
  unfold sub32
  rw [Nat.mod_eq_of_lt (lt_of_le_of_lt hb ha)]
  omega

theorem bind_load64_congr {α : Type} (mem : List (Fin 256)) (off : Nat)
    (f g : Nat → Option α) (h : ∀ w, w < 2 ^ 64 → f w = g w) :
    (load64 mem off).bind f = (load64 mem off).bind g := by
  unfold load64 loadBytes
  split
  · rename_i hh
    simp only [Option.some_bind]
    exact h _ (slice_lt hh)
  · simp only [Option.none_bind]

theorem headWord_eq (addr : Nat) {mem : List (Fin 256)} {c : Cursor} (hc : c.crc0 < 2 ^ 32) :
    headWord addr mem c = CrcFast.headWord addr mem c := by
  unfold headWord CrcFast.headWord
  split
  · apply bind_load64_congr
    intro w hw
    rw [mm_crc32_u64_eq hc hw]
  · rfl

theorem tailWords_eq (mem : List (Fin 256)) (fuel : Nat) :
    ∀ c : Cursor, c.crc0 < 2 ^ 32 → tailWords mem fuel c = CrcFast.tailWords mem fuel c := by
  induction fuel with
  | zero => intro c _; rfl
  | succ fuel ih =>
    intro c hc
    rw [tailWords, CrcFast.tailWords]
    split
    · apply bind_load64_congr
      intro w hw
      rw [mm_crc32_u64_eq hc hw]
      exact ih _ (crc32c_u64_lt hc hw)
    · rfl

theorem words3 {mem : List (Fin 256)} {off c : Nat} (h : off + 24 ≤ mem.length)
    (hc : c < 2 ^ 32) :
    mm_crc32_u64 (mm_crc32_u64 (mm_crc32_u64 c (leBytes (slice mem off 8)))
      (leBytes (slice mem (off + 8) 8))) (leBytes (slice mem (off + 16) 8))
      = refRaw c (slice mem off 24) := by
  have h1 := slice64_lt (show off + 8 ≤ mem.length by omega)
  have h2 := slice64_lt (show off + 8 + 8 ≤ mem.length by omega)
  have h3 := slice64_lt (show off + 16 + 8 ≤ mem.length by omega)
  rw [mm_crc32_u64_eq hc h1, mm_crc32_u64_eq (crc32c_u64_lt hc h1) h2,
    mm_crc32_u64_eq (crc32c_u64_lt (crc32c_u64_lt hc h1) h2) h3, refRaw_words3 h hc]

theorem scalarChunk_eq {mem : List (Fin 256)} {klen : Nat} {s : VecState}
    (h0 : s.crc0 < 2 ^ 32) (h1 : s.crc1 < 2 ^ 32) (h2 : s.crc2 < 2 ^ 32)
    (h : s.buf + klen * 2 + 24 ≤ mem.length) :
    scalarChunk mem klen s = X86.scalarChunk mem klen s := by
  rw [X86.scalarChunk_spec h0 h1 h2 h]
  simp only [scalarChunk, bind_pure_comp, Option.bind_eq_bind, Option.pure_def,
    load64_eq (show s.buf + 8 ≤ mem.length by omega),
    load64_eq (show s.buf + 8 + 8 ≤ mem.length by omega),
    load64_eq (show s.buf + 16 + 8 ≤ mem.length by omega),
    load64_eq (show s.buf + klen + 8 ≤ mem.length by omega),
    load64_eq (show s.buf + klen + 8 + 8 ≤ mem.length by omega),
    load64_eq (show s.buf + klen + 16 + 8 ≤ mem.length by omega),
    load64_eq (show s.buf + klen * 2 + 8 ≤ mem.length by omega),
    load64_eq (show s.buf + klen * 2 + 8 + 8 ≤ mem.length by omega),
    load64_eq (show s.buf + klen * 2 + 16 + 8 ≤ mem.length by omega),
    Option.some_bind, Option.map_some',
    words3 (show s.buf + 24 ≤ mem.length by omega) h0,
    words3 (show s.buf + klen + 24 ≤ mem.length by omega) h1,
    words3 (show s.buf + klen * 2 + 24 ≤ mem.length by omega) h2]

theorem mainBody_eq {mem : List (Fin 256)} {klen : Nat} {s : VecState}
    (hb : s.Bounded) (hv : s.buf2 + 64 ≤ mem.length) (h : s.buf + klen * 2 + 24 ≤ mem.length) :
    mainBody mem klen s = X86.mainBody mem klen s := by
  obtain ⟨_, _, _, _, c0, c1, c2⟩ := hb
  simp only [mainBody, X86.mainBody, bind_pure_comp, Option.bind_eq_bind, Option.pure_def,
    load128_eq (show s.buf2 + 16 ≤ mem.length by omega),
    load128_eq (show s.buf2 + 16 + 16 ≤ mem.length by omega),
    load128_eq (show s.buf2 + 32 + 16 ≤ mem.length by omega),
    load128_eq (show s.buf2 + 48 + 16 ≤ mem.length by omega),
    Option.some_bind, Option.map_some']
  rw [scalarChunk_eq (by exact c0) (by exact c1) (by exact c2) (by exact h)]

theorem mainLoop_eq (mem : List (Fin 256)) (klen : Nat) (k : Nat) :
    ∀ (fuel : Nat) (s : VecState), k < fuel → s.Bounded →
      136 * k + 8 ≤ s.len → s.len < 136 * (k + 1) + 8 →
      s.buf2 + 64 * k ≤ mem.length → s.buf + klen * 2 + 24 * k ≤ mem.length →
      mainLoop mem klen fuel s = X86.mainLoop mem klen fuel s := by
  induction k with
  | zero =>
    intro fuel s hf hb h1 h2 _ _
    obtain ⟨fuel, rfl⟩ : ∃ f, fuel = f + 1 := ⟨fuel - 1, by omega⟩
    rw [mainLoop, X86.mainLoop, if_neg (by omega), if_neg (by omega)]
  | succ k ih =>
    intro fuel s hf hb h1 h2 hv hs
    obtain ⟨fuel, rfl⟩ : ∃ f, fuel = f + 1 := ⟨fuel - 1, by omega⟩
    rw [mainLoop, X86.mainLoop, if_pos (by omega), if_pos (by omega),
      mainBody_eq hb (by omega) (by omega)]
    obtain ⟨s1, e1, hb1, _, _, _, _, p1, p2, l1⟩ :=
      X86.mainBody_spec hb (show s.buf2 + 64 ≤ mem.length by omega)
        (show s.buf + klen * 2 + 24 ≤ mem.length by omega)
    rw [e1, Option.some_bind, Option.some_bind]
    exact ih fuel s1 (by omega) hb1 (by omega) (by omega) (by omega) (by omega)

end Host32

end X86

namespace X86

namespace Host32

theorem host32_extract_zero (v : Nat) : mm_extract_epi64 v 0 = lane0 v := by
  rw [(mm_extract_epi64_eq v 0).1, if_pos rfl]

theorem host32_extract_one (v : Nat) : mm_extract_epi64 v 1 = lane1 v := by
  rw [(mm_extract_epi64_eq v 1).1, if_neg (by decide)]

/-- The interleaved phase on the 32-bit host: the three partial results are advanced by
the numbers of bits that `crc_shift` computes in the 32-bit `size_t`. -/
theorem host32_vectorPhase_spec {mem : List (Fin 256)} {c : Cursor} (hw : c.WF mem)
    (h144 : 144 ≤ c.len) (h32 : c.len < 2 ^ 32) (blk : Nat) (hblk : blk = (c.len - 8) / 136) :
    ∃ c', vectorPhase mem c = some c' ∧ c'.buf = c.buf + (136 * blk + 8) ∧
      c'.len = c.len - (136 * blk + 8) ∧ c'.crc0 < 2 ^ 32 ∧
      sem c'.crc0 =
        feedSem (sem c.crc0) (slice mem c.buf (64 * blk)) * xR ^ shiftBits32 (blk * 24 * 3 + 8)
        + feedSem 0 (slice mem (c.buf + 64 * blk) (blk * 24))
            * xR ^ shiftBits32 (blk * 24 * 2 + 8)
        + feedSem 0 (slice mem (c.buf + 64 * blk + blk * 24) (blk * 24))
            * xR ^ shiftBits32 (blk * 24 + 8)
        + feedSem 0 (slice mem (c.buf + 64 * blk + blk * 24 + blk * 24) (blk * 24 + 8)) := by
  obtain ⟨hlen, hcrc⟩ := hw
  unfold vectorPhase
  simp only [Option.bind_eq_bind]
  have key : 136 * ((c.len - 8) / 136) + 8 ≤ c.len ∧ c.len < 136 * ((c.len - 8) / 136) + 144 := by
    omega
  rw [← hblk] at key ⊢
  clear hblk
  obtain ⟨hk1, hk2⟩ := key
  have hbk : 1 ≤ blk := by omega
  -- first chunk and main loop
  obtain ⟨s0, e0, hb0, w0, z0, z1, z2, p0, q0, l0⟩ :=
    firstChunk_spec blk hcrc (show c.buf + 64 ≤ mem.length by omega)
  obtain ⟨s1, e1, hb1, w1, c0, c1, c2, p1, q1, l1⟩ :=
    mainLoop_spec mem (blk * 24) (blk - 1) (s0.len + 1) s0
      (by omega) hb0 (by omega) (by omega) (by omega) (by omega)
  have e1' := mainLoop_eq mem (blk * 24) (blk - 1) (s0.len + 1) s0
      (by omega) hb0 (by omega) (by omega) (by omega) (by omega)
  rw [e1] at e1'
  obtain ⟨hx, sx⟩ := reduceLanes_spec hb1
  obtain ⟨_, _, _, _, b0, b1, b2⟩ := hb1
  -- the three scalar streams
  have hR0 : refRaw s1.crc0 (slice mem s1.buf 24) = refRaw 0 (slice mem (c.buf + 64 * blk) (blk * 24)) := by
    rw [c0, z0, p1, refRaw_slice_add, p0]
    congr 2 <;> omega
  have hR1 : refRaw s1.crc1 (slice mem (s1.buf + blk * 24) 24)
      = refRaw 0 (slice mem (c.buf + 64 * blk + blk * 24) (blk * 24)) := by
    rw [c1, z1, p1, show s0.buf + 24 * (blk - 1) + blk * 24 = s0.buf + blk * 24 + 24 * (blk - 1) by omega,
      refRaw_slice_add, p0]
    congr 2 <;> omega
  have hR2 : refRaw s1.crc2 (slice mem (s1.buf + blk * 24 * 2) 24)
      = refRaw 0 (slice mem (c.buf + 64 * blk + blk * 24 + blk * 24) (blk * 24)) := by
    rw [c2, z2, p1,
      show s0.buf + 24 * (blk - 1) + blk * 24 * 2 = s0.buf + blk * 24 * 2 + 24 * (blk - 1) by omega,
      refRaw_slice_add, p0]
    congr 2 <;> omega
  have hW : vsem (reduceLanes s1) = feedSem (sem c.crc0) (slice mem c.buf (64 * blk)) := by
    rw [sx, w1, w0, q0, feedSem_slice_add]
    congr 2; omega
  have e2 := X86.scalarChunk_spec b0 b1 b2
    (show s1.buf + blk * 24 * 2 + 24 ≤ mem.length by omega)
  rw [← scalarChunk_eq b0 b1 b2 (show s1.buf + blk * 24 * 2 + 24 ≤ mem.length by omega),
    hR0, hR1, hR2] at e2
  have r0 := refRaw_lt (slice mem (c.buf + 64 * blk) (blk * 24)) (show 0 < 2 ^ 32 by norm_num)
  have r1 := refRaw_lt (slice mem (c.buf + 64 * blk + blk * 24) (blk * 24))
    (show 0 < 2 ^ 32 by norm_num)
  have r2 := refRaw_lt (slice mem (c.buf + 64 * blk + blk * 24 + blk * 24) (blk * 24))
    (show 0 < 2 ^ 32 by norm_num)
  obtain ⟨hr, sr⟩ := sem_reduce hx
  have hred : mm_crc32_u64 (mm_crc32_u64 0 (lane0 (reduceLanes s1))) (lane1 (reduceLanes s1))
      = crc32c_u64 (crc32c_u64 0 (lane0 (reduceLanes s1))) (lane1 (reduceLanes s1)) := by
    rw [mm_crc32_u64_eq (by norm_num) (lane0_lt _),
      mm_crc32_u64_eq (crc32c_u64_lt (by norm_num) (lane0_lt _)) (lane1_lt _)]
  obtain ⟨v0, e3, hv0, sv0⟩ := crc_shift_spec (blk * 24 * 2 + 8) r0
  obtain ⟨v1, e4, hv1, sv1⟩ := crc_shift_spec (blk * 24 + 8) r1
  obtain ⟨v2, e5, hv2, sv2⟩ := crc_shift_spec (blk * 24 * 3 + 8) hr
  have hlast : s1.buf + 24 + blk * 24 * 2 = c.buf + 64 * blk + blk * 24 + blk * 24 + blk * 24 := by
    omega
  have hin : c.buf + 64 * blk + blk * 24 + blk * 24 + blk * 24 + 8 ≤ mem.length := by omega
  have e6 := load64_eq hin
  rw [e0, Option.some_bind, e1', Option.some_bind, e2, Option.some_bind]
  simp only [host32_extract_zero, host32_extract_one, _mm_xor_si128, hlast, hred]
  rw [e3, Option.some_bind, e4, Option.some_bind, e5, Option.some_bind, e6, Option.some_bind]
  have h64 : (2 : Nat) ^ 63 < 2 ^ 64 := by norm_num
  have hv01 : v0 ^^^ v1 < 2 ^ 64 :=
    Nat.xor_lt_two_pow (lt_trans hv0 h64) (lt_trans hv1 h64)
  rw [lane0_of_lt hv01, lane0_of_lt (lt_trans hv2 h64)]
  have hvc : v0 ^^^ v1 ^^^ v2 < 2 ^ 64 := Nat.xor_lt_two_pow hv01 (lt_trans hv2 h64)
  have hwv := Nat.xor_lt_two_pow (slice64_lt hin) hvc
  rw [mm_crc32_u64_eq r2 hwv]
  refine ⟨_, rfl, ?_, ?_, ?_, ?_⟩
  · show c.buf + 64 * blk + blk * 24 + blk * 24 + blk * 24 + 8 = _
    omega
  · show sub32 s1.len 8 = _
    rw [sub32_eq (by omega) (by omega)]
    omega
  · exact crc32c_u64_lt r2 hwv
  · show sem (crc32c_u64 _ _) = _
    rw [sem_crc32c_u64, sem_xor, sem_xor, sem_xor,
      show blk * 24 + 8 = blk * 24 + 8 from rfl, ← feedSem_slice_add,
      feedSem_slice _ hin, ← sem_slice hin]
    rw [sr, hW] at sv2
    have f0 := sem_refRaw 0 (slice mem (c.buf + 64 * blk) (blk * 24))
    have f1 := sem_refRaw 0 (slice mem (c.buf + 64 * blk + blk * 24) (blk * 24))
    have f2 := sem_refRaw 0 (slice mem (c.buf + 64 * blk + blk * 24 + blk * 24) (blk * 24))
    rw [sem_zero] at f0 f1 f2
    rw [← f0, ← f1, ← f2]
    linear_combination sv0 + sv1 + sv2

end Host32

end X86

namespace X86

namespace Host32

/-- While no exponent wraps, the interleaved phase of the 32-bit host feeds the next
bytes of the buffer. -/
theorem vectorPhase_adv {mem : List (Fin 256)} {c : Cursor} (hw : c.WF mem)
    (h144 : 144 ≤ c.len) (hlt : c.len < 1014089584) :
    ∃ c', vectorPhase mem c = some c' ∧ Cursor.Adv mem c c' := by
  obtain ⟨c', e, pb, pl, hc', hs⟩ :=
    host32_vectorPhase_spec hw h144 (lt_trans hlt (by norm_num)) ((c.len - 8) / 136) rfl
  obtain ⟨hlen, hcrc⟩ := hw
  have key : 136 * ((c.len - 8) / 136) + 8 ≤ c.len ∧ c.len < 136 * ((c.len - 8) / 136) + 144 := by
    omega
  generalize (c.len - 8) / 136 = blk at key e pb pl hs
  obtain ⟨hk1, hk2⟩ := key
  have hbk : 1 ≤ blk := by omega
  refine ⟨c', e, 136 * blk + 8, hk1, pb, pl, ?_⟩
  apply sem_inj hc' (refRaw_lt _ hcrc)
  have hsplit : 136 * blk + 8 = 64 * blk + (blk * 24 + (blk * 24 + (blk * 24 + 8))) := by omega
  have hR : feedSem (sem c.crc0) (slice mem c.buf (136 * blk + 8))
      = feedSem (sem c.crc0) (slice mem c.buf (64 * blk)) * xR ^ (8 * (blk * 24 * 3 + 8))
        + feedSem 0 (slice mem (c.buf + 64 * blk) (blk * 24)) * xR ^ (8 * (blk * 24 * 2 + 8))
        + feedSem 0 (slice mem (c.buf + 64 * blk + blk * 24) (blk * 24))
            * xR ^ (8 * (blk * 24 + 8))
        + feedSem 0 (slice mem (c.buf + 64 * blk + blk * 24 + blk * 24) (blk * 24 + 8)) := by
    rw [hsplit, ← feedSem_slice_add, ← feedSem_slice_add, ← feedSem_slice_add,
      feedSem_slice
        (feedSem (feedSem (feedSem (sem c.crc0) (slice mem c.buf (64 * blk)))
          (slice mem (c.buf + 64 * blk) (blk * 24)))
          (slice mem (c.buf + 64 * blk + blk * 24) (blk * 24)))
        (show c.buf + 64 * blk + blk * 24 + blk * 24 + (blk * 24 + 8) ≤ mem.length by omega),
      feedSem_slice
        (feedSem (feedSem (sem c.crc0) (slice mem c.buf (64 * blk)))
          (slice mem (c.buf + 64 * blk) (blk * 24)))
        (show c.buf + 64 * blk + blk * 24 + blk * 24 ≤ mem.length by omega),
      feedSem_slice (feedSem (sem c.crc0) (slice mem c.buf (64 * blk)))
        (show c.buf + 64 * blk + blk * 24 ≤ mem.length by omega)]
    have e1 : 8 * (blk * 24 * 3 + 8)
        = 8 * (blk * 24) + (8 * (blk * 24) + 8 * (blk * 24 + 8)) := by omega
    have e2 : 8 * (blk * 24 * 2 + 8) = 8 * (blk * 24) + 8 * (blk * 24 + 8) := by omega
    rw [e1, e2]
    simp only [pow_add]
    ring
  rw [hs, shiftBits32_eq (show 5 ≤ blk * 24 * 3 + 8 by omega) (by omega),
    shiftBits32_eq (show 5 ≤ blk * 24 * 2 + 8 by omega) (by omega),
    shiftBits32_eq (show 5 ≤ blk * 24 + 8 by omega) (by omega), sem_refRaw, hR]

/-- On a 32-bit host the engine returns the reference CRC32C for every buffer shorter than
1014089584 bytes. -/
theorem host32_correct (seed addr : Nat) (mem : List (Fin 256)) (hs : seed < 2 ^ 32)
    (hl : mem.length < 1014089584) :
    crc32_iscsi_impl seed addr mem = some (crc32c_reference seed mem) := by
  have hw0 : Cursor.WF mem ⟨not32 seed, 0, mem.length⟩ := ⟨by simp, not32_lt hs⟩
  obtain ⟨c1, e1, a1⟩ := headLoop_spec addr mem (mem.length + 1) _ (Nat.lt_succ_self _) hw0
  have hw1 := a1.wf hw0
  obtain ⟨c2, e2, a2⟩ := headWord_spec addr mem c1 hw1
  rw [← headWord_eq addr hw1.2] at e2
  have a12 := a1.trans a2
  have hw2 := a12.wf hw0
  have hlen2 : c2.len ≤ mem.length := a12.len_le
  have tail : ∀ c3, Cursor.Adv mem ⟨not32 seed, 0, mem.length⟩ c3 →
      ((tailWords mem (c3.len + 1) c3).bind fun c =>
        (tailBytes mem (c.len + 1) c).bind fun c => pure (not32 c.crc0))
        = some (crc32c_reference seed mem) := by
    intro c3 a3
    rw [tailWords_eq mem _ c3 (a3.wf hw0).2]
    exact epilogue_spec a3 hs
  unfold crc32_iscsi_impl
  simp only [Option.bind_eq_bind]
  rw [e1, Option.some_bind, e2, Option.some_bind]
  split
  · rename_i h
    obtain ⟨c3, e3, a3⟩ := vectorPhase_adv hw2 h (by omega)
    rw [e3, Option.some_bind]
    exact tail c3 (a12.trans a3)
  · rw [Option.some_bind]
    exact tail c2 a12

end Host32

end X86

/-- The residue of `x ^ (2 ^ 32)` is not 1: `xnmodp(2^32)` is `0x20000000`, the power `x ^ 2`. -/
theorem x_pow_two_pow_32_ne_one : xR ^ (2 ^ 32) ≠ 1 := by
  intro h
  obtain ⟨r, hr, hlt, hs⟩ := xnmodpWith_spec X86.xnmodpSq X86.x86_sqOK (2 ^ 32) (by norm_num)
  have hv : xnmodpWith X86.xnmodpSq (2 ^ 32) = some 0x20000000 := by decide!
  rw [hv] at hr
  cases hr
  have h1 : sem 0x80000000 * xR ^ 31 = 1 := by
    have : (0x80000000 : Nat) = 2 ^ 31 := by norm_num
    rw [this, sem_two_pow, y_pow_mul_x_pow]
  have h2 : sem 0x20000000 = sem 0x80000000 := by
    apply mul_x_pow_cancel 31
    rw [hs, h, h1]
  have := sem_inj (by norm_num) (by norm_num) h2
  norm_num at this

namespace X86

namespace Host32

/-- The 32-bit host on an aligned buffer of `136 * blk + 8` zero bytes: the state is
advanced by `8 * 64 * blk` bits for the vector stream and by what `crc_shift` computes for
the rest. -/
theorem zeros_result (seed addr blk n : Nat) (hs : seed < 2 ^ 32) (ha : addr &&& 7 = 0)
    (ha8 : addr &&& 8 = 0) (hb : 1 ≤ blk) (hn : n = 136 * blk + 8) (h32 : n < 2 ^ 32) :
    ∃ r, crc32_iscsi_impl seed addr (List.replicate n 0) = some (not32 r) ∧ r < 2 ^ 32 ∧
      sem r = sem (not32 seed) * xR ^ (8 * (64 * blk)) * xR ^ shiftBits32 (blk * 24 * 3 + 8) := by
  generalize hm : List.replicate n (0 : Fin 256) = mem
  have hlen : mem.length = n := by rw [← hm, List.length_replicate]
  have hsl : ∀ off m, off + m ≤ n → slice mem off m = List.replicate m 0 := by
    intro off m h
    rw [← hm]
    exact slice_replicate n off m 0 h
  have hw : Cursor.WF mem ⟨not32 seed, 0, mem.length⟩ := ⟨by simp, not32_lt hs⟩
  obtain ⟨c', e, pb, pl, hc', hsem⟩ :=
    host32_vectorPhase_spec hw (by show 144 ≤ mem.length; omega) (by show mem.length < 2 ^ 32; omega)
      blk (by show blk = (mem.length - 8) / 136; omega)
  simp only at pb pl hsem
  have hl0 : c'.len = 0 := by omega
  unfold crc32_iscsi_impl
  simp only [Option.bind_eq_bind]
  rw [headLoop, if_neg (by simp [ha]), Option.some_bind, headWord, if_neg (by simp [ha8]),
    Option.some_bind, if_pos (by show mem.length ≥ 144; omega), e, Option.some_bind,
    tailWords, if_neg (by omega), Option.some_bind, tailBytes, if_neg (by simp [hl0]),
    Option.some_bind]
  refine ⟨c'.crc0, rfl, hc', ?_⟩
  rw [hsem, hsl _ _ (show 0 + 64 * blk ≤ n by omega),
    hsl _ _ (show 0 + 64 * blk + blk * 24 ≤ n by omega),
    hsl _ _ (show 0 + 64 * blk + blk * 24 + blk * 24 ≤ n by omega),
    hsl _ _ (show 0 + 64 * blk + blk * 24 + blk * 24 + (blk * 24 + 8) ≤ n by omega),
    feedSem_zeros, feedSem_zeros, feedSem_eq, feedSem_zeros, List.length_replicate]
  ring

end Host32

end X86

/-- On the 32-bit host the x86 engine returns a wrong CRC for 1014089584 zero bytes at an
aligned address with seed `0x7FFFFFFF`: the 64-bit host returns the reference value, the
32-bit host another one, because `crc_shift(…, klen * 3 + 8)` with
`klen * 3 + 8 = 536870960` computes the exponent `8 * nbytes - 33` modulo `2 ^ 32`. -/
theorem host32_wrong_crc :
    X86.crc32_iscsi_impl 0x7FFFFFFF 0 (List.replicate 1014089584 0)
      = some (crc32c_reference 0x7FFFFFFF (List.replicate 1014089584 0)) ∧
    ∃ r, X86.Host32.crc32_iscsi_impl 0x7FFFFFFF 0 (List.replicate 1014089584 0) = some r ∧
      r ≠ crc32c_reference 0x7FFFFFFF (List.replicate 1014089584 0) := by
  refine ⟨X86.x86_correct _ _ _ (by norm_num)
    (by rw [List.length_replicate]; norm_num), ?_⟩
  obtain ⟨r, e, hr, hs⟩ :=
    X86.Host32.zeros_result 0x7FFFFFFF 0 7456541 1014089584 (by norm_num) rfl rfl
      (by norm_num) (by norm_num) (by norm_num)
  refine ⟨not32 r, e, ?_⟩
  intro h
  have h1 : r = refRaw (not32 0x7FFFFFFF) (List.replicate 1014089584 0) := not32_inj h
  have h2 := congrArg sem h1
  rw [hs, sem_refRaw_zeros] at h2
  have e1 : shiftBits32 (7456541 * 24 * 3 + 8) = 384 := by
    unfold shiftBits32
    norm_num
  have e2 : 8 * 1014089584 = 8 * (64 * 7456541) + 384 + 2 ^ 32 := by norm_num
  have e3 : sem (not32 0x7FFFFFFF) * xR ^ 31 = 1 := by
    have : not32 0x7FFFFFFF = 2 ^ 31 := by decide
    rw [this, sem_two_pow, y_pow_mul_x_pow]
  rw [e1, e2, pow_add, pow_add] at h2
  have e4 := y_pow_mul_x_pow (8 * (64 * 7456541))
  have e5 := y_pow_mul_x_pow 384
  apply x_pow_two_pow_32_ne_one
  generalize sem (not32 0x7FFFFFFF) = s at h2 e3
  generalize xR ^ (8 * (64 * 7456541)) = X1 at h2 e4
  generalize yR ^ (8 * (64 * 7456541)) = Y1 at e4
  generalize xR ^ 384 = X2 at h2 e5
  generalize yR ^ 384 = Y2 at e5
  generalize xR ^ 31 = X0 at e3
  generalize xR ^ (2 ^ 32) = X3 at h2 ⊢
  linear_combination (-(X0 * Y1 * Y2)) * h2 + (-(X3 - 1)) * e3
    + (-(X3 - 1) * (s * X0)) * e4 + (-(X3 - 1) * (s * X0) * (Y1 * X1)) * e5

/-- C16. The 32-bit-host shims of the x86 back-end agree with the 64-bit-host definitions on
every input: `mm_crc32_u64` as two 32-bit CRC steps (low half, then high half) is the native
64-bit step; `mm_extract_epi64(v, 0)` and `mm_cvtsi128_si64(v)` return the low 64 bits of `v`
and `mm_extract_epi64(v, 1)` the high 64 bits; `mm_cvtsi64_si128(val)` has `val` in its low
64 bits and zero above. With them `crc32_iscsi_impl` returns the same value on both hosts
for every buffer shorter than 1014089584 bytes. It does not for all buffers: on
1014089584 zero bytes at an aligned address with seed `0x7FFFFFFF` the 64-bit host returns
the reference CRC and the 32-bit host another value, because `crc_shift` computes
`nbytes * 8 - 33` in the 32-bit `size_t` and the argument `klen * 3 + 8 = 536870960` makes it
wrap. -/
theorem host32_shims :
    (∀ crc val, crc < 2 ^ 32 → val < 2 ^ 64 →
      X86.Host32.mm_crc32_u64 crc val = X86.mm_crc32_u64 crc val) ∧
    (∀ v, X86.Host32.mm_extract_epi64 v 0 = lane0 v ∧
      X86.Host32.mm_extract_epi64 v 0 = X86.mm_extract_epi64 v 0 ∧
      X86.Host32.mm_cvtsi128_si64 v = lane0 v ∧
      X86.Host32.mm_cvtsi128_si64 v = X86.mm_cvtsi128_si64 v ∧
      X86.Host32.mm_extract_epi64 v 1 = lane1 v ∧
      X86.Host32.mm_extract_epi64 v 1 = X86.mm_extract_epi64 v 1) ∧
    (∀ val, val < 2 ^ 64 → X86.Host32.mm_cvtsi64_si128 val = val ∧
      X86.Host32.mm_cvtsi64_si128 val = X86.mm_cvtsi64_si128 val) ∧
    (∀ seed addr (mem : List (Fin 256)), seed < 2 ^ 32 → mem.length < 1014089584 →
      X86.Host32.crc32_iscsi_impl seed addr mem = X86.crc32_iscsi_impl seed addr mem) ∧
    (X86.crc32_iscsi_impl 0x7FFFFFFF 0 (List.replicate 1014089584 0)
        = some (crc32c_reference 0x7FFFFFFF (List.replicate 1014089584 0)) ∧
      ∃ r, X86.Host32.crc32_iscsi_impl 0x7FFFFFFF 0 (List.replicate 1014089584 0) = some r ∧
        r ≠ crc32c_reference 0x7FFFFFFF (List.replicate 1014089584 0)) := by
  refine ⟨?_, ?_, ?_, ?_, host32_wrong_crc⟩
  · intro crc val hc hv
    rw [X86.Host32.mm_crc32_u64_eq hc hv]
    rfl
  · intro v
    exact ⟨X86.Host32.host32_extract_zero v, (X86.Host32.mm_extract_epi64_eq v 0).2,
      (X86.Host32.mm_cvtsi128_si64_eq v).1, (X86.Host32.mm_cvtsi128_si64_eq v).2,
      X86.Host32.host32_extract_one v, (X86.Host32.mm_extract_epi64_eq v 1).2⟩
  · intro val hv
    refine ⟨?_, (X86.Host32.mm_cvtsi64_si128_eq val).2⟩
    rw [(X86.Host32.mm_cvtsi64_si128_eq val).1, Nat.mod_eq_of_lt hv]
  · intro seed addr mem hs hl
    rw [X86.Host32.host32_correct seed addr mem hs hl,
      X86.x86_correct seed addr mem hs (lt_trans hl (by norm_num))]

/-- C18. Every call of `crc_shift` made by the engines passes `nbytes >= 16`, and the
argument it hands to `xnmodp` is the true non-negative integer `8 * nbytes - 33`: nothing
wraps. The traced engines write each call of `crc_shift` to the trace as the pair of
`nbytes` and the argument of `xnmodp`, and return what the engines return. For every seed,
every address and every buffer shorter than 2^61 bytes: every entry of the trace of the x86
engine and of `crc32_iscsi_large_impl` has `nbytes >= 16` and second component
`8 * nbytes - 33` as integers, and `crc32_iscsi_small_impl` makes no call. In the block
`if (len >= 144)` of the x86 engine, entered at a cursor `c`, `klen >= 24` and the calls are
those with `klen * 2 + 8`, `klen + 8`, `klen * 3 + 8`; in the block `if (len >= 192)` of
`crc32_iscsi_large_impl` `blk >= 1` and they are those with `klen * 2 + blk * 144`,
`klen + blk * 144`, `0 + blk * 144`; in its block `if (len >= 32)` `klen >= 8` and they are
those with `klen * 2 + 8`, `klen + 8`. -/
theorem crc_shift_calls (seed addr : Nat) (mem : List (Fin 256)) (hs : seed < 2 ^ 32)
    (h61 : mem.length < 2 ^ 61) :
    (∀ (crc nbytes : Nat) (t : Traced.Trace) (v : Nat) (t' : Traced.Trace),
      Traced.X86.crc_shift crc nbytes t = some (v, t') →
      ∃ n, t'.shifts = t.shifts ++ [(nbytes, n)] ∧ t'.loads = t.loads ∧
        (X86.xnmodp n).map (fun p => X86.clmul_scalar crc p) = some v ∧
        X86.crc_shift crc nbytes = some v) ∧
    (∀ (crc nbytes : Nat) (t : Traced.Trace) (v : Nat) (t' : Traced.Trace),
      Traced.Neon.crc_shift crc nbytes t = some (v, t') →
      ∃ n, t'.shifts = t.shifts ++ [(nbytes, n)] ∧ t'.loads = t.loads ∧
        (Neon.xnmodp n).map (fun p => Neon.clmul_scalar crc p) = some v ∧
        Neon.crc_shift crc nbytes = some v) ∧
    (∃ r t, Traced.X86.crc32_iscsi_impl seed addr mem ⟨[], []⟩ = some (r, t) ∧
      X86.crc32_iscsi_impl seed addr mem = some r ∧
      ∀ e ∈ t.shifts, 16 ≤ e.1 ∧ (e.2 : Int) = 8 * (e.1 : Int) - 33) ∧
    (∃ r t, Traced.Neon.crc32_iscsi_large_impl seed addr mem ⟨[], []⟩ = some (r, t) ∧
      Neon.crc32_iscsi_large_impl seed addr mem = some r ∧
      ∀ e ∈ t.shifts, 16 ≤ e.1 ∧ (e.2 : Int) = 8 * (e.1 : Int) - 33) ∧
    (∃ r t, Traced.Neon.crc32_iscsi_small_impl seed addr mem ⟨[], []⟩ = some (r, t) ∧
      Neon.crc32_iscsi_small_impl seed addr mem = some r ∧ t.shifts = []) ∧
    (∀ (c : Cursor) (t : Traced.Trace) (blk klen : Nat), c.buf + c.len = mem.length →
      c.crc0 < 2 ^ 32 → 144 ≤ c.len → blk = (c.len - 8) / 136 → klen = blk * 24 →
      (24 ≤ klen ∧
        ∃ (c' : Cursor) (t' : Traced.Trace) (n0 n1 n2 : Nat),
          Traced.X86.vectorPhase mem c t = some (c', t') ∧
          X86.vectorPhase mem c = some c' ∧
          t'.shifts = t.shifts ++ [(klen * 2 + 8, n0), (klen + 8, n1), (klen * 3 + 8, n2)] ∧
          (n0 : Int) = 8 * ((klen * 2 + 8 : Nat) : Int) - 33 ∧
          (n1 : Int) = 8 * ((klen + 8 : Nat) : Int) - 33 ∧
          (n2 : Int) = 8 * ((klen * 3 + 8 : Nat) : Int) - 33)) ∧
    (∀ (c : Cursor) (t : Traced.Trace) (blk klen : Nat), c.buf + c.len = mem.length →
      c.crc0 < 2 ^ 32 → 192 ≤ c.len → blk = (c.len - 0) / 192 → klen = blk * 16 →
      (1 ≤ blk ∧
        ∃ (c' : Cursor) (t' : Traced.Trace) (n0 n1 n2 : Nat),
          Traced.Neon.largeVectorPhase mem c t = some (c', t') ∧
          Neon.largeVectorPhase mem c = some c' ∧
          t'.shifts = t.shifts ++ [(klen * 2 + blk * 144, n0), (klen + blk * 144, n1),
            (0 + blk * 144, n2)] ∧
          (n0 : Int) = 8 * ((klen * 2 + blk * 144 : Nat) : Int) - 33 ∧
          (n1 : Int) = 8 * ((klen + blk * 144 : Nat) : Int) - 33 ∧
          (n2 : Int) = 8 * ((0 + blk * 144 : Nat) : Int) - 33)) ∧
    (∀ (c : Cursor) (t : Traced.Trace) (klen : Nat), c.buf + c.len = mem.length →
      c.crc0 < 2 ^ 32 → 32 ≤ c.len → klen = (c.len - 8) / 24 * 8 →
      (8 ≤ klen ∧
        ∃ (c' : Cursor) (t' : Traced.Trace) (n0 n1 : Nat),
          Traced.Neon.triplePhase mem c t = some (c', t') ∧
          Neon.triplePhase mem c = some c' ∧
          t'.shifts = t.shifts ++ [(klen * 2 + 8, n0), (klen + 8, n1)] ∧
          (n0 : Int) = 8 * ((klen * 2 + 8 : Nat) : Int) - 33 ∧
          (n1 : Int) = 8 * ((klen + 8 : Nat) : Int) - 33)) := by
  refine ⟨?_, ?_, ?_, ?_, ?_, ?_, ?_, ?_⟩
  · intro crc nbytes t v t' h
    unfold Traced.X86.crc_shift at h
    dsimp only at h
    obtain ⟨e1, e2⟩ := Traced.traced_shift_some h
    dsimp only at e1 e2
    subst e2
    exact ⟨_, rfl, rfl, e1, e1⟩
  · intro crc nbytes t v t' h
    unfold Traced.Neon.crc_shift at h
    dsimp only at h
    obtain ⟨e1, e2⟩ := Traced.traced_shift_some h
    dsimp only at e1 e2
    subst e2
    exact ⟨_, rfl, rfl, e1, e1⟩
  · obtain ⟨t, hrun, -, hsh⟩ := Traced.x86_traced_run seed addr mem hs h61
    refine ⟨_, t, hrun, X86.x86_correct seed addr mem hs h61, ?_⟩
    intro e he
    obtain ⟨k1, k2, k3⟩ := hsh e he
    refine ⟨k1, ?_⟩
    omega
  · obtain ⟨t, hrun, -, hsh⟩ := Traced.large_traced_run seed addr mem hs h61
    refine ⟨_, t, hrun, Neon.large_correct seed addr mem hs h61, ?_⟩
    intro e he
    obtain ⟨k1, k2, k3⟩ := hsh e he
    refine ⟨k1, ?_⟩
    omega
  · obtain ⟨t, hrun, -, hsh⟩ := Traced.small_traced_run seed addr mem hs h61
    exact ⟨_, t, hrun, Neon.small_correct seed addr mem hs h61, hsh⟩
  · intro c t blk klen hb hc h144 hblk hklen
    obtain ⟨-, c', t', f, e, -, -, -, sh⟩ :=
      Traced.x86_traced_phase t hb hc h144 h61 blk klen hblk hklen
    have hk : 24 ≤ klen := by omega
    refine ⟨hk, c', t', _, _, _, f, e, sh, ?_, ?_, ?_⟩ <;> omega
  · intro c t blk klen hb hc h192 hblk hklen
    obtain ⟨-, c', t', f, e, -, -, -, sh⟩ :=
      Traced.large_traced_phase t hb hc h192 h61 blk klen hblk hklen
    have hk : 1 ≤ blk := by omega
    refine ⟨hk, c', t', _, _, _, f, e, sh, ?_, ?_, ?_⟩ <;> omega
  · intro c t klen hb hc h32 hklen
    obtain ⟨c', t', f, e, sh⟩ := Traced.triple_traced_phase t hb hc h32 h61 klen hklen
    have hk : 8 ≤ klen := by omega
    refine ⟨hk, c', t', _, _, f, e, sh, ?_, ?_⟩ <;> omega

theorem crc_shift_calls_witness :
    (∀ (crc nbytes : Nat) (t : Traced.Trace) (v : Nat) (t' : Traced.Trace),
      Traced.X86.crc_shift crc nbytes t = some (v, t') →
      ∃ n, t'.shifts = t.shifts ++ [(nbytes, n)] ∧ t'.loads = t.loads ∧
        (X86.xnmodp n).map (fun p => X86.clmul_scalar crc p) = some v ∧
        X86.crc_shift crc nbytes = some v) ∧
    (∀ (crc nbytes : Nat) (t : Traced.Trace) (v : Nat) (t' : Traced.Trace),
      Traced.Neon.crc_shift crc nbytes t = some (v, t') →
      ∃ n, t'.shifts = t.shifts ++ [(nbytes, n)] ∧ t'.loads = t.loads ∧
        (Neon.xnmodp n).map (fun p => Neon.clmul_scalar crc p) = some v ∧
        Neon.crc_shift crc nbytes = some v) ∧
    (∃ r t, Traced.X86.crc32_iscsi_impl 0x12345678 3 (ramp 1000) ⟨[], []⟩ = some (r, t) ∧
      X86.crc32_iscsi_impl 0x12345678 3 (ramp 1000) = some r ∧
      ∀ e ∈ t.shifts, 16 ≤ e.1 ∧ (e.2 : Int) = 8 * (e.1 : Int) - 33) ∧
    (∃ r t, Traced.Neon.crc32_iscsi_large_impl 0x12345678 3 (ramp 1000) ⟨[], []⟩ = some (r, t) ∧
      Neon.crc32_iscsi_large_impl 0x12345678 3 (ramp 1000) = some r ∧
      ∀ e ∈ t.shifts, 16 ≤ e.1 ∧ (e.2 : Int) = 8 * (e.1 : Int) - 33) ∧
    (∃ r t, Traced.Neon.crc32_iscsi_small_impl 0x12345678 3 (ramp 1000) ⟨[], []⟩ = some (r, t) ∧
      Neon.crc32_iscsi_small_impl 0x12345678 3 (ramp 1000) = some r ∧ t.shifts = []) ∧
    (24 ≤ 168 ∧
        ∃ (c' : Cursor) (t' : Traced.Trace) (n0 n1 n2 : Nat),
          Traced.X86.vectorPhase (ramp 1000) (Cursor.mk 0 0 1000) (Traced.Trace.mk [] []) = some
              (c', t') ∧
          X86.vectorPhase (ramp 1000) (Cursor.mk 0 0 1000) = some c' ∧
          t'.shifts = (Traced.Trace.mk [] []).shifts ++ [(168 * 2 + 8, n0), (168 + 8, n1),
              (168 * 3 + 8, n2)] ∧
          (n0 : Int) = 8 * ((168 * 2 + 8 : Nat) : Int) - 33 ∧
          (n1 : Int) = 8 * ((168 + 8 : Nat) : Int) - 33 ∧
          (n2 : Int) = 8 * ((168 * 3 + 8 : Nat) : Int) - 33) ∧
    (1 ≤ 5 ∧
        ∃ (c' : Cursor) (t' : Traced.Trace) (n0 n1 n2 : Nat),
          Traced.Neon.largeVectorPhase (ramp 1000) (Cursor.mk 0 0 1000) (Traced.Trace.mk [] [])
              = some (c', t') ∧
          Neon.largeVectorPhase (ramp 1000) (Cursor.mk 0 0 1000) = some c' ∧
          t'.shifts = (Traced.Trace.mk [] []).shifts ++ [(80 * 2 + 5 * 144, n0), (80 + 5 * 144, n1),
            (0 + 5 * 144, n2)] ∧
          (n0 : Int) = 8 * ((80 * 2 + 5 * 144 : Nat) : Int) - 33 ∧
          (n1 : Int) = 8 * ((80 + 5 * 144 : Nat) : Int) - 33 ∧
          (n2 : Int) = 8 * ((0 + 5 * 144 : Nat) : Int) - 33) ∧
    (8 ≤ 328 ∧
        ∃ (c' : Cursor) (t' : Traced.Trace) (n0 n1 : Nat),
          Traced.Neon.triplePhase (ramp 1000) (Cursor.mk 0 0 1000) (Traced.Trace.mk [] []) = some
              (c', t') ∧
          Neon.triplePhase (ramp 1000) (Cursor.mk 0 0 1000) = some c' ∧
          t'.shifts = (Traced.Trace.mk [] []).shifts ++ [(328 * 2 + 8, n0), (328 + 8, n1)] ∧
          (n0 : Int) = 8 * ((328 * 2 + 8 : Nat) : Int) - 33 ∧
          (n1 : Int) = 8 * ((328 + 8 : Nat) : Int) - 33) :=
  ⟨(crc_shift_calls 0x12345678 3 (ramp 1000) (by norm_num)
      (by rw [ramp_length]; norm_num)).1,
    (crc_shift_calls 0x12345678 3 (ramp 1000) (by norm_num)
      (by rw [ramp_length]; norm_num)).2.1,
    (crc_shift_calls 0x12345678 3 (ramp 1000) (by norm_num)
      (by rw [ramp_length]; norm_num)).2.2.1,
    (crc_shift_calls 0x12345678 3 (ramp 1000) (by norm_num)
      (by rw [ramp_length]; norm_num)).2.2.2.1,
    (crc_shift_calls 0x12345678 3 (ramp 1000) (by norm_num)
      (by rw [ramp_length]; norm_num)).2.2.2.2.1,
    (crc_shift_calls 0x12345678 3 (ramp 1000) (by norm_num)
      (by rw [ramp_length]; norm_num)).2.2.2.2.2.1 (Cursor.mk 0 0 1000)
          (Traced.Trace.mk [] []) 7 168
      (by simp only [ramp_length]) (by norm_num) (by norm_num) (by norm_num) (by norm_num),
    (crc_shift_calls 0x12345678 3 (ramp 1000) (by norm_num)
      (by rw [ramp_length]; norm_num)).2.2.2.2.2.2.1 (Cursor.mk 0 0 1000)
          (Traced.Trace.mk [] []) 5 80
      (by simp only [ramp_length]) (by norm_num) (by norm_num) (by norm_num) (by norm_num),
    (crc_shift_calls 0x12345678 3 (ramp 1000) (by norm_num)
      (by rw [ramp_length]; norm_num)).2.2.2.2.2.2.2 (Cursor.mk 0 0 1000)
          (Traced.Trace.mk [] []) 328
      (by simp only [ramp_length]) (by norm_num) (by norm_num) (by norm_num)⟩

theorem leBytes_inj (as : List (Fin 256)) : ∀ bs : List (Fin 256), as.length = bs.length →
    leBytes as = leBytes bs → as = bs := by
  induction as with
  | nil =>
    intro bs h _
    exact (List.length_eq_zero.mp h.symm).symm
  | cons a as ih =>
    intro bs h e
    cases bs with
    | nil => exact absurd h (by simp)
    | cons b bs =>
      simp only [leBytes] at e
      have ha := a.isLt
      have hb := b.isLt
      have h1 : a.val = b.val := by omega
      have h2 : leBytes as = leBytes bs := by omega
      rw [Fin.ext h1, ih bs (by simpa using h) h2]

/-- Two buffers of the same length with the same raw state from the same start have the
same message value. -/
theorem feedSem0_eq_of_refRaw_eq {s : Nat} {as bs : List (Fin 256)}
    (hl : as.length = bs.length) (h : refRaw s as = refRaw s bs) :
    feedSem 0 as = feedSem 0 bs := by
  have h1 := congrArg sem h
  rw [sem_refRaw, sem_refRaw, feedSem_eq _ as, feedSem_eq _ bs, hl] at h1
  exact add_left_cancel h1

/-- A difference confined to at most four bytes changes the message value. -/
theorem window_detect {p wa wb s : List (Fin 256)} (hw : wa.length = wb.length)
    (h4 : wa.length ≤ 4) (h : feedSem 0 (p ++ wa ++ s) = feedSem 0 (p ++ wb ++ s)) : wa = wb := by
  rw [feedSem_append, feedSem_append, feedSem_append, feedSem_append,
    feedSem_eq _ s, feedSem_eq (feedSem (feedSem 0 p) wb) s, feedSem_eq _ wa,
    feedSem_eq _ wb, hw] at h
  have h1 := mul_x_pow_cancel _ (add_right_cancel h)
  have h2 : feedSem 0 wa = feedSem 0 wb := add_left_cancel h1
  rw [← sem_leBytes, ← sem_leBytes, hw] at h2
  have h3 := mul_x_pow_cancel _ h2
  have hlt : ∀ w : List (Fin 256), w.length ≤ 4 → leBytes w < 2 ^ 32 := fun w hw4 =>
    lt_of_lt_of_le (leBytes_lt w) (Nat.pow_le_pow_right (by decide) (by omega))
  exact leBytes_inj wa wb hw (sem_inj (hlt wa h4) (hlt wb (hw ▸ h4)) h3)

theorem window_split {as bs : List (Fin 256)} {i : Nat}
    (hwin : ∀ k, k < i ∨ i + 4 ≤ k → as[k]? = bs[k]?) :
    as = as.take i ++ (as.drop i).take 4 ++ as.drop (i + 4) ∧
    bs = as.take i ++ (bs.drop i).take 4 ++ as.drop (i + 4) := by
  have e1 : bs.take i = as.take i := by
    apply List.ext_getElem?
    intro k
    rw [List.getElem?_take, List.getElem?_take]
    split
    · rename_i hk
      exact (hwin k (Or.inl hk)).symm
    · rfl
  have e2 : bs.drop (i + 4) = as.drop (i + 4) := by
    apply List.ext_getElem?
    intro k
    rw [List.getElem?_drop, List.getElem?_drop]
    exact (hwin (i + 4 + k) (Or.inr (by omega))).symm
  have split : ∀ l : List (Fin 256), l = l.take i ++ (l.drop i).take 4 ++ l.drop (i + 4) := by
    intro l
    rw [List.append_assoc, ← List.drop_drop, List.take_append_drop, List.take_append_drop]
  refine ⟨split as, ?_⟩
  conv_lhs => rw [split bs, e1, e2]

/-- On the reference: two different buffers of the same length that differ only inside a
window of 4 consecutive bytes have different CRCs. -/
theorem reference_burst {seed i : Nat} {as bs : List (Fin 256)} (hl : as.length = bs.length)
    (hne : as ≠ bs) (hwin : ∀ k, k < i ∨ i + 4 ≤ k → as[k]? = bs[k]?) :
    crc32c_reference seed as ≠ crc32c_reference seed bs := by
  intro h
  have h1 := feedSem0_eq_of_refRaw_eq hl (not32_inj h)
  obtain ⟨ea, eb⟩ := window_split hwin
  rw [ea, eb] at h1
  have hw : ((as.drop i).take 4).length = ((bs.drop i).take 4).length := by
    simp [hl]
  have := window_detect hw (by simp) h1
  apply hne
  rw [ea, eb, this]

/-- Flipping bit `j` of byte `i` gives a different buffer that differs in that byte only. -/
theorem flip_window (as : List (Fin 256)) (i j : Nat) (b : Fin 256) (hi : as[i]? = some b)
    (hj : j < 8) :
    as.length = (as.set i (Fin.ofNat (b.val ^^^ 2 ^ j))).length ∧
    as ≠ as.set i (Fin.ofNat (b.val ^^^ 2 ^ j)) ∧
    ∀ k, k < i ∨ i + 4 ≤ k → as[k]? = (as.set i (Fin.ofNat (b.val ^^^ 2 ^ j)))[k]? := by
  have hlt : i < as.length := by
    by_contra hcon
    rw [List.getElem?_eq_none (by omega)] at hi
    cases hi
  refine ⟨by simp, ?_, ?_⟩
  · intro h
    have h1 := congrArg (fun l => l[i]?) h
    simp only [List.getElem?_set_self hlt, hi, Option.some.injEq] at h1
    have h2 := congrArg Fin.val h1
    have hb := b.isLt
    have hp : 2 ^ j < 2 ^ 8 := Nat.pow_lt_pow_right (by decide) hj
    have hx : b.val ^^^ 2 ^ j < 2 ^ 8 := Nat.xor_lt_two_pow (show b.val < 2 ^ 8 from hb) hp
    have h3 : (Fin.ofNat (b.val ^^^ 2 ^ j) : Fin 256).val = b.val ^^^ 2 ^ j := by
      show (b.val ^^^ 2 ^ j) % 256 = _
      exact Nat.mod_eq_of_lt hx
    rw [h3] at h2
    have h4 : b.val ^^^ (b.val ^^^ 2 ^ j) = 0 := by rw [← h2, Nat.xor_self]
    rw [← Nat.xor_assoc, Nat.xor_self, Nat.zero_xor] at h4
    have := Nat.two_pow_pos j
    omega
  · intro k hk
    rw [List.getElem?_set_ne (by omega)]

/-- C19. Burst-error detection: in each back-end, for every 32-bit seed and every buffer
`as` shorter than 2^61 bytes, every different buffer `bs` of the same length that differs
from `as` only inside a window of 4 consecutive bytes (offsets `i .. i + 3`) gets a different
value from `crc32_iscsi_impl`, at any addresses; in particular flipping any single bit `j` of
any byte `i` changes the result. -/
theorem burst_detection (seed a a' : Nat) (as : List (Fin 256)) (hs : seed < 2 ^ 32)
    (h61 : as.length < 2 ^ 61) :
    (∀ (bs : List (Fin 256)) (i : Nat), as.length = bs.length → as ≠ bs →
      (∀ k, k < i ∨ i + 4 ≤ k → as[k]? = bs[k]?) →
      (∃ r r', X86.crc32_iscsi_impl seed a as = some r ∧
        X86.crc32_iscsi_impl seed a' bs = some r' ∧ r ≠ r') ∧
      (∃ r r', Neon.crc32_iscsi_impl seed a as = some r ∧
        Neon.crc32_iscsi_impl seed a' bs = some r' ∧ r ≠ r')) ∧
    (∀ (i j : Nat) (b : Fin 256), as[i]? = some b → j < 8 →
      (∃ r r', X86.crc32_iscsi_impl seed a as = some r ∧
        X86.crc32_iscsi_impl seed a' (as.set i (Fin.ofNat (b.val ^^^ 2 ^ j))) = some r' ∧
        r ≠ r') ∧
      (∃ r r', Neon.crc32_iscsi_impl seed a as = some r ∧
        Neon.crc32_iscsi_impl seed a' (as.set i (Fin.ofNat (b.val ^^^ 2 ^ j))) = some r' ∧
        r ≠ r')) := by
  have main : ∀ (bs : List (Fin 256)) (i : Nat), as.length = bs.length → as ≠ bs →
      (∀ k, k < i ∨ i + 4 ≤ k → as[k]? = bs[k]?) →
      (∃ r r', X86.crc32_iscsi_impl seed a as = some r ∧
        X86.crc32_iscsi_impl seed a' bs = some r' ∧ r ≠ r') ∧
      (∃ r r', Neon.crc32_iscsi_impl seed a as = some r ∧
        Neon.crc32_iscsi_impl seed a' bs = some r' ∧ r ≠ r') := by
    intro bs i hl hne hwin
    have hb : bs.length < 2 ^ 61 := hl ▸ h61
    exact ⟨⟨_, _, X86.x86_correct seed a as hs h61, X86.x86_correct seed a' bs hs hb,
        reference_burst hl hne hwin⟩,
      ⟨_, _, Neon.neon_correct seed a as hs h61, Neon.neon_correct seed a' bs hs hb,
        reference_burst hl hne hwin⟩⟩
  refine ⟨main, ?_⟩
  intro i j b hi hj
  obtain ⟨h1, h2, h3⟩ := flip_window as i j b hi hj
  exact main _ i h1 h2 h3

theorem burst_detection_witness :
    ((∃ r r', X86.crc32_iscsi_impl 7 0 checkString = some r ∧
        X86.crc32_iscsi_impl 7 8 [0x31, 0x32, 0, 0x34, 0x35, 0xFF, 0x37, 0x38, 0x39] = some r' ∧
        r ≠ r') ∧
      (∃ r r', Neon.crc32_iscsi_impl 7 0 checkString = some r ∧
        Neon.crc32_iscsi_impl 7 8 [0x31, 0x32, 0, 0x34, 0x35, 0xFF, 0x37, 0x38, 0x39] = some r' ∧
        r ≠ r')) ∧
    ((∃ r r', X86.crc32_iscsi_impl 7 0 checkString = some r ∧
        X86.crc32_iscsi_impl 7 8 (checkString.set 3 (Fin.ofNat ((0x34 : Fin 256).val ^^^ 2 ^ 5)))
          = some r' ∧ r ≠ r') ∧
      (∃ r r', Neon.crc32_iscsi_impl 7 0 checkString = some r ∧
        Neon.crc32_iscsi_impl 7 8 (checkString.set 3 (Fin.ofNat ((0x34 : Fin 256).val ^^^ 2 ^ 5)))
          = some r' ∧ r ≠ r')) :=
  ⟨(burst_detection 7 0 8 checkString (by norm_num) (by decide)).1
      [0x31, 0x32, 0, 0x34, 0x35, 0xFF, 0x37, 0x38, 0x39] 2 rfl (by decide)
      (fun k hk => match k, hk with
        | 0, _ => rfl
        | 1, _ => rfl
        | 2, h => by omega
        | 3, h => by omega
        | 4, h => by omega
        | 5, h => by omega
        | _ + 6, _ => rfl),
    (burst_detection 7 0 8 checkString (by norm_num) (by decide)).2 3 5 0x34 rfl (by decide)⟩

theorem xorByte_val (a b : Fin 256) :
    (Fin.ofNat (a.val ^^^ b.val) : Fin 256).val = a.val ^^^ b.val := by
  show (a.val ^^^ b.val) % 256 = _
  exact Nat.mod_eq_of_lt
    (Nat.xor_lt_two_pow (show a.val < 2 ^ 8 from a.isLt) (show b.val < 2 ^ 8 from b.isLt))

theorem xorBuf_length {as bs : List (Fin 256)} (h : as.length = bs.length) :
    (xorBuf as bs).length = as.length := by
  simp [xorBuf, h]

/-- The message value is additive in the bytes. -/
theorem feedSem_xorBuf : ∀ (as bs : List (Fin 256)) (r t : CrcRing), as.length = bs.length →
    feedSem (r + t) (xorBuf as bs) = feedSem r as + feedSem t bs
  | [], [], r, t, _ => rfl
  | [], _ :: _, _, _, h => by simp at h
  | _ :: _, [], _, _, h => by simp at h
  | a :: as, b :: bs, r, t, h => by
    have ih := feedSem_xorBuf as bs ((r + sem a.val) * xR ^ 8) ((t + sem b.val) * xR ^ 8)
      (by simpa using h)
    show feedSem ((r + t + sem (Fin.ofNat (a.val ^^^ b.val) : Fin 256).val) * xR ^ 8)
      (xorBuf as bs) = _
    rw [feedSem_cons, feedSem_cons, ← ih, xorByte_val, sem_xor]
    congr 1
    ring

theorem sem_not32 (c : Nat) : sem (not32 c) = sem c + sem 0xFFFFFFFF := sem_xor _ _

/-- On the reference: the CRC is affine over GF(2) in the data. -/
theorem reference_affine (seed : Nat) {as bs cs : List (Fin 256)} (hs : seed < 2 ^ 32)
    (hab : as.length = bs.length) (hac : as.length = cs.length) :
    crc32c_reference seed as ^^^ crc32c_reference seed bs ^^^ crc32c_reference seed cs
      = crc32c_reference seed (xorBuf (xorBuf as bs) cs) := by
  have hx := xorBuf_length hab
  have hxc : (xorBuf as bs).length = cs.length := hx.trans hac
  apply sem_inj
    (Nat.xor_lt_two_pow (Nat.xor_lt_two_pow (reference_lt _ _ hs) (reference_lt _ _ hs))
      (reference_lt _ _ hs)) (reference_lt _ _ hs)
  unfold crc32c_reference
  generalize not32 seed = s0
  simp only [sem_xor, sem_not32, sem_refRaw]
  have e : feedSem (sem s0) (xorBuf (xorBuf as bs) cs)
      = feedSem (sem s0) as + feedSem 0 bs + feedSem 0 cs := by
    have h1 := feedSem_xorBuf (xorBuf as bs) cs (sem s0) 0 hxc
    have h2 := feedSem_xorBuf as bs (sem s0) 0 hab
    rw [add_zero] at h1 h2
    rw [h1, h2]
  rw [e, feedSem_eq _ bs, feedSem_eq _ cs, ← hab, ← hac]
  linear_combination (sem s0 * xR ^ (8 * as.length) + sem 0xFFFFFFFF) * two_eq_zero

/-- C20. GF(2)-affinity in the data: in each back-end, for every 32-bit seed and any three
buffers of the same length (shorter than 2^61 bytes), at any addresses, the XOR of the three
values of `crc32_iscsi_impl` is its value on the bytewise XOR of the three buffers. -/
theorem affine_in_data (seed a1 a2 a3 a4 : Nat) (as bs cs : List (Fin 256)) (hs : seed < 2 ^ 32)
    (h61 : as.length < 2 ^ 61) (hab : as.length = bs.length) (hac : as.length = cs.length) :
    (∃ ra rb rc, X86.crc32_iscsi_impl seed a1 as = some ra ∧
      X86.crc32_iscsi_impl seed a2 bs = some rb ∧ X86.crc32_iscsi_impl seed a3 cs = some rc ∧
      X86.crc32_iscsi_impl seed a4 (xorBuf (xorBuf as bs) cs) = some (ra ^^^ rb ^^^ rc)) ∧
    (∃ ra rb rc, Neon.crc32_iscsi_impl seed a1 as = some ra ∧
      Neon.crc32_iscsi_impl seed a2 bs = some rb ∧ Neon.crc32_iscsi_impl seed a3 cs = some rc ∧
      Neon.crc32_iscsi_impl seed a4 (xorBuf (xorBuf as bs) cs) = some (ra ^^^ rb ^^^ rc)) := by
  have hb : bs.length < 2 ^ 61 := hab ▸ h61
  have hc : cs.length < 2 ^ 61 := hac ▸ h61
  have hx : (xorBuf (xorBuf as bs) cs).length < 2 ^ 61 := by
    rw [xorBuf_length ((xorBuf_length hab).trans hac), xorBuf_length hab]
    exact h61
  refine ⟨⟨_, _, _, X86.x86_correct seed a1 as hs h61, X86.x86_correct seed a2 bs hs hb,
      X86.x86_correct seed a3 cs hs hc, ?_⟩,
    ⟨_, _, _, Neon.neon_correct seed a1 as hs h61, Neon.neon_correct seed a2 bs hs hb,
      Neon.neon_correct seed a3 cs hs hc, ?_⟩⟩
  · rw [X86.x86_correct seed a4 _ hs hx, reference_affine seed hs hab hac]
  · rw [Neon.neon_correct seed a4 _ hs hx, reference_affine seed hs hab hac]

theorem affine_in_data_witness :
    (∃ ra rb rc, X86.crc32_iscsi_impl 5 0 (ramp 200) = some ra ∧
      X86.crc32_iscsi_impl 5 1 (List.replicate 200 7) = some rb ∧
      X86.crc32_iscsi_impl 5 2 (List.replicate 200 0xA5) = some rc ∧
      X86.crc32_iscsi_impl 5 3
        (xorBuf (xorBuf (ramp 200) (List.replicate 200 7)) (List.replicate 200 0xA5))
        = some (ra ^^^ rb ^^^ rc)) ∧
    (∃ ra rb rc, Neon.crc32_iscsi_impl 5 0 (ramp 200) = some ra ∧
      Neon.crc32_iscsi_impl 5 1 (List.replicate 200 7) = some rb ∧
      Neon.crc32_iscsi_impl 5 2 (List.replicate 200 0xA5) = some rc ∧
      Neon.crc32_iscsi_impl 5 3
        (xorBuf (xorBuf (ramp 200) (List.replicate 200 7)) (List.replicate 200 0xA5))
        = some (ra ^^^ rb ^^^ rc)) :=
  affine_in_data 5 0 1 2 3 (ramp 200) (List.replicate 200 7) (List.replicate 200 0xA5)
    (by norm_num) (by rw [ramp_length]; norm_num) (by rw [ramp_length, List.length_replicate])
    (by rw [ramp_length, List.length_replicate])

end CrcFast
